import Mathlib

/-!
# detqmc: determinantal quantum Monte Carlo with replica exchange

A shallow embedding of the replica-exchange bookkeeping and the main loop
(`detqmcpt.h`), the periodic neighbour table (`neighbortable.h`) and the local updater,
the B-matrix and the checkerboard multiplication of the spin-density-wave model
(`detsdw.cpp`), together with theorems about them.

Conventions of the embedding.
* `unsigned` arithmetic is arithmetic on `Nat` reduced by `u32`.
* `std::vector<int>` holding process or parameter indices is a `List Nat`; `v[i]` is
  `v.getD i 0` and `v[i] = x` is `v.set i x`.
* The floating point type `num` is an arbitrary linearly ordered field `R` and `cpx` is
  `Cpx R`, so that all arithmetic is exact.
* Outcomes of random draws are inputs of the functions that consume them.
-/

namespace DetQMC

/-! ## Replica exchange bookkeeping at rank 0 (`detqmcpt.h`) -/

/-- Direction in control parameter space a replica is currently moving to
(`ExchangeStatistics::ParameterDirection`). -/
inductive ParameterDirection where
  | NONE_P
  | UP_P
  | DOWN_P
deriving DecidableEq

/-- Statistics about replica exchange (`DetQMCPT::ExchangeStatistics`). -/
structure ExchangeStatistics where
  par_swapUpAccepted : List Int
  par_swapUpProposed : List Int
  process_goingWhere : List ParameterDirection
  par_countGoingUp : List Int
  par_countGoingDown : List Int
deriving DecidableEq

/-- The constructor `ExchangeStatistics(ptPars)`, with `n = controlParameterValues.size()`. -/
def ExchangeStatistics.init (n : Nat) : ExchangeStatistics where
  par_swapUpAccepted := List.replicate n 0
  par_swapUpProposed := List.replicate n 0
  process_goingWhere := List.replicate n ParameterDirection.NONE_P
  par_countGoingUp := List.replicate n 0
  par_countGoingDown := List.replicate n 0

/-- The members of `DetQMCPT` that are specific to the root process. -/
structure RootState where
  numProcesses : Nat
  current_process_par : List Nat
  current_par_process : List Nat
  process_control_data_buffer : List String
  es : ExchangeStatistics
deriving DecidableEq

/-- The rank 0 block of `DetQMCPT::initFromParameters`: both index vectors are filled
with `0, 1, ..., numProcesses - 1` (`std::iota`), the buffers are resized and the
statistics are constructed from the parallel tempering parameters
(`numProcesses` equals the number of control parameter values, otherwise a
configuration error has been thrown before). -/
def initFromParameters (numProcesses : Nat) : RootState where
  numProcesses := numProcesses
  current_process_par := List.range numProcesses
  current_par_process := List.range numProcesses
  process_control_data_buffer := List.replicate numProcesses ""
  es := ExchangeStatistics.init numProcesses

/-- The statement `++v[i]` on a vector of counters. -/
def incrAt (v : List Int) (i : Nat) : List Int :=
  v.set i (v.getD i 0 + 1)

/-- One iteration of the loop updating the histograms of replicas moving up or down
in `DetQMCPT::replicaExchangeStep`, for process `pi`. -/
def histogramStep (numProcesses : Nat) (current_process_par : List Nat)
    (es : ExchangeStatistics) (pi : Nat) : ExchangeStatistics :=
  let nPar := current_process_par.getD pi 0
  let es1 : ExchangeStatistics :=
    if nPar + 1 = numProcesses then
      { es with process_goingWhere := es.process_goingWhere.set pi ParameterDirection.DOWN_P }
    else if nPar = 0 then
      { es with process_goingWhere := es.process_goingWhere.set pi ParameterDirection.UP_P }
    else es
  if es1.process_goingWhere.getD pi ParameterDirection.NONE_P = ParameterDirection.DOWN_P then
    { es1 with par_countGoingDown := incrAt es1.par_countGoingDown nPar }
  else if es1.process_goingWhere.getD pi ParameterDirection.NONE_P = ParameterDirection.UP_P then
    { es1 with par_countGoingUp := incrAt es1.par_countGoingUp nPar }
  else es1

/-- The loop `for (int pi = 0; pi < numProcesses; ++pi)` updating the histograms. -/
def updateHistograms (s : RootState) : RootState :=
  let es1 := (List.range s.numProcesses).foldl
    (histogramStep s.numProcesses s.current_process_par) s.es
  { s with es := es1 }

/-- The statement `std::swap(v[i], v[j])`. -/
def swapAt (v : List String) (i j : Nat) : List String :=
  (v.set i (v.getD j "")).set j (v.getD i "")

/-- One iteration of the serial walk through the control parameters in
`DetQMCPT::replicaExchangeStep`, for the pair `(cpi1, cpi1 + 1)`.  The argument
`accept` is the value of `exchange_prob >= 1 or rng.rand01() <= exchange_prob`
for that pair. -/
def exchangePairStep (accept : Nat → Bool) (s : RootState) (cpi1 : Nat) : RootState :=
  let cpi2 := cpi1 + 1
  let indexProc1 := s.current_par_process.getD cpi1 0
  let indexProc2 := s.current_par_process.getD cpi2 0
  let es1 : ExchangeStatistics :=
    { s.es with par_swapUpProposed := incrAt s.es.par_swapUpProposed cpi1 }
  if accept cpi1 then
    { s with
      es := { es1 with par_swapUpAccepted := incrAt es1.par_swapUpAccepted cpi1 }
      current_process_par := (s.current_process_par.set indexProc1 cpi2).set indexProc2 cpi1
      current_par_process := (s.current_par_process.set cpi1 indexProc2).set cpi2 indexProc1
      process_control_data_buffer := swapAt s.process_control_data_buffer indexProc1 indexProc2 }
  else
    { s with es := es1 }

/-- The loop `for (int cpi1 = 0; cpi1 < numProcesses - 1; ++cpi1)` of
`DetQMCPT::replicaExchangeStep`. -/
def serialPass (accept : Nat → Bool) (s : RootState) : RootState :=
  (List.range (s.numProcesses - 1)).foldl (exchangePairStep accept) s

/-- The part of `DetQMCPT::replicaExchangeStep` executed at rank 0: `gathered` is the
control data received from the processes by `mpi::gather`, then the histograms are
updated and the serial pass is made. -/
def replicaExchangeStep (gathered : List String) (accept : Nat → Bool) (s : RootState) :
    RootState :=
  serialPass accept (updateHistograms { s with process_control_data_buffer := gathered })

/-- The root state after a sequence of replica exchange rounds, each given by the
gathered control data and the outcomes of its proposals. -/
def afterRounds (numProcesses : Nat) (rounds : List (List String × (Nat → Bool))) : RootState :=
  rounds.foldl (fun s r => replicaExchangeStep r.1 r.2 s) (initFromParameters numProcesses)

/-- The two index vectors are inverse to each other on `{0, ..., P - 1}`. -/
def MutualInverse (P : Nat) (procPar parProc : List Nat) : Prop :=
  procPar.length = P ∧ parProc.length = P ∧
  (∀ p, p < P → procPar.getD p 0 < P ∧ parProc.getD (procPar.getD p 0) 0 = p) ∧
  (∀ c, c < P → parProc.getD c 0 < P ∧ procPar.getD (parProc.getD c 0) 0 = c)

/-! ## Periodic neighbour table (`neighbortable.h`) -/

/-- Reduction of a natural number to the range of `unsigned`. -/
def u32 (n : Nat) : Nat := n % 2 ^ 32

/-- Modelled from the spec: `uint_pow` of `tools.h`, which is not among the sources,
is the integer power `base ^ exponent`. -/
def uint_pow (base exponent : Nat) : Nat := base ^ exponent

/-- The member function `coordsToSite` for a lattice of dimension `d` and linear
extent `L`: the loop `site += coords[dim] * uint_pow(L, dim)` in `unsigned`. -/
def coordsToSite (d L : Nat) (coords : List Nat) : Nat :=
  (List.range d).foldl (fun site dim => u32 (site + coords.getD dim 0 * uint_pow L dim)) 0

/-- One iteration of the loop over `idim` in the constructor: the state is
`(reducedSite, curCoords)`. -/
def coordStep (L : Nat) (st : Nat × List Nat) (dim : Nat) : Nat × List Nat :=
  let c := u32 (st.1 / uint_pow L dim)
  (u32 (st.1 + 2 ^ 32 - u32 (c * uint_pow L dim)), st.2.set dim c)

/-- The loop `for (int idim = int(d) - 1; idim >= 0; --idim)` of the constructor, which
overwrites the vector `curCoords` with the coordinates of `site`. -/
def siteCoords (d L site : Nat) (curCoords : List Nat) : List Nat :=
  ((List.range d).reverse.foldl (coordStep L) (site, curCoords)).2

/-- The two table entries written for dimension `dim`: the neighbours in `+` and in
`-` direction, `(x + 1) % L` and `(x - 1 + L) % L` in `unsigned`. -/
def neighborPair (d L : Nat) (curCoords : List Nat) (dim : Nat) : List Nat :=
  [coordsToSite d L (curCoords.set dim (u32 (curCoords.getD dim 0 + 1) % L)),
   coordsToSite d L
     (curCoords.set dim (u32 (u32 (curCoords.getD dim 0 + 2 ^ 32 - 1) + L) % L))]

/-- The column of the table for one site: the entries for directions
`0, 1, ..., 2 * d - 1` written by the loop over `dim`. -/
def neighborColumn (d L : Nat) (curCoords : List Nat) : List Nat :=
  (List.range d).flatMap (neighborPair d L curCoords)

/-- One iteration of the loop over `site` in the constructor: the state is the vector
`curCoords`, which lives across iterations, and the columns written so far. -/
def tableStep (d L : Nat) (st : List Nat × List (List Nat)) (site : Nat) :
    List Nat × List (List Nat) :=
  let cur := siteCoords d L site st.1
  (cur, st.2 ++ [neighborColumn d L cur])

/-- The table `nearestNeighbors` built by the constructor
`PeriodicCubicLatticeNearestNeighbors(d, L)`, as the list of its columns; the number
of sites is `N = static_cast<unsigned>(uint_pow(L, d))`. -/
def nearestNeighbors (d L : Nat) : List (List Nat) :=
  ((List.range (u32 (uint_pow L d))).foldl (tableStep d L) (List.replicate d 0, [])).2

/-- The lookup `operator()(latticeDirection, site)`; `none` when an index is outside
the table (where the assertions fail). -/
def neighbor (d L latticeDirection site : Nat) : Option Nat :=
  match (nearestNeighbors d L)[site]? with
  | none => none
  | some column => column[latticeDirection]?

/-- The site with coordinates `x_0, x_1, ...`, that is `sum x_i * L ^ i`. -/
def siteOfCoords (L : Nat) : List Nat → Nat
  | [] => 0
  | x :: xs => x + L * siteOfCoords L xs

/-! ## Complex numbers -/

/-- The type `cpx` of complex numbers over the scalars `R`: real and imaginary part. -/
@[ext]
structure Cpx (R : Type) where
  re : R
  im : R
deriving DecidableEq

namespace Cpx

variable {R : Type}

/-- The conversion of a real number to `cpx`. -/
def ofReal [Zero R] (x : R) : Cpx R := ⟨x, 0⟩

/-- The imaginary unit. -/
def I [Zero R] [One R] : Cpx R := ⟨0, 1⟩

instance [Zero R] : Zero (Cpx R) := ⟨⟨0, 0⟩⟩
instance [Zero R] [One R] : One (Cpx R) := ⟨⟨1, 0⟩⟩
instance [Add R] : Add (Cpx R) := ⟨fun z w => ⟨z.re + w.re, z.im + w.im⟩⟩
instance [Neg R] : Neg (Cpx R) := ⟨fun z => ⟨-z.re, -z.im⟩⟩
instance [Sub R] : Sub (Cpx R) := ⟨fun z w => ⟨z.re - w.re, z.im - w.im⟩⟩
instance [Add R] [Sub R] [Mul R] : Mul (Cpx R) :=
  ⟨fun z w => ⟨z.re * w.re - z.im * w.im, z.re * w.im + z.im * w.re⟩⟩
instance [Add R] [Neg R] [Mul R] [Div R] : Inv (Cpx R) :=
  ⟨fun z => ⟨z.re / (z.re * z.re + z.im * z.im), -z.im / (z.re * z.re + z.im * z.im)⟩⟩

instance [CommRing R] : CommRing (Cpx R) where
  nsmul n z := ⟨n • z.re, n • z.im⟩
  zsmul n z := ⟨n • z.re, n • z.im⟩
  natCast n := ⟨n, 0⟩
  intCast n := ⟨n, 0⟩
  add_assoc a b c := Cpx.ext (add_assoc a.re b.re c.re) (add_assoc a.im b.im c.im)
  zero_add a := Cpx.ext (zero_add a.re) (zero_add a.im)
  add_zero a := Cpx.ext (add_zero a.re) (add_zero a.im)
  add_comm a b := Cpx.ext (add_comm a.re b.re) (add_comm a.im b.im)
  neg_add_cancel a := Cpx.ext (neg_add_cancel a.re) (neg_add_cancel a.im)
  sub_eq_add_neg a b := Cpx.ext (sub_eq_add_neg a.re b.re) (sub_eq_add_neg a.im b.im)
  nsmul_zero a := Cpx.ext (zero_nsmul a.re) (zero_nsmul a.im)
  nsmul_succ n a := Cpx.ext (succ_nsmul a.re n) (succ_nsmul a.im n)
  zsmul_zero' a := Cpx.ext (zero_zsmul a.re) (zero_zsmul a.im)
  zsmul_succ' n a := Cpx.ext (by show _ • a.re = _ • a.re + a.re; simp [add_smul])
    (by show _ • a.im = _ • a.im + a.im; simp [add_smul])
  zsmul_neg' n a := Cpx.ext (by show _ • a.re = -(_ • a.re); simp [add_smul]; ring)
    (by show _ • a.im = -(_ • a.im); simp [add_smul]; ring)
  left_distrib a b c := Cpx.ext
    (by show a.re * (b.re + c.re) - a.im * (b.im + c.im)
          = a.re * b.re - a.im * b.im + (a.re * c.re - a.im * c.im); ring)
    (by show a.re * (b.im + c.im) + a.im * (b.re + c.re)
          = a.re * b.im + a.im * b.re + (a.re * c.im + a.im * c.re); ring)
  right_distrib a b c := Cpx.ext
    (by show (a.re + b.re) * c.re - (a.im + b.im) * c.im
          = a.re * c.re - a.im * c.im + (b.re * c.re - b.im * c.im); ring)
    (by show (a.re + b.re) * c.im + (a.im + b.im) * c.re
          = a.re * c.im + a.im * c.re + (b.re * c.im + b.im * c.re); ring)
  zero_mul a := Cpx.ext (by show 0 * a.re - 0 * a.im = 0; ring)
    (by show 0 * a.im + 0 * a.re = 0; ring)
  mul_zero a := Cpx.ext (by show a.re * 0 - a.im * 0 = 0; ring)
    (by show a.re * 0 + a.im * 0 = 0; ring)
  mul_assoc a b c := Cpx.ext
    (by show (a.re * b.re - a.im * b.im) * c.re - (a.re * b.im + a.im * b.re) * c.im
          = a.re * (b.re * c.re - b.im * c.im) - a.im * (b.re * c.im + b.im * c.re); ring)
    (by show (a.re * b.re - a.im * b.im) * c.im + (a.re * b.im + a.im * b.re) * c.re
          = a.re * (b.re * c.im + b.im * c.re) + a.im * (b.re * c.re - b.im * c.im); ring)
  one_mul a := Cpx.ext (by show 1 * a.re - 0 * a.im = a.re; ring)
    (by show 1 * a.im + 0 * a.re = a.im; ring)
  mul_one a := Cpx.ext (by show a.re * 1 - a.im * 0 = a.re; ring)
    (by show a.re * 0 + a.im * 1 = a.im; ring)
  mul_comm a b := Cpx.ext
    (by show a.re * b.re - a.im * b.im = b.re * a.re - b.im * a.im; ring)
    (by show a.re * b.im + a.im * b.re = b.re * a.im + b.im * a.re; ring)
  natCast_zero := Cpx.ext Nat.cast_zero rfl
  natCast_succ n := Cpx.ext (Nat.cast_succ n) (zero_add (0 : R)).symm
  intCast_ofNat n := Cpx.ext (Int.cast_natCast n) rfl
  intCast_negSucc n := Cpx.ext (Int.cast_negSucc n) neg_zero.symm

instance [LinearOrderedField R] : Field (Cpx R) where
  inv_zero := Cpx.ext (by show (0 : R) / (0 * 0 + 0 * 0) = 0; simp)
    (by show -(0 : R) / (0 * 0 + 0 * 0) = 0; simp)
  exists_pair_ne := ⟨0, 1, fun h => zero_ne_one (congrArg Cpx.re h)⟩
  mul_inv_cancel z hz := by
    have hpos : z.re * z.re + z.im * z.im ≠ 0 := by
      intro h0
      have h2 := mul_self_add_mul_self_eq_zero.mp h0
      exact hz (Cpx.ext h2.1 h2.2)
    apply Cpx.ext
    · show z.re * (z.re / (z.re * z.re + z.im * z.im))
        - z.im * (-z.im / (z.re * z.re + z.im * z.im)) = 1
      field_simp
    · show z.re * (-z.im / (z.re * z.re + z.im * z.im))
        + z.im * (z.re / (z.re * z.re + z.im * z.im)) = 0
      field_simp
      ring
  nnqsmul := _
  nnqsmul_def := fun _ _ => rfl
  qsmul := _
  qsmul_def := fun _ _ => rfl

end Cpx

/-! ## The spin-density-wave model (`detsdw.cpp`) -/

/-- The functions of the C++ standard library that the model calls; they are
parameters of the embedding. -/
structure Libm (R : Type) where
  exp : R → R
  cosh : R → R
  sinh : R → R
  sqrt : R → R

/-- The type `Phi` of a field vector with three components. -/
abbrev Phi (R : Type) := Fin 3 → R

/-- The function `arma::dot` on `Phi`. -/
def dot {R : Type} [Add R] [Mul R] (a b : Phi R) : R := a 0 * b 0 + a 1 * b 1 + a 2 * b 2

/-- The function `arma::norm(v, 2)` on `Phi`. -/
def norm2 {R : Type} [Add R] [Mul R] (F : Libm R) (v : Phi R) : R := F.sqrt (dot v v)

/-- The members of `DetSDW` (and of its base class) that the embedded functions use.
Matrices are functions of row and column, the cube `g` is a function of slice, row and
column, and the field arrays are functions of site and time slice. -/
structure DetSDW (R : Type) where
  L : Nat
  m : Nat
  dtau : R
  r : R
  mu : R
  propKx : Nat → Nat → R
  propKy : Nat → Nat → R
  g : Nat → Nat → Nat → Cpx R
  phi0 : Nat → Nat → R
  phi1 : Nat → Nat → R
  phi2 : Nat → Nat → R
  phiCosh : Nat → Nat → R
  phiSinh : Nat → Nat → R
  phiDelta : R
  lastAccRatio : R

section SDW

variable {R : Type} [LinearOrderedField R]

/-- The member `N(L*L)`, the number of sites.  The matrices of order `4 * N` are stored,
so the sizes stay far from the bound of `uint32_t`. -/
def DetSDW.N (s : DetSDW R) : Nat := s.L * s.L

/-- The member `c`, initialised by `c(1)` in the constructor. -/
def DetSDW.c (_s : DetSDW R) : R := 1

/-- The member `u`, initialised by `u(1)` in the constructor. -/
def DetSDW.u (_s : DetSDW R) : R := 1

/-- Modelled from the spec: the coordination number `z` is declared in `detsdw.h`, which
is not among the sources; section 4.3 gives `z = 2d = 4`. -/
def z : Nat := 4

/-- The lookup `spaceNeigh(dir, site)` in the table `spaceNeigh(L)` of the square lattice. -/
def spaceNeigh (L dir site : Nat) : Nat := (neighbor 2 L dir site).getD 0

/-- Modelled from the spec: `timeNeigh(m)` is declared in `detsdw.h`, which is not among
the sources; time slices are numbered `1..m`, so it is the chain
`PeriodicChainNearestNeighbors<1>` of `neighbortable.h`, whose lookup is
`table(dir, site - startWith) + startWith` in `unsigned`. -/
def timeNeigh (m dir site : Nat) : Nat :=
  u32 ((neighbor 1 m dir (u32 (site + 2 ^ 32 - 1))).getD 0 + 1)

/-- The field vector `{phi0(site, k), phi1(site, k), phi2(site, k)}`. -/
def DetSDW.phiAt (s : DetSDW R) (site k : Nat) : Phi R :=
  ![s.phi0 site k, s.phi1 site k, s.phi2 site k]

/-- The function `DetSDW::deltaSPhi`. -/
def deltaSPhi (s : DetSDW R) (site timeslice : Nat) (newphi : Phi R) : R :=
  let oldphi : Phi R := s.phiAt site timeslice
  let phiDiff : Phi R := newphi - oldphi
  let oldphiSq := dot oldphi oldphi
  let newphiSq := dot newphi newphi
  let phiSqDiff := newphiSq - oldphiSq
  let oldphiPow4 := oldphiSq * oldphiSq
  let newphiPow4 := newphiSq * newphiSq
  let phiPow4Diff := newphiPow4 - oldphiPow4
  let kEarlier := timeNeigh s.m 1 timeslice
  let phiEarlier : Phi R := s.phiAt site kEarlier
  let kLater := timeNeigh s.m 0 timeslice
  let phiLater : Phi R := s.phiAt site kLater
  let phiTimeNeigh : Phi R := phiLater + phiEarlier
  let phiSpaceNeigh : Phi R :=
    ((nearestNeighbors 2 s.L).getD site []).foldl
      (fun accum neighSite => accum + s.phiAt neighSite timeslice) 0
  let delta1 := (1 / (s.c * s.c * s.dtau)) * (phiSqDiff - dot phiTimeNeigh phiDiff)
  let delta2 := (1 / 2) * s.dtau * ((z : R) * phiSqDiff - 2 * dot phiSpaceNeigh phiDiff)
  let delta3 := s.dtau * ((1 / 2) * s.r * phiSqDiff + (1 / 4) * s.u * phiPow4Diff)
  delta1 + delta2 + delta3

/-- The assignment `M(i, j) = v` to one entry of a matrix. -/
def setEntry {α : Type} (M : Nat → Nat → α) (i j : Nat) (v : α) : Nat → Nat → α :=
  fun a b => if a = i ∧ b = j then v else M a b

/-- The helper `evMatrix` of `DetSDW::updateInSlice`: the 4x4 matrix of the entries of
`e^(sign*dtau*V)` for one site and time slice.  The real parts are assigned entry by
entry to `ev_real`, then `ev.set_real(ev_real)` and the four imaginary parts are set;
a freshly constructed fixed-size matrix holds zeros. -/
def evMatrix (sign : Int) (kphi0 kphi1 kphi2 kphiCosh kphiSinh : R) : Nat → Nat → Cpx R :=
  let fresh : Nat → Nat → R := fun _ _ => 0
  let e0 : Nat → Nat → R := fun a b => if a = b then kphiCosh else fresh a b
  let e1 := setEntry (setEntry (setEntry (setEntry e0 3 2 0) 2 3 0) 1 0 0) 0 1 0
  let e2 := setEntry (setEntry e1 0 2 ((sign : R) * kphi2 * kphiSinh)) 2 0
    ((sign : R) * kphi2 * kphiSinh)
  let e3 := setEntry (setEntry e2 0 3 ((sign : R) * kphi0 * kphiSinh)) 2 1
    ((sign : R) * kphi0 * kphiSinh)
  let e4 := setEntry (setEntry e3 1 2 ((sign : R) * kphi0 * kphiSinh)) 3 0
    ((sign : R) * kphi0 * kphiSinh)
  let ev_real := setEntry (setEntry e4 1 3 (-(sign : R) * kphi2 * kphiSinh)) 3 1
    (-(sign : R) * kphi2 * kphiSinh)
  let freshCpx : Nat → Nat → Cpx R := fun _ _ => 0
  let ev0 : Nat → Nat → Cpx R := fun a b => ⟨ev_real a b, (freshCpx a b).im⟩
  let ev1 := setEntry ev0 0 3 ⟨(ev0 0 3).re, -(sign : R) * kphi1 * kphiSinh⟩
  let ev2 := setEntry ev1 1 2 ⟨(ev1 1 2).re, (sign : R) * kphi1 * kphiSinh⟩
  let ev3 := setEntry ev2 2 1 ⟨(ev2 2 1).re, -(sign : R) * kphi1 * kphiSinh⟩
  setEntry ev3 3 0 ⟨(ev3 3 0).re, (sign : R) * kphi1 * kphiSinh⟩

/-- The product of two square matrices of order `n`. -/
def matMul {K : Type} [Mul K] [AddCommMonoid K] (n : Nat) (A B : Nat → Nat → K) :
    Nat → Nat → K :=
  fun i j => ∑ k in Finset.range n, A i k * B k j

/-- The identity matrix. -/
def eye {K : Type} [Zero K] [One K] : Nat → Nat → K := fun i j => if i = j then 1 else 0

/-- The function `DetSDW::proposeNewField`; `rnd` holds the three values drawn by
`rng.randRange(-phiDelta, +phiDelta)`. -/
def proposeNewField (s : DetSDW R) (site timeslice : Nat) (rnd : Phi R) : Phi R :=
  fun comp => s.phiAt site timeslice comp + rnd comp

/-- The 4x4 matrix `deltanonzero` of `DetSDW::updateInSlice`:
`emvNew * evOld` with `1` subtracted on the diagonal. -/
def deltanonzero (F : Libm R) (s : DetSDW R) (site timeslice : Nat) (newphi : Phi R) :
    Nat → Nat → Cpx R :=
  let evOld := evMatrix 1 (s.phi0 site timeslice) (s.phi1 site timeslice)
    (s.phi2 site timeslice) (s.phiCosh site timeslice) (s.phiSinh site timeslice)
  let normnewphi := norm2 F newphi
  let coshnewphi := F.cosh (s.dtau * normnewphi)
  let sinhnewphi := F.sinh (s.dtau * normnewphi) / normnewphi
  let emvNew := evMatrix (-1) (newphi 0) (newphi 1) (newphi 2) coshnewphi sinhnewphi
  let prod := matMul 4 emvNew evOld
  fun a b => if a = b then prod a b - ⟨1, 0⟩ else prod a b

end SDW

section Woodbury

variable {K : Type} [Field K]

/-- The index `site + k*N` of the row of band and spin `k` that belongs to `site`. -/
def rowIndex (N site k : Nat) : Nat := site + k * N

/-- The row `rows[r]` of `Delta*(I - G)` as computed in `DetSDW::updateInSlice`:
first the term of column block `0`, then the loop over `dc = 1, 2, 3`. -/
def deltaRow (N site : Nat) (delta G : Nat → Nat → K) (r : Nat) : Nat → K :=
  let row0 : Nat → K := fun col => -delta r 0 * G site col
  let row1 := Function.update row0 site (row0 site + delta r 0)
  (List.range' 1 3).foldl
    (fun row dc =>
      let rowa : Nat → K := fun col => row col + -delta r dc * G (site + dc * N) col
      Function.update rowa (site + dc * N) (rowa (site + dc * N) + delta r dc))
    row1

/-- The loop `for (int k = l-1; k >= 0; --k) row[site + k*N] = 0`, with `n` iterations
left. -/
def zeroLoop (N site : Nat) : Nat → (Nat → K) → (Nat → K)
  | 0, row => row
  | k + 1, row => zeroLoop N site k (Function.update row (rowIndex N site k) 0)

/-- The loop `for (int k = l-1; k >= 0; --k) row += rows[l][site + k*N] * rows[k]`. -/
def accLoop (N site : Nat) (rows : Nat → Nat → K) (l : Nat) : Nat → (Nat → K) → (Nat → K)
  | 0, row => row
  | k + 1, row =>
    accLoop N site rows l k (fun col => row col + rows l (rowIndex N site k) * rows k col)

/-- The loop `for (int k = l-1; k >= 0; --k) rows[k] -= (rows[k][site + l*N] / divisor) * row`. -/
def elimLoop (N site l : Nat) (divisor : K) (row : Nat → K) :
    Nat → (Nat → Nat → K) → (Nat → Nat → K)
  | 0, rows => rows
  | k + 1, rows =>
    elimLoop N site l divisor row k
      (Function.update rows k
        (fun col => rows k col - (rows k (rowIndex N site l) / divisor) * row col))

/-- The vector `row` of iteration `l` of the loop over `l` in `DetSDW::updateInSlice`. -/
def smRow (N site : Nat) (rows : Nat → Nat → K) (l : Nat) : Nat → K :=
  accLoop N site rows l l (zeroLoop N site l (rows l))

/-- One iteration of the loop over `l` in `DetSDW::updateInSlice`; the state is
`(rows, det)`. -/
def smStep (N site : Nat) (st : (Nat → Nat → K) × K) (l : Nat) : (Nat → Nat → K) × K :=
  let row := smRow N site st.1 l
  let divisor := 1 + row (rowIndex N site l)
  let rowsA := Function.update st.1 l (fun col => (-1 / divisor) * row col)
  let rowsB := Function.update rowsA l
    (Function.update (rowsA l) (rowIndex N site l) (rowsA l (rowIndex N site l) + 1))
  (elimLoop N site l divisor row l rowsB, st.2 * divisor)

/-- The loop `for (uint32_t l = 0; l < 4; ++l)` of `DetSDW::updateInSlice`, started with
`det = 1`, stopped after `n` iterations. -/
def smLoop (N site : Nat) (rows : Nat → Nat → K) (n : Nat) : (Nat → Nat → K) × K :=
  (List.range n).foldl (smStep N site) (rows, 1)

/-- The value of `divisor` in iteration `l` of the loop. -/
def smDivisor (N site : Nat) (rows : Nat → Nat → K) (l : Nat) : K :=
  1 + smRow N site (smLoop N site rows l).1 l (rowIndex N site l)

/-- The new Green function slice of an accepted move: the diagonal entries of the
identity are taken out of `rows`, `gTimesInvRows` is computed and added to `G`. -/
def greenUpdate (N site : Nat) (rows G : Nat → Nat → K) : Nat → Nat → K :=
  let rows0 := Function.update rows 0
    (Function.update (rows 0) site (rows 0 site - 1))
  let rows1 := Function.update rows0 1
    (Function.update (rows0 1) (site + N) (rows0 1 (site + N) - 1))
  let rows2 := Function.update rows1 2
    (Function.update (rows1 2) (site + 2 * N) (rows1 2 (site + 2 * N) - 1))
  let rows3 := Function.update rows2 3
    (Function.update (rows2 3) (site + 3 * N) (rows2 3 (site + 3 * N) - 1))
  fun row col =>
    if row < 4 * N ∧ col < 4 * N then
      G row col + (G row site * rows3 0 col + G row (site + N) * rows3 1 col
        + G row (site + 2 * N) * rows3 2 col + G row (site + 3 * N) * rows3 3 col)
    else G row col

end Woodbury

section WoodburyMatrices

variable {K : Type} [Field K]

/-- The matrix of order `n` with the entries `A i j`, `i, j < n`. -/
def toMatrix (n : Nat) (A : Nat → Nat → K) : Matrix (Fin n) (Fin n) K :=
  Matrix.of fun i j => A i.val j.val

/-- The matrix `D` of order `4 * N` that is zero except `D[site + a*N, site + b*N] = delta[a, b]`. -/
def embedDelta (N site : Nat) (delta : Nat → Nat → K) : Nat → Nat → K :=
  fun i j => if i % N = site ∧ j % N = site then delta (i / N) (j / N) else 0

/-- The unit vector of length `n` for the index `i`. -/
def unitVec (n i : Nat) : Fin n → K := fun j => if j.val = i then 1 else 0

/-- The vector of length `n` with the entries `f j`, `j < n`. -/
def vecOf (n : Nat) (f : Nat → K) : Fin n → K := fun j => f j.val

/-- The identity with the rows `site + k*N`, `k < l`, replaced by unit row plus `r k`. -/
def updMatrix (N site n : Nat) (r : Nat → Nat → K) (l : Nat) : Matrix (Fin n) (Fin n) K :=
  1 + ∑ k in Finset.range l,
    Matrix.vecMulVec (unitVec n (rowIndex N site k)) (vecOf n (r k))

/-- The identity with the rows `site + k*N`, `k < l`, replaced by `rho k`. -/
def invMatrix (N site n : Nat) (rho : Nat → Nat → K) (l : Nat) : Matrix (Fin n) (Fin n) K :=
  1 + ∑ k in Finset.range l,
    Matrix.vecMulVec (unitVec n (rowIndex N site k))
      (vecOf n (rho k) - unitVec n (rowIndex N site k))

/-- The invariant of the loop over `l` in `DetSDW::updateInSlice`: the rows not yet
treated are unchanged, the treated rows are the rows of the inverse of the matrix updated
so far, and `det` is its determinant. -/
def SMInv (N site : Nat) (r : Nat → Nat → K) (l : Nat) (st : (Nat → Nat → K) × K) : Prop :=
  (∀ k, l ≤ k → st.1 k = r k) ∧
  updMatrix N site (4 * N) r l * invMatrix N site (4 * N) st.1 l = 1 ∧
  (updMatrix N site (4 * N) r l).det = st.2

end WoodburyMatrices

section SDW

variable {R : Type} [LinearOrderedField R]

/-- The value `prop = propSPhi * propSFermion` computed for the proposal at
`(site, timeslice)` in `DetSDW::updateInSlice`: `exp(-dsphi)` times the real part of the
determinant produced by the loop over `l`. -/
def proposalWeight (F : Libm R) (timeslice : Nat) (s : DetSDW R) (site : Nat)
    (rnd : Phi R) : R :=
  let newphi := proposeNewField s site timeslice rnd
  let dsphi := deltaSPhi s site timeslice newphi
  let propSPhi := F.exp (-dsphi)
  let delta := deltanonzero F s site timeslice newphi
  let rows : Nat → Nat → Cpx R := fun r => deltaRow s.N site delta (s.g timeslice) r
  let det := (smLoop s.N site rows 4).2
  let propSFermion := det.re
  propSPhi * propSFermion

/-- The state written by the branch of `DetSDW::updateInSlice` that accepts the
proposal at `(site, timeslice)`. -/
def acceptedState (F : Libm R) (timeslice : Nat) (s : DetSDW R) (site : Nat)
    (rnd : Phi R) : DetSDW R :=
  let newphi := proposeNewField s site timeslice rnd
  let normnewphi := norm2 F newphi
  let coshnewphi := F.cosh (s.dtau * normnewphi)
  let sinhnewphi := F.sinh (s.dtau * normnewphi) / normnewphi
  let delta := deltanonzero F s site timeslice newphi
  let rows : Nat → Nat → Cpx R := fun r => deltaRow s.N site delta (s.g timeslice) r
  let loop := smLoop s.N site rows 4
  { s with
    lastAccRatio := s.lastAccRatio + 1
    phi0 := Function.update s.phi0 site (Function.update (s.phi0 site) timeslice (newphi 0))
    phi1 := Function.update s.phi1 site (Function.update (s.phi1 site) timeslice (newphi 1))
    phi2 := Function.update s.phi2 site (Function.update (s.phi2 site) timeslice (newphi 2))
    phiCosh := Function.update s.phiCosh site
      (Function.update (s.phiCosh site) timeslice coshnewphi)
    phiSinh := Function.update s.phiSinh site
      (Function.update (s.phiSinh site) timeslice sinhnewphi)
    g := Function.update s.g timeslice (greenUpdate s.N site loop.1 (s.g timeslice)) }

/-- The body of the loop over sites in `DetSDW::updateInSlice`: one proposal at
`(site, timeslice)`.  `rnd` holds the three values drawn in `proposeNewField` and `u01`
is the value of `rng.rand01()`; the test is `prop > 1.0 or rng.rand01() < prop`. -/
def siteUpdate (F : Libm R) (timeslice : Nat) (s : DetSDW R) (site : Nat)
    (rnd : Phi R) (u01 : R) : DetSDW R :=
  if proposalWeight F timeslice s site rnd > 1 ∨ u01 < proposalWeight F timeslice s site rnd then
    acceptedState F timeslice s site rnd
  else s

/-- The function `DetSDW::updateInSlice`: `lastAccRatio` is reset, every site gets one
proposal, and `lastAccRatio` is divided by the number of sites.  `draws site` holds the
random values consumed at `site`. -/
def updateInSlice (F : Libm R) (draws : Nat → Phi R × R) (timeslice : Nat) (s : DetSDW R) :
    DetSDW R :=
  let s1 := (List.range s.N).foldl
    (fun st site => siteUpdate F timeslice st site (draws site).1 (draws site).2)
    { s with lastAccRatio := 0 }
  { s1 with lastAccRatio := s1.lastAccRatio / (s.N : R) }

/-- The matrix `MatCpx(A, B)` with real part `A` and imaginary part `B`. -/
def matCpx (A B : Nat → Nat → R) : Nat → Nat → Cpx R := fun i j => ⟨A i j, B i j⟩

/-- The product `diagmat(v) * M`. -/
def diagmatMul (v : Nat → R) (M : Nat → Nat → R) : Nat → Nat → R := fun a b => v a * M a b

/-- The matrix `zeros(N, N)`. -/
def zerosMat : Nat → Nat → R := fun _ _ => 0

/-- The blocks assigned by the helper `singleTimesliceProp` of `DetSDW::computeBmatSDW`
for time slice `k`; `block(1,1)` and `block(3,3)` are copies of `block(0,0)` and
`block(2,2)`. -/
def bmatBlock (s : DetSDW R) (k : Nat) (row col : Nat) : Nat → Nat → Cpx R :=
  let kphi0 : Nat → R := fun site => s.phi0 site k
  let kphi1 : Nat → R := fun site => s.phi1 site k
  let kphi2 : Nat → R := fun site => s.phi2 site k
  let kphiCosh : Nat → R := fun site => s.phiCosh site k
  let kphiSinh : Nat → R := fun site => s.phiSinh site k
  let b00 := matCpx (diagmatMul kphiCosh s.propKx) zerosMat
  let b22 := matCpx (diagmatMul kphiCosh s.propKy) zerosMat
  if row = 0 then
    if col = 0 then b00
    else if col = 1 then fun _ _ => 0
    else if col = 2 then
      matCpx (diagmatMul (fun a => -kphi2 a * kphiSinh a) s.propKy) zerosMat
    else if col = 3 then
      matCpx (diagmatMul (fun a => -kphi0 a * kphiSinh a) s.propKy)
        (diagmatMul (fun a => kphi1 a * kphiSinh a) s.propKy)
    else fun _ _ => 0
  else if row = 1 then
    if col = 0 then fun _ _ => 0
    else if col = 1 then b00
    else if col = 2 then
      matCpx (diagmatMul (fun a => -kphi0 a * kphiSinh a) s.propKy)
        (diagmatMul (fun a => -kphi1 a * kphiSinh a) s.propKy)
    else if col = 3 then
      matCpx (diagmatMul (fun a => kphi2 a * kphiSinh a) s.propKy) zerosMat
    else fun _ _ => 0
  else if row = 2 then
    if col = 0 then
      matCpx (diagmatMul (fun a => -kphi2 a * kphiSinh a) s.propKx) zerosMat
    else if col = 1 then
      matCpx (diagmatMul (fun a => -kphi0 a * kphiSinh a) s.propKx)
        (diagmatMul (fun a => kphi1 a * kphiSinh a) s.propKx)
    else if col = 2 then b22
    else fun _ _ => 0
  else if row = 3 then
    if col = 0 then
      matCpx (diagmatMul (fun a => -kphi0 a * kphiSinh a) s.propKx)
        (diagmatMul (fun a => -kphi1 a * kphiSinh a) s.propKx)
    else if col = 1 then
      matCpx (diagmatMul (fun a => kphi2 a * kphiSinh a) s.propKx) zerosMat
    else if col = 3 then b22
    else fun _ _ => 0
  else fun _ _ => 0

/-- The helper `singleTimesliceProp` of `DetSDW::computeBmatSDW`: the matrix of order
`4 * N` whose submatrix `block(row, col)` is `bmatBlock s k row col`. -/
def singleTimesliceProp (s : DetSDW R) (k : Nat) : Nat → Nat → Cpx R :=
  fun i j => bmatBlock s k (i / s.N) (j / s.N) (i % s.N) (j % s.N)

/-- The function `DetSDW::computeBmatSDW`: the identity for `k2 = k1`, otherwise
`singleTimesliceProp(k2)` multiplied from the right by `singleTimesliceProp(k)` for
`k = k2 - 1, ..., k1 + 1`. -/
def computeBmatSDW (s : DetSDW R) (k2 k1 : Nat) : Nat → Nat → Cpx R :=
  if k2 = k1 then matCpx eye zerosMat
  else
    ((List.range (k2 - 1 - k1)).map (fun j => k2 - 1 - j)).foldl
      (fun result k => matMul (4 * s.N) result (singleTimesliceProp s k))
      (singleTimesliceProp s k2)

end SDW

section Bmat

variable {R : Type} [LinearOrderedField R]

/-- The 4x4 vertex exponential `e^(sigma*dtau*V)` of one site as tabulated in section
4.1.1 of the specification, for the field `(phi0, phi1, phi2)`, the cosh value `c` and
the sinh-over-norm value `sh`. -/
def vertexExponential (sigma : Int) (phi0 phi1 phi2 c sh : R) (a b : Nat) : Cpx R :=
  if a = b then Cpx.ofReal c
  else if (a = 0 ∧ b = 2) ∨ (a = 2 ∧ b = 0) then
    (sigma : Cpx R) * Cpx.ofReal phi2 * Cpx.ofReal sh
  else if (a = 1 ∧ b = 3) ∨ (a = 3 ∧ b = 1) then
    -(sigma : Cpx R) * Cpx.ofReal phi2 * Cpx.ofReal sh
  else if (a = 0 ∧ b = 3) ∨ (a = 2 ∧ b = 1) then
    (sigma : Cpx R) * (Cpx.ofReal phi0 - Cpx.I * Cpx.ofReal phi1) * Cpx.ofReal sh
  else if (a = 1 ∧ b = 2) ∨ (a = 3 ∧ b = 0) then
    (sigma : Cpx R) * (Cpx.ofReal phi0 + Cpx.I * Cpx.ofReal phi1) * Cpx.ofReal sh
  else 0

/-- The matrix `E(k) = e^(-dtau V(phi_k))` of section 4.1 of the specification: the block
sum over the sites of the 4x4 vertex exponential with sign `-1` at `phi(site, k)`,
`phiCosh(site, k)`, `phiSinh(site, k)`. -/
def vertexMatrix (s : DetSDW R) (k : Nat) : Nat → Nat → Cpx R :=
  fun i j =>
    if i % s.N = j % s.N then
      vertexExponential (-1) (s.phi0 (i % s.N) k) (s.phi1 (i % s.N) k) (s.phi2 (i % s.N) k)
        (s.phiCosh (i % s.N) k) (s.phiSinh (i % s.N) k) (i / s.N) (j / s.N)
    else 0

/-- The matrix `blockdiag(propKx, propKx, propKy, propKy)`. -/
def hoppingBlockDiag (s : DetSDW R) : Nat → Nat → Cpx R :=
  fun i j =>
    if i / s.N = j / s.N then
      Cpx.ofReal ((if i / s.N < 2 then s.propKx else s.propKy) (i % s.N) (j % s.N))
    else 0

/-- The single slice factor `S(k) = E(k) * blockdiag(propKx, propKx, propKy, propKy)`. -/
def sliceFactor (s : DetSDW R) (k : Nat) : Nat → Nat → Cpx R :=
  matMul (4 * s.N) (vertexMatrix s k) (hoppingBlockDiag s)

end Bmat

/-- The ordered product `S(k1 + n) * S(k1 + n - 1) * ... * S(k1 + 1)` of matrices of order
`order`; the empty product is the identity. -/
def orderedProduct {K : Type} [Mul K] [AddCommMonoid K] [One K] (order : Nat)
    (S : Nat → Nat → Nat → K) (k1 : Nat) : Nat → Nat → Nat → K
  | 0 => eye
  | n + 1 => matMul order (S (k1 + n + 1)) (orderedProduct order S k1 n)

/-- The caches `phiCosh` and `phiSinh` hold `cosh(dtau*|phi|)` and `sinh(dtau*|phi|)/|phi|`
for every site and every time slice of the field arrays. -/
def CacheConsistent {R : Type} [LinearOrderedField R] (F : Libm R) (s : DetSDW R) : Prop :=
  ∀ site k, site < s.N → k ≤ s.m →
    s.phiCosh site k = F.cosh (s.dtau * norm2 F (s.phiAt site k)) ∧
    s.phiSinh site k
      = F.sinh (s.dtau * norm2 F (s.phiAt site k)) / norm2 F (s.phiAt site k)

/-- A concrete instance of the library functions over the rationals, for examples. -/
def exampleLibm : Libm ℚ where
  exp := fun _ => 2
  cosh := fun _ => 1
  sinh := fun _ => 0
  sqrt := fun x => x

/-- A concrete model state over the rationals, for examples: one site, one time slice
(and slice `0`), the field zero everywhere and every slice of the Green function the
identity. -/
def exampleState : DetSDW ℚ where
  L := 1
  m := 1
  dtau := 1
  r := 0
  mu := 0
  propKx := fun _ _ => 1
  propKy := fun _ _ => 1
  g := fun _ i j => if i = j then 1 else 0
  phi0 := fun _ _ => 0
  phi1 := fun _ _ => 0
  phi2 := fun _ _ => 0
  phiCosh := fun _ _ => 1
  phiSinh := fun _ _ => 0
  phiDelta := 1 / 2
  lastAccRatio := 0

/-- The four counter vectors of the exchange statistics have `P` entries each. -/
def StatsSized (P : Nat) (es : ExchangeStatistics) : Prop :=
  es.par_swapUpAccepted.length = P ∧ es.par_swapUpProposed.length = P ∧
  es.par_countGoingUp.length = P ∧ es.par_countGoingDown.length = P

/-! ## The main loop (`DetQMCPT::run`) -/

/-- The stages of the main loop (`enum Stage` in `DetQMCPT::run`): thermalization,
measurement, finished. -/
inductive Stage where
  | T
  | M
  | F
deriving DecidableEq

/-- The calls that `DetQMCPT::run` makes on the replica, on the observable handlers and
on the file system, recorded in the order in which they are made.  `shutdownCheck` is the
evaluation of `stop_now` at the top of an iteration; `insertValue sweepsDone` stands for
the call of `insertValue(sweepsDone)` on every observable handler. -/
inductive RunEvent where
  | shutdownCheck
  | sweepThermalization
  | thermalizationOver
  | sweepMeasurement (takeMeasurementNow : Bool)
  | insertValue (sweepsDone : Nat)
  | bufferConfiguration
  | gatherConfigurations
  | saveResults
  | saveState
  | exchangeStep
  | consistencyCheck
deriving DecidableEq

/-- The Monte Carlo parameters read by `DetQMCPT::run` (the fields of `parsmc` that the
loop uses, all `uint32_t`; the struct itself is declared in a header of its own). -/
structure DetQMCParams where
  sweeps : Nat
  thermalization : Nat
  measureInterval : Nat
  saveInterval : Nat
  saveConfigurationStreamInterval : Nat

/-- The replica exchange parameter read by `DetQMCPT::run` (the field of `parspt` that
the loop uses). -/
structure DetQMCPTParams where
  exchangeInterval : Nat

/-- What the surroundings answer during a run.  The argument `n` of each function is
the number of loop iterations begun before: `curWalltimeSecs n` is the value returned by
`curWalltimeSecs()`, `abortFileExists n i` tells whether `abortFilenames[i]` exists,
`gathered n` is the control data gathered in a replica exchange step and `accept n` are
the outcomes of its proposals. -/
structure RunEnv where
  grantedWalltimeSecs : Nat
  curWalltimeSecs : Nat → Nat
  abortFileExists : Nat → Nat → Bool
  gathered : Nat → List String
  accept : Nat → Nat → Bool

/-- The state of `DetQMCPT::run` at rank 0: the local variable `stage`, the counters
(`uint32_t`), the root state of the replica exchange and the calls made so far.
`left` is set when the loop has been left by `break`; `fault` is set when an iteration
has divided by zero (`%` with a zero interval), after which nothing is defined. -/
structure RunState where
  stage : Stage
  sweepsDone : Nat
  sweepsDoneThermalization : Nat
  swCounter : Nat
  root : RootState
  iteration : Nat
  left : Bool
  fault : Bool
  log : List RunEvent
deriving DecidableEq

/-- The constant `SafetyMinutes` of `DetQMCPT::run`. -/
def SafetyMinutes : Nat := 35

/-- The test `curWalltimeSecs() > grantedWalltimeSecs - SafetyMinutes*60`, evaluated in
`uint32_t` as in the source: the subtraction wraps around. -/
def walltimeExceeded (curWalltimeSecs grantedWalltimeSecs : Nat) : Bool :=
  decide (curWalltimeSecs > u32 (grantedWalltimeSecs + 2 ^ 32 - u32 (SafetyMinutes * 60)))

/-- The value of `stop_now` computed at rank 0 and broadcast: the walltime test, else the
loop over the four abort file names. -/
def stopNow (env : RunEnv) (n : Nat) : Bool :=
  if walltimeExceeded (env.curWalltimeSecs n) env.grantedWalltimeSecs then true
  else (List.range 4).foldl (fun stop i => if env.abortFileExists n i then true else stop) false

/-- The helper `save` of `DetQMCPT::run`. -/
def save (s : RunState) : RunState :=
  if s.stage = Stage.M then
    { s with log := s.log ++
        [RunEvent.gatherConfigurations, RunEvent.saveResults, RunEvent.saveState] }
  else
    { s with log := s.log ++ [RunEvent.saveState] }

/-- The branch `case T` of the main loop. -/
def thermalizationSweep (p : DetQMCParams) (s : RunState) : RunState :=
  let s1 : RunState :=
    { s with
      sweepsDoneThermalization := u32 (s.sweepsDoneThermalization + 1)
      swCounter := u32 (s.swCounter + 1)
      log := s.log ++ [RunEvent.sweepThermalization] }
  let s2 : RunState :=
    if s1.swCounter = p.saveInterval then save { s1 with swCounter := 0 } else s1
  if s2.sweepsDoneThermalization = p.thermalization then
    { s2 with
      swCounter := 0
      stage := Stage.M
      log := s2.log ++ [RunEvent.thermalizationOver] }
  else s2

/-- The branch `case M` of the main loop. -/
def measurementSweep (p : DetQMCParams) (s : RunState) : RunState :=
  let swCounter := u32 (s.swCounter + 1)
  if p.measureInterval = 0 then
    { s with swCounter := swCounter, fault := true }
  else
    let takeMeasurementNow : Bool := decide (swCounter % p.measureInterval = 0)
    let log1 := s.log ++ [RunEvent.sweepMeasurement takeMeasurementNow]
    if takeMeasurementNow = true ∧ p.saveConfigurationStreamInterval = 0 then
      { s with
        swCounter := swCounter
        log := log1 ++ [RunEvent.insertValue s.sweepsDone]
        fault := true }
    else
      let log2 :=
        if takeMeasurementNow = true then
          if swCounter % p.saveConfigurationStreamInterval = 0 then
            log1 ++ [RunEvent.insertValue s.sweepsDone, RunEvent.bufferConfiguration]
          else log1 ++ [RunEvent.insertValue s.sweepsDone]
        else log1
      let s1 : RunState :=
        { s with
          swCounter := swCounter
          sweepsDone := u32 (s.sweepsDone + 1)
          log := log2 }
      let s2 : RunState :=
        if s1.swCounter = p.saveInterval then save { s1 with swCounter := 0 } else s1
      if s2.sweepsDone = p.sweeps then
        { s2 with swCounter := 0, stage := Stage.F }
      else s2

/-- The block `//replica exchange` at the end of an iteration; `n` numbers the
iteration. -/
def exchangeBlock (pt : DetQMCPTParams) (env : RunEnv) (n : Nat) (s : RunState) : RunState :=
  if s.stage = Stage.T ∨ s.stage = Stage.M then
    let s1 : RunState :=
      if pt.exchangeInterval ≠ 0 ∧
          u32 (s.sweepsDone + s.sweepsDoneThermalization) % pt.exchangeInterval = 0 then
        { s with
          root := replicaExchangeStep (env.gathered n) (env.accept n) s.root
          log := s.log ++ [RunEvent.exchangeStep] }
      else s
    { s1 with log := s1.log ++ [RunEvent.consistencyCheck] }
  else s

/-- The statement `switch (stage)` of the main loop. -/
def sweepStep (p : DetQMCParams) (s : RunState) : RunState :=
  match s.stage with
  | Stage.T => thermalizationSweep p s
  | Stage.M => measurementSweep p s
  | Stage.F => s

/-- What follows the sweep in an iteration: the replica exchange block, unless the sweep
has faulted. -/
def afterSweep (pt : DetQMCPTParams) (env : RunEnv) (n : Nat) (s : RunState) : RunState :=
  if s.fault = true then s else exchangeBlock pt env n s

/-- Bookkeeping of the embedding: one more iteration has begun. -/
def beginIteration (s : RunState) : RunState := { s with iteration := s.iteration + 1 }

/-- Bookkeeping of the embedding: the shutdown conditions have been looked at. -/
def noteCheck (s : RunState) : RunState := { s with log := s.log ++ [RunEvent.shutdownCheck] }

/-- The loop is left by `break`. -/
def leave (s : RunState) : RunState := { s with left := true }

/-- One execution of the body of `while (stage != F)`: when `swCounter` is even the
shutdown conditions are checked, and on a stop request the state is saved and the loop is
left; otherwise the sweep of the current stage and the replica exchange block follow. -/
def loopBody (p : DetQMCParams) (pt : DetQMCPTParams) (env : RunEnv) (s : RunState) :
    RunState :=
  if s.swCounter % 2 = 0 then
    if stopNow env s.iteration = true then
      leave (save (noteCheck (beginIteration s)))
    else
      afterSweep pt env s.iteration (sweepStep p (noteCheck (beginIteration s)))
  else
    afterSweep pt env s.iteration (sweepStep p (beginIteration s))

/-- The loop `while (stage != F)` seen one iteration at a time: a state in which the
loop has ended (stage `F`, left by `break`, or faulted) is not changed. -/
def loopStep (p : DetQMCParams) (pt : DetQMCPTParams) (env : RunEnv) (s : RunState) :
    RunState :=
  if s.stage = Stage.F ∨ s.left = true ∨ s.fault = true then s else loopBody p pt env s

/-- The choice of the stage at entry of `DetQMCPT::run`. -/
def enterRun (p : DetQMCParams) (s : RunState) : RunState :=
  if s.sweepsDoneThermalization < p.thermalization then { s with stage := Stage.T }
  else if s.sweepsDone < p.sweeps then { s with stage := Stage.M }
  else { s with stage := Stage.F }

/-- The method `DetQMCPT::run`, cut off after at most `fuel` iterations of its loop. -/
def run (p : DetQMCParams) (pt : DetQMCPTParams) (env : RunEnv) (fuel : Nat) (s : RunState) :
    RunState :=
  (loopStep p pt env)^[fuel] (enterRun p s)

/-- The state in which `run` is entered by a simulation constructed from parameters
with `P` processes: all counters are zero and nothing has been called yet. -/
def freshState (P : Nat) : RunState where
  stage := Stage.T
  sweepsDone := 0
  sweepsDoneThermalization := 0
  swCounter := 0
  root := initFromParameters P
  iteration := 0
  left := false
  fault := false
  log := []

/-- Surroundings in which no shutdown is ever requested and no exchange is accepted. -/
def quietEnv : RunEnv where
  grantedWalltimeSecs := 2 ^ 32 - 1
  curWalltimeSecs := fun _ => 0
  abortFileExists := fun _ _ => false
  gathered := fun _ => []
  accept := fun _ _ => false

/-- The number of replica exchange steps a run has invoked so far. -/
def exchangeRounds (s : RunState) : Nat := s.log.count RunEvent.exchangeStep

/-! ## Checkerboard decomposition (`detsdw.cpp`) -/

/-- The enumeration `Band`. -/
inductive Band where
  | XBAND
  | YBAND
deriving DecidableEq

section Checkerboard

variable {R : Type} [LinearOrderedField R]

/-- The hopping constants `hopHor[band]` set in the constructor of `DetSDW`. -/
def hopHor : Band → R
  | Band.XBAND => -1
  | Band.YBAND => 1 / 2

/-- The hopping constants `hopVer[band]` set in the constructor of `DetSDW`. -/
def hopVer : Band → R
  | Band.XBAND => -(1 / 2)
  | Band.YBAND => 1

/-- The member `sinhHopHor[band]`, computed in the constructor of `DetSDW`. -/
def sinhHopHor (F : Libm R) (s : DetSDW R) (band : Band) : R := F.sinh (-s.dtau * hopHor band)

/-- The member `coshHopHor[band]`, computed in the constructor of `DetSDW`. -/
def coshHopHor (F : Libm R) (s : DetSDW R) (band : Band) : R := F.cosh (-s.dtau * hopHor band)

/-- The member `sinhHopVer[band]`, computed in the constructor of `DetSDW`. -/
def sinhHopVer (F : Libm R) (s : DetSDW R) (band : Band) : R := F.sinh (-s.dtau * hopVer band)

/-- The member `coshHopVer[band]`, computed in the constructor of `DetSDW`. -/
def coshHopVer (F : Libm R) (s : DetSDW R) (band : Band) : R := F.cosh (-s.dtau * hopVer band)

/-- The direction `XPLUS` of `NeighDir`. -/
def XPLUS : Nat := 0

/-- The direction `YPLUS` of `NeighDir`. -/
def YPLUS : Nat := 2

/-- The body of the loop over `col` in `applyBondFactorsLeft`: `new_icol` and `new_jcol`
are computed from the old entries, then `result(i,col)` and `result(j,col)` are assigned
in this order (so that the second assignment wins when `i = j`). -/
def bondFactorLeft (ch sh : R) (i j : Nat) (result : Nat → Nat → Cpx R) (col : Nat) :
    Nat → Nat → Cpx R :=
  fun a b =>
    if a = j ∧ b = col then Cpx.ofReal sh * result i col + Cpx.ofReal ch * result j col
    else if a = i ∧ b = col then Cpx.ofReal ch * result i col + Cpx.ofReal sh * result j col
    else result a b

/-- The helper `applyBondFactorsLeft` of `DetSDW::cbLMultHoppingExp`: for every site
`i` with neighbour `j = spaceNeigh(neigh, i)`, for every column. -/
def applyBondFactorsLeft (L neigh : Nat) (ch sh : R) (result : Nat → Nat → Cpx R) :
    Nat → Nat → Cpx R :=
  (List.range (L * L)).foldl
    (fun res i => (List.range (L * L)).foldl (bondFactorLeft ch sh i (spaceNeigh L neigh i)) res)
    result

/-- The function `DetSDW::cbLMultHoppingExp`: the horizontal bonds, then the vertical
bonds. -/
def cbLMultHoppingExp (F : Libm R) (s : DetSDW R) (A : Nat → Nat → Cpx R) (band : Band)
    (sign : Int) : Nat → Nat → Cpx R :=
  applyBondFactorsLeft s.L YPLUS (coshHopVer F s band) ((sign : R) * sinhHopVer F s band)
    (applyBondFactorsLeft s.L XPLUS (coshHopHor F s band) ((sign : R) * sinhHopHor F s band) A)

/-- The body of the loop over `row` in `applyBondFactorsRight`, as written in the
source: `new_rowi` is computed from `result(row, i)` twice; then `result(row,i)` and
`result(row,j)` are assigned in this order. -/
def bondFactorRight (ch sh : R) (i j : Nat) (result : Nat → Nat → Cpx R) (row : Nat) :
    Nat → Nat → Cpx R :=
  fun a b =>
    if a = row ∧ b = j then Cpx.ofReal sh * result row i + Cpx.ofReal ch * result row j
    else if a = row ∧ b = i then Cpx.ofReal ch * result row i + Cpx.ofReal sh * result row i
    else result a b

/-- The helper `applyBondFactorsRight` of `DetSDW::cbRMultHoppingExp`. -/
def applyBondFactorsRight (L neigh : Nat) (ch sh : R) (result : Nat → Nat → Cpx R) :
    Nat → Nat → Cpx R :=
  (List.range (L * L)).foldl
    (fun res i => (List.range (L * L)).foldl (bondFactorRight ch sh i (spaceNeigh L neigh i)) res)
    result

/-- The function `DetSDW::cbRMultHoppingExp`. -/
def cbRMultHoppingExp (F : Libm R) (s : DetSDW R) (A : Nat → Nat → Cpx R) (band : Band)
    (sign : Int) : Nat → Nat → Cpx R :=
  applyBondFactorsRight s.L YPLUS (coshHopVer F s band) ((sign : R) * sinhHopVer F s band)
    (applyBondFactorsRight s.L XPLUS (coshHopHor F s band) ((sign : R) * sinhHopHor F s band) A)

/-- The helper `block` of the checkerboard functions: the submatrix of order `N` of
`mat` at block position `(row, col)`. -/
def block (N : Nat) (mat : Nat → Nat → Cpx R) (row col : Nat) : Nat → Nat → Cpx R :=
  fun a b => if a < N ∧ b < N then mat (row * N + a) (col * N + b) else 0

/-- The product `diagmat(v) * M` with complex entries. -/
def diagmatMulC (v : Nat → Cpx R) (M : Nat → Nat → Cpx R) : Nat → Nat → Cpx R :=
  fun a b => v a * M a b

/-- The product `M * diagmat(v)` with complex entries. -/
def mulDiagmatC (M : Nat → Nat → Cpx R) (v : Nat → Cpx R) : Nat → Nat → Cpx R :=
  fun a b => M a b * v b

/-- The sum of three matrices. -/
def add3 (A B C : Nat → Nat → Cpx R) : Nat → Nat → Cpx R := fun a b => A a b + B a b + C a b

/-- The matrix of order `4 * N` whose blocks are given by `blocks row col`. -/
def assemble (N : Nat) (blocks : Nat → Nat → Nat → Nat → Cpx R) : Nat → Nat → Cpx R :=
  fun i j => if i < 4 * N ∧ j < 4 * N then blocks (i / N) (j / N) (i % N) (j % N) else 0

/-- The vector `c = phiCosh.col(k)`. -/
def cVec (s : DetSDW R) (k : Nat) : Nat → Cpx R := fun a => Cpx.ofReal (s.phiCosh a k)

/-- The vector `ax = kphi2 % kphiSinh`. -/
def axVec (s : DetSDW R) (k : Nat) : Nat → Cpx R :=
  fun a => Cpx.ofReal (s.phi2 a k * s.phiSinh a k)

/-- The vector `max = -kphi2 % kphiSinh`. -/
def maxVec (s : DetSDW R) (k : Nat) : Nat → Cpx R :=
  fun a => Cpx.ofReal (-s.phi2 a k * s.phiSinh a k)

/-- The vector `bx {kphi0, -kphi1}`. -/
def bxVec (s : DetSDW R) (k : Nat) : Nat → Cpx R := fun a => ⟨s.phi0 a k, -s.phi1 a k⟩

/-- The vector `bcx {kphi0, kphi1}`. -/
def bcxVec (s : DetSDW R) (k : Nat) : Nat → Cpx R := fun a => ⟨s.phi0 a k, s.phi1 a k⟩

/-- The vector `mbx {-kphi0, kphi1}`. -/
def mbxVec (s : DetSDW R) (k : Nat) : Nat → Cpx R := fun a => ⟨-s.phi0 a k, s.phi1 a k⟩

/-- The vector `mbcx {kphi0, -kphi1}`. -/
def mbcxVec (s : DetSDW R) (k : Nat) : Nat → Cpx R := fun a => ⟨s.phi0 a k, -s.phi1 a k⟩

/-- The helper `leftMultiplyBk` of `DetSDW::checkerboardLeftMultiplyBmat`. -/
def leftMultiplyBk (F : Libm R) (s : DetSDW R) (orig : Nat → Nat → Cpx R) (k : Nat) :
    Nat → Nat → Cpx R :=
  let cb := fun (r col : Nat) (band : Band) =>
    cbLMultHoppingExp F s (block s.N orig r col) band (-1)
  assemble s.N (fun row col =>
    if row = 0 then
      add3 (diagmatMulC (cVec s k) (cb 0 col Band.XBAND))
        (diagmatMulC (axVec s k) (cb 2 col Band.YBAND))
        (diagmatMulC (bxVec s k) (cb 3 col Band.YBAND))
    else if row = 1 then
      add3 (diagmatMulC (cVec s k) (cb 1 col Band.XBAND))
        (diagmatMulC (bcxVec s k) (cb 2 col Band.YBAND))
        (diagmatMulC (maxVec s k) (cb 3 col Band.YBAND))
    else if row = 2 then
      add3 (diagmatMulC (axVec s k) (cb 0 col Band.XBAND))
        (diagmatMulC (bxVec s k) (cb 1 col Band.XBAND))
        (diagmatMulC (cVec s k) (cb 2 col Band.YBAND))
    else
      add3 (diagmatMulC (bcxVec s k) (cb 0 col Band.XBAND))
        (diagmatMulC (maxVec s k) (cb 1 col Band.XBAND))
        (diagmatMulC (cVec s k) (cb 3 col Band.YBAND)))

/-- The multiplication `result *= x` of a matrix by a real number. -/
def scaleMat (x : R) (M : Nat → Nat → Cpx R) : Nat → Nat → Cpx R :=
  fun i j => M i j * Cpx.ofReal x

/-- The function `DetSDW::checkerboardLeftMultiplyBmat`, for `k2 > k1`. -/
def checkerboardLeftMultiplyBmat (F : Libm R) (s : DetSDW R) (A : Nat → Nat → Cpx R)
    (k2 k1 : Nat) : Nat → Nat → Cpx R :=
  scaleMat (F.exp (s.dtau * ((k2 - k1 : Nat) : R) * s.mu))
    (((List.range (k2 - (k1 + 1))).map (fun j => k1 + 2 + j)).foldl (leftMultiplyBk F s)
      (leftMultiplyBk F s A (k1 + 1)))

/-- The helper `leftMultiplyBkInv` of `DetSDW::checkerboardLeftMultiplyBmatInv`. -/
def leftMultiplyBkInv (F : Libm R) (s : DetSDW R) (orig : Nat → Nat → Cpx R) (k : Nat) :
    Nat → Nat → Cpx R :=
  let cb := fun (v : Nat → Cpx R) (r col : Nat) (band : Band) =>
    cbLMultHoppingExp F s (diagmatMulC v (block s.N orig r col)) band 1
  assemble s.N (fun row col =>
    if row = 0 then
      add3 (cb (cVec s k) 0 col Band.XBAND) (cb (maxVec s k) 2 col Band.XBAND)
        (cb (mbxVec s k) 3 col Band.XBAND)
    else if row = 1 then
      add3 (cb (cVec s k) 1 col Band.XBAND) (cb (mbcxVec s k) 2 col Band.XBAND)
        (cb (axVec s k) 3 col Band.XBAND)
    else if row = 2 then
      add3 (cb (maxVec s k) 0 col Band.YBAND) (cb (mbxVec s k) 1 col Band.YBAND)
        (cb (cVec s k) 2 col Band.YBAND)
    else
      add3 (cb (mbcxVec s k) 0 col Band.YBAND) (cb (axVec s k) 1 col Band.YBAND)
        (cb (cVec s k) 3 col Band.YBAND))

/-- The function `DetSDW::checkerboardLeftMultiplyBmatInv`, for `k2 > k1`. -/
def checkerboardLeftMultiplyBmatInv (F : Libm R) (s : DetSDW R) (A : Nat → Nat → Cpx R)
    (k2 k1 : Nat) : Nat → Nat → Cpx R :=
  scaleMat (F.exp (-s.dtau * ((k2 - k1 : Nat) : R) * s.mu))
    (((List.range (k2 - (k1 + 1))).map (fun j => k1 + 2 + j)).foldl (leftMultiplyBkInv F s)
      (leftMultiplyBkInv F s A (k1 + 1)))

/-- The helper `rightMultiplyBk` of `DetSDW::checkerboardRightMultiplyBmat`. -/
def rightMultiplyBk (F : Libm R) (s : DetSDW R) (orig : Nat → Nat → Cpx R) (k : Nat) :
    Nat → Nat → Cpx R :=
  let cb := fun (r col : Nat) (v : Nat → Cpx R) (band : Band) =>
    cbRMultHoppingExp F s (mulDiagmatC (block s.N orig r col) v) band (-1)
  assemble s.N (fun row col =>
    if col = 0 then
      add3 (cb row 0 (cVec s k) Band.XBAND) (cb row 2 (axVec s k) Band.XBAND)
        (cb row 3 (bcxVec s k) Band.XBAND)
    else if col = 1 then
      add3 (cb row 1 (cVec s k) Band.XBAND) (cb row 2 (bxVec s k) Band.XBAND)
        (cb row 3 (maxVec s k) Band.XBAND)
    else if col = 2 then
      add3 (cb row 0 (axVec s k) Band.YBAND) (cb row 1 (bcxVec s k) Band.YBAND)
        (cb row 2 (cVec s k) Band.YBAND)
    else
      add3 (cb row 0 (bxVec s k) Band.YBAND) (cb row 1 (maxVec s k) Band.YBAND)
        (cb row 3 (cVec s k) Band.YBAND))

/-- The function `DetSDW::checkerboardRightMultiplyBmat`, for `k2 > k1`. -/
def checkerboardRightMultiplyBmat (F : Libm R) (s : DetSDW R) (A : Nat → Nat → Cpx R)
    (k2 k1 : Nat) : Nat → Nat → Cpx R :=
  scaleMat (F.exp (s.dtau * ((k2 - k1 : Nat) : R) * s.mu))
    (((List.range (k2 - 1 - k1)).map (fun j => k2 - 1 - j)).foldl (rightMultiplyBk F s)
      (rightMultiplyBk F s A k2))

/-- The helper `rightMultiplyBkInv` of `DetSDW::checkerboardRightMultiplyBmatInv`. -/
def rightMultiplyBkInv (F : Libm R) (s : DetSDW R) (orig : Nat → Nat → Cpx R) (k : Nat) :
    Nat → Nat → Cpx R :=
  let cb := fun (r col : Nat) (band : Band) =>
    cbRMultHoppingExp F s (block s.N orig r col) band 1
  assemble s.N (fun row col =>
    if col = 0 then
      add3 (mulDiagmatC (cb row 0 Band.XBAND) (cVec s k))
        (mulDiagmatC (cb row 2 Band.YBAND) (maxVec s k))
        (mulDiagmatC (cb row 3 Band.YBAND) (mbcxVec s k))
    else if col = 1 then
      add3 (mulDiagmatC (cb row 1 Band.XBAND) (cVec s k))
        (mulDiagmatC (cb row 2 Band.YBAND) (mbxVec s k))
        (mulDiagmatC (cb row 3 Band.YBAND) (axVec s k))
    else if col = 2 then
      add3 (mulDiagmatC (cb row 0 Band.XBAND) (maxVec s k))
        (mulDiagmatC (cb row 1 Band.XBAND) (mbcxVec s k))
        (mulDiagmatC (cb row 2 Band.YBAND) (cVec s k))
    else
      add3 (mulDiagmatC (cb row 0 Band.XBAND) (mbxVec s k))
        (mulDiagmatC (cb row 1 Band.XBAND) (axVec s k))
        (mulDiagmatC (cb row 3 Band.YBAND) (cVec s k)))

/-- The function `DetSDW::checkerboardRightMultiplyBmatInv`, for `k2 > k1`. -/
def checkerboardRightMultiplyBmatInv (F : Libm R) (s : DetSDW R) (A : Nat → Nat → Cpx R)
    (k2 k1 : Nat) : Nat → Nat → Cpx R :=
  scaleMat (F.exp (-s.dtau * ((k2 - k1 : Nat) : R) * s.mu))
    (((List.range (k2 - 1 - k1)).map (fun j => k2 - 1 - j)).foldl (rightMultiplyBkInv F s)
      (rightMultiplyBkInv F s A k2))

/-- The identity matrix of order `N`. -/
def identityN (N : Nat) : Nat → Nat → Cpx R := fun a b => if a = b ∧ a < N then 1 else 0

/-- The matrix `C_band = cbLMultHoppingExp(I, band, -1)` of order `N`. -/
def bondProduct (F : Libm R) (s : DetSDW R) (band : Band) : Nat → Nat → Cpx R :=
  cbLMultHoppingExp F s (identityN s.N) band (-1)

/-- The matrix `blockdiag(C_X, C_X, C_Y, C_Y)`. -/
def bondBlockDiag (F : Libm R) (s : DetSDW R) : Nat → Nat → Cpx R :=
  fun i j =>
    if i / s.N = j / s.N then
      (if i / s.N < 2 then bondProduct F s Band.XBAND else bondProduct F s Band.YBAND)
        (i % s.N) (j % s.N)
    else 0

/-- The factor `T(k) = E(k) * blockdiag(C_X, C_X, C_Y, C_Y)`, with the vertex matrix
`E(k)` of the dense B-matrix. -/
def checkerboardSliceFactor (F : Libm R) (s : DetSDW R) (k : Nat) : Nat → Nat → Cpx R :=
  matMul (4 * s.N) (vertexMatrix s k) (bondBlockDiag F s)

/-- The product that the checkerboard multiplication is specified to compute:
`exp(+dtau*(k2-k1)*mu) * T(k2) * ... * T(k1+1) * A`. -/
def checkerboardProduct (F : Libm R) (s : DetSDW R) (A : Nat → Nat → Cpx R) (k2 k1 : Nat) :
    Nat → Nat → Cpx R :=
  scaleMat (F.exp (s.dtau * ((k2 - k1 : Nat) : R) * s.mu))
    (matMul (4 * s.N) (orderedProduct (4 * s.N) (checkerboardSliceFactor F s) k1 (k2 - k1)) A)

end Checkerboard

/-- Library functions over the rationals for examples with a nonzero time step: the
exponential and hyperbolic functions to base 2, `exp x = 2^x`, `cosh x = (2^x + 2^(-x))/2`,
`sinh x = (2^x - 2^(-x))/2`, exact at the integers (arguments are rounded down).  A model
state evaluated with them is a state of the program whose time step is measured in units
of `ln 2`. -/
def binaryLibm : Libm ℚ where
  exp := fun x => (2 : ℚ) ^ ⌊x⌋
  cosh := fun x => ((2 : ℚ) ^ ⌊x⌋ + (2 : ℚ) ^ (-⌊x⌋)) / 2
  sinh := fun x => ((2 : ℚ) ^ ⌊x⌋ - (2 : ℚ) ^ (-⌊x⌋)) / 2
  sqrt := fun x => x

/-- A model state over the rationals on the 2x2 lattice with one time slice: the field
is `(1, 0, 0)` at every site, the time step is `2` (that is `2 ln 2` with `binaryLibm`),
the chemical potential is zero, and the caches hold `cosh(dtau*|phi|) = 17/8` and
`sinh(dtau*|phi|)/|phi| = 15/8`. -/
def checkerboardState : DetSDW ℚ where
  L := 2
  m := 1
  dtau := 2
  r := 0
  mu := 0
  propKx := fun i j => if i = j then 1 else 0
  propKy := fun i j => if i = j then 1 else 0
  g := fun _ i j => if i = j then 1 else 0
  phi0 := fun _ _ => 1
  phi1 := fun _ _ => 0
  phi2 := fun _ _ => 0
  phiCosh := fun _ _ => 17 / 8
  phiSinh := fun _ _ => 15 / 8
  phiDelta := 1 / 2
  lastAccRatio := 0


/-! ## The processes of a parallel tempering run (`detqmcpt.h`) -/

section Processes

variable {R : Type} [LinearOrderedField R]

/-- The members of one process that take part in replica exchange:
`local_current_parameter_index`, the value last handed to
`replica->set_exchange_parameter_value` (which `get_exchange_parameter_value` returns),
and the string last handed to `replica->set_control_data`. -/
structure ProcessState (R : Type) where
  local_current_parameter_index : Nat
  exchange_parameter_value : R
  control_data : String

/-- All processes of the communicator: `parspt.controlParameterValues` (the same in every
process), the members that only rank 0 uses, and the state of process `p` for every rank
`p < numProcesses`. -/
structure World (R : Type) where
  controlParameterValues : List R
  root : RootState
  procs : Nat → ProcessState R

/-- The effect of `DetQMCPT::initFromParameters` in every process: `numProcesses` is the
size of the communicator, which has to equal `controlParameterValues.size()`;
`local_current_parameter_index = processIndex`, and the replica is created from model
parameters carrying `controlParameterValues[local_current_parameter_index]`. -/
def initWorld (controlParameterValues : List R) : World R where
  controlParameterValues := controlParameterValues
  root := initFromParameters controlParameterValues.length
  procs := fun processIndex =>
    { local_current_parameter_index := processIndex
      exchange_parameter_value := controlParameterValues.getD processIndex 0
      control_data := "" }

/-- The operation `mpi::gather(world, local, recv, 0)`: rank 0 receives the local values
in rank order. -/
def gather {α : Type} (numProcesses : Nat) (localValue : Nat → α) : List α :=
  (List.range numProcesses).map localValue

/-- The function `DetQMCPT::replicaExchangeStep` in all processes: `localData p` is what
`replica->get_control_data` returns in process `p`, `accept` the outcomes of the
proposals at rank 0.  After the part at rank 0, `mpi::scatter` hands entry `p` of
`current_process_par` and of `process_control_data_buffer` to process `p`. -/
def exchangeStepWorld (localData : Nat → String) (accept : Nat → Bool) (w : World R) :
    World R :=
  let root1 := replicaExchangeStep (gather w.root.numProcesses localData) accept w.root
  { w with
    root := root1
    procs := fun processIndex =>
      { local_current_parameter_index := root1.current_process_par.getD processIndex 0
        exchange_parameter_value :=
          w.controlParameterValues.getD (root1.current_process_par.getD processIndex 0) 0
        control_data := root1.process_control_data_buffer.getD processIndex "" } }

/-- The processes after initialisation and a sequence of replica exchange rounds. -/
def worldAfter (controlParameterValues : List R)
    (rounds : List ((Nat → String) × (Nat → Bool))) : World R :=
  rounds.foldl (fun w r => exchangeStepWorld r.1 r.2 w) (initWorld controlParameterValues)

/-- The local test of `DetQMCPT::replicaExchangeConsistencyCheck` in one process; the
result is the message of the error thrown, if any. -/
def localConsistencyCheck (controlParameterValues : List R) (ps : ProcessState R) :
    Option String :=
  if |ps.exchange_parameter_value -
      controlParameterValues.getD ps.local_current_parameter_index 0| > 1 / 10 ^ 10 then
    some "local_current_parameter_index mismatch!"
  else none

/-- The loop at rank 0 of `DetQMCPT::replicaExchangeConsistencyCheck` over the gathered
exchange parameter values. -/
def rootConsistencyCheck (controlParameterValues : List R) (root : RootState)
    (process_par_values : List R) : Option String :=
  (List.range root.numProcesses).findSome? (fun pi =>
    if |process_par_values.getD pi 0 -
        controlParameterValues.getD (root.current_process_par.getD pi 0) 0| > 1 / 10 ^ 10 then
      some "Exchange parameter value mismatch!"
    else none)

/-- The function `DetQMCPT::replicaExchangeConsistencyCheck` in all processes: an error
if the local test fails in some process or the test at rank 0 fails. -/
def replicaExchangeConsistencyCheck (w : World R) : Except String Unit :=
  match (List.range w.root.numProcesses).findSome?
      (fun p => localConsistencyCheck w.controlParameterValues (w.procs p)) with
  | some e => Except.error e
  | none =>
    match rootConsistencyCheck w.controlParameterValues w.root
        (gather w.root.numProcesses (fun p => (w.procs p).exchange_parameter_value)) with
    | some e => Except.error e
    | none => Except.ok ()

end Processes

/-! ## Resuming a simulation and the creation of the replica (`detqmcpt.h`, `detsdw.cpp`) -/

/-- The members of the Monte Carlo parameter struct that the sources read or write, beyond
those used by the main loop (the struct itself is declared in a header of its own);
`specified` is the `std::set` of the names of the parameters that have been given. -/
structure MCParams extends DetQMCParams where
  jkBlocks : Nat
  timeseries : Bool
  rngSeed : Nat
  simindex : Nat
  greenUpdateType_string : String
  saveConfigurationStreamText : Bool
  saveConfigurationStreamBinary : Bool
  stateFileName : String
  sweepsHasChanged : Bool
  specified : List String

/-- The statement `parsmc_.specified.insert(name)` under the condition `cond`. -/
def specifiedInsert (cond : Bool) (name : String) (parsmc_ : MCParams) : MCParams :=
  if cond then { parsmc_ with specified := parsmc_.specified.insert name } else parsmc_

/-- The macro `SPECIFIED_INSERT_VAL(x)` of the resume constructor:
`if (parsmc_.x) { parsmc_.specified.insert(#x); }`. -/
def SPECIFIED_INSERT_VAL (x : MCParams → Nat) (name : String) (parsmc_ : MCParams) :
    MCParams :=
  specifiedInsert (decide (x parsmc_ ≠ 0)) name parsmc_

/-- The macro `SPECIFIED_INSERT_STR(x)` of the resume constructor:
`if (not parsmc_.x.empty()) { parsmc_.specified.insert(#x); }`. -/
def SPECIFIED_INSERT_STR (x : MCParams → String) (name : String) (parsmc_ : MCParams) :
    MCParams :=
  specifiedInsert (!(x parsmc_).isEmpty) name parsmc_

/-- The first statement of the resume constructor on `parsmc_`:
`if (newParsmc.sweeps > parsmc_.sweeps) { parsmc_.sweeps = newParsmc.sweeps;
parsmc_.sweepsHasChanged = true; }`. -/
def resumeSweeps (newParsmc parsmc_ : MCParams) : MCParams :=
  if newParsmc.sweeps > parsmc_.sweeps then
    { parsmc_ with sweeps := newParsmc.sweeps, sweepsHasChanged := true }
  else parsmc_

/-- The second statement of the resume constructor on `parsmc_`:
`if (newParsmc.saveInterval > 0 and newParsmc.saveInterval != parsmc_.saveInterval)
{ parsmc_.saveInterval = newParsmc.saveInterval; }`. -/
def resumeSaveInterval (newParsmc parsmc_ : MCParams) : MCParams :=
  if newParsmc.saveInterval > 0 ∧ newParsmc.saveInterval ≠ parsmc_.saveInterval then
    { parsmc_ with saveInterval := newParsmc.saveInterval }
  else parsmc_

/-- The statement `parsmc_.stateFileName = stateFileName`. -/
def resumeStateFileName (stateFileName : String) (parsmc_ : MCParams) : MCParams :=
  { parsmc_ with stateFileName := stateFileName }

/-- The resume constructor of `DetQMCPT` between reading the four parameter structs from
the archive and the call of `initFromParameters`: what it does to `parsmc_`, statement
by statement (the innermost is executed first; the last statement,
`if (not parsmc_.greenUpdateType_string.empty()) parsmc_.specified.insert("greenUpdateType")`,
has the form of the string macro). -/
def resumedParsmc (parsmc_ newParsmc : MCParams) (stateFileName : String) : MCParams :=
  SPECIFIED_INSERT_STR (fun p => p.greenUpdateType_string) "greenUpdateType"
    (SPECIFIED_INSERT_STR (fun p => p.stateFileName) "stateFileName"
    (SPECIFIED_INSERT_VAL (fun p => p.saveInterval) "saveInterval"
    (SPECIFIED_INSERT_VAL (fun p => p.measureInterval) "measureInterval"
    (SPECIFIED_INSERT_VAL (fun p => p.jkBlocks) "jkBlocks"
    (SPECIFIED_INSERT_VAL (fun p => p.thermalization) "thermalization"
    (SPECIFIED_INSERT_VAL (fun p => p.sweeps) "sweeps"
    (resumeStateFileName stateFileName
    (resumeSaveInterval newParsmc
    (resumeSweeps newParsmc parsmc_)))))))))

/-- The four arguments `(parsmodel_, parsmc_, parspt_, parslogging_)` that the resume
constructor hands to `initFromParameters`, from the four structs read from the archive
in the order `parslogging_, parsmodel_, parsmc_, parspt_`. -/
def resumeArguments {Logging Model PT : Type} (parslogging_ : Logging) (parsmodel_ : Model)
    (parsmc_ : MCParams) (parspt_ : PT) (newParsmc : MCParams) (stateFileName : String) :
    Model × MCParams × PT × Logging :=
  (parsmodel_, resumedParsmc parsmc_ newParsmc stateFileName, parspt_, parslogging_)

/-- The members of the model parameter struct of the SDW model that `createDetSDW`
tests (the struct itself is declared in a header of its own; `L` is `unsigned`). -/
structure ModelParams where
  specified : List String
  checkerboard : Bool
  L : Nat
deriving DecidableEq

/-- The exceptions thrown by `createDetSDW`: `ParameterMissing(name)`,
`ParameterWrong(message)` and `ParameterWrong(name, value)`. -/
inductive ConfigurationError where
  | ParameterMissing (name : String)
  | ParameterWrong (message : String)
  | ParameterWrongValue (name : String) (value : Nat)
deriving DecidableEq

/-- The vector `neededModelPars` of `createDetSDW`. -/
def neededModelPars : List String := ["mu", "L", "r", "accRatio"]

/-- The function `createDetSDW`, up to the construction of the replica from the
parameters that have passed the tests.  `updateTemperatureParameters` is defined outside
the sources at hand and is an argument here. -/
def createDetSDW (updateTemperatureParameters : ModelParams → ModelParams)
    (pars0 : ModelParams) : Except ConfigurationError ModelParams :=
  let pars := updateTemperatureParameters pars0
  match neededModelPars.find? (fun p => pars.specified.count p == 0) with
  | some p => Except.error (ConfigurationError.ParameterMissing p)
  | none =>
    if pars.checkerboard = true ∧ pars.L % 2 ≠ 0 then
      Except.error (ConfigurationError.ParameterWrong
        "Checker board decomposition only supported for even linear lattice sizes")
    else if pars.specified.count "L" > 0 ∧ pars.L ≤ 0 then
      Except.error (ConfigurationError.ParameterWrongValue "L" pars.L)
    else Except.ok pars

/-! ## The state file as a sequence of values (`detqmcpt.h`) -/

/-- One value written to or read from the archive by one `ar & x` (`<<`, `>>`). Objects
whose class is defined outside the sources at hand (logging, model and replica exchange
parameters, the random number generator, an observable handler, the replica) are kept
as the text of their contents. -/
inductive ArchiveItem where
  | text (contents : String)
  | mcParams (p : MCParams)
  | number (n : Nat)
  | indices (v : List Nat)
  | counters (v : List Int)
  | directions (v : List ParameterDirection)

/-- The members of `DetQMCPT` that `saveState` writes, in one process. -/
structure Simulation where
  parslogging : String
  parsmodel : String
  parsmc : MCParams
  parspt : String
  rng : String
  obsHandlers : List String
  vecObsHandlers : List String
  sweepsDone : Nat
  sweepsDoneThermalization : Nat
  swCounter : Nat
  totalWalltimeSecs : Nat
  local_current_parameter_index : Nat
  current_process_par : List Nat
  current_par_process : List Nat
  es : ExchangeStatistics
  replica : String

/-- The function `ExchangeStatistics::serialize` for an output archive. -/
def ExchangeStatistics.save (es : ExchangeStatistics) : List ArchiveItem :=
  [ArchiveItem.counters es.par_swapUpAccepted, ArchiveItem.counters es.par_swapUpProposed,
   ArchiveItem.directions es.process_goingWhere, ArchiveItem.counters es.par_countGoingUp,
   ArchiveItem.counters es.par_countGoingDown]

/-- The function `serializeContentsCommon` for an output archive: the values in the
order of its statements. -/
def saveContentsCommon (s : Simulation) : List ArchiveItem :=
  [ArchiveItem.text s.rng] ++ s.obsHandlers.map ArchiveItem.text ++
  s.vecObsHandlers.map ArchiveItem.text ++
  [ArchiveItem.number s.sweepsDone, ArchiveItem.number s.sweepsDoneThermalization,
   ArchiveItem.number s.swCounter, ArchiveItem.number s.totalWalltimeSecs,
   ArchiveItem.number s.local_current_parameter_index,
   ArchiveItem.indices s.current_process_par, ArchiveItem.indices s.current_par_process] ++
  s.es.save

/-- The function `saveContents`: `serializeContentsCommon(ar); replica->saveContents(ar);`. -/
def saveContents (s : Simulation) : List ArchiveItem :=
  saveContentsCommon s ++ [ArchiveItem.text s.replica]

/-- The archive written by `saveState`:
`oa << parslogging << parsmodel << parsmc << parspt; saveContents(oa);`. -/
def saveState (s : Simulation) : List ArchiveItem :=
  [ArchiveItem.text s.parslogging, ArchiveItem.text s.parsmodel,
   ArchiveItem.mcParams s.parsmc, ArchiveItem.text s.parspt] ++ saveContents s

/-- The number of times a run has gone through the loops
`(*ph)->insertValue(sweepsDone)` over the observable handlers so far, which is the number
of values every single handler has received. -/
def insertValueCalls (s : RunState) : Nat :=
  s.log.countP (fun e => match e with
    | RunEvent.insertValue _ => true
    | _ => false)

/-- One step of the count of sweeps between shutdown checks: `acc.1` is the number of
sweeps since the last check (or since the start), `acc.2` the largest such number seen so
far. -/
def sweepGap (acc : Nat × Nat) (e : RunEvent) : Nat × Nat :=
  match e with
  | RunEvent.shutdownCheck => (0, acc.2)
  | RunEvent.sweepThermalization => (acc.1 + 1, max acc.2 (acc.1 + 1))
  | RunEvent.sweepMeasurement _ => (acc.1 + 1, max acc.2 (acc.1 + 1))
  | _ => acc

/-- The pair of the number of sweeps since the last shutdown check and the largest
number of sweeps performed without a shutdown check in between, for a sequence of
calls. -/
def sweepGaps (log : List RunEvent) : Nat × Nat := log.foldl sweepGap (0, 0)

/-! ## The bosonic action (`detsdw.cpp`) -/

section BosonicAction

variable {R : Type} [LinearOrderedField R]

/-- The local variable `arma::field<Phi> phi(N, m+1)` of `DetSDW::phiAction` after the
first pair of loops: the fields of the sites `0..N-1` in the time slices `1..m` are
copied from `phi0`, `phi1`, `phi2`.  The entries that the loops do not assign are taken
as zero vectors here. -/
def phiCopy (s : DetSDW R) (site timeslice : Nat) : Phi R :=
  if site < s.N ∧ 1 ≤ timeslice ∧ timeslice ≤ s.m then s.phiAt site timeslice else 0

/-- The body of the inner loop of `DetSDW::phiAction` over `site`: the five statements
`action += ...` in their order. -/
def phiActionSite (s : DetSDW R) (timeslice : Nat) (action : R) (site : Nat) : R :=
  let timeDerivative : Phi R := fun n =>
    (phiCopy s site timeslice n - phiCopy s site (timeNeigh s.m 1 timeslice) n) / s.dtau
  let action1 := action + (s.dtau / (2 * s.c * s.c)) * dot timeDerivative timeDerivative
  let xneighDiff : Phi R :=
    phiCopy s site timeslice - phiCopy s (spaceNeigh s.L XPLUS site) timeslice
  let action2 := action1 + (1 / 2) * s.dtau * dot xneighDiff xneighDiff
  let yneighDiff : Phi R :=
    phiCopy s site timeslice - phiCopy s (spaceNeigh s.L YPLUS site) timeslice
  let action3 := action2 + (1 / 2) * s.dtau * dot yneighDiff yneighDiff
  let phisq := dot (phiCopy s site timeslice) (phiCopy s site timeslice)
  let action4 := action3 + (1 / 2) * s.dtau * s.r * phisq
  action4 + (1 / 4) * s.dtau * s.u * phisq ^ 2

/-- The function `DetSDW::phiAction`: the loops over `timeslice = 1..m` and
`site = 0..N-1` starting from `action = 0`. -/
def phiAction (s : DetSDW R) : R :=
  ((List.range s.m).map (fun t => t + 1)).foldl
    (fun action timeslice => (List.range s.N).foldl (phiActionSite s timeslice) action) 0

/-- The assignments `phi0(site, timeslice) = newphi[0]; phi1(site, timeslice) = newphi[1];
phi2(site, timeslice) = newphi[2];` of an accepted update: the configuration with the
field at `(site, timeslice)` replaced by `newphi`. -/
def setPhi (s : DetSDW R) (site timeslice : Nat) (newphi : Phi R) : DetSDW R :=
  { s with
    phi0 := Function.update s.phi0 site (Function.update (s.phi0 site) timeslice (newphi 0))
    phi1 := Function.update s.phi1 site (Function.update (s.phi1 site) timeslice (newphi 1))
    phi2 := Function.update s.phi2 site (Function.update (s.phi2 site) timeslice (newphi 2)) }

end BosonicAction

/-- A model state over the rationals on the 2x2 lattice with two time slices and a
field that differs from site to site and slice to slice, for examples. -/
def actionState : DetSDW ℚ where
  L := 2
  m := 2
  dtau := 1 / 2
  r := 1
  mu := 0
  propKx := fun i j => if i = j then 1 else 0
  propKy := fun i j => if i = j then 1 else 0
  g := fun _ i j => if i = j then 1 else 0
  phi0 := fun site k => site + k
  phi1 := fun site _ => site
  phi2 := fun _ k => k
  phiCosh := fun _ _ => 1
  phiSinh := fun _ _ => 0
  phiDelta := 1 / 2
  lastAccRatio := 0

/-- The state of `DetSDW::updateInSlice` when the loop over the sites reaches `site`:
`lastAccRatio` has been reset and the sites before `site` have had their proposal. -/
def updateInSliceUpTo {R : Type} [LinearOrderedField R] (F : Libm R)
    (draws : Nat → Phi R × R) (timeslice : Nat) (s : DetSDW R) (site : Nat) : DetSDW R :=
  (List.range site).foldl
    (fun st i => siteUpdate F timeslice st i (draws i).1 (draws i).2)
    { s with lastAccRatio := 0 }

/-- Library functions over the rationals for examples in which the norm of the field
changes: the exponential and hyperbolic functions of `binaryLibm`, and the integer square
root, which is exact at the perfect squares. -/
def moveLibm : Libm ℚ where
  exp := binaryLibm.exp
  cosh := binaryLibm.cosh
  sinh := binaryLibm.sinh
  sqrt := fun x => (Nat.sqrt ⌊x⌋.toNat : ℚ)

/-- A model state over the rationals on the 2x2 lattice with three time slices, for
examples of a local move.  At every site and slice the field is a unit vector: it points
along `phi2` in the slices `1, 4, ..`, along `phi0` in the slices `2, 5, ..` and along
`phi1` in the slices `0, 3, ..`, with a sign that alternates from site to site.  The time
step is `1` (that is `ln 2` with `moveLibm`), so the caches hold `cosh(dtau*|phi|) = 5/4`
and `sinh(dtau*|phi|)/|phi| = 3/4`; `r = -10`.  The hopping exponentials are not diagonal and every
slice of the Green function is tridiagonal with `1/2` on the diagonal. -/
def moveState : DetSDW ℚ where
  L := 2
  m := 3
  dtau := 1
  r := -10
  mu := 0
  propKx := fun i j => if i = j then 2 else 1
  propKy := fun i j => if i = j then 3 else 1
  g := fun _ i j =>
    if i = j then ⟨1 / 2, 0⟩ else if i + 1 = j ∨ j + 1 = i then ⟨1 / 4, 0⟩ else 0
  phi0 := fun site k => if k % 3 = 2 then (if site % 2 = 0 then 1 else -1) else 0
  phi1 := fun site k => if k % 3 = 0 then (if site % 2 = 0 then 1 else -1) else 0
  phi2 := fun site k => if k % 3 = 1 then (if site % 2 = 0 then 1 else -1) else 0
  phiCosh := fun _ _ => 5 / 4
  phiSinh := fun _ _ => 3 / 4
  phiDelta := 2
  lastAccRatio := 0

/-- The values drawn for the proposal at site `0` and slice `1` of `moveState` in the
examples: the field `(0, 0, 1)` becomes `(0, -2, 0)`. -/
def moveDraw : Phi ℚ := ![0, -2, -1]

/-- The values drawn in a sweep over slice `1` of `moveState` in the examples: at every
site the proposed field is `(0, -2, 0)`, and the value of `rand01` is `1 / 2`. -/
def moveDraws : Nat → Phi ℚ × ℚ :=
  fun site => (![0, -2, if site % 2 = 0 then -1 else 1], 1 / 2)

/-- The rows of `Delta*(I - G)` for the proposal `moveDraw` at site `0` and slice `1` of
`moveState`. -/
def moveRows : Nat → Nat → Cpx ℚ := fun r =>
  deltaRow moveState.N 0
    (deltanonzero moveLibm moveState 0 1 (proposeNewField moveState 0 1 moveDraw))
    (moveState.g 1) r

/-! # Theorems -/

/-! ### Real and imaginary parts -/

namespace Cpx

variable {R : Type}

@[simp] theorem zero_re [Zero R] : (0 : Cpx R).re = 0 := rfl
@[simp] theorem zero_im [Zero R] : (0 : Cpx R).im = 0 := rfl
@[simp] theorem one_re [Zero R] [One R] : (1 : Cpx R).re = 1 := rfl
@[simp] theorem one_im [Zero R] [One R] : (1 : Cpx R).im = 0 := rfl
@[simp] theorem add_re [Add R] (z w : Cpx R) : (z + w).re = z.re + w.re := rfl
@[simp] theorem add_im [Add R] (z w : Cpx R) : (z + w).im = z.im + w.im := rfl
@[simp] theorem neg_re [Neg R] (z : Cpx R) : (-z).re = -z.re := rfl
@[simp] theorem neg_im [Neg R] (z : Cpx R) : (-z).im = -z.im := rfl
@[simp] theorem sub_re [Sub R] (z w : Cpx R) : (z - w).re = z.re - w.re := rfl
@[simp] theorem sub_im [Sub R] (z w : Cpx R) : (z - w).im = z.im - w.im := rfl
@[simp] theorem mul_re [Add R] [Sub R] [Mul R] (z w : Cpx R) :
    (z * w).re = z.re * w.re - z.im * w.im := rfl
@[simp] theorem mul_im [Add R] [Sub R] [Mul R] (z w : Cpx R) :
    (z * w).im = z.re * w.im + z.im * w.re := rfl
@[simp] theorem ofReal_re [Zero R] (x : R) : (ofReal x).re = x := rfl
@[simp] theorem ofReal_im [Zero R] (x : R) : (ofReal x).im = 0 := rfl
@[simp] theorem I_re [Zero R] [One R] : (I : Cpx R).re = 0 := rfl
@[simp] theorem I_im [Zero R] [One R] : (I : Cpx R).im = 1 := rfl
@[simp] theorem natCast_re [CommRing R] (n : Nat) : ((n : Cpx R)).re = n := rfl
@[simp] theorem natCast_im [CommRing R] (n : Nat) : ((n : Cpx R)).im = 0 := rfl
@[simp] theorem intCast_re [CommRing R] (n : Int) : ((n : Cpx R)).re = n := rfl
@[simp] theorem intCast_im [CommRing R] (n : Int) : ((n : Cpx R)).im = 0 := rfl
theorem inv_re [LinearOrderedField R] (z : Cpx R) :
    (z⁻¹).re = z.re / (z.re * z.re + z.im * z.im) := rfl
theorem inv_im [LinearOrderedField R] (z : Cpx R) :
    (z⁻¹).im = -z.im / (z.re * z.re + z.im * z.im) := rfl

end Cpx


/-! ### Lemmas on the bookkeeping -/

theorem getD_set_nat (l : List Nat) (i j v : Nat) :
    (l.set i v).getD j 0 = if i = j ∧ i < l.length then v else l.getD j 0 := by
  simp only [List.getD_eq_getElem?_getD, List.getElem?_set]
  by_cases h : i = j
  · by_cases h2 : i < l.length
    · subst h
      simp [h2]
    · subst h
      simp [h2, List.getElem?_eq_none (not_lt.mp h2)]
  · simp [h]

theorem getElem?_eq_some_getD (l : List Nat) (i : Nat) (h : i < l.length) :
    l[i]? = some (l.getD i 0) := by
  simp [List.getD_eq_getElem?_getD, List.getElem?_eq_getElem h]

theorem mutualInverse_init (P : Nat) :
    MutualInverse P (List.range P) (List.range P) := by
  refine ⟨List.length_range P, List.length_range P, ?_, ?_⟩ <;>
  · intro p hp
    simp [List.getD_eq_getElem?_getD, List.getElem?_range hp, hp]

theorem updateHistograms_perm (s : RootState) :
    (updateHistograms s).numProcesses = s.numProcesses ∧
    (updateHistograms s).current_process_par = s.current_process_par ∧
    (updateHistograms s).current_par_process = s.current_par_process := by
  simp [updateHistograms]

theorem exchangePairStep_numProcesses (accept : Nat → Bool) (s : RootState) (c : Nat) :
    (exchangePairStep accept s c).numProcesses = s.numProcesses := by
  unfold exchangePairStep
  by_cases h : accept c <;> simp [h]

/-- Exchanging the images of `c` and `c + 1` keeps two maps inverse to each other. -/
theorem swap_keeps_inverse (P c : Nat) (f g : Nat → Nat) (hc : c + 1 < P)
    (hf : ∀ p, p < P → f p < P ∧ g (f p) = p)
    (hg : ∀ q, q < P → g q < P ∧ f (g q) = q) :
    (∀ p, p < P →
      (if g (c + 1) = p then c else if g c = p then c + 1 else f p) < P ∧
      (fun q => if c + 1 = q then g c else if c = q then g (c + 1) else g q)
        (if g (c + 1) = p then c else if g c = p then c + 1 else f p) = p) ∧
    (∀ q, q < P →
      (if c + 1 = q then g c else if c = q then g (c + 1) else g q) < P ∧
      (fun p => if g (c + 1) = p then c else if g c = p then c + 1 else f p)
        (if c + 1 = q then g c else if c = q then g (c + 1) else g q) = q) := by
  have h1 := hg c (by omega)
  have h2 := hg (c + 1) hc
  have hne : g (c + 1) ≠ g c := by
    intro hh
    have := h2.2
    rw [hh, h1.2] at this
    omega
  constructor
  · intro p hp
    have h3 := hf p hp
    by_cases e2 : g (c + 1) = p
    · simp only [e2, if_true]
      refine ⟨by omega, ?_⟩
      have : ¬ (c + 1 = c) := by omega
      simp only [this, if_false, if_true]
    · by_cases e1 : g c = p
      · simp only [e2, e1, if_false, if_true]
        exact ⟨hc, trivial⟩
      · have n1 : ¬ (c = f p) := by
          intro hh; rw [hh, h3.2] at e1; exact e1 rfl
        have n2 : ¬ (c + 1 = f p) := by
          intro hh; rw [hh, h3.2] at e2; exact e2 rfl
        simp only [e2, e1, n1, n2, if_false]
        exact h3
  · intro q hq
    have h3 := hg q hq
    by_cases e2 : c + 1 = q
    · subst e2
      simp only [if_true]
      refine ⟨h1.1, ?_⟩
      simp only [hne, if_false, if_true]
    · by_cases e1 : c = q
      · subst e1
        simp only [e2, if_false, if_true]
        exact ⟨h2.1, trivial⟩
      · have n1 : ¬ (g c = g q) := by
          intro hh
          have := h1.2
          rw [hh, h3.2] at this
          exact e1 this.symm
        have n2 : ¬ (g (c + 1) = g q) := by
          intro hh
          have := h2.2
          rw [hh, h3.2] at this
          exact e2 this.symm
        simp only [e1, e2, n1, n2, if_false]
        exact h3

theorem exchangePairStep_inverse (accept : Nat → Bool) (s : RootState) (c : Nat)
    (hc : c + 1 < s.numProcesses)
    (h : MutualInverse s.numProcesses s.current_process_par s.current_par_process) :
    MutualInverse s.numProcesses (exchangePairStep accept s c).current_process_par
      (exchangePairStep accept s c).current_par_process := by
  unfold exchangePairStep
  by_cases ha : accept c
  · obtain ⟨hl1, hl2, hp, hq⟩ := h
    have h1 := hq c (by omega)
    have h2 := hq (c + 1) hc
    have hsw := swap_keeps_inverse s.numProcesses c (fun p => s.current_process_par.getD p 0)
      (fun q => s.current_par_process.getD q 0) hc hp hq
    simp only [ha, if_true]
    refine ⟨by simp [hl1], by simp [hl2], ?_, ?_⟩
    · intro p hpP
      have := hsw.1 p hpP
      simp only [getD_set_nat, List.length_set, hl1, hl2, h1.1, h2.1, hc,
        Nat.lt_of_succ_lt hc, and_true]
      exact this
    · intro q hqP
      have := hsw.2 q hqP
      simp only [getD_set_nat, List.length_set, hl1, hl2, h1.1, h2.1, hc,
        Nat.lt_of_succ_lt hc, and_true]
      exact this
  · simpa [ha] using h

theorem foldl_exchange_inverse (accept : Nat → Bool) (n : Nat) (s : RootState)
    (hn : n + 1 ≤ s.numProcesses ∨ n = 0)
    (h : MutualInverse s.numProcesses s.current_process_par s.current_par_process) :
    ((List.range n).foldl (exchangePairStep accept) s).numProcesses = s.numProcesses ∧
    MutualInverse s.numProcesses
      ((List.range n).foldl (exchangePairStep accept) s).current_process_par
      ((List.range n).foldl (exchangePairStep accept) s).current_par_process := by
  induction n with
  | zero => simpa using h
  | succ k ih =>
    have hk : k + 1 ≤ s.numProcesses ∨ k = 0 := by omega
    obtain ⟨ihn, ihm⟩ := ih hk
    rw [List.range_succ, List.foldl_append]
    simp only [List.foldl_cons, List.foldl_nil]
    refine ⟨by rw [exchangePairStep_numProcesses, ihn], ?_⟩
    have := exchangePairStep_inverse accept
      ((List.range k).foldl (exchangePairStep accept) s) k (by rw [ihn]; omega)
      (by rw [ihn]; exact ihm)
    rw [ihn] at this
    exact this

theorem replicaExchangeStep_inverse (gathered : List String) (accept : Nat → Bool)
    (s : RootState)
    (h : MutualInverse s.numProcesses s.current_process_par s.current_par_process) :
    (replicaExchangeStep gathered accept s).numProcesses = s.numProcesses ∧
    MutualInverse s.numProcesses (replicaExchangeStep gathered accept s).current_process_par
      (replicaExchangeStep gathered accept s).current_par_process := by
  unfold replicaExchangeStep serialPass
  have hu := updateHistograms_perm { s with process_control_data_buffer := gathered }
  obtain ⟨hu1, hu2, hu3⟩ := hu
  have := foldl_exchange_inverse accept
    ((updateHistograms { s with process_control_data_buffer := gathered }).numProcesses - 1)
    (updateHistograms { s with process_control_data_buffer := gathered })
    (by omega) (by rw [hu1, hu2, hu3]; exact h)
  rw [hu1] at this
  rw [hu1]
  exact this

theorem afterRounds_inverse (P : Nat) (rounds : List (List String × (Nat → Bool))) :
    (afterRounds P rounds).numProcesses = P ∧
    MutualInverse P (afterRounds P rounds).current_process_par
      (afterRounds P rounds).current_par_process := by
  unfold afterRounds
  induction rounds using List.reverseRecOn with
  | nil => exact ⟨rfl, mutualInverse_init P⟩
  | append_singleton rs r ih =>
    rw [List.foldl_append]
    simp only [List.foldl_cons, List.foldl_nil]
    obtain ⟨ih1, ih2⟩ := ih
    have := replicaExchangeStep_inverse r.1 r.2 _ (by rw [ih1]; exact ih2)
    rw [ih1] at this
    exact this

/-- A vector that has an inverse on `{0, ..., P - 1}` is a permutation of it. -/
theorem perm_of_mutualInverse (P : Nat) (f g : List Nat) (hlen : f.length = P)
    (hf : ∀ p, p < P → f.getD p 0 < P ∧ g.getD (f.getD p 0) 0 = p)
    (hg : ∀ c, c < P → g.getD c 0 < P ∧ f.getD (g.getD c 0) 0 = c) :
    f.Perm (List.range P) := by
  have hnd : f.Nodup := by
    rw [List.nodup_iff_getElem?_ne_getElem?]
    intro i j hij hj heq
    have hi : i < f.length := by omega
    rw [getElem?_eq_some_getD f i hi, getElem?_eq_some_getD f j hj] at heq
    have e : f.getD i 0 = f.getD j 0 := Option.some.inj heq
    have h1 := (hf i (by omega)).2
    have h2 := (hf j (by omega)).2
    rw [e, h2] at h1
    omega
  rw [List.perm_ext_iff_of_nodup hnd (List.nodup_range P)]
  intro a
  rw [List.mem_range, List.mem_iff_getElem?]
  constructor
  · rintro ⟨i, hi⟩
    obtain ⟨hlt, _⟩ := List.getElem?_eq_some.mp hi
    rw [getElem?_eq_some_getD f i hlt] at hi
    rw [← Option.some.inj hi]
    exact (hf i (by omega)).1
  · intro ha
    obtain ⟨h1, h2⟩ := hg a ha
    refine ⟨g.getD a 0, ?_⟩
    rw [getElem?_eq_some_getD f _ (by omega), h2]

/-- C1: at rank 0 the vectors `current_process_par` and `current_par_process` are the
identity on `{0, ..., P - 1}` after `initFromParameters`, and after any number of
replica exchange rounds with arbitrary accept/reject outcomes they are mutually
inverse maps of `{0, ..., P - 1}` into itself, both permutations of `0, ..., P - 1`. -/
theorem C1_permutations_mutually_inverse (P : Nat)
    (rounds : List (List String × (Nat → Bool))) :
    (initFromParameters P).current_process_par = List.range P ∧
    (initFromParameters P).current_par_process = List.range P ∧
    (∀ p, p < P → ∃ c, c < P ∧
      (afterRounds P rounds).current_process_par[p]? = some c ∧
      (afterRounds P rounds).current_par_process[c]? = some p) ∧
    (∀ c, c < P → ∃ p, p < P ∧
      (afterRounds P rounds).current_par_process[c]? = some p ∧
      (afterRounds P rounds).current_process_par[p]? = some c) ∧
    (afterRounds P rounds).current_process_par.Perm (List.range P) ∧
    (afterRounds P rounds).current_par_process.Perm (List.range P) := by
  obtain ⟨_, hl1, hl2, hp, hq⟩ := afterRounds_inverse P rounds
  refine ⟨rfl, rfl, ?_, ?_, perm_of_mutualInverse P _ _ hl1 hp hq,
    perm_of_mutualInverse P _ _ hl2 hq hp⟩
  · intro p hpP
    obtain ⟨hb, hi⟩ := hp p hpP
    refine ⟨(afterRounds P rounds).current_process_par.getD p 0, hb, ?_, ?_⟩
    · exact getElem?_eq_some_getD _ p (by omega)
    · have := getElem?_eq_some_getD (afterRounds P rounds).current_par_process
        ((afterRounds P rounds).current_process_par.getD p 0) (by omega)
      rw [hi] at this
      exact this
  · intro c hcP
    obtain ⟨hb, hi⟩ := hq c hcP
    refine ⟨(afterRounds P rounds).current_par_process.getD c 0, hb, ?_, ?_⟩
    · exact getElem?_eq_some_getD _ c (by omega)
    · have := getElem?_eq_some_getD (afterRounds P rounds).current_process_par
        ((afterRounds P rounds).current_par_process.getD c 0) (by omega)
      rw [hi] at this
      exact this

/-! ### The neighbour table -/

theorem u32_of_lt {n : Nat} (h : n < 2 ^ 32) : u32 n = n := Nat.mod_eq_of_lt h

theorem siteOfCoords_append (L : Nat) (l : List Nat) (x : Nat) :
    siteOfCoords L (l ++ [x]) = siteOfCoords L l + x * L ^ l.length := by
  induction l with
  | nil => simp [siteOfCoords]
  | cons y l ih =>
    show y + L * siteOfCoords L (l ++ [x]) = y + L * siteOfCoords L l + x * L ^ (l.length + 1)
    rw [ih, pow_succ]
    ring

theorem siteOfCoords_lt (L : Nat) (l : List Nat) (h : ∀ x ∈ l, x < L) :
    siteOfCoords L l < L ^ l.length := by
  induction l with
  | nil => simp [siteOfCoords]
  | cons y l ih =>
    have h1 := ih (fun x hx => h x (List.mem_cons_of_mem _ hx))
    have h2 := h y (List.mem_cons_self _ _)
    simp only [siteOfCoords, List.length_cons, pow_succ]
    calc y + L * siteOfCoords L l < L + L * siteOfCoords L l := by omega
      _ = L * (siteOfCoords L l + 1) := by ring
      _ ≤ L * L ^ l.length := Nat.mul_le_mul_left _ h1
      _ = L ^ l.length * L := by ring

theorem take_succ_of_lt (xs : List Nat) (k : Nat) (hk : k < xs.length) :
    xs.take (k + 1) = xs.take k ++ [xs.getD k 0] := by
  rw [List.take_succ, List.getD_eq_getElem?_getD, List.getElem?_eq_getElem hk]
  simp

theorem siteOfCoords_take_succ (L : Nat) (xs : List Nat) (k : Nat) (hk : k < xs.length) :
    siteOfCoords L (xs.take (k + 1)) = siteOfCoords L (xs.take k) + xs.getD k 0 * L ^ k := by
  rw [take_succ_of_lt xs k hk, siteOfCoords_append, List.length_take, min_eq_left hk.le]

theorem siteOfCoords_take_lt (L : Nat) (xs : List Nat) (k : Nat) (hk : k ≤ xs.length)
    (h : ∀ x ∈ xs, x < L) : siteOfCoords L (xs.take k) < L ^ k := by
  have := siteOfCoords_lt L (xs.take k) (fun x hx => h x (List.mem_of_mem_take hx))
  rwa [List.length_take, min_eq_left hk] at this

theorem getD_lt_of_forall (L : Nat) (xs : List Nat) (k : Nat) (hk : k < xs.length)
    (h : ∀ x ∈ xs, x < L) : xs.getD k 0 < L := by
  rw [List.getD_eq_getElem?_getD, List.getElem?_eq_getElem hk]
  exact h _ (List.getElem_mem hk)

/-- Without overflow `coordsToSite` is the sum `sum x_i * L ^ i`. -/
theorem coordsToSite_eq (d L : Nat) (h32 : L ^ d < 2 ^ 32) (hL : 1 ≤ L)
    (ys : List Nat) (hlen : ys.length = d) (h : ∀ x ∈ ys, x < L) :
    coordsToSite d L ys = siteOfCoords L ys := by
  have key : ∀ k, k ≤ d →
      (List.range k).foldl (fun site dim => u32 (site + ys.getD dim 0 * uint_pow L dim)) 0
        = siteOfCoords L (ys.take k) := by
    intro k
    induction k with
    | zero => intro _; simp [siteOfCoords]
    | succ k ih =>
      intro hk
      rw [List.range_succ, List.foldl_append, ih (by omega)]
      simp only [List.foldl_cons, List.foldl_nil, uint_pow]
      rw [← siteOfCoords_take_succ L ys k (by omega)]
      apply u32_of_lt
      have h1 := siteOfCoords_take_lt L ys (k + 1) (by omega) h
      have h2 : L ^ (k + 1) ≤ L ^ d := Nat.pow_le_pow_right hL hk
      omega
  unfold coordsToSite
  rw [key d le_rfl, ← hlen, List.take_length]

theorem coordStep_fold_length (L : Nat) (l : List Nat) (st : Nat × List Nat) :
    (l.foldl (coordStep L) st).2.length = st.2.length := by
  induction l generalizing st with
  | nil => rfl
  | cons a l ih => rw [List.foldl_cons, ih]; simp [coordStep]

theorem siteCoords_length (d L site : Nat) (cur : List Nat) :
    (siteCoords d L site cur).length = cur.length := by
  unfold siteCoords
  rw [coordStep_fold_length]

/-- The loop over `idim` recovers the coordinates of a site, whatever `curCoords` held. -/
theorem siteCoords_eq (d L : Nat) (h32 : L ^ d < 2 ^ 32) (hL : 1 ≤ L)
    (xs : List Nat) (hlen : xs.length = d) (h : ∀ x ∈ xs, x < L)
    (cur : List Nat) (hcur : cur.length = d) :
    siteCoords d L (siteOfCoords L xs) cur = xs := by
  have key : ∀ k, k ≤ d → ∀ cur0 : List Nat, cur0.length = d → ∀ i,
      ((List.range k).reverse.foldl (coordStep L) (siteOfCoords L (xs.take k), cur0)).2[i]?
        = if i < k then xs[i]? else cur0[i]? := by
    intro k
    induction k with
    | zero => intro _ c _ i; simp
    | succ k ih =>
      intro hk c hc i
      rw [List.range_succ, List.reverse_append, List.reverse_singleton, List.singleton_append,
        List.foldl_cons]
      have hS := siteOfCoords_take_succ L xs k (by omega)
      have hlt := siteOfCoords_take_lt L xs k (by omega) h
      have hlt1 := siteOfCoords_take_lt L xs (k + 1) (by omega) h
      have hpow : L ^ (k + 1) ≤ L ^ d := Nat.pow_le_pow_right hL hk
      have hx := getD_lt_of_forall L xs k (by omega) h
      have hpos : 0 < L ^ k := Nat.pow_pos hL
      have hdiv : siteOfCoords L (xs.take (k + 1)) / L ^ k = xs.getD k 0 := by
        rw [hS, Nat.add_mul_div_right _ _ hpos, Nat.div_eq_of_lt hlt, zero_add]
      have hle : xs.getD k 0 * L ^ k ≤ siteOfCoords L (xs.take (k + 1)) := by omega
      have hle2 : xs.getD k 0 ≤ xs.getD k 0 * L ^ k := Nat.le_mul_of_pos_right _ hpos
      have hstep : coordStep L (siteOfCoords L (xs.take (k + 1)), c) k
          = (siteOfCoords L (xs.take k), c.set k (xs.getD k 0)) := by
        simp only [coordStep, uint_pow, hdiv]
        rw [u32_of_lt (show xs.getD k 0 < 2 ^ 32 by omega),
          u32_of_lt (show xs.getD k 0 * L ^ k < 2 ^ 32 by omega)]
        congr 1
        have : siteOfCoords L (xs.take (k + 1)) + 2 ^ 32 - xs.getD k 0 * L ^ k
            = siteOfCoords L (xs.take k) + 2 ^ 32 := by omega
        rw [this]
        unfold u32
        rw [Nat.add_mod_right]
        exact Nat.mod_eq_of_lt (by omega)
      rw [hstep, ih (by omega) _ (by simp [hc])]
      by_cases hi : i < k
      · simp [hi, Nat.lt_succ_of_lt hi]
      · by_cases hik : i = k
        · subst hik
          simp only [lt_self_iff_false, if_false, Nat.lt_succ_self, if_true]
          rw [List.getElem?_set_self (by omega), List.getD_eq_getElem?_getD,
            List.getElem?_eq_getElem (show i < xs.length by omega)]
          simp
        · have : ¬ i < k + 1 := by omega
          simp only [hi, this, if_false]
          rw [List.getElem?_set_ne (Ne.symm hik)]
  apply List.ext_getElem?
  intro i
  unfold siteCoords
  have := key d le_rfl cur hcur i
  rw [← hlen, List.take_length, hlen] at this
  rw [this]
  by_cases hi : i < d
  · simp [hi]
  · simp only [hi, if_false]
    rw [List.getElem?_eq_none (by omega), List.getElem?_eq_none (by omega)]

theorem flatMap_pair_getElem? (f : Nat → List Nat) (a b : Nat → Nat)
    (hf : ∀ i, f i = [a i, b i]) (l : List Nat) (k : Nat) :
    (l.flatMap f)[2 * k]? = l[k]?.map a ∧ (l.flatMap f)[2 * k + 1]? = l[k]?.map b := by
  induction l generalizing k with
  | nil => simp
  | cons x l ih =>
    cases k with
    | zero => simp [List.flatMap_cons, hf]
    | succ k =>
      have e1 : 2 * (k + 1) = 2 * k + 2 := by ring
      have e2 : 2 * k + 2 + 1 = (2 * k + 1) + 2 := by ring
      simp only [List.flatMap_cons, hf x, List.cons_append, List.nil_append]
      rw [e1, e2]
      simp only [List.getElem?_cons_succ]
      exact ih k

theorem neighborColumn_getElem? (d L : Nat) (cur : List Nat) (dim : Nat) (hdim : dim < d) :
    (neighborColumn d L cur)[2 * dim]?
      = some (coordsToSite d L (cur.set dim (u32 (cur.getD dim 0 + 1) % L))) ∧
    (neighborColumn d L cur)[2 * dim + 1]?
      = some (coordsToSite d L
          (cur.set dim (u32 (u32 (cur.getD dim 0 + 2 ^ 32 - 1) + L) % L))) := by
  have := flatMap_pair_getElem? (neighborPair d L cur) _ _ (fun i => rfl) (List.range d) dim
  rw [List.getElem?_range hdim] at this
  exact this

theorem tableStep_fold (d L : Nat) (n : Nat) :
    ((List.range n).foldl (tableStep d L) (List.replicate d 0, [])).1.length = d ∧
    ((List.range n).foldl (tableStep d L) (List.replicate d 0, [])).2.length = n ∧
    ∀ site, site < n → ∃ cur : List Nat, cur.length = d ∧
      ((List.range n).foldl (tableStep d L) (List.replicate d 0, [])).2[site]?
        = some (neighborColumn d L (siteCoords d L site cur)) := by
  induction n with
  | zero => simp
  | succ n ih =>
    obtain ⟨h1, h2, h3⟩ := ih
    rw [List.range_succ, List.foldl_append]
    simp only [List.foldl_cons, List.foldl_nil, tableStep]
    refine ⟨by rw [siteCoords_length, h1], by simp [h2], ?_⟩
    intro site hs
    by_cases hlt : site < n
    · obtain ⟨cur, hc, he⟩ := h3 site hlt
      refine ⟨cur, hc, ?_⟩
      rw [List.getElem?_append_left (by omega), he]
    · have : site = n := by omega
      subst this
      refine ⟨_, h1, ?_⟩
      rw [List.getElem?_append_right (by omega), h2]
      simp

/-- A lookup in the table reads the column computed from the coordinates of the site. -/
theorem neighbor_eq (d L dir site : Nat) (hs : site < u32 (uint_pow L d)) :
    ∃ cur : List Nat, cur.length = d ∧
      neighbor d L dir site = (neighborColumn d L (siteCoords d L site cur))[dir]? := by
  obtain ⟨_, _, h3⟩ := tableStep_fold d L (u32 (uint_pow L d))
  obtain ⟨cur, hc, he⟩ := h3 site hs
  refine ⟨cur, hc, ?_⟩
  unfold neighbor nearestNeighbors
  rw [he]

theorem forall_lt_set (L : Nat) (xs : List Nat) (h : ∀ x ∈ xs, x < L) (i v : Nat)
    (hv : v < L) : ∀ x ∈ xs.set i v, x < L := by
  intro x hx
  rcases List.mem_or_eq_of_mem_set hx with h1 | h1
  · exact h x h1
  · rw [h1]; exact hv

/-- Where the sum `x_dim - 1 + L` stays in the range of `unsigned` (always so for
`L <= 2 ^ 31`) the table holds the periodic neighbours: direction `2 * dim` leads to
the site with `x_dim` replaced by `(x_dim + 1) mod L` and direction `2 * dim + 1` to the
site with `x_dim` replaced by `(x_dim - 1) mod L`. -/
theorem neighbor_periodic (d L : Nat) (hL : 1 ≤ L) (h32 : L ^ d < 2 ^ 32)
    (xs : List Nat) (hlen : xs.length = d) (h : ∀ x ∈ xs, x < L)
    (dim : Nat) (hdim : dim < d) (hov : xs.getD dim 0 + L ≤ 2 ^ 32) :
    neighbor d L (2 * dim) (siteOfCoords L xs)
      = some (siteOfCoords L (xs.set dim ((xs.getD dim 0 + 1) % L))) ∧
    neighbor d L (2 * dim + 1) (siteOfCoords L xs)
      = some (siteOfCoords L (xs.set dim ((xs.getD dim 0 + L - 1) % L))) := by
  have hsite : siteOfCoords L xs < u32 (uint_pow L d) := by
    have := siteOfCoords_lt L xs h
    rw [hlen] at this
    rw [uint_pow, u32_of_lt h32]
    exact this
  have hx := getD_lt_of_forall L xs dim (by omega) h
  have hLpos : 0 < L := hL
  constructor
  · obtain ⟨cur, hc, he⟩ := neighbor_eq d L (2 * dim) _ hsite
    rw [he, siteCoords_eq d L h32 hL xs hlen h cur hc, (neighborColumn_getElem? d L xs dim hdim).1]
    rw [u32_of_lt (show xs.getD dim 0 + 1 < 2 ^ 32 by omega)]
    rw [coordsToSite_eq d L h32 hL _ (by simp [hlen])
      (forall_lt_set L xs h _ _ (Nat.mod_lt _ hLpos))]
  · obtain ⟨cur, hc, he⟩ := neighbor_eq d L (2 * dim + 1) _ hsite
    rw [he, siteCoords_eq d L h32 hL xs hlen h cur hc, (neighborColumn_getElem? d L xs dim hdim).2]
    have hw : u32 (u32 (xs.getD dim 0 + 2 ^ 32 - 1) + L) % L = (xs.getD dim 0 + L - 1) % L := by
      by_cases h0 : xs.getD dim 0 = 0
      · rw [h0]
        have e1 : u32 (0 + 2 ^ 32 - 1) = 2 ^ 32 - 1 := u32_of_lt (by omega)
        rw [e1]
        have e2 : 2 ^ 32 - 1 + L = (L - 1) + 2 ^ 32 := by omega
        rw [e2]
        unfold u32
        rw [Nat.add_mod_right, Nat.mod_eq_of_lt (show L - 1 < 2 ^ 32 by omega)]
        simp
      · have e1 : xs.getD dim 0 + 2 ^ 32 - 1 = (xs.getD dim 0 - 1) + 2 ^ 32 := by omega
        rw [e1]
        unfold u32
        rw [Nat.add_mod_right, Nat.mod_eq_of_lt (show xs.getD dim 0 - 1 < 2 ^ 32 by omega),
          Nat.mod_eq_of_lt (show xs.getD dim 0 - 1 + L < 2 ^ 32 by omega)]
        congr 1
        omega
    rw [hw, coordsToSite_eq d L h32 hL _ (by simp [hlen])
      (forall_lt_set L xs h _ _ (Nat.mod_lt _ hLpos))]

/-- The column of the table for a site holds the entries computed from its coordinates. -/
theorem nearestNeighbors_column (d L : Nat) (hL : 1 ≤ L) (h32 : L ^ d < 2 ^ 32)
    (xs : List Nat) (hlen : xs.length = d) (h : ∀ x ∈ xs, x < L) :
    (nearestNeighbors d L).getD (siteOfCoords L xs) [] = neighborColumn d L xs := by
  have hsite : siteOfCoords L xs < u32 (uint_pow L d) := by
    have := siteOfCoords_lt L xs h
    rw [hlen] at this
    rw [uint_pow, u32_of_lt h32]
    exact this
  obtain ⟨_, _, h3⟩ := tableStep_fold d L (u32 (uint_pow L d))
  obtain ⟨cur, hc, he⟩ := h3 _ hsite
  unfold nearestNeighbors
  rw [List.getD_eq_getElem?_getD, he, siteCoords_eq d L h32 hL xs hlen h cur hc]
  rfl

/-- C2: for the chain of `4294967295` sites (`d = 1`, `L = 2 ^ 32 - 1`) the table entry
of site `2` in `-` direction is site `0`, while the periodic neighbour, the site with
`x_0` replaced by `(x_0 - 1) mod L`, is site `1`: the sum `x - 1 + L` has left the
range of `unsigned`. -/
theorem C2_neighbor_large_chain :
    neighbor 1 4294967295 1 2 = some 0 ∧
    siteOfCoords 4294967295
      ([2].set 0 ((([2] : List Nat).getD 0 0 + 4294967295 - 1) % 4294967295)) = 1 := by
  constructor
  · obtain ⟨cur, hc, he⟩ := neighbor_eq 1 4294967295 1 2 (by simp [u32, uint_pow])
    rw [he]
    have hcol := (neighborColumn_getElem? 1 4294967295 (siteCoords 1 4294967295 2 cur) 0
      (by decide)).2
    simp only [Nat.mul_zero, Nat.zero_add] at hcol
    rw [hcol]
    have hr : List.range 1 = [0] := rfl
    have h2 : u32 2 = 2 := u32_of_lt (by norm_num)
    match cur, hc with
    | [a], _ =>
      have hsc : siteCoords 1 4294967295 2 [a] = [2] := by
        simp only [siteCoords, hr, List.reverse_singleton, List.foldl_cons, List.foldl_nil,
          coordStep, List.set_cons_zero, uint_pow, pow_zero, Nat.div_one, h2]
      rw [hsc]
      simp [uint_pow, u32, coordsToSite, hr]
  · simp [siteOfCoords]

/-! ### The bosonic action difference -/

section Action

variable {R : Type} [LinearOrderedField R]

/-- The time neighbours of a slice `t` in `1..m` are the periodic ones, where the table
of the chain is right (see `neighbor_periodic`). -/
theorem timeNeigh_periodic (m t : Nat) (ht1 : 1 ≤ t) (htm : t ≤ m) (hm : m < 2 ^ 32)
    (hov : t + m ≤ 2 ^ 32 + 1) :
    timeNeigh m 1 t = (if t = 1 then m else t - 1) ∧
    timeNeigh m 0 t = (if t = m then 1 else t + 1) := by
  have hu : u32 (t + 2 ^ 32 - 1) = t - 1 := by
    have e : t + 2 ^ 32 - 1 = (t - 1) + 2 ^ 32 := by omega
    rw [e]
    unfold u32
    rw [Nat.add_mod_right]
    exact Nat.mod_eq_of_lt (by omega)
  have hs : siteOfCoords m [t - 1] = t - 1 := by simp [siteOfCoords]
  have hper := neighbor_periodic 1 m (by omega) (by simpa using hm) [t - 1] rfl
    (by intro x hx; simp at hx; omega) 0 (by decide) (by simp; omega)
  rw [hs] at hper
  simp only [Nat.mul_zero, Nat.zero_add, List.getD_cons_zero, List.set_cons_zero] at hper
  obtain ⟨hp, hq⟩ := hper
  unfold timeNeigh
  rw [hu, hp, hq]
  simp only [Option.getD_some, siteOfCoords, Nat.mul_zero, Nat.add_zero]
  constructor
  · by_cases h1 : t = 1
    · subst h1
      have : (1 - 1 + m - 1) % m = m - 1 := by
        rw [show 1 - 1 + m - 1 = m - 1 by omega]
        exact Nat.mod_eq_of_lt (by omega)
      rw [this, if_pos rfl]
      have e : m - 1 + 1 = m := by omega
      rw [e]
      exact u32_of_lt hm
    · have : (t - 1 + m - 1) % m = t - 2 := by
        rw [show t - 1 + m - 1 = (t - 2) + m by omega, Nat.add_mod_right]
        exact Nat.mod_eq_of_lt (by omega)
      rw [this, if_neg h1]
      have e : t - 2 + 1 = t - 1 := by omega
      rw [e]
      exact u32_of_lt (by omega)
  · by_cases h1 : t = m
    · subst h1
      have : (t - 1 + 1) % t = 0 := by
        rw [show t - 1 + 1 = t by omega]
        exact Nat.mod_self t
      rw [this, if_pos rfl]
      exact u32_of_lt (by norm_num)
    · have : (t - 1 + 1) % m = t := by
        rw [show t - 1 + 1 = t by omega]
        exact Nat.mod_eq_of_lt (by omega)
      rw [this, if_neg h1]
      exact u32_of_lt (by omega)

/-- The column of the table of the square lattice for the site `(x, y)`. -/
theorem spaceNeigh_column (L x y : Nat) (hL : 1 ≤ L) (hLL : L * L < 2 ^ 32)
    (hx : x < L) (hy : y < L) :
    (nearestNeighbors 2 L).getD (x + L * y) []
      = [(x + 1) % L + L * y, (x + L - 1) % L + L * y,
         x + L * ((y + 1) % L), x + L * ((y + L - 1) % L)] := by
  have h32 : L ^ 2 < 2 ^ 32 := by rw [pow_two]; exact hLL
  have hxs : ∀ v ∈ [x, y], v < L := by
    intro v hv
    simp at hv
    rcases hv with rfl | rfl <;> assumption
  have hcol := nearestNeighbors_column 2 L hL h32 [x, y] rfl hxs
  have hs : siteOfCoords L [x, y] = x + L * y := by simp [siteOfCoords]
  rw [hs] at hcol
  rw [hcol]
  have hLpos : 0 < L := hL
  have hL16 : L < 2 ^ 16 := by
    by_contra hcon
    have h1 : 2 ^ 16 ≤ L := not_lt.mp hcon
    have h2 : 2 ^ 16 * 2 ^ 16 ≤ L * L := Nat.mul_le_mul h1 h1
    omega
  have hr : List.range 2 = [0, 1] := rfl
  have e1 : u32 (x + 1) % L = (x + 1) % L := by rw [u32_of_lt (by omega)]
  have e2 : u32 (y + 1) % L = (y + 1) % L := by rw [u32_of_lt (by omega)]
  have wrap : ∀ v, v < L → u32 (u32 (v + 2 ^ 32 - 1) + L) % L = (v + L - 1) % L := by
    intro v hv
    by_cases h0 : v = 0
    · subst h0
      have a1 : u32 (0 + 2 ^ 32 - 1) = 2 ^ 32 - 1 := u32_of_lt (by omega)
      rw [a1, show 2 ^ 32 - 1 + L = (L - 1) + 2 ^ 32 by omega]
      unfold u32
      rw [Nat.add_mod_right, Nat.mod_eq_of_lt (show L - 1 < 2 ^ 32 by omega)]
      simp
    · rw [show v + 2 ^ 32 - 1 = (v - 1) + 2 ^ 32 by omega]
      unfold u32
      rw [Nat.add_mod_right, Nat.mod_eq_of_lt (show v - 1 < 2 ^ 32 by omega),
        Nat.mod_eq_of_lt (show v - 1 + L < 2 ^ 32 by omega)]
      congr 1
      omega
  have cs : ∀ a b, a < L → b < L → coordsToSite 2 L [a, b] = a + L * b := by
    intro a b ha hb
    rw [coordsToSite_eq 2 L h32 hL [a, b] rfl
      (by intro v hv; simp at hv; rcases hv with rfl | rfl <;> assumption)]
    simp [siteOfCoords]
  simp only [neighborColumn, hr, List.flatMap_cons, List.flatMap_nil, neighborPair,
    List.getD_cons_zero, List.getD_cons_succ, List.set_cons_zero, List.set_cons_succ,
    List.append_nil, List.cons_append, List.nil_append, e1, e2, wrap x hx, wrap y hy]
  rw [cs _ _ (Nat.mod_lt _ hLpos) hy, cs _ _ (Nat.mod_lt _ hLpos) hy,
    cs _ _ hx (Nat.mod_lt _ hLpos), cs _ _ hx (Nat.mod_lt _ hLpos)]

end Action

/-! ### The vertex matrix -/

/-- C6: for every sign, field `(phi0, phi1, phi2)` and values `c`, `sh` the matrix
returned by `evMatrix` has diagonal `(c, c, c, c)`, entries `(0,2) = (2,0) = s*phi2*sh`,
`(1,3) = (3,1) = -s*phi2*sh`, `(0,3) = (2,1) = s*(phi0 - i*phi1)*sh`,
`(1,2) = (3,0) = s*(phi0 + i*phi1)*sh`, and zero in the four other places. -/
theorem C6_evMatrix_entries {R : Type} [LinearOrderedField R] (sign : Int)
    (phi0 phi1 phi2 c sh : R) :
    (∀ a, a < 4 → evMatrix sign phi0 phi1 phi2 c sh a a = Cpx.ofReal c) ∧
    evMatrix sign phi0 phi1 phi2 c sh 0 2 = (sign : Cpx R) * Cpx.ofReal phi2 * Cpx.ofReal sh ∧
    evMatrix sign phi0 phi1 phi2 c sh 2 0 = (sign : Cpx R) * Cpx.ofReal phi2 * Cpx.ofReal sh ∧
    evMatrix sign phi0 phi1 phi2 c sh 1 3 = -(sign : Cpx R) * Cpx.ofReal phi2 * Cpx.ofReal sh ∧
    evMatrix sign phi0 phi1 phi2 c sh 3 1 = -(sign : Cpx R) * Cpx.ofReal phi2 * Cpx.ofReal sh ∧
    evMatrix sign phi0 phi1 phi2 c sh 0 3
      = (sign : Cpx R) * (Cpx.ofReal phi0 - Cpx.I * Cpx.ofReal phi1) * Cpx.ofReal sh ∧
    evMatrix sign phi0 phi1 phi2 c sh 2 1
      = (sign : Cpx R) * (Cpx.ofReal phi0 - Cpx.I * Cpx.ofReal phi1) * Cpx.ofReal sh ∧
    evMatrix sign phi0 phi1 phi2 c sh 1 2
      = (sign : Cpx R) * (Cpx.ofReal phi0 + Cpx.I * Cpx.ofReal phi1) * Cpx.ofReal sh ∧
    evMatrix sign phi0 phi1 phi2 c sh 3 0
      = (sign : Cpx R) * (Cpx.ofReal phi0 + Cpx.I * Cpx.ofReal phi1) * Cpx.ofReal sh ∧
    evMatrix sign phi0 phi1 phi2 c sh 0 1 = 0 ∧
    evMatrix sign phi0 phi1 phi2 c sh 1 0 = 0 ∧
    evMatrix sign phi0 phi1 phi2 c sh 2 3 = 0 ∧
    evMatrix sign phi0 phi1 phi2 c sh 3 2 = 0 := by
  refine ⟨?_, ?_, ?_, ?_, ?_, ?_, ?_, ?_, ?_, ?_, ?_, ?_, ?_⟩
  · intro a ha
    interval_cases a <;> apply Cpx.ext <;> simp [evMatrix, setEntry]
  all_goals
    apply Cpx.ext <;> simp [evMatrix, setEntry]

/-! ### The local update -/

section LocalUpdate

variable {R : Type} [LinearOrderedField R]

/-- C7: the weight of a proposal is `prop = exp(-deltaSPhi) * Re(det)`, and with a draw
`u01` from `[0, 1)` the proposal is accepted (the accepting branch is taken and the count of accepted moves
grows by one) if and only if `prop >= 1` or `u01 < prop`; a proposal with `prop <= 0` is
not accepted and one with `prop = 1` is. -/
theorem C7_acceptance_rule (F : Libm R) (timeslice : Nat) (s : DetSDW R) (site : Nat)
    (rnd : Phi R) (u01 : R) (hu0 : 0 ≤ u01) (hu1 : u01 < 1) :
    proposalWeight F timeslice s site rnd
      = F.exp (-deltaSPhi s site timeslice (proposeNewField s site timeslice rnd))
        * (smLoop s.N site (fun r => deltaRow s.N site
            (deltanonzero F s site timeslice (proposeNewField s site timeslice rnd))
            (s.g timeslice) r) 4).2.re ∧
    ((proposalWeight F timeslice s site rnd ≥ 1 ∨ u01 < proposalWeight F timeslice s site rnd) →
      siteUpdate F timeslice s site rnd u01 = acceptedState F timeslice s site rnd) ∧
    (¬ (proposalWeight F timeslice s site rnd ≥ 1 ∨
        u01 < proposalWeight F timeslice s site rnd) →
      siteUpdate F timeslice s site rnd u01 = s) ∧
    ((siteUpdate F timeslice s site rnd u01).lastAccRatio = s.lastAccRatio + 1 ↔
      (proposalWeight F timeslice s site rnd ≥ 1 ∨
        u01 < proposalWeight F timeslice s site rnd)) ∧
    (proposalWeight F timeslice s site rnd ≤ 0 → siteUpdate F timeslice s site rnd u01 = s) ∧
    (proposalWeight F timeslice s site rnd = 1 →
      siteUpdate F timeslice s site rnd u01 = acceptedState F timeslice s site rnd) := by
  have key : (proposalWeight F timeslice s site rnd > 1 ∨
      u01 < proposalWeight F timeslice s site rnd) ↔
      (proposalWeight F timeslice s site rnd ≥ 1 ∨
        u01 < proposalWeight F timeslice s site rnd) := by
    constructor
    · rintro (h | h)
      · exact Or.inl (le_of_lt h)
      · exact Or.inr h
    · rintro (h | h)
      · exact Or.inr (lt_of_lt_of_le hu1 h)
      · exact Or.inr h
  have hacc : ∀ h : (proposalWeight F timeslice s site rnd ≥ 1 ∨
      u01 < proposalWeight F timeslice s site rnd),
      siteUpdate F timeslice s site rnd u01 = acceptedState F timeslice s site rnd := by
    intro h
    unfold siteUpdate
    rw [if_pos (key.mpr h)]
  have hrej : ∀ h : ¬ (proposalWeight F timeslice s site rnd ≥ 1 ∨
      u01 < proposalWeight F timeslice s site rnd),
      siteUpdate F timeslice s site rnd u01 = s := by
    intro h
    unfold siteUpdate
    rw [if_neg (fun h2 => h (key.mp h2))]
  refine ⟨rfl, hacc, hrej, ?_, ?_, ?_⟩
  · constructor
    · intro h
      by_contra hn
      rw [hrej hn] at h
      have h3 := congrArg (fun t => t - s.lastAccRatio) h
      simp at h3
    · intro h
      rw [hacc h]
      rfl
  · intro h
    apply hrej
    rintro (h1 | h1)
    · exact absurd (le_trans h1 h) (not_le.mpr one_pos)
    · exact absurd (lt_of_le_of_lt hu0 (lt_of_lt_of_le h1 h)) (lt_irrefl _)
  · intro h
    exact hacc (Or.inl (le_of_eq h.symm))

/-- C7, at a concrete input: the draw `1 / 2` lies in `[0, 1)`. -/
theorem C7_acceptance_rule_witness :
    (0 : ℚ) ≤ 1 / 2 ∧ (1 / 2 : ℚ) < 1 ∧
    (proposalWeight exampleLibm 1 exampleState 0 0 ≤ 0 →
      siteUpdate exampleLibm 1 exampleState 0 0 (1 / 2) = exampleState) :=
  ⟨by norm_num, by norm_num,
    (C7_acceptance_rule exampleLibm 1 exampleState 0 0 (1 / 2) (by norm_num)
      (by norm_num)).2.2.2.2.1⟩

theorem siteUpdate_params (F : Libm R) (timeslice : Nat) (s : DetSDW R) (site : Nat)
    (rnd : Phi R) (u01 : R) :
    (siteUpdate F timeslice s site rnd u01).L = s.L ∧
    (siteUpdate F timeslice s site rnd u01).m = s.m ∧
    (siteUpdate F timeslice s site rnd u01).dtau = s.dtau := by
  unfold siteUpdate
  split_ifs <;> simp [acceptedState]

/-- A proposal keeps the caches consistent at every entry where they were consistent. -/
theorem siteUpdate_cache (F : Libm R) (timeslice : Nat) (s : DetSDW R) (site : Nat)
    (rnd : Phi R) (u01 : R) (site0 k0 : Nat)
    (h : s.phiCosh site0 k0 = F.cosh (s.dtau * norm2 F (s.phiAt site0 k0)) ∧
      s.phiSinh site0 k0
        = F.sinh (s.dtau * norm2 F (s.phiAt site0 k0)) / norm2 F (s.phiAt site0 k0)) :
    (siteUpdate F timeslice s site rnd u01).phiCosh site0 k0
      = F.cosh ((siteUpdate F timeslice s site rnd u01).dtau
          * norm2 F ((siteUpdate F timeslice s site rnd u01).phiAt site0 k0)) ∧
    (siteUpdate F timeslice s site rnd u01).phiSinh site0 k0
      = F.sinh ((siteUpdate F timeslice s site rnd u01).dtau
          * norm2 F ((siteUpdate F timeslice s site rnd u01).phiAt site0 k0))
        / norm2 F ((siteUpdate F timeslice s site rnd u01).phiAt site0 k0) := by
  unfold siteUpdate
  split_ifs with hacc
  · by_cases hs : site0 = site
    · by_cases hk : k0 = timeslice
      · subst hs hk
        have hphi : (acceptedState F k0 s site0 rnd).phiAt site0 k0
            = proposeNewField s site0 k0 rnd := by
          funext i
          fin_cases i <;> simp [acceptedState, DetSDW.phiAt]
        rw [hphi]
        simp [acceptedState]
      · subst hs
        have hphi : (acceptedState F timeslice s site0 rnd).phiAt site0 k0
            = s.phiAt site0 k0 := by
          funext i
          fin_cases i <;> simp [acceptedState, DetSDW.phiAt, Function.update_noteq hk]
        rw [hphi]
        simpa [acceptedState, Function.update_noteq hk] using h
    · have hphi : (acceptedState F timeslice s site rnd).phiAt site0 k0
          = s.phiAt site0 k0 := by
        funext i
        fin_cases i <;> simp [acceptedState, DetSDW.phiAt, Function.update_noteq hs]
      rw [hphi]
      simpa [acceptedState, Function.update_noteq hs] using h
  · exact h

theorem foldl_siteUpdate_cache (F : Libm R) (draws : Nat → Phi R × R) (timeslice : Nat)
    (sites : List Nat) (s : DetSDW R) :
    ((sites.foldl
        (fun st site => siteUpdate F timeslice st site (draws site).1 (draws site).2) s).L
      = s.L ∧
     (sites.foldl
        (fun st site => siteUpdate F timeslice st site (draws site).1 (draws site).2) s).m
      = s.m) ∧
    (CacheConsistent F s → CacheConsistent F (sites.foldl
        (fun st site => siteUpdate F timeslice st site (draws site).1 (draws site).2) s)) := by
  induction sites generalizing s with
  | nil => exact ⟨⟨rfl, rfl⟩, fun h => h⟩
  | cons a l ih =>
    rw [List.foldl_cons]
    obtain ⟨⟨ih1, ih2⟩, ih3⟩ := ih (siteUpdate F timeslice s a (draws a).1 (draws a).2)
    obtain ⟨p1, p2, _⟩ := siteUpdate_params F timeslice s a (draws a).1 (draws a).2
    refine ⟨⟨by rw [ih1, p1], by rw [ih2, p2]⟩, ?_⟩
    intro h
    apply ih3
    intro site0 k0 hs hk
    apply siteUpdate_cache
    apply h site0 k0
    · simpa [DetSDW.N, p1] using hs
    · simpa [p2] using hk

/-- A proposal at `(site, timeslice)` leaves the field and the caches as they were at
every other entry. -/
theorem siteUpdate_other (F : Libm R) (timeslice : Nat) (s : DetSDW R) (site : Nat)
    (rnd : Phi R) (u01 : R) (site1 k1 : Nat) (hne : site1 ≠ site ∨ k1 ≠ timeslice) :
    (siteUpdate F timeslice s site rnd u01).phiAt site1 k1 = s.phiAt site1 k1 ∧
    (siteUpdate F timeslice s site rnd u01).phiCosh site1 k1 = s.phiCosh site1 k1 ∧
    (siteUpdate F timeslice s site rnd u01).phiSinh site1 k1 = s.phiSinh site1 k1 := by
  unfold siteUpdate
  split_ifs
  · by_cases hs : site1 = site
    · have hk : k1 ≠ timeslice := by
        rcases hne with h1 | h1
        · exact absurd hs h1
        · exact h1
      subst hs
      refine ⟨?_, ?_, ?_⟩
      · funext i
        fin_cases i <;> simp [acceptedState, DetSDW.phiAt, Function.update_noteq hk]
      · simp [acceptedState, Function.update_noteq hk]
      · simp [acceptedState, Function.update_noteq hk]
    · refine ⟨?_, ?_, ?_⟩
      · funext i
        fin_cases i <;> simp [acceptedState, DetSDW.phiAt, Function.update_noteq hs]
      · simp [acceptedState, Function.update_noteq hs]
      · simp [acceptedState, Function.update_noteq hs]
  · exact ⟨rfl, rfl, rfl⟩

/-- An accepted proposal writes the proposed field and the caches computed from it at
`(site, timeslice)`; a rejected proposal writes nothing. -/
theorem siteUpdate_entry (F : Libm R) (timeslice : Nat) (s : DetSDW R) (site : Nat)
    (rnd : Phi R) (u01 : R) :
    ((proposalWeight F timeslice s site rnd > 1 ∨
        u01 < proposalWeight F timeslice s site rnd) →
      (siteUpdate F timeslice s site rnd u01).phiAt site timeslice
        = proposeNewField s site timeslice rnd ∧
      (siteUpdate F timeslice s site rnd u01).phiCosh site timeslice
        = F.cosh (s.dtau * norm2 F (proposeNewField s site timeslice rnd)) ∧
      (siteUpdate F timeslice s site rnd u01).phiSinh site timeslice
        = F.sinh (s.dtau * norm2 F (proposeNewField s site timeslice rnd))
          / norm2 F (proposeNewField s site timeslice rnd)) ∧
    (¬ (proposalWeight F timeslice s site rnd > 1 ∨
        u01 < proposalWeight F timeslice s site rnd) →
      siteUpdate F timeslice s site rnd u01 = s) := by
  constructor
  · intro h
    unfold siteUpdate
    rw [if_pos h]
    refine ⟨?_, ?_, ?_⟩
    · funext i
      fin_cases i <;> simp [acceptedState, DetSDW.phiAt]
    · simp [acceptedState]
    · simp [acceptedState]
  · intro h
    unfold siteUpdate
    rw [if_neg h]

/-- The proposals at the sites of a list leave the time step as it was, and the field and
the caches as they were at every entry that is not in slice `timeslice` at a site of the
list. -/
theorem foldl_siteUpdate_other (F : Libm R) (draws : Nat → Phi R × R) (timeslice : Nat)
    (sites : List Nat) (s : DetSDW R) :
    (sites.foldl
        (fun st site => siteUpdate F timeslice st site (draws site).1 (draws site).2) s).dtau
      = s.dtau ∧
    ∀ site1 k1, (site1 ∉ sites ∨ k1 ≠ timeslice) →
      (sites.foldl
          (fun st site => siteUpdate F timeslice st site (draws site).1 (draws site).2)
          s).phiAt site1 k1 = s.phiAt site1 k1 ∧
      (sites.foldl
          (fun st site => siteUpdate F timeslice st site (draws site).1 (draws site).2)
          s).phiCosh site1 k1 = s.phiCosh site1 k1 ∧
      (sites.foldl
          (fun st site => siteUpdate F timeslice st site (draws site).1 (draws site).2)
          s).phiSinh site1 k1 = s.phiSinh site1 k1 := by
  induction sites generalizing s with
  | nil => exact ⟨rfl, fun _ _ _ => ⟨rfl, rfl, rfl⟩⟩
  | cons a l ih =>
    rw [List.foldl_cons]
    obtain ⟨ih1, ih2⟩ := ih (siteUpdate F timeslice s a (draws a).1 (draws a).2)
    obtain ⟨_, _, p3⟩ := siteUpdate_params F timeslice s a (draws a).1 (draws a).2
    refine ⟨by rw [ih1, p3], ?_⟩
    intro site1 k1 hne
    have hl : site1 ∉ l ∨ k1 ≠ timeslice := by
      rcases hne with h | h
      · exact Or.inl (fun hm => h (List.mem_cons_of_mem a hm))
      · exact Or.inr h
    have ha : site1 ≠ a ∨ k1 ≠ timeslice := by
      rcases hne with h | h
      · exact Or.inl (fun e => h (e ▸ List.mem_cons_self a l))
      · exact Or.inr h
    obtain ⟨q1, q2, q3⟩ := ih2 site1 k1 hl
    obtain ⟨r1, r2, r3⟩ :=
      siteUpdate_other F timeslice s a (draws a).1 (draws a).2 site1 k1 ha
    exact ⟨by rw [q1, r1], by rw [q2, r2], by rw [q3, r3]⟩

/-- The sites of the loop split into those before `site`, `site` itself and those after. -/
theorem range_split (N site : Nat) (h : site < N) :
    List.range N = List.range site ++ site :: List.range' (site + 1) (N - site - 1) := by
  have e : N = (N - site - 1 + 1) + site := by omega
  have h1 : List.range N = List.range' 0 ((N - site - 1 + 1) + site) := by
    rw [List.range_eq_range', ← e]
  rw [h1, ← List.range'_append_1, List.range_eq_range', Nat.zero_add, List.range'_succ]

/-- The state after the loop over the sites is the state after the proposal at `site`,
followed by the proposals at the later sites. -/
theorem updateInSlice_split (F : Libm R) (draws : Nat → Phi R × R) (timeslice : Nat)
    (s : DetSDW R) (site : Nat) (h : site < s.N) :
    updateInSliceUpTo F draws timeslice s s.N
      = (List.range' (site + 1) (s.N - site - 1)).foldl
          (fun st i => siteUpdate F timeslice st i (draws i).1 (draws i).2)
          (siteUpdate F timeslice (updateInSliceUpTo F draws timeslice s site) site
            (draws site).1 (draws site).2) := by
  unfold updateInSliceUpTo
  rw [range_split s.N site h, List.foldl_append, List.foldl_cons]

/-- The entry `(site, timeslice)` after `updateInSlice` is the one written by the
proposal at `site`, and the entry before that proposal is the one of the state in which
`updateInSlice` was called. -/
theorem updateInSlice_entry (F : Libm R) (draws : Nat → Phi R × R) (timeslice : Nat)
    (s : DetSDW R) (site : Nat) (h : site < s.N) :
    ((updateInSlice F draws timeslice s).phiAt site timeslice
        = (siteUpdate F timeslice (updateInSliceUpTo F draws timeslice s site) site
            (draws site).1 (draws site).2).phiAt site timeslice ∧
      (updateInSlice F draws timeslice s).phiCosh site timeslice
        = (siteUpdate F timeslice (updateInSliceUpTo F draws timeslice s site) site
            (draws site).1 (draws site).2).phiCosh site timeslice ∧
      (updateInSlice F draws timeslice s).phiSinh site timeslice
        = (siteUpdate F timeslice (updateInSliceUpTo F draws timeslice s site) site
            (draws site).1 (draws site).2).phiSinh site timeslice) ∧
    (updateInSliceUpTo F draws timeslice s site).dtau = s.dtau ∧
    (updateInSliceUpTo F draws timeslice s site).phiAt site timeslice
      = s.phiAt site timeslice ∧
    (updateInSliceUpTo F draws timeslice s site).phiCosh site timeslice
      = s.phiCosh site timeslice ∧
    (updateInSliceUpTo F draws timeslice s site).phiSinh site timeslice
      = s.phiSinh site timeslice := by
  have hfin : ∀ site1 k1,
      (updateInSlice F draws timeslice s).phiAt site1 k1
        = (updateInSliceUpTo F draws timeslice s s.N).phiAt site1 k1 ∧
      (updateInSlice F draws timeslice s).phiCosh site1 k1
        = (updateInSliceUpTo F draws timeslice s s.N).phiCosh site1 k1 ∧
      (updateInSlice F draws timeslice s).phiSinh site1 k1
        = (updateInSliceUpTo F draws timeslice s s.N).phiSinh site1 k1 :=
    fun _ _ => ⟨rfl, rfl, rfl⟩
  obtain ⟨f1, f2, f3⟩ := hfin site timeslice
  have hafter := (foldl_siteUpdate_other F draws timeslice
    (List.range' (site + 1) (s.N - site - 1))
    (siteUpdate F timeslice (updateInSliceUpTo F draws timeslice s site) site
      (draws site).1 (draws site).2)).2 site timeslice
    (Or.inl (by simp only [List.mem_range'_1]; omega))
  rw [← updateInSlice_split F draws timeslice s site h] at hafter
  obtain ⟨a1, a2, a3⟩ := hafter
  obtain ⟨b0, b⟩ := foldl_siteUpdate_other F draws timeslice (List.range site)
    { s with lastAccRatio := 0 }
  obtain ⟨b1, b2, b3⟩ := b site timeslice (Or.inl (by simp))
  exact ⟨⟨by rw [f1, a1], by rw [f2, a2], by rw [f3, a3]⟩, b0, b1, b2, b3⟩

/-- C8: cache consistency is an invariant of `updateInSlice`: if the caches are
consistent with the field at every site and slice before the call, they are consistent
at every site and slice after it, whatever values are drawn (whatever proposals are
accepted or rejected).  For every site, if the proposal made when the loop reaches the
site is accepted, the call writes the proposed field to `(site, timeslice)` together with
the caches computed from it; if it is rejected, the field and the caches at
`(site, timeslice)` are as before the call.  In the other time slices nothing is
written. -/
theorem C8_cache_consistency (F : Libm R) (draws : Nat → Phi R × R) (timeslice : Nat)
    (s : DetSDW R) :
    (CacheConsistent F s → CacheConsistent F (updateInSlice F draws timeslice s)) ∧
    (∀ site, site < s.N →
      ((proposalWeight F timeslice (updateInSliceUpTo F draws timeslice s site) site
            (draws site).1 > 1 ∨
          (draws site).2 < proposalWeight F timeslice
            (updateInSliceUpTo F draws timeslice s site) site (draws site).1) →
        (updateInSlice F draws timeslice s).phiAt site timeslice
          = proposeNewField s site timeslice (draws site).1 ∧
        (updateInSlice F draws timeslice s).phiCosh site timeslice
          = F.cosh (s.dtau * norm2 F (proposeNewField s site timeslice (draws site).1)) ∧
        (updateInSlice F draws timeslice s).phiSinh site timeslice
          = F.sinh (s.dtau * norm2 F (proposeNewField s site timeslice (draws site).1))
            / norm2 F (proposeNewField s site timeslice (draws site).1)) ∧
      (¬ (proposalWeight F timeslice (updateInSliceUpTo F draws timeslice s site) site
            (draws site).1 > 1 ∨
          (draws site).2 < proposalWeight F timeslice
            (updateInSliceUpTo F draws timeslice s site) site (draws site).1) →
        (updateInSlice F draws timeslice s).phiAt site timeslice = s.phiAt site timeslice ∧
        (updateInSlice F draws timeslice s).phiCosh site timeslice
          = s.phiCosh site timeslice ∧
        (updateInSlice F draws timeslice s).phiSinh site timeslice
          = s.phiSinh site timeslice)) ∧
    (∀ site k, k ≠ timeslice →
      (updateInSlice F draws timeslice s).phiAt site k = s.phiAt site k ∧
      (updateInSlice F draws timeslice s).phiCosh site k = s.phiCosh site k ∧
      (updateInSlice F draws timeslice s).phiSinh site k = s.phiSinh site k) := by
  refine ⟨?_, ?_, ?_⟩
  · intro h
    have hf := foldl_siteUpdate_cache F draws timeslice (List.range s.N)
      { s with lastAccRatio := 0 }
    obtain ⟨⟨h1, h2⟩, h3⟩ := hf
    have h4 := h3 (by exact h)
    intro site0 k0 hs hk
    have := h4 site0 k0 (by simpa [updateInSlice, DetSDW.N, h1] using hs)
      (by simpa [updateInSlice, h2] using hk)
    simpa [updateInSlice, DetSDW.phiAt] using this
  · intro site hsite
    obtain ⟨⟨e1, e2, e3⟩, b0, b1, b2, b3⟩ := updateInSlice_entry F draws timeslice s site hsite
    obtain ⟨hacc, hrej⟩ := siteUpdate_entry F timeslice
      (updateInSliceUpTo F draws timeslice s site) site (draws site).1 (draws site).2
    have hnew : proposeNewField (updateInSliceUpTo F draws timeslice s site) site timeslice
        (draws site).1 = proposeNewField s site timeslice (draws site).1 := by
      unfold proposeNewField
      rw [b1]
    constructor
    · intro h
      obtain ⟨c1, c2, c3⟩ := hacc h
      rw [hnew, b0] at c2 c3
      rw [hnew] at c1
      exact ⟨by rw [e1, c1], by rw [e2, c2], by rw [e3, c3]⟩
    · intro h
      rw [hrej h] at e1 e2 e3
      exact ⟨by rw [e1, b1], by rw [e2, b2], by rw [e3, b3]⟩
  · intro site k hk
    obtain ⟨_, b⟩ := foldl_siteUpdate_other F draws timeslice (List.range s.N)
      { s with lastAccRatio := 0 }
    exact b site k (Or.inr hk)

/-- C9: a rejected proposal leaves the whole state as it was (field, caches, every
slice of the Green function and the count of accepted moves); whatever the outcome,
the field and the caches are unchanged away from the entry `(site, timeslice)` and the
Green function is unchanged in every slice but `timeslice`. -/
theorem C9_frame_of_proposal (F : Libm R) (timeslice : Nat) (s : DetSDW R) (site : Nat)
    (rnd : Phi R) (u01 : R) :
    (¬ (proposalWeight F timeslice s site rnd > 1 ∨
        u01 < proposalWeight F timeslice s site rnd) →
      siteUpdate F timeslice s site rnd u01 = s) ∧
    ((proposalWeight F timeslice s site rnd > 1 ∨
        u01 < proposalWeight F timeslice s site rnd) →
      (siteUpdate F timeslice s site rnd u01).lastAccRatio = s.lastAccRatio + 1) ∧
    (∀ site1 k1, (site1 ≠ site ∨ k1 ≠ timeslice) →
      (siteUpdate F timeslice s site rnd u01).phi0 site1 k1 = s.phi0 site1 k1 ∧
      (siteUpdate F timeslice s site rnd u01).phi1 site1 k1 = s.phi1 site1 k1 ∧
      (siteUpdate F timeslice s site rnd u01).phi2 site1 k1 = s.phi2 site1 k1 ∧
      (siteUpdate F timeslice s site rnd u01).phiCosh site1 k1 = s.phiCosh site1 k1 ∧
      (siteUpdate F timeslice s site rnd u01).phiSinh site1 k1 = s.phiSinh site1 k1) ∧
    (∀ k1, k1 ≠ timeslice → (siteUpdate F timeslice s site rnd u01).g k1 = s.g k1) := by
  refine ⟨?_, ?_, ?_, ?_⟩
  · intro h
    unfold siteUpdate
    rw [if_neg h]
  · intro h
    unfold siteUpdate
    rw [if_pos h]
    rfl
  · intro site1 k1 hne
    unfold siteUpdate
    split_ifs
    · simp only [acceptedState]
      by_cases hs : site1 = site
      · have hk : k1 ≠ timeslice := by
          rcases hne with h1 | h1
          · exact absurd hs h1
          · exact h1
        subst hs
        simp [Function.update_noteq hk]
      · simp [Function.update_noteq hs]
    · exact ⟨rfl, rfl, rfl, rfl, rfl⟩
  · intro k1 hk
    unfold siteUpdate
    split_ifs
    · simp [acceptedState, Function.update_noteq hk]
    · rfl

end LocalUpdate

/-! ### The determinant and the Green function of a local move -/

open Matrix

section RankOne
variable {K : Type} [Field K] {ι : Type} [Fintype ι]

theorem mul_vecMulVec (A : Matrix ι ι K) (a b : ι → K) :
    A * vecMulVec a b = vecMulVec (A *ᵥ a) b := by
  ext i j
  simp only [Matrix.mul_apply, vecMulVec_apply, Matrix.mulVec, Matrix.dotProduct, Finset.sum_mul]
  apply Finset.sum_congr rfl
  intro k _
  ring

theorem vecMulVec_mul (a b : ι → K) (P : Matrix ι ι K) :
    vecMulVec a b * P = vecMulVec a (b ᵥ* P) := by
  ext i j
  simp only [Matrix.mul_apply, vecMulVec_apply, Matrix.vecMul, Matrix.dotProduct, Finset.mul_sum]
  apply Finset.sum_congr rfl
  intro k _
  ring

theorem vecMulVec_mul_vecMulVec (a b c e : ι → K) :
    vecMulVec a b * vecMulVec c e = (b ⬝ᵥ c) • vecMulVec a e := by
  ext i j
  simp only [Matrix.mul_apply, vecMulVec_apply, Matrix.dotProduct, Matrix.smul_apply,
    smul_eq_mul, Finset.sum_mul]
  apply Finset.sum_congr rfl
  intro k _
  ring

/-- One rank one update: the inverse and the determinant of `A + u v^T` from those of
`A`. -/
theorem rankOne_update [DecidableEq ι] (A P : Matrix ι ι K) (hAP : A * P = 1) (u v : ι → K) (d : K)
    (hd : d = 1 + v ⬝ᵥ (P *ᵥ u)) (hd0 : d ≠ 0) :
    (A + vecMulVec u v) * (P - d⁻¹ • vecMulVec (P *ᵥ u) (v ᵥ* P)) = 1 ∧
    (A + vecMulVec u v).det = A.det * d := by
  have hAPu : A *ᵥ (P *ᵥ u) = u := by
    rw [Matrix.mulVec_mulVec, hAP, Matrix.one_mulVec]
  constructor
  · have e1 : A * vecMulVec (P *ᵥ u) (v ᵥ* P) = vecMulVec u (v ᵥ* P) := by
      rw [mul_vecMulVec, hAPu]
    have e2 : vecMulVec u v * P = vecMulVec u (v ᵥ* P) := vecMulVec_mul u v P
    have e3 : vecMulVec u v * vecMulVec (P *ᵥ u) (v ᵥ* P)
        = (d - 1) • vecMulVec u (v ᵥ* P) := by
      rw [vecMulVec_mul_vecMulVec, hd]
      congr 1
      ring
    rw [Matrix.add_mul, Matrix.mul_sub, Matrix.mul_sub, Matrix.mul_smul, Matrix.mul_smul,
      hAP, e1, e2, e3, smul_smul]
    have : d⁻¹ * (d - 1) = 1 - d⁻¹ := by
      field_simp
    rw [this, sub_smul, one_smul]
    abel
  · have e4 : A + vecMulVec u v = A * (1 + vecMulVec (P *ᵥ u) v) := by
      rw [Matrix.mul_add, Matrix.mul_one, mul_vecMulVec, hAPu]
    rw [e4, Matrix.det_mul, vecMulVec_eq Unit, det_one_add_col_mul_row, hd]

end RankOne

section LoopLemmas

variable {K : Type} [Field K]

theorem rowIndex_inj (N site a b : Nat) (hN : 0 < N)
    (h : rowIndex N site a = rowIndex N site b) : a = b := by
  unfold rowIndex at h
  have : a * N = b * N := by omega
  exact Nat.eq_of_mul_eq_mul_right hN this

theorem rowIndex_lt (N site a : Nat) (hs : site < N) (ha : a < 4) :
    rowIndex N site a < 4 * N := by
  unfold rowIndex
  have : a * N ≤ 3 * N := Nat.mul_le_mul_right _ (by omega)
  omega

theorem zeroLoop_apply (N site : Nat) (cnt : Nat) (row : Nat → K) (c : Nat) :
    zeroLoop N site cnt row c
      = if ∃ k, k < cnt ∧ rowIndex N site k = c then 0 else row c := by
  induction cnt generalizing row with
  | zero => simp [zeroLoop]
  | succ cnt ih =>
    rw [zeroLoop, ih]
    by_cases h1 : ∃ k, k < cnt ∧ rowIndex N site k = c
    · obtain ⟨k, hk, hkc⟩ := h1
      rw [if_pos ⟨k, hk, hkc⟩, if_pos ⟨k, Nat.lt_succ_of_lt hk, hkc⟩]
    · rw [if_neg h1]
      by_cases h2 : rowIndex N site cnt = c
      · rw [if_pos ⟨cnt, Nat.lt_succ_self _, h2⟩, ← h2, Function.update_same]
      · have h3 : ¬ ∃ k, k < cnt + 1 ∧ rowIndex N site k = c := by
          rintro ⟨k, hk, hkc⟩
          rcases Nat.lt_succ_iff_lt_or_eq.mp hk with h4 | h4
          · exact h1 ⟨k, h4, hkc⟩
          · exact h2 (h4 ▸ hkc)
        rw [if_neg h3, Function.update_noteq (Ne.symm h2)]

theorem accLoop_apply (N site : Nat) (rows : Nat → Nat → K) (l cnt : Nat) (row : Nat → K)
    (c : Nat) :
    accLoop N site rows l cnt row c
      = row c + ∑ k in Finset.range cnt, rows l (rowIndex N site k) * rows k c := by
  induction cnt generalizing row with
  | zero => simp [accLoop]
  | succ cnt ih =>
    rw [accLoop, ih, Finset.sum_range_succ]
    ring

theorem elimLoop_apply (N site l : Nat) (d : K) (row : Nat → K) (cnt : Nat)
    (rows : Nat → Nat → K) (k c : Nat) :
    elimLoop N site l d row cnt rows k c
      = if k < cnt then rows k c - (rows k (rowIndex N site l) / d) * row c else rows k c := by
  induction cnt generalizing rows with
  | zero => simp [elimLoop]
  | succ cnt ih =>
    rw [elimLoop, ih]
    by_cases h1 : k < cnt
    · have : k ≠ cnt := by omega
      rw [if_pos h1, if_pos (Nat.lt_succ_of_lt h1), Function.update_noteq this]
    · rw [if_neg h1]
      by_cases h2 : k = cnt
      · subst h2
        rw [if_pos (Nat.lt_succ_self _), Function.update_same]
      · rw [if_neg (by omega), Function.update_noteq h2]

/-- The sum of the entries of a row at the indices `site + k*N`, `k < l`, against the
unit vectors. -/
theorem zero_entries_sum (N site : Nat) (hN : 0 < N) (l : Nat) (f : Nat → K) (c : Nat) :
    (if ∃ k, k < l ∧ rowIndex N site k = c then 0 else f c)
      = f c - ∑ k in Finset.range l,
          f (rowIndex N site k) * (if c = rowIndex N site k then 1 else 0) := by
  by_cases h : ∃ k, k < l ∧ rowIndex N site k = c
  · obtain ⟨k0, hk0, hc⟩ := h
    rw [if_pos ⟨k0, hk0, hc⟩, Finset.sum_eq_single k0]
    · simp [hc]
    · intro b _ hb
      have : c ≠ rowIndex N site b := by
        intro hcb
        exact hb (rowIndex_inj N site b k0 hN (by rw [hc, hcb]))
      simp [this]
    · intro hnot
      exact absurd (Finset.mem_range.mpr hk0) hnot
  · rw [if_neg h, Finset.sum_eq_zero]
    · simp
    · intro k hk
      have : c ≠ rowIndex N site k := by
        intro hck
        exact h ⟨k, Finset.mem_range.mp hk, hck.symm⟩
      simp [this]

theorem smRow_apply (N site : Nat) (hN : 0 < N) (rows : Nat → Nat → K) (l c : Nat) :
    smRow N site rows l c
      = rows l c
        + ∑ k in Finset.range l, rows l (rowIndex N site k)
            * (rows k c - (if c = rowIndex N site k then 1 else 0)) := by
  unfold smRow
  rw [accLoop_apply, zeroLoop_apply, zero_entries_sum N site hN]
  simp only [mul_sub, Finset.sum_sub_distrib]
  ring

end LoopLemmas

section MatrixLemmas

variable {K : Type} [Field K]

theorem sum_mul_unitVec (n i : Nat) (h : i < n) (g : Fin n → K) :
    ∑ j, g j * unitVec n i j = g ⟨i, h⟩ := by
  rw [Finset.sum_eq_single (⟨i, h⟩ : Fin n)]
  · simp [unitVec]
  · intro b _ hb
    have : b.val ≠ i := fun hbi => hb (Fin.ext hbi)
    simp [unitVec, this]
  · intro hnot
    exact absurd (Finset.mem_univ _) hnot

theorem invMatrix_apply (N site n : Nat) (rho : Nat → Nat → K) (l : Nat) (i j : Fin n) :
    invMatrix N site n rho l i j
      = (if i = j then 1 else 0)
        + ∑ k in Finset.range l, unitVec n (rowIndex N site k) i
            * (rho k j.val - unitVec n (rowIndex N site k) j) := by
  simp only [invMatrix, Matrix.add_apply, Matrix.one_apply, Matrix.sum_apply,
    Matrix.vecMulVec_apply, Pi.sub_apply, vecOf]

/-- The product of a row vector with the matrix of the treated rows. -/
theorem vecMul_invMatrix (N site n : Nat) (rho : Nat → Nat → K) (l : Nat)
    (hidx : ∀ k, k < l → rowIndex N site k < n) (v : Nat → K) (j : Fin n) :
    (vecOf n v ᵥ* invMatrix N site n rho l) j
      = v j.val + ∑ k in Finset.range l, v (rowIndex N site k)
          * (rho k j.val - (if j.val = rowIndex N site k then 1 else 0)) := by
  simp only [Matrix.vecMul, Matrix.dotProduct, invMatrix_apply, mul_add,
    Finset.sum_add_distrib, Finset.mul_sum]
  congr 1
  · rw [Finset.sum_eq_single j]
    · simp [vecOf]
    · intro b _ hb
      simp [hb]
    · intro hnot
      exact absurd (Finset.mem_univ _) hnot
  · rw [Finset.sum_comm]
    apply Finset.sum_congr rfl
    intro k hk
    have hk2 := hidx k (Finset.mem_range.mp hk)
    have := sum_mul_unitVec n (rowIndex N site k) hk2
      (fun i => vecOf n v i * (rho k j.val - unitVec n (rowIndex N site k) j))
    simp only [vecOf, unitVec] at this ⊢
    rw [← this]
    apply Finset.sum_congr rfl
    intro i _
    ring

/-- The column `site + l*N` of the matrix of the treated rows. -/
theorem invMatrix_mulVec_unitVec (N site n : Nat) (hN : 0 < N) (rho : Nat → Nat → K)
    (l : Nat) (hl : rowIndex N site l < n) (i : Fin n) :
    (invMatrix N site n rho l *ᵥ unitVec n (rowIndex N site l)) i
      = unitVec n (rowIndex N site l) i
        + ∑ k in Finset.range l, unitVec n (rowIndex N site k) i
            * rho k (rowIndex N site l) := by
  simp only [Matrix.mulVec, Matrix.dotProduct]
  rw [sum_mul_unitVec n (rowIndex N site l) hl (fun j => invMatrix N site n rho l i j),
    invMatrix_apply]
  congr 1
  · simp only [unitVec]
    by_cases h : i.val = rowIndex N site l
    · have : i = ⟨rowIndex N site l, hl⟩ := Fin.ext h
      simp [this]
    · have : i ≠ ⟨rowIndex N site l, hl⟩ := fun hh => h (congrArg Fin.val hh)
      simp [h, this]
  · apply Finset.sum_congr rfl
    intro k hk
    have hne : rowIndex N site l ≠ rowIndex N site k := by
      intro hh
      have := rowIndex_inj N site l k hN hh
      have := Finset.mem_range.mp hk
      omega
    simp [unitVec, hne]

/-- The rows after one iteration of the loop over `l`. -/
theorem smStep_rows (N site : Nat) (st : (Nat → Nat → K) × K) (l k c : Nat) :
    (smStep N site st l).1 k c
      = if k < l then
          st.1 k c - (st.1 k (rowIndex N site l)
            / (1 + smRow N site st.1 l (rowIndex N site l))) * smRow N site st.1 l c
        else if k = l then
          (-1 / (1 + smRow N site st.1 l (rowIndex N site l))) * smRow N site st.1 l c
            + (if c = rowIndex N site l then 1 else 0)
        else st.1 k c := by
  simp only [smStep]
  rw [elimLoop_apply]
  by_cases h1 : k < l
  · have hk : k ≠ l := by omega
    simp only [if_pos h1]
    rw [Function.update_noteq hk, Function.update_noteq hk]
  · rw [if_neg h1, if_neg h1]
    by_cases h2 : k = l
    · subst h2
      rw [if_pos rfl, Function.update_same]
      by_cases h3 : c = rowIndex N site k
      · subst h3
        rw [Function.update_same, Function.update_same, if_pos rfl]
      · rw [Function.update_noteq h3, Function.update_same, if_neg h3, add_zero]
    · rw [if_neg h2, Function.update_noteq h2, Function.update_noteq h2]

end MatrixLemmas

section Invariant

variable {K : Type} [Field K]

/-- The matrix of the treated rows after iteration `l`, from the one before. -/
theorem invMatrix_step (N site : Nat) (hN : 0 < N) (hs : site < N)
    (st : (Nat → Nat → K) × K) (l : Nat) (hl : l < 4) :
    invMatrix N site (4 * N) (smStep N site st l).1 (l + 1)
      = invMatrix N site (4 * N) st.1 l
        - (1 + smRow N site st.1 l (rowIndex N site l))⁻¹ •
          Matrix.vecMulVec
            (invMatrix N site (4 * N) st.1 l *ᵥ unitVec (4 * N) (rowIndex N site l))
            (vecOf (4 * N) (st.1 l) ᵥ* invMatrix N site (4 * N) st.1 l) := by
  have hidx : ∀ k, k < l → rowIndex N site k < 4 * N :=
    fun k hk => rowIndex_lt N site k hs (by omega)
  ext i j
  rw [Matrix.sub_apply, Matrix.smul_apply, Matrix.vecMulVec_apply, smul_eq_mul,
    invMatrix_mulVec_unitVec N site (4 * N) hN st.1 l (rowIndex_lt N site l hs hl) i,
    vecMul_invMatrix N site (4 * N) st.1 l hidx (st.1 l) j,
    ← smRow_apply N site hN st.1 l j.val, invMatrix_apply, invMatrix_apply,
    Finset.sum_range_succ]
  have hsum : ∑ k in Finset.range l, unitVec (4 * N) (rowIndex N site k) i
        * ((smStep N site st l).1 k j.val - unitVec (4 * N) (rowIndex N site k) j)
      = ∑ k in Finset.range l, unitVec (4 * N) (rowIndex N site k) i
          * (st.1 k j.val - unitVec (4 * N) (rowIndex N site k) j)
        - (1 + smRow N site st.1 l (rowIndex N site l))⁻¹ * smRow N site st.1 l j.val
          * ∑ k in Finset.range l, unitVec (4 * N) (rowIndex N site k) i
              * st.1 k (rowIndex N site l) := by
    rw [Finset.mul_sum, ← Finset.sum_sub_distrib]
    apply Finset.sum_congr rfl
    intro k hk
    rw [smStep_rows, if_pos (Finset.mem_range.mp hk)]
    ring
  rw [hsum, smStep_rows, if_neg (lt_irrefl l), if_pos rfl]
  simp only [unitVec]
  ring

/-- One iteration of the loop over `l` keeps the invariant. -/
theorem smInv_step (N site : Nat) (hN : 0 < N) (hs : site < N) (r : Nat → Nat → K)
    (st : (Nat → Nat → K) × K) (l : Nat) (hl : l < 4) (h : SMInv N site r l st)
    (hd : 1 + smRow N site st.1 l (rowIndex N site l) ≠ 0) :
    SMInv N site r (l + 1) (smStep N site st l) := by
  obtain ⟨h1, h2, h3⟩ := h
  have hidx : ∀ k, k < l → rowIndex N site k < 4 * N :=
    fun k hk => rowIndex_lt N site k hs (by omega)
  have hlt := rowIndex_lt N site l hs hl
  have hupd : updMatrix N site (4 * N) r (l + 1)
      = updMatrix N site (4 * N) r l
        + Matrix.vecMulVec (unitVec (4 * N) (rowIndex N site l)) (vecOf (4 * N) (st.1 l)) := by
    simp only [updMatrix]
    rw [Finset.sum_range_succ, add_assoc, h1 l le_rfl]
  have hdot : 1 + smRow N site st.1 l (rowIndex N site l)
      = 1 + vecOf (4 * N) (st.1 l) ⬝ᵥ
          (invMatrix N site (4 * N) st.1 l *ᵥ unitVec (4 * N) (rowIndex N site l)) := by
    rw [Matrix.dotProduct_mulVec]
    have e := sum_mul_unitVec (4 * N) (rowIndex N site l) hlt
      (vecOf (4 * N) (st.1 l) ᵥ* invMatrix N site (4 * N) st.1 l)
    simp only [Matrix.dotProduct]
    rw [e, vecMul_invMatrix N site (4 * N) st.1 l hidx (st.1 l),
      ← smRow_apply N site hN st.1 l]
  obtain ⟨r1, r2⟩ := rankOne_update (updMatrix N site (4 * N) r l)
    (invMatrix N site (4 * N) st.1 l) h2 (unitVec (4 * N) (rowIndex N site l))
    (vecOf (4 * N) (st.1 l)) _ hdot hd
  refine ⟨?_, ?_, ?_⟩
  · intro k hk
    funext c
    rw [smStep_rows, if_neg (by omega), if_neg (by omega)]
    exact congrFun (h1 k (by omega)) c
  · rw [hupd, invMatrix_step N site hN hs st l hl]
    exact r1
  · rw [hupd, r2, h3]
    rfl

/-- The invariant holds after every number of iterations up to four, when the divisors
are not zero. -/
theorem smInv_loop (N site : Nat) (hN : 0 < N) (hs : site < N) (r : Nat → Nat → K)
    (hdiv : ∀ l, l < 4 → smDivisor N site r l ≠ 0) (l : Nat) (hl : l ≤ 4) :
    SMInv N site r l (smLoop N site r l) := by
  induction l with
  | zero =>
    refine ⟨fun k _ => rfl, ?_, ?_⟩
    · simp [updMatrix, invMatrix]
    · simp [updMatrix, smLoop]
  | succ l ih =>
    have hstep : smLoop N site r (l + 1) = smStep N site (smLoop N site r l) l := by
      simp only [smLoop]
      rw [List.range_succ, List.foldl_append]
      rfl
    rw [hstep]
    exact smInv_step N site hN hs r _ l (by omega) (ih (by omega)) (hdiv l (by omega))

end Invariant

section Assembly

variable {K : Type} [Field K]

theorem sum_unitVec_mul (n i : Nat) (h : i < n) (g : Fin n → K) :
    ∑ j, unitVec n i j * g j = g ⟨i, h⟩ := by
  rw [← sum_mul_unitVec n i h g]
  apply Finset.sum_congr rfl
  intro j _
  ring

theorem update_add_apply (f : Nat → K) (i : Nat) (d : K) (c : Nat) :
    Function.update f i (f i + d) c = f c + d * (if c = i then 1 else 0) := by
  by_cases h : c = i
  · subst h
    simp
  · simp [Function.update_noteq h, h]

theorem update_sub_one_apply (f : Nat → K) (i : Nat) (c : Nat) :
    Function.update f i (f i - 1) c = f c - (if c = i then 1 else 0) := by
  by_cases h : c = i
  · subst h
    simp
  · simp [Function.update_noteq h, h]

/-- The rows of `Delta*(I - G)` computed in `DetSDW::updateInSlice`. -/
theorem deltaRow_apply (N site : Nat) (delta G : Nat → Nat → K) (a c : Nat) :
    deltaRow N site delta G a c
      = ∑ b in Finset.range 4, delta a b
          * ((if c = rowIndex N site b then 1 else 0) - G (rowIndex N site b) c) := by
  have hr : List.range' 1 3 = [1, 2, 3] := rfl
  simp only [deltaRow, hr, List.foldl_cons, List.foldl_nil, update_add_apply,
    Finset.sum_range_succ, Finset.sum_range_zero, rowIndex, Nat.zero_mul, Nat.add_zero]
  ring

/-- The entries of the embedded matrix `D` through unit vectors. -/
theorem embedDelta_apply (N site : Nat) (hs : site < N) (delta : Nat → Nat → K) (i j : Nat)
    (hi : i < 4 * N) (hj : j < 4 * N) :
    embedDelta N site delta i j
      = ∑ a in Finset.range 4, ∑ b in Finset.range 4,
          (if i = rowIndex N site a then 1 else 0) * delta a b
            * (if j = rowIndex N site b then 1 else 0) := by
  have hN : 0 < N := by omega
  have hmod : ∀ a, rowIndex N site a % N = site := by
    intro a
    unfold rowIndex
    rw [Nat.add_mul_mod_self_right]
    exact Nat.mod_eq_of_lt hs
  have hdiv : ∀ a, rowIndex N site a / N = a := by
    intro a
    unfold rowIndex
    rw [Nat.add_mul_div_right _ _ hN, Nat.div_eq_of_lt hs, zero_add]
  unfold embedDelta
  by_cases hc : i % N = site ∧ j % N = site
  · obtain ⟨hc1, hc2⟩ := hc
    have hi2 : i = rowIndex N site (i / N) := by
      unfold rowIndex
      rw [← hc1, add_comm, mul_comm]
      exact (Nat.div_add_mod i N).symm
    have hj2 : j = rowIndex N site (j / N) := by
      unfold rowIndex
      rw [← hc2, add_comm, mul_comm]
      exact (Nat.div_add_mod j N).symm
    have ha : i / N < 4 := (Nat.div_lt_iff_lt_mul hN).mpr hi
    have hb : j / N < 4 := (Nat.div_lt_iff_lt_mul hN).mpr hj
    rw [if_pos ⟨hc1, hc2⟩, Finset.sum_eq_single (i / N)]
    · rw [Finset.sum_eq_single (j / N)]
      · rw [if_pos hi2, if_pos hj2]
        ring
      · intro b _ hb2
        have : j ≠ rowIndex N site b := by
          intro hh
          apply hb2
          rw [hh, hdiv]
        simp [this]
      · intro hnot
        exact absurd (Finset.mem_range.mpr hb) hnot
    · intro a _ ha2
      have : i ≠ rowIndex N site a := by
        intro hh
        apply ha2
        rw [hh, hdiv]
      simp [this]
    · intro hnot
      exact absurd (Finset.mem_range.mpr ha) hnot
  · rw [if_neg hc]
    symm
    apply Finset.sum_eq_zero
    intro a _
    apply Finset.sum_eq_zero
    intro b _
    by_cases h1 : i = rowIndex N site a
    · by_cases h2 : j = rowIndex N site b
      · exfalso
        apply hc
        rw [h1, h2, hmod, hmod]
        exact ⟨rfl, rfl⟩
      · simp [h2]
    · simp [h1]

/-- The matrix `I + D*(I - G)` is the identity with the four rows of the site replaced. -/
theorem updMatrix_eq (N site : Nat) (hs : site < N) (delta G : Nat → Nat → K) :
    updMatrix N site (4 * N) (fun r => deltaRow N site delta G r) 4
      = 1 + toMatrix (4 * N) (embedDelta N site delta) * (1 - toMatrix (4 * N) G) := by
  unfold updMatrix
  congr 1
  ext i j
  have hD : ∀ l : Fin (4 * N), embedDelta N site delta i.val l.val
      = ∑ a in Finset.range 4, ∑ b in Finset.range 4,
          (if i.val = rowIndex N site a then 1 else 0) * delta a b
            * (if l.val = rowIndex N site b then 1 else 0) :=
    fun l => embedDelta_apply N site hs delta i.val l.val i.isLt l.isLt
  have hone : ∀ b, b < 4 → ∀ hlt : rowIndex N site b < 4 * N,
      (1 : Matrix (Fin (4 * N)) (Fin (4 * N)) K) ⟨rowIndex N site b, hlt⟩ j
        = if j.val = rowIndex N site b then 1 else 0 := by
    intro b _ hlt
    rw [Matrix.one_apply]
    by_cases h : j.val = rowIndex N site b
    · have : (⟨rowIndex N site b, hlt⟩ : Fin (4 * N)) = j := Fin.ext h.symm
      simp [h, this]
    · have : (⟨rowIndex N site b, hlt⟩ : Fin (4 * N)) ≠ j :=
        fun hh => h (congrArg Fin.val hh).symm
      simp [h, this]
  have hR : (toMatrix (4 * N) (embedDelta N site delta) * (1 - toMatrix (4 * N) G)) i j
      = ∑ a in Finset.range 4, ∑ b in Finset.range 4,
          (if i.val = rowIndex N site a then 1 else 0) * delta a b
            * ((if j.val = rowIndex N site b then 1 else 0) - G (rowIndex N site b) j.val) := by
    simp only [Matrix.mul_apply, toMatrix, Matrix.of_apply, Matrix.sub_apply, hD,
      Finset.sum_mul]
    rw [Finset.sum_comm]
    apply Finset.sum_congr rfl
    intro a _
    rw [Finset.sum_comm]
    apply Finset.sum_congr rfl
    intro b hb
    have hlt := rowIndex_lt N site b hs (Finset.mem_range.mp hb)
    have e := sum_unitVec_mul (4 * N) (rowIndex N site b) hlt
      (fun l => (if i.val = rowIndex N site a then (1 : K) else 0) * delta a b
        * ((1 : Matrix (Fin (4 * N)) (Fin (4 * N)) K) l j - G l.val j.val))
    simp only [unitVec] at e
    rw [hone b (Finset.mem_range.mp hb) hlt] at e
    rw [← e]
    apply Finset.sum_congr rfl
    intro l _
    ring
  rw [hR]
  simp only [Matrix.sum_apply, Matrix.vecMulVec_apply, vecOf, deltaRow_apply, unitVec,
    Finset.mul_sum]
  apply Finset.sum_congr rfl
  intro a _
  apply Finset.sum_congr rfl
  intro b _
  ring

/-- The Green function written by an accepted move is `G` times the matrix of the
treated rows. -/
theorem greenUpdate_eq (N site : Nat) (hs : site < N) (rho G : Nat → Nat → K) :
    toMatrix (4 * N) (greenUpdate N site rho G)
      = toMatrix (4 * N) G * invMatrix N site (4 * N) rho 4 := by
  ext i j
  have hidx : ∀ k, k < 4 → rowIndex N site k < 4 * N :=
    fun k hk => rowIndex_lt N site k hs hk
  have hmul : (toMatrix (4 * N) G * invMatrix N site (4 * N) rho 4) i j
      = (vecOf (4 * N) (G i.val) ᵥ* invMatrix N site (4 * N) rho 4) j := rfl
  rw [hmul, vecMul_invMatrix N site (4 * N) rho 4 hidx (G i.val) j]
  have h10 : (1 : Nat) ≠ 0 := by decide
  have h20 : (2 : Nat) ≠ 0 := by decide
  have h30 : (3 : Nat) ≠ 0 := by decide
  have h21 : (2 : Nat) ≠ 1 := by decide
  have h31 : (3 : Nat) ≠ 1 := by decide
  have h32 : (3 : Nat) ≠ 2 := by decide
  simp only [toMatrix, Matrix.of_apply, greenUpdate, i.isLt, j.isLt, and_self, if_true,
    Function.update_same, Function.update_noteq h10, Function.update_noteq h20,
    Function.update_noteq h30, Function.update_noteq h21, Function.update_noteq h31,
    Function.update_noteq h32, Function.update_noteq h10.symm, Function.update_noteq h20.symm,
    Function.update_noteq h30.symm, Function.update_noteq h21.symm,
    Function.update_noteq h31.symm, Function.update_noteq h32.symm, update_sub_one_apply,
    Finset.sum_range_succ, Finset.sum_range_zero, rowIndex, Nat.zero_mul, Nat.add_zero,
    Nat.one_mul]
  ring

end Assembly

section LocalMove

/-- C3: in exact arithmetic, when none of the four divisors is zero, the value `det`
produced by the loop over `l = 0..3` in `DetSDW::updateInSlice` is the determinant of the
matrix `I + D*(I - G)` of order `4 * N`, where `D` is zero except
`D[site + a*N, site + b*N] = delta[a, b]`. -/
theorem C3_determinant_of_loop {K : Type} [Field K] (N site : Nat) (hs : site < N)
    (G delta : Nat → Nat → K)
    (hdiv : ∀ l, l < 4 → smDivisor N site (fun r => deltaRow N site delta G r) l ≠ 0) :
    (smLoop N site (fun r => deltaRow N site delta G r) 4).2
      = Matrix.det
          (1 + toMatrix (4 * N) (embedDelta N site delta) * (1 - toMatrix (4 * N) G)) := by
  obtain ⟨_, _, h3⟩ := smInv_loop N site (by omega) hs _ hdiv 4 le_rfl
  rw [← h3, updMatrix_eq N site hs]

/-- C4: in exact arithmetic, when the move at `(site, timeslice)` is accepted and none of
the four divisors is zero, the slice of the Green function after the update is
`G * (I + D*(I - G))^(-1)`, where `G` is the slice before the move and `D` is the
embedding of `deltanonzero` at the rows and columns `site + a*N`. -/
theorem C4_green_function_update {R : Type} [LinearOrderedField R] (F : Libm R)
    (timeslice : Nat) (s : DetSDW R) (site : Nat) (rnd : Phi R) (u01 : R)
    (hs : site < s.N)
    (hacc : proposalWeight F timeslice s site rnd > 1 ∨
      u01 < proposalWeight F timeslice s site rnd)
    (hdiv : ∀ l, l < 4 → smDivisor s.N site
      (fun r => deltaRow s.N site
        (deltanonzero F s site timeslice (proposeNewField s site timeslice rnd))
        (s.g timeslice) r) l ≠ 0) :
    toMatrix (4 * s.N) ((siteUpdate F timeslice s site rnd u01).g timeslice)
      = toMatrix (4 * s.N) (s.g timeslice)
        * (1 + toMatrix (4 * s.N)
              (embedDelta s.N site
                (deltanonzero F s site timeslice (proposeNewField s site timeslice rnd)))
            * (1 - toMatrix (4 * s.N) (s.g timeslice)))⁻¹ := by
  obtain ⟨_, h2, _⟩ := smInv_loop s.N site (by omega) hs _ hdiv 4 le_rfl
  have hg : (siteUpdate F timeslice s site rnd u01).g timeslice
      = greenUpdate s.N site
          (smLoop s.N site (fun r => deltaRow s.N site
            (deltanonzero F s site timeslice (proposeNewField s site timeslice rnd))
            (s.g timeslice) r) 4).1 (s.g timeslice) := by
    unfold siteUpdate
    rw [if_pos hacc]
    simp [acceptedState]
  rw [hg, greenUpdate_eq s.N site hs, ← updMatrix_eq s.N site hs,
    Matrix.inv_eq_right_inv h2]

/-! ### A local move evaluated -/

/-- The entries of the matrix returned by `evMatrix`, as one table. -/
theorem evMatrix_entry {R : Type} [LinearOrderedField R] (sign : Int)
    (phi0 phi1 phi2 c sh : R) (a b : Nat) (ha : a < 4) (hb : b < 4) :
    evMatrix sign phi0 phi1 phi2 c sh a b
      = if a = b then ⟨c, 0⟩
        else if (a = 0 ∧ b = 2) ∨ (a = 2 ∧ b = 0) then ⟨(sign : R) * phi2 * sh, 0⟩
        else if (a = 1 ∧ b = 3) ∨ (a = 3 ∧ b = 1) then ⟨-(sign : R) * phi2 * sh, 0⟩
        else if (a = 0 ∧ b = 3) ∨ (a = 2 ∧ b = 1) then
          ⟨(sign : R) * phi0 * sh, -(sign : R) * phi1 * sh⟩
        else if (a = 1 ∧ b = 2) ∨ (a = 3 ∧ b = 0) then
          ⟨(sign : R) * phi0 * sh, (sign : R) * phi1 * sh⟩
        else 0 := by
  interval_cases a <;> interval_cases b <;> apply Cpx.ext <;> simp [evMatrix, setEntry]

/-- The entries of `deltanonzero` as the product `emvNew * evOld` minus the identity. -/
theorem deltanonzero_entry {R : Type} [LinearOrderedField R] (F : Libm R) (s : DetSDW R)
    (site timeslice : Nat) (newphi : Phi R) (a b : Nat) :
    deltanonzero F s site timeslice newphi a b
      = (∑ k in Finset.range 4,
          evMatrix (-1) (newphi 0) (newphi 1) (newphi 2)
              (F.cosh (s.dtau * norm2 F newphi))
              (F.sinh (s.dtau * norm2 F newphi) / norm2 F newphi) a k
            * evMatrix 1 (s.phi0 site timeslice) (s.phi1 site timeslice)
                (s.phi2 site timeslice) (s.phiCosh site timeslice)
                (s.phiSinh site timeslice) k b)
        - (if a = b then 1 else 0) := by
  simp only [deltanonzero, matMul]
  split_ifs
  · rfl
  · rw [sub_zero]

/-- One more iteration of the loop over `l`. -/
theorem smLoop_succ {K : Type} [Field K] (N site : Nat) (r : Nat → Nat → K) (n : Nat) :
    smLoop N site r (n + 1) = smStep N site (smLoop N site r n) n := by
  simp only [smLoop]
  rw [List.range_succ, List.foldl_append]
  rfl

/-- The rows that the loop over `l` has not reached yet are as they were. -/
theorem smLoop_untreated {K : Type} [Field K] (N site : Nat) (r : Nat → Nat → K) (n k : Nat)
    (h : n ≤ k) : (smLoop N site r n).1 k = r k := by
  induction n with
  | zero => rfl
  | succ n ih =>
    funext c
    rw [smLoop_succ, smStep_rows, if_neg (by omega), if_neg (by omega), ih (by omega)]

/-- The value `det` after one more iteration is the value before times the divisor. -/
theorem smLoop_succ_det {K : Type} [Field K] (N site : Nat) (r : Nat → Nat → K) (n : Nat) :
    (smLoop N site r (n + 1)).2 = (smLoop N site r n).2 * smDivisor N site r n := by
  rw [smLoop_succ]
  rfl

/-- The square root of `moveLibm` at `1` and at `4`. -/
theorem moveLibm_sqrt : moveLibm.sqrt 1 = 1 ∧ moveLibm.sqrt 4 = 2 := by
  have h4 : Nat.sqrt 4 = 2 := Nat.sqrt_eq 2
  constructor
  · simp [moveLibm]
  · simp [moveLibm, h4]

/-- The exponential of `moveLibm` is positive. -/
theorem moveLibm_exp_pos (x : ℚ) : 0 < moveLibm.exp x := by
  show (0 : ℚ) < 2 ^ ⌊x⌋
  positivity

/-- The field proposed with `moveDraw` at site `0` and slice `1` of `moveState`. -/
theorem moveState_newphi : proposeNewField moveState 0 1 moveDraw = ![0, -2, 0] := by
  funext i
  fin_cases i <;> simp [proposeNewField, moveState, moveDraw, DetSDW.phiAt]

/-- The norm of the proposed field, and the values of `cosh` and `sinh` over the norm
computed from it. -/
theorem moveState_newphi_cache :
    norm2 moveLibm (![0, -2, 0] : Phi ℚ) = 2 ∧
    moveLibm.cosh (moveState.dtau * 2) = 17 / 8 ∧
    moveLibm.sinh (moveState.dtau * 2) / 2 = 15 / 16 := by
  refine ⟨?_, ?_, ?_⟩
  · have h : dot (![0, -2, 0] : Phi ℚ) ![0, -2, 0] = 4 := by
      simp [dot]
      norm_num
    rw [norm2, h, moveLibm_sqrt.2]
  · simp [moveLibm, binaryLibm, moveState]
    norm_num
  · simp [moveLibm, binaryLibm, moveState]
    norm_num

/-- The matrix `deltanonzero` of the proposal `moveDraw` at site `0` and slice `1` of
`moveState`. -/
theorem moveState_delta :
    deltanonzero moveLibm moveState 0 1 ![0, -2, 0] 0 0 = ⟨53 / 32, 0⟩ ∧
    deltanonzero moveLibm moveState 0 1 ![0, -2, 0] 0 1 = ⟨0, 45 / 32⟩ ∧
    deltanonzero moveLibm moveState 0 1 ![0, -2, 0] 0 2 = ⟨51 / 32, 0⟩ ∧
    deltanonzero moveLibm moveState 0 1 ![0, -2, 0] 0 3 = ⟨0, -75 / 32⟩ ∧
    deltanonzero moveLibm moveState 0 1 ![0, -2, 0] 1 0 = ⟨0, 45 / 32⟩ ∧
    deltanonzero moveLibm moveState 0 1 ![0, -2, 0] 1 1 = ⟨53 / 32, 0⟩ ∧
    deltanonzero moveLibm moveState 0 1 ![0, -2, 0] 1 2 = ⟨0, 75 / 32⟩ ∧
    deltanonzero moveLibm moveState 0 1 ![0, -2, 0] 1 3 = ⟨-51 / 32, 0⟩ ∧
    deltanonzero moveLibm moveState 0 1 ![0, -2, 0] 2 0 = ⟨51 / 32, 0⟩ ∧
    deltanonzero moveLibm moveState 0 1 ![0, -2, 0] 2 1 = ⟨0, -75 / 32⟩ ∧
    deltanonzero moveLibm moveState 0 1 ![0, -2, 0] 2 2 = ⟨53 / 32, 0⟩ ∧
    deltanonzero moveLibm moveState 0 1 ![0, -2, 0] 2 3 = ⟨0, 45 / 32⟩ ∧
    deltanonzero moveLibm moveState 0 1 ![0, -2, 0] 3 0 = ⟨0, 75 / 32⟩ ∧
    deltanonzero moveLibm moveState 0 1 ![0, -2, 0] 3 1 = ⟨-51 / 32, 0⟩ ∧
    deltanonzero moveLibm moveState 0 1 ![0, -2, 0] 3 2 = ⟨0, 45 / 32⟩ ∧
    deltanonzero moveLibm moveState 0 1 ![0, -2, 0] 3 3 = ⟨53 / 32, 0⟩ := by
  obtain ⟨hn, hc, hsh⟩ := moveState_newphi_cache
  have h0 : moveState.phi0 0 1 = 0 := by simp [moveState]
  have h1 : moveState.phi1 0 1 = 0 := by simp [moveState]
  have h2 : moveState.phi2 0 1 = 1 := by simp [moveState]
  have h3 : moveState.phiCosh 0 1 = 5 / 4 := rfl
  have h4 : moveState.phiSinh 0 1 = 3 / 4 := rfl
  refine ⟨?_, ?_, ?_, ?_, ?_, ?_, ?_, ?_, ?_, ?_, ?_, ?_, ?_, ?_, ?_, ?_⟩ <;>
  · rw [deltanonzero_entry, hn, hc, hsh, h0, h1, h2, h3, h4]
    simp [Finset.sum_range_succ, evMatrix_entry, Cpx.ext_iff]
    try norm_num

/-- The rows of `Delta*(I - G)` of the proposal at the columns `site + k*N`. -/
theorem moveRows_site :
    moveRows 0 0 = ⟨53 / 64, 0⟩ ∧
    moveRows 0 4 = ⟨0, 45 / 64⟩ ∧
    moveRows 0 8 = ⟨51 / 64, 0⟩ ∧
    moveRows 0 12 = ⟨0, -75 / 64⟩ ∧
    moveRows 1 0 = ⟨0, 45 / 64⟩ ∧
    moveRows 1 4 = ⟨53 / 64, 0⟩ ∧
    moveRows 1 8 = ⟨0, 75 / 64⟩ ∧
    moveRows 1 12 = ⟨-51 / 64, 0⟩ ∧
    moveRows 2 0 = ⟨51 / 64, 0⟩ ∧
    moveRows 2 4 = ⟨0, -75 / 64⟩ ∧
    moveRows 2 8 = ⟨53 / 64, 0⟩ ∧
    moveRows 2 12 = ⟨0, 45 / 64⟩ ∧
    moveRows 3 0 = ⟨0, 75 / 64⟩ ∧
    moveRows 3 4 = ⟨-51 / 64, 0⟩ ∧
    moveRows 3 8 = ⟨0, 45 / 64⟩ ∧
    moveRows 3 12 = ⟨53 / 64, 0⟩ := by
  have hN : moveState.N = 4 := rfl
  have hp := moveState_newphi
  have hG : ∀ i j, moveState.g 1 i j
      = if i = j then ⟨1 / 2, 0⟩ else if i + 1 = j ∨ j + 1 = i then ⟨1 / 4, 0⟩ else 0 :=
    fun _ _ => rfl
  obtain ⟨d0, d1, d2, d3, d4, d5, d6, d7, d8, d9, d10, d11, d12, d13, d14, d15⟩ :=
    moveState_delta
  refine ⟨?_, ?_, ?_, ?_, ?_, ?_, ?_, ?_, ?_, ?_, ?_, ?_, ?_, ?_, ?_, ?_⟩ <;>
  · simp only [moveRows, hN, hp]
    rw [deltaRow_apply]
    simp only [Finset.sum_range_succ, Finset.sum_range_zero, rowIndex, hG,
      d0, d1, d2, d3, d4, d5, d6, d7, d8, d9, d10, d11, d12, d13, d14, d15]
    simp [Cpx.ext_iff]
    try norm_num

/-- The rows treated by the loop after its first iteration, at the columns
`site + k*N`. -/
theorem moveLoop_stage1 :
    (smLoop 4 0 moveRows 1).1 0 0 = ⟨64 / 117, 0⟩ ∧
    (smLoop 4 0 moveRows 1).1 0 4 = ⟨0, -5 / 13⟩ ∧
    (smLoop 4 0 moveRows 1).1 0 8 = ⟨-17 / 39, 0⟩ ∧
    (smLoop 4 0 moveRows 1).1 0 12 = ⟨0, 25 / 39⟩ := by
  have e : smLoop 4 0 moveRows 1 = smStep 4 0 (smLoop 4 0 moveRows 0) 0 :=
    smLoop_succ 4 0 moveRows 0
  obtain ⟨a0, a1, a2, a3, a4, a5, a6, a7, a8, a9, a10, a11, a12, a13, a14, a15⟩ :=
    moveRows_site
  rw [e]
  refine ⟨?_, ?_, ?_, ?_⟩ <;>
  · rw [smStep_rows]
    simp [smRow_apply 4 0 (by decide), Finset.sum_range_succ, rowIndex, smLoop_untreated,
      Cpx.ext_iff, div_eq_mul_inv, Cpx.inv_re, Cpx.inv_im,
      a0, a1, a2, a3, a4, a5, a6, a7, a8, a9, a10, a11, a12, a13, a14, a15]
    try norm_num

/-- The rows treated by the loop after its second iteration, at the columns
`site + k*N`. -/
theorem moveLoop_stage2 :
    (smLoop 4 0 moveRows 2).1 0 0 = ⟨416 / 873, 0⟩ ∧
    (smLoop 4 0 moveRows 2).1 0 4 = ⟨0, -160 / 873⟩ ∧
    (smLoop 4 0 moveRows 2).1 0 8 = ⟨-173 / 291, 0⟩ ∧
    (smLoop 4 0 moveRows 2).1 0 12 = ⟨0, 40 / 97⟩ ∧
    (smLoop 4 0 moveRows 2).1 1 0 = ⟨0, -160 / 873⟩ ∧
    (smLoop 4 0 moveRows 2).1 1 4 = ⟨416 / 873, 0⟩ ∧
    (smLoop 4 0 moveRows 2).1 1 8 = ⟨0, -40 / 97⟩ ∧
    (smLoop 4 0 moveRows 2).1 1 12 = ⟨173 / 291, 0⟩ := by
  have e : smLoop 4 0 moveRows 2 = smStep 4 0 (smLoop 4 0 moveRows 1) 1 :=
    smLoop_succ 4 0 moveRows 1
  obtain ⟨a0, a1, a2, a3, a4, a5, a6, a7, a8, a9, a10, a11, a12, a13, a14, a15⟩ :=
    moveRows_site
  obtain ⟨s0, s1, s2, s3⟩ := moveLoop_stage1
  rw [e]
  refine ⟨?_, ?_, ?_, ?_, ?_, ?_, ?_, ?_⟩ <;>
  · rw [smStep_rows]
    simp [smRow_apply 4 0 (by decide), Finset.sum_range_succ, rowIndex, smLoop_untreated,
      Cpx.ext_iff, div_eq_mul_inv, Cpx.inv_re, Cpx.inv_im,
      a0, a1, a2, a3, a4, a5, a6, a7, a8, a9, a10, a11, a12, a13, a14, a15,
      s0, s1, s2, s3]
    try norm_num

/-- The rows treated by the loop after its third iteration, at the columns
`site + k*N`. -/
theorem moveLoop_stage3 :
    (smLoop 4 0 moveRows 3).1 0 0 = ⟨896 / 1521, 0⟩ ∧
    (smLoop 4 0 moveRows 3).1 0 4 = ⟨0, -1010 / 1521⟩ ∧
    (smLoop 4 0 moveRows 3).1 0 8 = ⟨-346 / 507, 0⟩ ∧
    (smLoop 4 0 moveRows 3).1 0 12 = ⟨0, 25 / 39⟩ ∧
    (smLoop 4 0 moveRows 3).1 1 0 = ⟨0, -160 / 1521⟩ ∧
    (smLoop 4 0 moveRows 3).1 1 4 = ⟨1232 / 1521, 0⟩ ∧
    (smLoop 4 0 moveRows 3).1 1 8 = ⟨0, -80 / 169⟩ ∧
    (smLoop 4 0 moveRows 3).1 1 12 = ⟨17 / 39, 0⟩ ∧
    (smLoop 4 0 moveRows 3).1 2 0 = ⟨-32 / 169, 0⟩ ∧
    (smLoop 4 0 moveRows 3).1 2 4 = ⟨0, 410 / 507⟩ ∧
    (smLoop 4 0 moveRows 3).1 2 8 = ⟨194 / 169, 0⟩ ∧
    (smLoop 4 0 moveRows 3).1 2 12 = ⟨0, -5 / 13⟩ := by
  have e : smLoop 4 0 moveRows 3 = smStep 4 0 (smLoop 4 0 moveRows 2) 2 :=
    smLoop_succ 4 0 moveRows 2
  obtain ⟨a0, a1, a2, a3, a4, a5, a6, a7, a8, a9, a10, a11, a12, a13, a14, a15⟩ :=
    moveRows_site
  obtain ⟨s0, s1, s2, s3, s4, s5, s6, s7⟩ := moveLoop_stage2
  rw [e]
  refine ⟨?_, ?_, ?_, ?_, ?_, ?_, ?_, ?_, ?_, ?_, ?_, ?_⟩ <;>
  · rw [smStep_rows]
    simp [smRow_apply 4 0 (by decide), Finset.sum_range_succ, rowIndex, smLoop_untreated,
      Cpx.ext_iff, div_eq_mul_inv, Cpx.inv_re, Cpx.inv_im,
      a0, a1, a2, a3, a4, a5, a6, a7, a8, a9, a10, a11, a12, a13, a14, a15,
      s0, s1, s2, s3, s4, s5, s6, s7]
    try norm_num

/-- The first row after the last iteration of the loop, at the column `site + N`. -/
theorem moveLoop_final : (smLoop 4 0 moveRows 4).1 0 4 = ⟨0, -5 / 13⟩ := by
  have e : smLoop 4 0 moveRows 4 = smStep 4 0 (smLoop 4 0 moveRows 3) 3 :=
    smLoop_succ 4 0 moveRows 3
  obtain ⟨a0, a1, a2, a3, a4, a5, a6, a7, a8, a9, a10, a11, a12, a13, a14, a15⟩ :=
    moveRows_site
  obtain ⟨s0, s1, s2, s3, s4, s5, s6, s7, s8, s9, s10, s11⟩ := moveLoop_stage3
  rw [e, smStep_rows]
  simp [smRow_apply 4 0 (by decide), Finset.sum_range_succ, rowIndex, smLoop_untreated,
      Cpx.ext_iff, div_eq_mul_inv, Cpx.inv_re, Cpx.inv_im,
    a0, a1, a2, a3, a4, a5, a6, a7, a8, a9, a10, a11, a12, a13, a14, a15,
    s0, s1, s2, s3, s4, s5, s6, s7, s8, s9, s10, s11]
  try norm_num

/-- The four divisors of the loop for the proposal. -/
theorem moveLoop_divisors :
    smDivisor 4 0 moveRows 0 = ⟨117 / 64, 0⟩ ∧
    smDivisor 4 0 moveRows 1 = ⟨873 / 416, 0⟩ ∧
    smDivisor 4 0 moveRows 2 = ⟨169 / 194, 0⟩ ∧
    smDivisor 4 0 moveRows 3 = ⟨1, 0⟩ := by
  obtain ⟨a0, a1, a2, a3, a4, a5, a6, a7, a8, a9, a10, a11, a12, a13, a14, a15⟩ :=
    moveRows_site
  obtain ⟨s0, s1, s2, s3⟩ := moveLoop_stage1
  obtain ⟨t0, t1, t2, t3, t4, t5, t6, t7⟩ := moveLoop_stage2
  obtain ⟨u0, u1, u2, u3, u4, u5, u6, u7, u8, u9, u10, u11⟩ := moveLoop_stage3
  refine ⟨?_, ?_, ?_, ?_⟩ <;>
  · simp [smDivisor, smRow_apply 4 0 (by decide), Finset.sum_range_succ, rowIndex, smLoop_untreated,
      Cpx.ext_iff, div_eq_mul_inv, Cpx.inv_re, Cpx.inv_im,
      a0, a1, a2, a3, a4, a5, a6, a7, a8, a9, a10, a11, a12, a13, a14, a15,
      s0, s1, s2, s3, t0, t1, t2, t3, t4, t5, t6, t7,
      u0, u1, u2, u3, u4, u5, u6, u7, u8, u9, u10, u11]
    try norm_num

/-- The value `det` of the loop for the proposal. -/
theorem moveLoop_det : (smLoop 4 0 moveRows 4).2 = ⟨13689 / 4096, 0⟩ := by
  obtain ⟨d0, d1, d2, d3⟩ := moveLoop_divisors
  have e4 := smLoop_succ_det 4 0 moveRows 3
  have e3 := smLoop_succ_det 4 0 moveRows 2
  have e2 := smLoop_succ_det 4 0 moveRows 1
  have e1 := smLoop_succ_det 4 0 moveRows 0
  have e0 : (smLoop 4 0 moveRows 0).2 = 1 := rfl
  rw [e4, e3, e2, e1, e0, d0, d1, d2, d3]
  simp [Cpx.ext_iff]
  try norm_num

/-- None of the four divisors of the proposal is zero. -/
theorem moveState_divisors (l : Nat) (hl : l < 4) :
    smDivisor moveState.N 0
      (fun r => deltaRow moveState.N 0
        (deltanonzero moveLibm moveState 0 1 (proposeNewField moveState 0 1 moveDraw))
        (moveState.g 1) r) l ≠ 0 := by
  obtain ⟨d0, d1, d2, d3⟩ := moveLoop_divisors
  show smDivisor 4 0 moveRows l ≠ 0
  interval_cases l
  · rw [d0]
    simp [Cpx.ext_iff]
  · rw [d1]
    simp [Cpx.ext_iff]
  · rw [d2]
    simp [Cpx.ext_iff]
  · rw [d3]
    simp [Cpx.ext_iff]

/-- The change of the action for the proposal at site `0` and slice `1` of `moveState`. -/
theorem moveState_deltaSPhi : deltaSPhi moveState 0 1 ![0, -2, 0] = -1 / 4 := by
  obtain ⟨hE, hLa⟩ := timeNeigh_periodic moveState.m 1 (le_refl 1) (by decide) (by decide)
    (by decide)
  have hcol := spaceNeigh_column moveState.L 0 0 (by decide) (by decide) (by decide)
    (by decide)
  have hs : 0 + moveState.L * 0 = 0 := rfl
  rw [hs] at hcol
  unfold deltaSPhi
  simp only [hE, hLa, hcol, List.foldl_cons, List.foldl_nil, DetSDW.c, DetSDW.u, z, zero_add]
  simp [moveState, DetSDW.phiAt, dot]
  norm_num

/-- The weight of the proposal at site `0` and slice `1` of `moveState`. -/
theorem moveState_weight : proposalWeight moveLibm 1 moveState 0 moveDraw = 13689 / 4096 := by
  have hd : (smLoop moveState.N 0
      (fun r => deltaRow moveState.N 0
        (deltanonzero moveLibm moveState 0 1 (proposeNewField moveState 0 1 moveDraw))
        (moveState.g 1) r) 4).2 = ⟨13689 / 4096, 0⟩ := moveLoop_det
  have he : moveLibm.exp (-(-1 / 4)) = 1 := by
    show (2 : ℚ) ^ ⌊(-(-1 / 4) : ℚ)⌋ = 1
    have hf : ⌊(-(-1 / 4) : ℚ)⌋ = 0 := by
      rw [Int.floor_eq_iff]
      norm_num
    rw [hf, zpow_zero]
  simp only [proposalWeight]
  rw [hd, moveState_newphi, moveState_deltaSPhi, he, one_mul]

/-- The caches of `moveState` are consistent with its field. -/
theorem moveState_consistent : CacheConsistent moveLibm moveState := by
  intro site k _ _
  have hd : dot (moveState.phiAt site k) (moveState.phiAt site k) = 1 := by
    have h3 : k % 3 = 0 ∨ k % 3 = 1 ∨ k % 3 = 2 := by omega
    have h2 : site % 2 = 0 ∨ site % 2 = 1 := by omega
    rcases h3 with h | h | h <;> rcases h2 with g | g <;>
      simp [dot, moveState, DetSDW.phiAt, h, g]
  have hn : norm2 moveLibm (moveState.phiAt site k) = 1 := by
    rw [norm2, hd, moveLibm_sqrt.1]
  rw [hn]
  constructor
  · simp [moveLibm, binaryLibm, moveState]
    norm_num
  · simp [moveLibm, binaryLibm, moveState]
    norm_num

/-- The lattice of `moveState` has sites. -/
theorem moveState_sites : 0 < moveState.N := by simp [moveState, DetSDW.N]

/-- C3, at a concrete input: the proposal `moveDraw` at site `0` and slice `1` of
`moveState`, where `delta` and `G` are not zero; the divisors are `117/64`, `873/416`,
`169/194` and `1`, and the determinant is `13689/4096`. -/
theorem C3_determinant_of_loop_witness :
    (0 < moveState.N ∧ ∀ l, l < 4 →
      smDivisor moveState.N 0 (fun r => deltaRow moveState.N 0
        (deltanonzero moveLibm moveState 0 1 (proposeNewField moveState 0 1 moveDraw))
        (moveState.g 1) r) l ≠ 0) ∧
    (smLoop moveState.N 0 (fun r => deltaRow moveState.N 0
        (deltanonzero moveLibm moveState 0 1 (proposeNewField moveState 0 1 moveDraw))
        (moveState.g 1) r) 4).2
      = Matrix.det (1 + toMatrix (4 * moveState.N) (embedDelta moveState.N 0
          (deltanonzero moveLibm moveState 0 1 (proposeNewField moveState 0 1 moveDraw)))
          * (1 - toMatrix (4 * moveState.N) (moveState.g 1))) ∧
    (smLoop moveState.N 0 (fun r => deltaRow moveState.N 0
        (deltanonzero moveLibm moveState 0 1 (proposeNewField moveState 0 1 moveDraw))
        (moveState.g 1) r) 4).2 = ⟨13689 / 4096, 0⟩ ∧
    deltanonzero moveLibm moveState 0 1 (proposeNewField moveState 0 1 moveDraw) 0 1
      = ⟨0, 45 / 32⟩ ∧
    moveState.g 1 0 1 = ⟨1 / 4, 0⟩ := by
  have key : ∀ s : DetSDW ℚ, 0 < s.N →
      (∀ l, l < 4 → smDivisor s.N 0 (fun r => deltaRow s.N 0
        (deltanonzero moveLibm s 0 1 (proposeNewField s 0 1 moveDraw)) (s.g 1) r) l ≠ 0) →
      (smLoop s.N 0 (fun r => deltaRow s.N 0
          (deltanonzero moveLibm s 0 1 (proposeNewField s 0 1 moveDraw)) (s.g 1) r) 4).2
        = Matrix.det (1 + toMatrix (4 * s.N) (embedDelta s.N 0
            (deltanonzero moveLibm s 0 1 (proposeNewField s 0 1 moveDraw)))
            * (1 - toMatrix (4 * s.N) (s.g 1))) :=
    fun s hs hd => C3_determinant_of_loop s.N 0 hs (s.g 1)
      (deltanonzero moveLibm s 0 1 (proposeNewField s 0 1 moveDraw)) hd
  have hd01 : deltanonzero moveLibm moveState 0 1 (proposeNewField moveState 0 1 moveDraw) 0 1
      = ⟨0, 45 / 32⟩ := by
    rw [moveState_newphi]
    exact moveState_delta.2.1
  exact ⟨⟨moveState_sites, moveState_divisors⟩,
    key moveState moveState_sites moveState_divisors, moveLoop_det, hd01, rfl⟩

/-- C4, at a concrete input: the proposal `moveDraw` at site `0` and slice `1` of
`moveState` has the weight `13689/4096`, so it is accepted whatever is drawn (here
`1/2`), and no divisor is zero; the move changes the Green function, the entry `(0, 4)`
from `0` to `-(5/26) i`. -/
theorem C4_green_function_update_witness :
    (0 < moveState.N ∧
      (proposalWeight moveLibm 1 moveState 0 moveDraw > 1 ∨
        1 / 2 < proposalWeight moveLibm 1 moveState 0 moveDraw) ∧
      ∀ l, l < 4 → smDivisor moveState.N 0 (fun r => deltaRow moveState.N 0
        (deltanonzero moveLibm moveState 0 1 (proposeNewField moveState 0 1 moveDraw))
        (moveState.g 1) r) l ≠ 0) ∧
    toMatrix (4 * moveState.N) ((siteUpdate moveLibm 1 moveState 0 moveDraw (1 / 2)).g 1)
      = toMatrix (4 * moveState.N) (moveState.g 1)
        * (1 + toMatrix (4 * moveState.N)
              (embedDelta moveState.N 0
                (deltanonzero moveLibm moveState 0 1
                  (proposeNewField moveState 0 1 moveDraw)))
            * (1 - toMatrix (4 * moveState.N) (moveState.g 1)))⁻¹ ∧
    moveState.g 1 0 4 = 0 ∧
    (siteUpdate moveLibm 1 moveState 0 moveDraw (1 / 2)).g 1 0 4 = ⟨0, -5 / 26⟩ := by
  have hacc : proposalWeight moveLibm 1 moveState 0 moveDraw > 1 ∨
      1 / 2 < proposalWeight moveLibm 1 moveState 0 moveDraw := by
    rw [moveState_weight]
    exact Or.inl (by norm_num)
  have hg : (siteUpdate moveLibm 1 moveState 0 moveDraw (1 / 2)).g 1
      = greenUpdate 4 0 (smLoop 4 0 moveRows 4).1 (moveState.g 1) := by
    unfold siteUpdate
    rw [if_pos hacc]
    simp [acceptedState]
    rfl
  have hG : ∀ i j, moveState.g 1 i j
      = if i = j then ⟨1 / 2, 0⟩ else if i + 1 = j ∨ j + 1 = i then ⟨1 / 4, 0⟩ else 0 :=
    fun _ _ => rfl
  have key : ∀ s : DetSDW ℚ, 0 < s.N →
      (proposalWeight moveLibm 1 s 0 moveDraw > 1 ∨
        1 / 2 < proposalWeight moveLibm 1 s 0 moveDraw) →
      (∀ l, l < 4 → smDivisor s.N 0 (fun r => deltaRow s.N 0
        (deltanonzero moveLibm s 0 1 (proposeNewField s 0 1 moveDraw)) (s.g 1) r) l ≠ 0) →
      toMatrix (4 * s.N) ((siteUpdate moveLibm 1 s 0 moveDraw (1 / 2)).g 1)
        = toMatrix (4 * s.N) (s.g 1)
          * (1 + toMatrix (4 * s.N)
                (embedDelta s.N 0
                  (deltanonzero moveLibm s 0 1 (proposeNewField s 0 1 moveDraw)))
              * (1 - toMatrix (4 * s.N) (s.g 1)))⁻¹ :=
    fun s hs ha hd => C4_green_function_update moveLibm 1 s 0 moveDraw (1 / 2) hs ha hd
  refine ⟨⟨moveState_sites, hacc, moveState_divisors⟩,
    key moveState moveState_sites hacc moveState_divisors, rfl, ?_⟩
  rw [hg]
  simp [greenUpdate, hG, Function.update_apply, moveLoop_final, Cpx.ext_iff]
  norm_num

/-- C8, at a concrete input: the caches of `moveState` are consistent; in the sweep over
slice `1` with the draws `moveDraws` the proposal at site `0` is accepted, the field there
changes from `(0, 0, 1)` to `(0, -2, 0)` and the caches from `5/4` and `3/4` to
`cosh(2) = 17/8` and `sinh(2)/2 = 15/16`. -/
theorem C8_cache_consistency_witness :
    CacheConsistent moveLibm moveState ∧
    CacheConsistent moveLibm (updateInSlice moveLibm moveDraws 1 moveState) ∧
    (0 < moveState.N ∧
      (proposalWeight moveLibm 1 (updateInSliceUpTo moveLibm moveDraws 1 moveState 0) 0
          (moveDraws 0).1 > 1 ∨
        (moveDraws 0).2 < proposalWeight moveLibm 1
          (updateInSliceUpTo moveLibm moveDraws 1 moveState 0) 0 (moveDraws 0).1)) ∧
    (moveState.phiAt 0 1 = ![0, 0, 1] ∧ moveState.phiCosh 0 1 = 5 / 4 ∧
      moveState.phiSinh 0 1 = 3 / 4) ∧
    ((updateInSlice moveLibm moveDraws 1 moveState).phiAt 0 1 = ![0, -2, 0] ∧
      (updateInSlice moveLibm moveDraws 1 moveState).phiCosh 0 1 = 17 / 8 ∧
      (updateInSlice moveLibm moveDraws 1 moveState).phiSinh 0 1 = 15 / 16) := by
  have h0 : updateInSliceUpTo moveLibm moveDraws 1 moveState 0 = moveState := rfl
  have hdraw : (moveDraws 0).1 = moveDraw := by
    funext i
    fin_cases i <;> simp [moveDraws, moveDraw]
  have hacc : proposalWeight moveLibm 1 (updateInSliceUpTo moveLibm moveDraws 1 moveState 0) 0
        (moveDraws 0).1 > 1 ∨
      (moveDraws 0).2 < proposalWeight moveLibm 1
        (updateInSliceUpTo moveLibm moveDraws 1 moveState 0) 0 (moveDraws 0).1 := by
    rw [h0, hdraw, moveState_weight]
    exact Or.inl (by norm_num)
  have hold : moveState.phiAt 0 1 = ![0, 0, 1] := by
    funext i
    fin_cases i <;> simp [moveState, DetSDW.phiAt]
  obtain ⟨hn, hc, hsh⟩ := moveState_newphi_cache
  obtain ⟨w1, w2, w3⟩ :=
    ((C8_cache_consistency moveLibm moveDraws 1 moveState).2.1 0 moveState_sites).1 hacc
  rw [hdraw, moveState_newphi] at w1 w2 w3
  rw [hn, hc] at w2
  rw [hn, hsh] at w3
  exact ⟨moveState_consistent,
    (C8_cache_consistency moveLibm moveDraws 1 moveState).1 moveState_consistent,
    ⟨moveState_sites, hacc⟩, ⟨hold, rfl, rfl⟩, ⟨w1, w2, w3⟩⟩

end LocalMove

/-! ### The B-matrix -/

section BmatTheorems

variable {R : Type} [LinearOrderedField R]

theorem matMul_assoc {K : Type} [CommRing K] (n : Nat) (A B C : Nat → Nat → K) :
    matMul n (matMul n A B) C = matMul n A (matMul n B C) := by
  funext i j
  simp only [matMul, Finset.sum_mul, Finset.mul_sum]
  rw [Finset.sum_comm]
  apply Finset.sum_congr rfl
  intro k _
  apply Finset.sum_congr rfl
  intro l _
  ring

theorem matMul_eye {K : Type} [CommRing K] (n : Nat) (A : Nat → Nat → K) (i j : Nat)
    (hj : j < n) : matMul n A eye i j = A i j := by
  simp only [matMul, eye]
  rw [Finset.sum_eq_single j]
  · simp
  · intro b _ hb
    simp [hb]
  · intro h
    exact absurd (Finset.mem_range.mpr hj) h

theorem matMul_congr {K : Type} [CommRing K] (n : Nat) (A B C D : Nat → Nat → K)
    (h1 : ∀ i j, i < n → j < n → A i j = C i j) (h2 : ∀ i j, i < n → j < n → B i j = D i j)
    (i j : Nat) (hi : i < n) (hj : j < n) : matMul n A B i j = matMul n C D i j := by
  simp only [matMul]
  apply Finset.sum_congr rfl
  intro k hk
  rw [h1 i k hi (Finset.mem_range.mp hk), h2 k j (Finset.mem_range.mp hk) hj]

theorem orderedProduct_congr {K : Type} [CommRing K] (order : Nat)
    (S T : Nat → Nat → Nat → K)
    (h : ∀ k i j, i < order → j < order → S k i j = T k i j) (k1 n : Nat) (i j : Nat)
    (hi : i < order) (hj : j < order) :
    orderedProduct order S k1 n i j = orderedProduct order T k1 n i j := by
  induction n generalizing i j with
  | zero => rfl
  | succ n ih =>
    simp only [orderedProduct]
    exact matMul_congr order _ _ _ _ (h _) (fun a b ha hb => ih a b ha hb) i j hi hj

theorem descending_succ (k1 d : Nat) :
    (List.range (d + 1)).map (fun j => k1 + (d + 1) - j)
      = (k1 + d + 1) :: (List.range d).map (fun j => k1 + d - j) := by
  rw [List.range_succ_eq_map, List.map_cons, List.map_map]
  congr 1
  apply List.map_congr_left
  intro a _
  simp only [Function.comp]
  omega

/-- The loop of `computeBmatSDW` multiplies the factors in descending order. -/
theorem foldl_descending {K : Type} [CommRing K] (order : Nat) (S : Nat → Nat → Nat → K)
    (k1 d : Nat) (A : Nat → Nat → K) (i j : Nat) (hj : j < order) :
    ((List.range d).map (fun j => k1 + d - j)).foldl
        (fun result k => matMul order result (S k)) A i j
      = matMul order A (orderedProduct order S k1 d) i j := by
  induction d generalizing A with
  | zero =>
    simp only [List.range_zero, List.map_nil, List.foldl_nil, orderedProduct]
    rw [matMul_eye order A i j hj]
  | succ d ih =>
    rw [descending_succ, List.foldl_cons, ih, matMul_assoc]
    rfl

/-- On the matrix of order `4 * N` the blocks written by `singleTimesliceProp` are those of
the product `E(k) * blockdiag(propKx, propKx, propKy, propKy)`. -/
theorem singleTimesliceProp_eq (s : DetSDW R) (k i j : Nat) (hi : i < 4 * s.N)
    (hj : j < 4 * s.N) : singleTimesliceProp s k i j = sliceFactor s k i j := by
  have hN : 0 < s.N := by
    by_contra h0
    have : s.N = 0 := by omega
    rw [this] at hi
    omega
  have ha : i / s.N < 4 := (Nat.div_lt_iff_lt_mul hN).mpr hi
  have hb : j / s.N < 4 := (Nat.div_lt_iff_lt_mul hN).mpr hj
  have hp : i % s.N < s.N := Nat.mod_lt _ hN
  have hmod : (i % s.N + j / s.N * s.N) % s.N = i % s.N := by
    rw [Nat.add_mul_mod_self_right, Nat.mod_mod]
  have hdiv : (i % s.N + j / s.N * s.N) / s.N = j / s.N := by
    rw [Nat.add_mul_div_right _ _ hN, Nat.div_eq_of_lt hp, zero_add]
  have hsum : sliceFactor s k i j
      = vertexMatrix s k i (i % s.N + j / s.N * s.N)
        * hoppingBlockDiag s (i % s.N + j / s.N * s.N) j := by
    unfold sliceFactor matMul
    apply Finset.sum_eq_single
    · intro l _ hl
      by_cases h1 : i % s.N = l % s.N
      · by_cases h2 : l / s.N = j / s.N
        · exfalso
          apply hl
          rw [h1, ← h2, add_comm, mul_comm]
          exact (Nat.div_add_mod l s.N).symm
        · simp [hoppingBlockDiag, h2]
      · simp [vertexMatrix, h1]
    · intro hnot
      exfalso
      apply hnot
      rw [Finset.mem_range]
      have : j / s.N * s.N ≤ 3 * s.N := Nat.mul_le_mul_right _ (by omega)
      omega
  rw [hsum]
  simp only [vertexMatrix, hoppingBlockDiag, hmod, hdiv, if_true, singleTimesliceProp]
  generalize i / s.N = a at ha
  generalize j / s.N = b at hb
  interval_cases a <;> interval_cases b <;>
    apply Cpx.ext <;>
    simp [bmatBlock, vertexExponential, matCpx, diagmatMul, zerosMat, Cpx.ofReal, Cpx.I]

/-- C10: `computeBmatSDW(k, k)` is the identity, and for `k1 < k2 <= m` the matrix
`computeBmatSDW(k2, k1)` of order `4 * N` is the ordered product
`S(k2) * S(k2 - 1) * ... * S(k1 + 1)` of the single slice factors
`S(k) = E(k) * blockdiag(propKx, propKx, propKy, propKy)`, where `E(k)` is the block sum
over the sites of the vertex exponential of section 4.1.1 with sign `-1`. -/
theorem C10_computeBmatSDW_product (s : DetSDW R) :
    (∀ k, computeBmatSDW s k k = eye) ∧
    (∀ k1 k2, k1 < k2 → k2 ≤ s.m → ∀ i j, i < 4 * s.N → j < 4 * s.N →
      computeBmatSDW s k2 k1 i j
        = orderedProduct (4 * s.N) (sliceFactor s) k1 (k2 - k1) i j) := by
  constructor
  · intro k
    funext i j
    unfold computeBmatSDW
    rw [if_pos rfl]
    apply Cpx.ext
    · by_cases h : i = j <;> simp [matCpx, eye, zerosMat, h]
    · by_cases h : i = j <;> simp [matCpx, eye, zerosMat, h]
  · intro k1 k2 hlt _ i j hi hj
    obtain ⟨d, rfl⟩ : ∃ d, k2 = k1 + d + 1 := ⟨k2 - k1 - 1, by omega⟩
    unfold computeBmatSDW
    rw [if_neg (by omega)]
    have e1 : k1 + d + 1 - 1 - k1 = d := by omega
    have e2 : k1 + d + 1 - k1 = d + 1 := by omega
    have e3 : (fun j => k1 + d + 1 - 1 - j) = (fun j => k1 + d - j) := by
      funext j
      omega
    rw [e1, e2, e3, foldl_descending (4 * s.N) (singleTimesliceProp s) k1 d _ i j hj]
    rw [orderedProduct_congr (4 * s.N) (sliceFactor s) (singleTimesliceProp s)
      (fun k a b ha hb => (singleTimesliceProp_eq s k a b ha hb).symm) k1 (d + 1) i j hi hj]
    rfl

/-- C10, at a concrete input: the slices `0 < 3 = m` of `moveState` (2x2 lattice, a field
that differs from slice to slice, hopping exponentials that are not diagonal) and the
entry `(1, 6)`: the loop runs over `k = 2, 1` and the result is the entry of
`S(3) * (S(2) * (S(1) * I))`. -/
theorem C10_computeBmatSDW_product_witness :
    (0 < 3 ∧ 3 ≤ moveState.m ∧ 1 < 4 * moveState.N ∧ 6 < 4 * moveState.N) ∧
    computeBmatSDW moveState 3 0 1 6
      = orderedProduct (4 * moveState.N) (sliceFactor moveState) 0 (3 - 0) 1 6 ∧
    orderedProduct (4 * moveState.N) (sliceFactor moveState) 0 (3 - 0)
      = matMul (4 * moveState.N) (sliceFactor moveState 3)
          (matMul (4 * moveState.N) (sliceFactor moveState 2)
            (matMul (4 * moveState.N) (sliceFactor moveState 1) eye)) := by
  have hN : moveState.N = 4 := rfl
  have hm : moveState.m = 3 := rfl
  have h1 : 1 < 4 * moveState.N := by rw [hN]; decide
  have h6 : 6 < 4 * moveState.N := by rw [hN]; decide
  have hm3 : 3 ≤ moveState.m := by rw [hm]
  exact ⟨⟨by decide, hm3, h1, h6⟩,
    (C10_computeBmatSDW_product moveState).2 0 3 (by decide) hm3 1 6 h1 h6, rfl⟩

end BmatTheorems

/-! ### Counters of the exchange statistics -/

theorem getD_incrAt (v : List Int) (i j : Nat) :
    (incrAt v i).getD j 0 = if i = j ∧ i < v.length then v.getD j 0 + 1 else v.getD j 0 := by
  unfold incrAt
  simp only [List.getD_eq_getElem?_getD, List.getElem?_set]
  by_cases h : i = j
  · subst h
    by_cases h2 : i < v.length
    · simp [h2]
    · simp [h2, List.getElem?_eq_none (not_lt.mp h2)]
  · simp [h]

theorem length_incrAt (v : List Int) (i : Nat) : (incrAt v i).length = v.length := by
  simp [incrAt]

theorem histogramStep_facts (P : Nat) (pp : List Nat) (es : ExchangeStatistics) (pi c : Nat) :
    (histogramStep P pp es pi).par_swapUpProposed = es.par_swapUpProposed ∧
    (histogramStep P pp es pi).par_swapUpAccepted = es.par_swapUpAccepted ∧
    (histogramStep P pp es pi).par_countGoingUp.length = es.par_countGoingUp.length ∧
    (histogramStep P pp es pi).par_countGoingDown.length = es.par_countGoingDown.length ∧
    es.par_countGoingUp.getD c 0 ≤ (histogramStep P pp es pi).par_countGoingUp.getD c 0 ∧
    es.par_countGoingDown.getD c 0 ≤ (histogramStep P pp es pi).par_countGoingDown.getD c 0 ∧
    (histogramStep P pp es pi).par_countGoingUp.getD c 0 +
        (histogramStep P pp es pi).par_countGoingDown.getD c 0 ≤
      es.par_countGoingUp.getD c 0 + es.par_countGoingDown.getD c 0 +
        (if pp.getD pi 0 = c then 1 else 0) := by
  unfold histogramStep
  simp only []
  split_ifs <;>
    (refine ⟨rfl, rfl, ?_, ?_, ?_, ?_, ?_⟩ <;>
      (try simp only [getD_incrAt, length_incrAt]) <;> (try split_ifs) <;> omega)

theorem foldl_histogramStep_facts (P : Nat) (pp : List Nat) (c : Nat) (l : List Nat)
    (es : ExchangeStatistics) :
    (l.foldl (histogramStep P pp) es).par_swapUpProposed = es.par_swapUpProposed ∧
    (l.foldl (histogramStep P pp) es).par_swapUpAccepted = es.par_swapUpAccepted ∧
    (l.foldl (histogramStep P pp) es).par_countGoingUp.length = es.par_countGoingUp.length ∧
    (l.foldl (histogramStep P pp) es).par_countGoingDown.length =
      es.par_countGoingDown.length ∧
    es.par_countGoingUp.getD c 0 ≤ (l.foldl (histogramStep P pp) es).par_countGoingUp.getD c 0 ∧
    es.par_countGoingDown.getD c 0 ≤
      (l.foldl (histogramStep P pp) es).par_countGoingDown.getD c 0 ∧
    (l.foldl (histogramStep P pp) es).par_countGoingUp.getD c 0 +
        (l.foldl (histogramStep P pp) es).par_countGoingDown.getD c 0 ≤
      es.par_countGoingUp.getD c 0 + es.par_countGoingDown.getD c 0 +
        ((l.filter (fun pi => decide (pp.getD pi 0 = c))).length : Int) := by
  induction l generalizing es with
  | nil => simp
  | cons pi t ih =>
    obtain ⟨h1, h2, h3, h4, h5, h6, h7⟩ := histogramStep_facts P pp es pi c
    obtain ⟨i1, i2, i3, i4, i5, i6, i7⟩ := ih (histogramStep P pp es pi)
    simp only [List.foldl_cons]
    refine ⟨by rw [i1, h1], by rw [i2, h2], by rw [i3, h3], by rw [i4, h4],
      le_trans h5 i5, le_trans h6 i6, ?_⟩
    by_cases e : pp.getD pi 0 = c
    · simp only [e, if_true] at h7
      simp only [List.filter_cons, e, decide_True, if_true, List.length_cons]
      push_cast
      omega
    · simp only [e, if_false] at h7
      simp only [List.filter_cons, e, decide_False]
      simp only [Bool.false_eq_true, if_false]
      omega

/-- A list without repetitions all of whose entries are equal has at most one entry. -/
theorem length_le_one_of_nodup_const (l : List Nat) (a : Nat) (hnd : l.Nodup)
    (h : ∀ x ∈ l, x = a) : l.length ≤ 1 := by
  match l, hnd, h with
  | [], _, _ => simp
  | [_], _, _ => simp
  | x :: y :: t, hnd, h =>
    exfalso
    have hx := h x (by simp)
    have hy := h y (by simp)
    rw [List.nodup_cons] at hnd
    exact hnd.1 (by rw [hx, ← hy]; simp)

theorem filter_par_length (P : Nat) (pp qq : List Nat) (h : MutualInverse P pp qq) (c : Nat) :
    ((List.range P).filter (fun pi => decide (pp.getD pi 0 = c))).length ≤ 1 := by
  apply length_le_one_of_nodup_const _ (qq.getD c 0)
  · exact (List.nodup_range P).filter _
  · intro x hx
    rw [List.mem_filter, List.mem_range] at hx
    have := (h.2.2.1 x hx.1).2
    rw [of_decide_eq_true hx.2] at this
    exact this.symm

theorem exchangePairStep_facts (accept : Nat → Bool) (s : RootState) (c j : Nat) :
    (exchangePairStep accept s c).es.par_countGoingUp = s.es.par_countGoingUp ∧
    (exchangePairStep accept s c).es.par_countGoingDown = s.es.par_countGoingDown ∧
    (exchangePairStep accept s c).es.par_swapUpProposed.length =
      s.es.par_swapUpProposed.length ∧
    (exchangePairStep accept s c).es.par_swapUpAccepted.length =
      s.es.par_swapUpAccepted.length ∧
    (exchangePairStep accept s c).es.par_swapUpProposed.getD j 0 =
      s.es.par_swapUpProposed.getD j 0 +
        (if c = j ∧ c < s.es.par_swapUpProposed.length then 1 else 0) ∧
    (exchangePairStep accept s c).es.par_swapUpAccepted.getD j 0 =
      s.es.par_swapUpAccepted.getD j 0 +
        (if c = j ∧ c < s.es.par_swapUpAccepted.length ∧ accept c = true then 1 else 0) := by
  unfold exchangePairStep
  cases ha : accept c
  · simp only [Bool.false_eq_true, if_false, getD_incrAt, length_incrAt, and_false]
    refine ⟨trivial, trivial, trivial, trivial, ?_, ?_⟩ <;> (try split_ifs) <;> simp
  · simp only [if_true, getD_incrAt, length_incrAt, and_true]
    refine ⟨trivial, trivial, trivial, trivial, ?_, ?_⟩ <;> split_ifs <;> simp

theorem foldl_exchangePairStep_facts (accept : Nat → Bool) (j n : Nat) (s : RootState) :
    ((List.range n).foldl (exchangePairStep accept) s).es.par_countGoingUp =
      s.es.par_countGoingUp ∧
    ((List.range n).foldl (exchangePairStep accept) s).es.par_countGoingDown =
      s.es.par_countGoingDown ∧
    ((List.range n).foldl (exchangePairStep accept) s).es.par_swapUpProposed.length =
      s.es.par_swapUpProposed.length ∧
    ((List.range n).foldl (exchangePairStep accept) s).es.par_swapUpAccepted.length =
      s.es.par_swapUpAccepted.length ∧
    ((List.range n).foldl (exchangePairStep accept) s).es.par_swapUpProposed.getD j 0 =
      s.es.par_swapUpProposed.getD j 0 +
        (if j < n ∧ j < s.es.par_swapUpProposed.length then 1 else 0) ∧
    ((List.range n).foldl (exchangePairStep accept) s).es.par_swapUpAccepted.getD j 0 =
      s.es.par_swapUpAccepted.getD j 0 +
        (if j < n ∧ j < s.es.par_swapUpAccepted.length ∧ accept j = true then 1 else 0) := by
  induction n with
  | zero => simp
  | succ k ih =>
    obtain ⟨i1, i2, i3, i4, i5, i6⟩ := ih
    obtain ⟨h1, h2, h3, h4, h5, h6⟩ := exchangePairStep_facts accept
      ((List.range k).foldl (exchangePairStep accept) s) k j
    rw [List.range_succ, List.foldl_append]
    simp only [List.foldl_cons, List.foldl_nil]
    refine ⟨by rw [h1, i1], by rw [h2, i2], by rw [h3, i3], by rw [h4, i4], ?_, ?_⟩
    · rw [h5, i5, i3]
      by_cases e : k = j
      · subst e
        by_cases e2 : k < s.es.par_swapUpProposed.length <;> simp [e2]
      · have : (j < k + 1) = (j < k) := by
          apply propext
          omega
        simp only [e, false_and, if_false, this, add_zero]
    · rw [h6, i6, i4]
      by_cases e : k = j
      · subst e
        by_cases e2 : k < s.es.par_swapUpAccepted.length ∧ accept k = true <;> simp [e2]
      · have : (j < k + 1) = (j < k) := by
          apply propext
          omega
        simp only [e, false_and, if_false, this, add_zero]

/-- What one round does to the counters, entry by entry. -/
theorem replicaExchangeStep_counters (gathered : List String) (accept : Nat → Bool)
    (s : RootState) (j : Nat) :
    (replicaExchangeStep gathered accept s).es.par_swapUpProposed.length =
      s.es.par_swapUpProposed.length ∧
    (replicaExchangeStep gathered accept s).es.par_swapUpAccepted.length =
      s.es.par_swapUpAccepted.length ∧
    (replicaExchangeStep gathered accept s).es.par_countGoingUp.length =
      s.es.par_countGoingUp.length ∧
    (replicaExchangeStep gathered accept s).es.par_countGoingDown.length =
      s.es.par_countGoingDown.length ∧
    (replicaExchangeStep gathered accept s).es.par_swapUpProposed.getD j 0 =
      s.es.par_swapUpProposed.getD j 0 +
        (if j < s.numProcesses - 1 ∧ j < s.es.par_swapUpProposed.length then 1 else 0) ∧
    (replicaExchangeStep gathered accept s).es.par_swapUpAccepted.getD j 0 =
      s.es.par_swapUpAccepted.getD j 0 +
        (if j < s.numProcesses - 1 ∧ j < s.es.par_swapUpAccepted.length ∧ accept j = true
          then 1 else 0) ∧
    s.es.par_countGoingUp.getD j 0 ≤
      (replicaExchangeStep gathered accept s).es.par_countGoingUp.getD j 0 ∧
    s.es.par_countGoingDown.getD j 0 ≤
      (replicaExchangeStep gathered accept s).es.par_countGoingDown.getD j 0 ∧
    (replicaExchangeStep gathered accept s).es.par_countGoingUp.getD j 0 +
        (replicaExchangeStep gathered accept s).es.par_countGoingDown.getD j 0 ≤
      s.es.par_countGoingUp.getD j 0 + s.es.par_countGoingDown.getD j 0 +
        (((List.range s.numProcesses).filter
          (fun pi => decide (s.current_process_par.getD pi 0 = j))).length : Int) := by
  unfold replicaExchangeStep serialPass
  obtain ⟨f1, f2, f3, f4, f5, f6⟩ := foldl_exchangePairStep_facts accept j
    ((updateHistograms { s with process_control_data_buffer := gathered }).numProcesses - 1)
    (updateHistograms { s with process_control_data_buffer := gathered })
  obtain ⟨g1, g2, g3, g4, g5, g6, g7⟩ := foldl_histogramStep_facts s.numProcesses
    s.current_process_par j (List.range s.numProcesses) s.es
  have hu : (updateHistograms { s with process_control_data_buffer := gathered }).es =
      (List.range s.numProcesses).foldl
        (histogramStep s.numProcesses s.current_process_par) s.es := rfl
  have hn : (updateHistograms { s with process_control_data_buffer := gathered }).numProcesses =
      s.numProcesses := rfl
  rw [hu, hn] at f1 f2 f3 f4 f5 f6
  rw [hn]
  refine ⟨by rw [f3, g1], by rw [f4, g2], by rw [f1, g3], by rw [f2, g4], ?_, ?_, ?_, ?_, ?_⟩
  · rw [f5, g1]
  · rw [f6, g2]
  · rw [f1]; exact g5
  · rw [f2]; exact g6
  · rw [f1, f2]; exact g7

theorem afterRounds_snoc (P : Nat) (rs : List (List String × (Nat → Bool)))
    (r : List String × (Nat → Bool)) :
    afterRounds P (rs ++ [r]) = replicaExchangeStep r.1 r.2 (afterRounds P rs) := by
  unfold afterRounds
  rw [List.foldl_append]
  rfl

theorem afterRounds_sized (P : Nat) (rounds : List (List String × (Nat → Bool))) :
    StatsSized P (afterRounds P rounds).es := by
  induction rounds using List.reverseRecOn with
  | nil => simp [afterRounds, initFromParameters, ExchangeStatistics.init, StatsSized]
  | append_singleton rs r ih =>
    rw [afterRounds_snoc]
    obtain ⟨h1, h2, h3, h4, _⟩ := replicaExchangeStep_counters r.1 r.2 (afterRounds P rs) 0
    obtain ⟨i1, i2, i3, i4⟩ := ih
    exact ⟨by rw [h2, i1], by rw [h1, i2], by rw [h3, i3], by rw [h4, i4]⟩

theorem afterRounds_accepted (P : Nat) (rounds : List (List String × (Nat → Bool))) (c : Nat) :
    0 ≤ (afterRounds P rounds).es.par_swapUpAccepted.getD c 0 ∧
    (afterRounds P rounds).es.par_swapUpAccepted.getD c 0 ≤
      (afterRounds P rounds).es.par_swapUpProposed.getD c 0 := by
  induction rounds using List.reverseRecOn with
  | nil =>
    simp [afterRounds, initFromParameters, ExchangeStatistics.init, List.getD_eq_getElem?_getD,
      List.getElem?_replicate]
    split_ifs <;> simp
  | append_singleton rs r ih =>
    rw [afterRounds_snoc]
    obtain ⟨_, _, _, _, h5, h6, _⟩ := replicaExchangeStep_counters r.1 r.2 (afterRounds P rs) c
    obtain ⟨s1, s2, _, _⟩ := afterRounds_sized P rs
    rw [h5, h6, s1, s2]
    split_ifs <;> omega

/-- C19: in every state reached from `initFromParameters` by replica exchange rounds
with arbitrary outcomes, all four counter vectors have one entry per control parameter,
`par_swapUpProposed[c] >= par_swapUpAccepted[c] >= 0` for every `c`, and a further round
decreases no entry of `par_swapUpProposed`, `par_swapUpAccepted`, `par_countGoingUp`
or `par_countGoingDown`. -/
theorem C19_counters_ordered_and_monotone (P : Nat)
    (rounds : List (List String × (Nat → Bool))) (gathered : List String)
    (accept : Nat → Bool) (c : Nat) :
    StatsSized P (afterRounds P rounds).es ∧
    0 ≤ (afterRounds P rounds).es.par_swapUpAccepted.getD c 0 ∧
    (afterRounds P rounds).es.par_swapUpAccepted.getD c 0 ≤
      (afterRounds P rounds).es.par_swapUpProposed.getD c 0 ∧
    (afterRounds P rounds).es.par_swapUpProposed.getD c 0 ≤
      (replicaExchangeStep gathered accept (afterRounds P rounds)).es.par_swapUpProposed.getD
        c 0 ∧
    (afterRounds P rounds).es.par_swapUpAccepted.getD c 0 ≤
      (replicaExchangeStep gathered accept (afterRounds P rounds)).es.par_swapUpAccepted.getD
        c 0 ∧
    (afterRounds P rounds).es.par_countGoingUp.getD c 0 ≤
      (replicaExchangeStep gathered accept (afterRounds P rounds)).es.par_countGoingUp.getD
        c 0 ∧
    (afterRounds P rounds).es.par_countGoingDown.getD c 0 ≤
      (replicaExchangeStep gathered accept (afterRounds P rounds)).es.par_countGoingDown.getD
        c 0 := by
  obtain ⟨_, _, _, _, h5, h6, h7, h8, _⟩ :=
    replicaExchangeStep_counters gathered accept (afterRounds P rounds) c
  obtain ⟨a1, a2⟩ := afterRounds_accepted P rounds c
  refine ⟨afterRounds_sized P rounds, a1, a2, ?_, ?_, h7, h8⟩
  · rw [h5]; split_ifs <;> omega
  · rw [h6]; split_ifs <;> omega

/-- C20, the claim as stated fails for a single replica: with `P = 1` the only process
sits at parameter index `0 = P - 1`, is flagged `DOWN_P` and counted in every round,
while no exchange is ever proposed. -/
theorem C20_single_replica_counterexample :
    ¬ ((afterRounds 1 [([""], fun _ => false)]).es.par_countGoingUp.getD 0 0 +
        (afterRounds 1 [([""], fun _ => false)]).es.par_countGoingDown.getD 0 0 ≤
      (afterRounds 1 [([""], fun _ => false)]).es.par_swapUpProposed.getD 0 0 + 0) := by
  decide

/-- C20 (amended): in every state reached from `initFromParameters` by replica exchange
rounds with `P >= 2` replicas, for every parameter index `c < P`:
`par_countGoingUp[c] + par_countGoingDown[c] <=
par_swapUpProposed[c] + par_swapUpProposed[c - 1]`, where `par_swapUpProposed[-1]` is
read as 0. -/
theorem C20_diffusion_counts_bounded (P : Nat) (hP : 2 ≤ P)
    (rounds : List (List String × (Nat → Bool))) (c : Nat) (hc : c < P) :
    (afterRounds P rounds).es.par_countGoingUp.getD c 0 +
        (afterRounds P rounds).es.par_countGoingDown.getD c 0 ≤
      (afterRounds P rounds).es.par_swapUpProposed.getD c 0 +
        (if c = 0 then 0 else (afterRounds P rounds).es.par_swapUpProposed.getD (c - 1) 0) := by
  induction rounds using List.reverseRecOn with
  | nil =>
    simp [afterRounds, initFromParameters, ExchangeStatistics.init, List.getD_eq_getElem?_getD,
      List.getElem?_replicate]
    split_ifs <;> simp
  | append_singleton rs r ih =>
    rw [afterRounds_snoc]
    obtain ⟨_, _, _, _, h5, _, _, _, h9⟩ :=
      replicaExchangeStep_counters r.1 r.2 (afterRounds P rs) c
    obtain ⟨_, _, _, _, k5, _⟩ :=
      replicaExchangeStep_counters r.1 r.2 (afterRounds P rs) (c - 1)
    obtain ⟨hn, hmi⟩ := afterRounds_inverse P rs
    obtain ⟨_, s2, _, _⟩ := afterRounds_sized P rs
    have hf := filter_par_length P _ _ hmi c
    rw [hn] at h5 h9 k5
    rw [s2] at h5 k5
    rw [h5, k5]
    have hf2 : (((List.range P).filter
        (fun pi => decide ((afterRounds P rs).current_process_par.getD pi 0 = c))).length : Int)
        ≤ 1 := by exact_mod_cast hf
    by_cases e0 : c = 0
    · subst e0
      simp only [if_true] at ih ⊢
      have : (0 < P - 1 ∧ 0 < P) := by omega
      simp only [this, and_self, if_true]
      omega
    · simp only [e0, if_false] at ih ⊢
      have : (c - 1 < P - 1 ∧ c - 1 < P) := by omega
      simp only [this, and_self, if_true]
      split_ifs <;> omega

theorem C20_diffusion_counts_bounded_witness :
    (afterRounds 2 [([], fun _ => true)]).es.par_countGoingUp.getD 1 0 +
        (afterRounds 2 [([], fun _ => true)]).es.par_countGoingDown.getD 1 0 ≤
      (afterRounds 2 [([], fun _ => true)]).es.par_swapUpProposed.getD 1 0 +
        (if 1 = 0 then 0
          else (afterRounds 2 [([], fun _ => true)]).es.par_swapUpProposed.getD (1 - 1) 0) :=
  C20_diffusion_counts_bounded 2 (by decide) [([], fun _ => true)] 1 (by decide)

/-! ### The main loop -/

theorem save_fields (s : RunState) :
    (save s).stage = s.stage ∧ (save s).sweepsDone = s.sweepsDone ∧
    (save s).sweepsDoneThermalization = s.sweepsDoneThermalization ∧
    (save s).swCounter = s.swCounter ∧ (save s).root = s.root ∧
    (save s).iteration = s.iteration ∧ (save s).left = s.left ∧
    (save s).fault = s.fault ∧ exchangeRounds (save s) = exchangeRounds s := by
  unfold save exchangeRounds
  split_ifs <;> simp [List.count_append, List.count_cons]

theorem thermalizationSweep_fields (p : DetQMCParams) (s : RunState) :
    (thermalizationSweep p s).stage =
      (if u32 (s.sweepsDoneThermalization + 1) = p.thermalization then Stage.M else s.stage) ∧
    (thermalizationSweep p s).sweepsDone = s.sweepsDone ∧
    (thermalizationSweep p s).sweepsDoneThermalization = u32 (s.sweepsDoneThermalization + 1) ∧
    (thermalizationSweep p s).root = s.root ∧
    (thermalizationSweep p s).iteration = s.iteration ∧
    (thermalizationSweep p s).left = s.left ∧
    (thermalizationSweep p s).fault = s.fault ∧
    exchangeRounds (thermalizationSweep p s) = exchangeRounds s := by
  unfold thermalizationSweep save exchangeRounds
  simp only []
  split_ifs <;> simp_all [List.count_append, List.count_cons]

theorem measurementSweep_fields (p : DetQMCParams) (s : RunState)
    (hm : p.measureInterval ≠ 0) (hc : p.saveConfigurationStreamInterval ≠ 0) :
    (measurementSweep p s).stage =
      (if u32 (s.sweepsDone + 1) = p.sweeps then Stage.F else s.stage) ∧
    (measurementSweep p s).sweepsDone = u32 (s.sweepsDone + 1) ∧
    (measurementSweep p s).sweepsDoneThermalization = s.sweepsDoneThermalization ∧
    (measurementSweep p s).root = s.root ∧
    (measurementSweep p s).iteration = s.iteration ∧
    (measurementSweep p s).left = s.left ∧
    (measurementSweep p s).fault = s.fault ∧
    exchangeRounds (measurementSweep p s) = exchangeRounds s := by
  unfold measurementSweep save exchangeRounds
  simp only [hm, hc, if_false, and_false]
  split_ifs <;> simp_all [List.count_append, List.count_cons]

/-- Without the hypotheses on the intervals the measurement sweep still leaves the
root state and the number of exchange steps alone. -/
theorem measurementSweep_root (p : DetQMCParams) (s : RunState) :
    (measurementSweep p s).root = s.root ∧
    exchangeRounds (measurementSweep p s) = exchangeRounds s := by
  unfold measurementSweep save exchangeRounds
  simp only []
  split_ifs <;> simp_all [List.count_append, List.count_cons]

theorem exchangeBlock_fields (pt : DetQMCPTParams) (env : RunEnv) (n : Nat) (s : RunState) :
    (exchangeBlock pt env n s).stage = s.stage ∧
    (exchangeBlock pt env n s).sweepsDone = s.sweepsDone ∧
    (exchangeBlock pt env n s).sweepsDoneThermalization = s.sweepsDoneThermalization ∧
    (exchangeBlock pt env n s).iteration = s.iteration ∧
    (exchangeBlock pt env n s).left = s.left ∧
    (exchangeBlock pt env n s).fault = s.fault ∧
    (exchangeBlock pt env n s).root =
      (if (s.stage = Stage.T ∨ s.stage = Stage.M) ∧ pt.exchangeInterval ≠ 0 ∧
          u32 (s.sweepsDone + s.sweepsDoneThermalization) % pt.exchangeInterval = 0
        then replicaExchangeStep (env.gathered n) (env.accept n) s.root else s.root) ∧
    exchangeRounds (exchangeBlock pt env n s) = exchangeRounds s +
      (if (s.stage = Stage.T ∨ s.stage = Stage.M) ∧ pt.exchangeInterval ≠ 0 ∧
          u32 (s.sweepsDone + s.sweepsDoneThermalization) % pt.exchangeInterval = 0
        then 1 else 0) := by
  unfold exchangeBlock exchangeRounds
  simp only []
  split_ifs <;> simp_all [List.count_append, List.count_cons]

theorem exchangeBlock_disabled (pt : DetQMCPTParams) (env : RunEnv) (n : Nat) (s : RunState)
    (h0 : pt.exchangeInterval = 0) :
    (exchangeBlock pt env n s).root = s.root ∧
    exchangeRounds (exchangeBlock pt env n s) = exchangeRounds s := by
  obtain ⟨_, _, _, _, _, _, h7, h8⟩ := exchangeBlock_fields pt env n s
  rw [h7, h8]
  simp [h0]

/-- The sweep of an iteration, whatever the stage, neither touches the root state nor
invokes a replica exchange step. -/
theorem sweepStep_root (p : DetQMCParams) (s : RunState) :
    (sweepStep p s).root = s.root ∧ exchangeRounds (sweepStep p s) = exchangeRounds s := by
  unfold sweepStep
  cases hs : s.stage
  · obtain ⟨_, _, _, h4, _, _, _, h8⟩ := thermalizationSweep_fields p s
    exact ⟨h4, h8⟩
  · exact measurementSweep_root p s
  · exact ⟨rfl, rfl⟩

theorem exchangeRounds_noteCheck (s : RunState) :
    exchangeRounds (noteCheck s) = exchangeRounds s := by
  simp [exchangeRounds, noteCheck, List.count_append, List.count_cons]

theorem loopStep_disabled (p : DetQMCParams) (pt : DetQMCPTParams) (env : RunEnv)
    (s : RunState) (h0 : pt.exchangeInterval = 0) :
    (loopStep p pt env s).root = s.root ∧
    exchangeRounds (loopStep p pt env s) = exchangeRounds s := by
  have hafter : ∀ n t, (afterSweep pt env n t).root = t.root ∧
      exchangeRounds (afterSweep pt env n t) = exchangeRounds t := by
    intro n t
    unfold afterSweep
    split_ifs
    · exact ⟨rfl, rfl⟩
    · exact exchangeBlock_disabled pt env n t h0
  unfold loopStep
  split_ifs with hdone
  · exact ⟨rfl, rfl⟩
  · unfold loopBody
    split_ifs with h1 h2
    · obtain ⟨_, _, _, _, h5, _, _, _, h9⟩ := save_fields (noteCheck (beginIteration s))
      refine ⟨h5, ?_⟩
      show exchangeRounds (save _) = _
      rw [h9, exchangeRounds_noteCheck]
      rfl
    · obtain ⟨a1, a2⟩ := hafter s.iteration (sweepStep p (noteCheck (beginIteration s)))
      obtain ⟨b1, b2⟩ := sweepStep_root p (noteCheck (beginIteration s))
      refine ⟨a1.trans b1, ?_⟩
      rw [a2, b2, exchangeRounds_noteCheck]
      rfl
    · obtain ⟨a1, a2⟩ := hafter s.iteration (sweepStep p (beginIteration s))
      obtain ⟨b1, b2⟩ := sweepStep_root p (beginIteration s)
      exact ⟨a1.trans b1, a2.trans b2⟩

theorem run_disabled (p : DetQMCParams) (pt : DetQMCPTParams) (env : RunEnv) (fuel : Nat)
    (s : RunState) (h0 : pt.exchangeInterval = 0) :
    (run p pt env fuel s).root = s.root ∧
    exchangeRounds (run p pt env fuel s) = exchangeRounds s := by
  unfold run
  induction fuel with
  | zero =>
    simp only [Function.iterate_zero, id_eq]
    unfold enterRun
    split_ifs <;> exact ⟨rfl, rfl⟩
  | succ n ih =>
    rw [Function.iterate_succ_apply']
    obtain ⟨h1, h2⟩ := loopStep_disabled p pt env ((loopStep p pt env)^[n] (enterRun p s)) h0
    exact ⟨h1.trans ih.1, h2.trans ih.2⟩

/-- C16: with `exchangeInterval = 0` a run of a freshly initialized simulation, for any
thermalization, sweeps, save and measure intervals, any surroundings and any number of
iterations, never invokes `replicaExchangeStep`: every entry of `par_swapUpProposed`,
`par_swapUpAccepted`, `par_countGoingUp` and `par_countGoingDown` is still 0,
`process_goingWhere` is `NONE_P` everywhere and both permutation arrays are still the
identity. -/
theorem C16_exchange_disabled (p : DetQMCParams) (env : RunEnv) (fuel P : Nat) :
    RunEvent.exchangeStep ∉ (run p ⟨0⟩ env fuel (freshState P)).log ∧
    (run p ⟨0⟩ env fuel (freshState P)).root.es.par_swapUpProposed = List.replicate P 0 ∧
    (run p ⟨0⟩ env fuel (freshState P)).root.es.par_swapUpAccepted = List.replicate P 0 ∧
    (run p ⟨0⟩ env fuel (freshState P)).root.es.par_countGoingUp = List.replicate P 0 ∧
    (run p ⟨0⟩ env fuel (freshState P)).root.es.par_countGoingDown = List.replicate P 0 ∧
    (run p ⟨0⟩ env fuel (freshState P)).root.es.process_goingWhere =
      List.replicate P ParameterDirection.NONE_P ∧
    (run p ⟨0⟩ env fuel (freshState P)).root.current_process_par = List.range P ∧
    (run p ⟨0⟩ env fuel (freshState P)).root.current_par_process = List.range P := by
  obtain ⟨h1, h2⟩ := run_disabled p ⟨0⟩ env fuel (freshState P) rfl
  rw [h1]
  refine ⟨?_, rfl, rfl, rfl, rfl, rfl, rfl, rfl⟩
  have h3 : exchangeRounds (freshState P) = 0 := rfl
  rw [h3] at h2
  exact List.count_eq_zero.mp h2

theorem iterate_loopStep_done (p : DetQMCParams) (pt : DetQMCPTParams) (env : RunEnv)
    (s : RunState) (h : s.stage = Stage.F ∨ s.left = true ∨ s.fault = true) (n : Nat) :
    (loopStep p pt env)^[n] s = s := by
  apply Function.iterate_fixed
  unfold loopStep
  rw [if_pos h]

/-- C13, the claim as stated fails: a fresh simulation with `thermalization = 0` and
`sweeps = 0` (the first two parameters) does not start in stage `M`; both tests at the
entry of `DetQMCPT::run` are false and the stage is `F`. -/
theorem C13_fresh_run_without_sweeps :
    (⟨0, 0, 1, 1, 1⟩ : DetQMCParams).sweeps = 0 ∧
    (⟨0, 0, 1, 1, 1⟩ : DetQMCParams).thermalization = 0 ∧
    (enterRun ⟨0, 0, 1, 1, 1⟩ (freshState 2)).stage = Stage.F ∧
    (enterRun ⟨0, 0, 1, 1, 1⟩ (freshState 2)).stage ≠ Stage.M := by
  refine ⟨rfl, rfl, ?_, ?_⟩ <;> simp [enterRun, freshState]

/-- C13 (amended): at entry of `DetQMCPT::run` the stage is chosen from the two persisted
counters only: `T` if `sweepsDoneThermalization < thermalization`, otherwise `M` if
`sweepsDone < sweeps`, otherwise `F`, and then no iteration of the loop is executed (the
run returns the state as it was entered, whatever the number of iterations allowed).  In
particular a fresh simulation with `thermalization = 0` and `sweeps > 0` starts directly
in stage `M`. -/
theorem C13_stage_at_entry (p : DetQMCParams) (pt : DetQMCPTParams) (env : RunEnv)
    (fuel P : Nat) (s : RunState) :
    (s.sweepsDoneThermalization < p.thermalization → (enterRun p s).stage = Stage.T) ∧
    (¬ s.sweepsDoneThermalization < p.thermalization → s.sweepsDone < p.sweeps →
      (enterRun p s).stage = Stage.M) ∧
    (¬ s.sweepsDoneThermalization < p.thermalization → ¬ s.sweepsDone < p.sweeps →
      (enterRun p s).stage = Stage.F ∧ run p pt env fuel s = { s with stage := Stage.F }) ∧
    (∀ s2 : RunState, s2.sweepsDoneThermalization = s.sweepsDoneThermalization →
      s2.sweepsDone = s.sweepsDone → (enterRun p s2).stage = (enterRun p s).stage) ∧
    (p.thermalization = 0 → 0 < p.sweeps → (enterRun p (freshState P)).stage = Stage.M) := by
  refine ⟨?_, ?_, ?_, ?_, ?_⟩
  · intro h
    simp [enterRun, h]
  · intro h1 h2
    simp [enterRun, h1, h2]
  · intro h1 h2
    have he : enterRun p s = { s with stage := Stage.F } := by simp [enterRun, h1, h2]
    refine ⟨by rw [he], ?_⟩
    unfold run
    rw [he]
    exact iterate_loopStep_done p pt env _ (Or.inl rfl) fuel
  · intro s2 e1 e2
    unfold enterRun
    rw [e1, e2]
    split_ifs <;> rfl
  · intro h1 h2
    simp [enterRun, freshState, h1, h2]

/-- C13 (amended), at a concrete input: a fresh simulation with five sweeps to do and
`thermalization = 0` (the first two parameters) starts in stage `M`. -/
theorem C13_stage_at_entry_witness :
    ((⟨5, 0, 1, 1, 1⟩ : DetQMCParams).thermalization = 0 ∧
      0 < (⟨5, 0, 1, 1, 1⟩ : DetQMCParams).sweeps) ∧
    (enterRun ⟨5, 0, 1, 1, 1⟩ (freshState 2)).stage = Stage.M :=
  ⟨⟨rfl, by decide⟩,
    (C13_stage_at_entry ⟨5, 0, 1, 1, 1⟩ ⟨1⟩ quietEnv 0 2 (freshState 2)).2.2.2.2 rfl
      (by decide)⟩

/-- C17, evaluated at the failing input: with a granted walltime of 1800 seconds and no
time elapsed the walltime test of the shutdown check is false, although as integers
`0 > 1800 - 35*60`; the subtraction is made in `uint32_t` and wraps around to
`4294966996`. -/
theorem C17_walltime_test_wraps :
    walltimeExceeded 0 1800 = false ∧
    u32 (1800 + 2 ^ 32 - u32 (SafetyMinutes * 60)) = 4294966996 ∧
    ((0 : Int) > 1800 - 35 * 60) ∧
    stopNow { quietEnv with grantedWalltimeSecs := 1800 } 0 = false := by
  decide

theorem stopNow_of_abortFile (env : RunEnv) (n i : Nat) (hi : i < 4)
    (h : env.abortFileExists n i = true) : stopNow env n = true := by
  unfold stopNow
  split_ifs
  · rfl
  · have hr : List.range 4 = [0, 1, 2, 3] := by decide
    rw [hr]
    interval_cases i <;> simp [h]

/-- C18: for a fresh simulation whose stage at entry is `T` or `M`, if one of the four
abort files exists at the first shutdown check, the run checks once, saves once
(`saveState`, preceded by the output of the buffered configurations and `saveResults`
only in stage `M`) and leaves the loop: no sweep, no replica exchange step and no
consistency check is made, and `sweepsDone`, `sweepsDoneThermalization` and the root
state are unchanged. -/
theorem C18_abort_before_first_sweep (p : DetQMCParams) (pt : DetQMCPTParams) (env : RunEnv)
    (P fuel i : Nat) (hi : i < 4) (habort : env.abortFileExists 0 i = true)
    (hstage : (enterRun p (freshState P)).stage ≠ Stage.F) :
    (run p pt env (fuel + 1) (freshState P)).log =
      (if (enterRun p (freshState P)).stage = Stage.M then
        [RunEvent.shutdownCheck, RunEvent.gatherConfigurations, RunEvent.saveResults,
          RunEvent.saveState]
      else [RunEvent.shutdownCheck, RunEvent.saveState]) ∧
    (run p pt env (fuel + 1) (freshState P)).left = true ∧
    (run p pt env (fuel + 1) (freshState P)).stage = (enterRun p (freshState P)).stage ∧
    (run p pt env (fuel + 1) (freshState P)).sweepsDone = 0 ∧
    (run p pt env (fuel + 1) (freshState P)).sweepsDoneThermalization = 0 ∧
    (run p pt env (fuel + 1) (freshState P)).root = initFromParameters P := by
  have hstop := stopNow_of_abortFile env 0 i hi habort
  have hs : ∀ st : Stage, st ≠ Stage.F →
      (loopStep p pt env)^[fuel + 1] { freshState P with stage := st } =
        leave (save (noteCheck (beginIteration { freshState P with stage := st }))) := by
    intro st hst
    rw [Function.iterate_succ_apply]
    have h1 : loopStep p pt env { freshState P with stage := st } =
        leave (save (noteCheck (beginIteration { freshState P with stage := st }))) := by
      unfold loopStep
      rw [if_neg (by simp [freshState, hst])]
      unfold loopBody
      have h0 : ({ freshState P with stage := st } : RunState).swCounter % 2 = 0 := rfl
      have h2 : stopNow env ({ freshState P with stage := st } : RunState).iteration = true :=
        hstop
      rw [if_pos h0, if_pos h2]
    rw [h1]
    exact iterate_loopStep_done p pt env _ (Or.inr (Or.inl rfl)) fuel
  unfold run
  unfold enterRun at hstage ⊢
  by_cases h1 : (freshState P).sweepsDoneThermalization < p.thermalization
  · simp only [h1, if_true] at hstage ⊢
    rw [hs Stage.T (by decide)]
    simp [leave, save, noteCheck, beginIteration, freshState]
  · by_cases h2 : (freshState P).sweepsDone < p.sweeps
    · simp only [h1, h2, if_true, if_false] at hstage ⊢
      rw [hs Stage.M (by decide)]
      simp [leave, save, noteCheck, beginIteration, freshState]
    · simp only [h1, h2, if_false] at hstage
      exact absurd rfl hstage

theorem C18_abort_before_first_sweep_witness :
    (run ⟨20, 10, 2, 100, 1⟩ ⟨5⟩ { quietEnv with abortFileExists := fun _ i => i == 2 } 4
        (freshState 1)).log = [RunEvent.shutdownCheck, RunEvent.saveState] :=
  (C18_abort_before_first_sweep ⟨20, 10, 2, 100, 1⟩ ⟨5⟩
    { quietEnv with abortFileExists := fun _ i => i == 2 } 1 3 2 (by decide) rfl
    (by decide)).1

/-- C14, evaluated at the failing input `thermalization = 1`, `sweeps = 0`: after the one
thermalization sweep the stage is `M`, not `F`, and the next iteration makes a
measurement sweep, after which `sweepsDone = 1` and the loop is still running. -/
theorem C14_measurement_after_thermalization :
    (run ⟨0, 1, 1, 0, 1⟩ ⟨0⟩ quietEnv 1 (freshState 1)).stage = Stage.M ∧
    (run ⟨0, 1, 1, 0, 1⟩ ⟨0⟩ quietEnv 1 (freshState 1)).sweepsDoneThermalization = 1 ∧
    (run ⟨0, 1, 1, 0, 1⟩ ⟨0⟩ quietEnv 2 (freshState 1)).stage = Stage.M ∧
    (run ⟨0, 1, 1, 0, 1⟩ ⟨0⟩ quietEnv 2 (freshState 1)).sweepsDone = 1 ∧
    (run ⟨0, 1, 1, 0, 1⟩ ⟨0⟩ quietEnv 2 (freshState 1)).left = false ∧
    (run ⟨0, 1, 1, 0, 1⟩ ⟨0⟩ quietEnv 2 (freshState 1)).log =
      [RunEvent.shutdownCheck, RunEvent.sweepThermalization, RunEvent.thermalizationOver,
        RunEvent.consistencyCheck, RunEvent.shutdownCheck, RunEvent.sweepMeasurement true,
        RunEvent.insertValue 0, RunEvent.bufferConfiguration, RunEvent.consistencyCheck] := by
  decide

/-- An iteration in which no stop is requested consists of the sweep of the current
stage and the replica exchange block. -/
theorem loopBody_quiet (p : DetQMCParams) (pt : DetQMCPTParams) (env : RunEnv) (s : RunState)
    (hq : stopNow env s.iteration = false) :
    ∃ s1 : RunState, s1.stage = s.stage ∧ s1.sweepsDone = s.sweepsDone ∧
      s1.sweepsDoneThermalization = s.sweepsDoneThermalization ∧ s1.root = s.root ∧
      s1.iteration = s.iteration + 1 ∧ s1.left = s.left ∧ s1.fault = s.fault ∧
      exchangeRounds s1 = exchangeRounds s ∧
      loopBody p pt env s = afterSweep pt env s.iteration (sweepStep p s1) := by
  unfold loopBody
  by_cases h0 : s.swCounter % 2 = 0
  · refine ⟨noteCheck (beginIteration s), rfl, rfl, rfl, rfl, rfl, rfl, rfl,
      exchangeRounds_noteCheck _, ?_⟩
    rw [if_pos h0, if_neg (by simp [hq])]
  · refine ⟨beginIteration s, rfl, rfl, rfl, rfl, rfl, rfl, rfl, rfl, ?_⟩
    rw [if_neg h0]

/-- One iteration in stage `T` without a stop request. -/
theorem loopStep_T (p : DetQMCParams) (pt : DetQMCPTParams) (env : RunEnv) (s : RunState)
    (hT : s.stage = Stage.T) (hl : s.left = false) (hf : s.fault = false)
    (hq : stopNow env s.iteration = false) :
    (loopStep p pt env s).stage =
      (if u32 (s.sweepsDoneThermalization + 1) = p.thermalization then Stage.M else Stage.T) ∧
    (loopStep p pt env s).sweepsDone = s.sweepsDone ∧
    (loopStep p pt env s).sweepsDoneThermalization = u32 (s.sweepsDoneThermalization + 1) ∧
    (loopStep p pt env s).iteration = s.iteration + 1 ∧
    (loopStep p pt env s).left = false ∧
    (loopStep p pt env s).fault = false ∧
    (loopStep p pt env s).root =
      (if pt.exchangeInterval ≠ 0 ∧
          u32 (s.sweepsDone + u32 (s.sweepsDoneThermalization + 1)) % pt.exchangeInterval = 0
        then replicaExchangeStep (env.gathered s.iteration) (env.accept s.iteration) s.root
        else s.root) ∧
    exchangeRounds (loopStep p pt env s) = exchangeRounds s +
      (if pt.exchangeInterval ≠ 0 ∧
          u32 (s.sweepsDone + u32 (s.sweepsDoneThermalization + 1)) % pt.exchangeInterval = 0
        then 1 else 0) := by
  obtain ⟨s1, a1, a2, a3, a4, a5, a6, a7, a8, hb⟩ := loopBody_quiet p pt env s hq
  have hstep : loopStep p pt env s = loopBody p pt env s := by
    unfold loopStep
    rw [if_neg (by simp [hT, hl, hf])]
  have hsw : sweepStep p s1 = thermalizationSweep p s1 := by
    unfold sweepStep
    rw [a1, hT]
  obtain ⟨t1, t2, t3, t4, t5, t6, t7, t8⟩ := thermalizationSweep_fields p s1
  obtain ⟨e1, e2, e3, e4, e5, e6, e7, e8⟩ :=
    exchangeBlock_fields pt env s.iteration (thermalizationSweep p s1)
  have hfault : (thermalizationSweep p s1).fault = false := by rw [t7, a7, hf]
  have hafter : afterSweep pt env s.iteration (thermalizationSweep p s1) =
      exchangeBlock pt env s.iteration (thermalizationSweep p s1) := by
    unfold afterSweep
    rw [if_neg (by simp [hfault])]
  rw [hstep, hb, hsw, hafter, e1, e2, e3, e4, e5, e6, e7, e8, t1, t2, t3, t4, t5, t6, t7, t8,
    a1, a2, a3, a4, a5, a6, a7, a8, hT, hl, hf]
  by_cases h : u32 (s.sweepsDoneThermalization + 1) = p.thermalization
  · simp [h]
  · simp [h]

/-- One iteration in stage `M` without a stop request and with nonzero intervals. -/
theorem loopStep_M (p : DetQMCParams) (pt : DetQMCPTParams) (env : RunEnv) (s : RunState)
    (hM : s.stage = Stage.M) (hl : s.left = false) (hf : s.fault = false)
    (hq : stopNow env s.iteration = false)
    (hm : p.measureInterval ≠ 0) (hc : p.saveConfigurationStreamInterval ≠ 0) :
    (loopStep p pt env s).stage =
      (if u32 (s.sweepsDone + 1) = p.sweeps then Stage.F else Stage.M) ∧
    (loopStep p pt env s).sweepsDone = u32 (s.sweepsDone + 1) ∧
    (loopStep p pt env s).sweepsDoneThermalization = s.sweepsDoneThermalization ∧
    (loopStep p pt env s).iteration = s.iteration + 1 ∧
    (loopStep p pt env s).left = false ∧
    (loopStep p pt env s).fault = false ∧
    (loopStep p pt env s).root =
      (if u32 (s.sweepsDone + 1) ≠ p.sweeps ∧ pt.exchangeInterval ≠ 0 ∧
          u32 (u32 (s.sweepsDone + 1) + s.sweepsDoneThermalization) % pt.exchangeInterval = 0
        then replicaExchangeStep (env.gathered s.iteration) (env.accept s.iteration) s.root
        else s.root) ∧
    exchangeRounds (loopStep p pt env s) = exchangeRounds s +
      (if u32 (s.sweepsDone + 1) ≠ p.sweeps ∧ pt.exchangeInterval ≠ 0 ∧
          u32 (u32 (s.sweepsDone + 1) + s.sweepsDoneThermalization) % pt.exchangeInterval = 0
        then 1 else 0) := by
  obtain ⟨s1, a1, a2, a3, a4, a5, a6, a7, a8, hb⟩ := loopBody_quiet p pt env s hq
  have hstep : loopStep p pt env s = loopBody p pt env s := by
    unfold loopStep
    rw [if_neg (by simp [hM, hl, hf])]
  have hsw : sweepStep p s1 = measurementSweep p s1 := by
    unfold sweepStep
    rw [a1, hM]
  obtain ⟨t1, t2, t3, t4, t5, t6, t7, t8⟩ := measurementSweep_fields p s1 hm hc
  obtain ⟨e1, e2, e3, e4, e5, e6, e7, e8⟩ :=
    exchangeBlock_fields pt env s.iteration (measurementSweep p s1)
  have hfault : (measurementSweep p s1).fault = false := by rw [t7, a7, hf]
  have hafter : afterSweep pt env s.iteration (measurementSweep p s1) =
      exchangeBlock pt env s.iteration (measurementSweep p s1) := by
    unfold afterSweep
    rw [if_neg (by simp [hfault])]
  rw [hstep, hb, hsw, hafter, e1, e2, e3, e4, e5, e6, e7, e8, t1, t2, t3, t4, t5, t6, t7, t8,
    a1, a2, a3, a4, a5, a6, a7, a8, hM, hl, hf]
  by_cases h : u32 (s.sweepsDone + 1) = p.sweeps
  · simp [h]
  · simp [h]

theorem replicaExchangeStep_numProcesses (gathered : List String) (accept : Nat → Bool)
    (s : RootState) : (replicaExchangeStep gathered accept s).numProcesses = s.numProcesses := by
  unfold replicaExchangeStep serialPass
  generalize (updateHistograms { s with process_control_data_buffer := gathered }).numProcesses
    - 1 = n
  have h : ∀ t : RootState,
      ((List.range n).foldl (exchangePairStep accept) t).numProcesses = t.numProcesses := by
    induction n with
    | zero => intro t; rfl
    | succ k ih =>
      intro t
      rw [List.range_succ, List.foldl_append]
      simp only [List.foldl_cons, List.foldl_nil]
      rw [exchangePairStep_numProcesses, ih]
  rw [h]
  rfl

theorem succ_div_ite (n E : Nat) :
    (n + 1) / E = n / E + (if (n + 1) % E = 0 then 1 else 0) := by
  rw [Nat.succ_div]
  by_cases h : E ∣ n + 1
  · have h2 : (n + 1) % E = 0 := Nat.mod_eq_zero_of_dvd h
    rw [if_pos h, if_pos h2]
  · have h2 : ¬ (n + 1) % E = 0 := fun hh => h (Nat.dvd_of_mod_eq_zero hh)
    rw [if_neg h, if_neg h2]

/-- Progress of a run without shutdown: after `n` iterations of a fresh simulation, as
long as `n` does not exceed `thermalization + sweeps`. -/
theorem run_progress (p : DetQMCParams) (pt : DetQMCPTParams) (env : RunEnv) (P : Nat)
    (hS : 1 ≤ p.sweeps) (h32 : p.thermalization + p.sweeps < 2 ^ 32)
    (hE : pt.exchangeInterval ≠ 0)
    (hm : p.measureInterval ≠ 0) (hc : p.saveConfigurationStreamInterval ≠ 0)
    (hq : ∀ n, stopNow env n = false) (n : Nat) (hn : n ≤ p.thermalization + p.sweeps) :
    (run p pt env n (freshState P)).left = false ∧
    (run p pt env n (freshState P)).fault = false ∧
    (run p pt env n (freshState P)).iteration = n ∧
    (run p pt env n (freshState P)).root.numProcesses = P ∧
    (run p pt env n (freshState P)).root.es.par_swapUpProposed.length = P ∧
    (∀ c, c + 1 < P →
      (run p pt env n (freshState P)).root.es.par_swapUpProposed.getD c 0 =
        (exchangeRounds (run p pt env n (freshState P)) : Int)) ∧
    (n < p.thermalization →
      (run p pt env n (freshState P)).stage = Stage.T ∧
      (run p pt env n (freshState P)).sweepsDoneThermalization = n ∧
      (run p pt env n (freshState P)).sweepsDone = 0 ∧
      exchangeRounds (run p pt env n (freshState P)) = n / pt.exchangeInterval) ∧
    (p.thermalization ≤ n → n < p.thermalization + p.sweeps →
      (run p pt env n (freshState P)).stage = Stage.M ∧
      (run p pt env n (freshState P)).sweepsDoneThermalization = p.thermalization ∧
      (run p pt env n (freshState P)).sweepsDone = n - p.thermalization ∧
      exchangeRounds (run p pt env n (freshState P)) = n / pt.exchangeInterval) ∧
    (n = p.thermalization + p.sweeps →
      (run p pt env n (freshState P)).stage = Stage.F ∧
      (run p pt env n (freshState P)).sweepsDoneThermalization = p.thermalization ∧
      (run p pt env n (freshState P)).sweepsDone = p.sweeps ∧
      exchangeRounds (run p pt env n (freshState P)) =
        (p.thermalization + p.sweeps - 1) / pt.exchangeInterval) := by
  induction n with
  | zero =>
    have hfresh : run p pt env 0 (freshState P) = enterRun p (freshState P) := rfl
    rw [hfresh]
    unfold enterRun
    by_cases h1 : (freshState P).sweepsDoneThermalization < p.thermalization
    · rw [if_pos h1]
      have h1b : 0 < p.thermalization := h1
      refine ⟨rfl, rfl, rfl, rfl, ?_, ?_, ?_, ?_, ?_⟩
      · simp [freshState, initFromParameters, ExchangeStatistics.init]
      · intro c _
        simp [freshState, initFromParameters, ExchangeStatistics.init, exchangeRounds,
          List.getD_eq_getElem?_getD, List.getElem?_replicate]
        split_ifs <;> rfl
      · intro _
        exact ⟨rfl, rfl, rfl, by simp [exchangeRounds, freshState]⟩
      · intro h2
        omega
      · intro h2
        omega
    · have h2 : (freshState P).sweepsDone < p.sweeps := hS
      rw [if_neg h1, if_pos h2]
      have h1b : ¬ 0 < p.thermalization := h1
      refine ⟨rfl, rfl, rfl, rfl, ?_, ?_, ?_, ?_, ?_⟩
      · simp [freshState, initFromParameters, ExchangeStatistics.init]
      · intro c _
        simp [freshState, initFromParameters, ExchangeStatistics.init, exchangeRounds,
          List.getD_eq_getElem?_getD, List.getElem?_replicate]
        split_ifs <;> rfl
      · intro h3
        omega
      · intro _ _
        refine ⟨rfl, ?_, ?_, by simp [exchangeRounds, freshState]⟩
        · show 0 = p.thermalization
          omega
        · show 0 = 0 - p.thermalization
          omega
      · intro h3
        omega
  | succ k ih =>
    obtain ⟨i1, i2, i3, i4, i5, i6, iT, iM, _⟩ := ih (by omega)
    have hrun : run p pt env (k + 1) (freshState P) =
        loopStep p pt env (run p pt env k (freshState P)) := by
      unfold run
      rw [Function.iterate_succ_apply']
    have hu : ∀ x, x ≤ p.thermalization + p.sweeps → u32 x = x := fun x hx =>
      u32_of_lt (by omega)
    have hdiv := succ_div_ite k pt.exchangeInterval
    obtain ⟨c1, _, _, _, c5, _⟩ := replicaExchangeStep_counters (env.gathered k) (env.accept k)
      (run p pt env k (freshState P)).root 0
    have hnum := replicaExchangeStep_numProcesses (env.gathered k) (env.accept k)
      (run p pt env k (freshState P)).root
    have hprop : ∀ c, c + 1 < P →
        (replicaExchangeStep (env.gathered k) (env.accept k)
          (run p pt env k (freshState P)).root).es.par_swapUpProposed.getD c 0 =
        (run p pt env k (freshState P)).root.es.par_swapUpProposed.getD c 0 + 1 := by
      intro c hcP
      obtain ⟨_, _, _, _, d5, _⟩ := replicaExchangeStep_counters (env.gathered k)
        (env.accept k) (run p pt env k (freshState P)).root c
      rw [d5, i4, i5, if_pos (by omega)]
    rw [hrun]
    by_cases hk : k < p.thermalization
    · obtain ⟨j1, j2, j3, j4⟩ := iT hk
      obtain ⟨t1, t2, t3, t4, t5, t6, t7, t8⟩ := loopStep_T p pt env
        (run p pt env k (freshState P)) j1 i1 i2 (by rw [i3]; exact hq k)
      rw [j2, hu (k + 1) (by omega)] at t1 t3
      rw [j2, j3, i3, hu (k + 1) (by omega), Nat.zero_add, hu (k + 1) (by omega)] at t7
      rw [j2, j3, hu (k + 1) (by omega), Nat.zero_add, hu (k + 1) (by omega), j4] at t8
      rw [i3] at t4
      rw [j3] at t2
      have hroot : (loopStep p pt env (run p pt env k (freshState P))).root.numProcesses = P ∧
          (loopStep p pt env (run p pt env k (freshState P))).root.es.par_swapUpProposed.length
            = P ∧
          ∀ c, c + 1 < P →
            (loopStep p pt env (run p pt env k (freshState P))).root.es.par_swapUpProposed.getD
              c 0 = (exchangeRounds (loopStep p pt env (run p pt env k (freshState P))) : Int)
          := by
        rw [t7, t8]
        by_cases hcond : pt.exchangeInterval ≠ 0 ∧ (k + 1) % pt.exchangeInterval = 0
        · rw [if_pos hcond, if_pos hcond]
          refine ⟨by rw [hnum, i4], by rw [c1, i5], ?_⟩
          intro c hcP
          rw [hprop c hcP, i6 c hcP, j4]
          push_cast
          rfl
        · rw [if_neg hcond, if_neg hcond]
          refine ⟨i4, i5, ?_⟩
          intro c hcP
          rw [i6 c hcP, j4]
          rfl
      refine ⟨t5, t6, t4, hroot.1, hroot.2.1, hroot.2.2, ?_, ?_, ?_⟩
      · intro h
        rw [t1, if_neg (by omega), t3, t2, t8, hdiv]
        refine ⟨rfl, rfl, rfl, ?_⟩
        simp only [hE, ne_eq, not_false_eq_true, true_and]
      · intro h1 h2
        rw [t1, if_pos (by omega), t3, t2, t8, hdiv]
        refine ⟨rfl, by omega, by omega, ?_⟩
        simp only [hE, ne_eq, not_false_eq_true, true_and]
      · intro h
        omega
    · have hk2 : k < p.thermalization + p.sweeps := by omega
      obtain ⟨j1, j2, j3, j4⟩ := iM (by omega) hk2
      obtain ⟨t1, t2, t3, t4, t5, t6, t7, t8⟩ := loopStep_M p pt env
        (run p pt env k (freshState P)) j1 i1 i2 (by rw [i3]; exact hq k) hm hc
      have hsd : u32 (k - p.thermalization + 1) = k + 1 - p.thermalization := by
        rw [hu _ (by omega)]
        omega
      have hsum : u32 (k + 1 - p.thermalization + p.thermalization) = k + 1 := by
        rw [hu _ (by omega)]
        omega
      rw [j2, j3, i3, hsd, hsum] at t7
      rw [j2, j3, hsd, hsum, j4] at t8
      rw [j3, hsd] at t1 t2
      rw [i3] at t4
      rw [j2] at t3
      have hroot : (loopStep p pt env (run p pt env k (freshState P))).root.numProcesses = P ∧
          (loopStep p pt env (run p pt env k (freshState P))).root.es.par_swapUpProposed.length
            = P ∧
          ∀ c, c + 1 < P →
            (loopStep p pt env (run p pt env k (freshState P))).root.es.par_swapUpProposed.getD
              c 0 = (exchangeRounds (loopStep p pt env (run p pt env k (freshState P))) : Int)
          := by
        rw [t7, t8]
        by_cases hcond : k + 1 - p.thermalization ≠ p.sweeps ∧ pt.exchangeInterval ≠ 0 ∧
            (k + 1) % pt.exchangeInterval = 0
        · rw [if_pos hcond, if_pos hcond]
          refine ⟨by rw [hnum, i4], by rw [c1, i5], ?_⟩
          intro c hcP
          rw [hprop c hcP, i6 c hcP, j4]
          push_cast
          rfl
        · rw [if_neg hcond, if_neg hcond]
          refine ⟨i4, i5, ?_⟩
          intro c hcP
          rw [i6 c hcP, j4]
          rfl
      refine ⟨t5, t6, t4, hroot.1, hroot.2.1, hroot.2.2, ?_, ?_, ?_⟩
      · intro h
        omega
      · intro h1 h2
        have hne : k + 1 - p.thermalization ≠ p.sweeps := by omega
        rw [t1, if_neg hne, t3, t2, t8, hdiv]
        refine ⟨rfl, rfl, rfl, ?_⟩
        simp only [hE, hne, ne_eq, not_false_eq_true, true_and]
      · intro h
        have heq : k + 1 - p.thermalization = p.sweeps := by omega
        rw [t1, if_pos heq, t3, t2, t8]
        refine ⟨rfl, rfl, heq, ?_⟩
        have : p.thermalization + p.sweeps - 1 = k := by omega
        rw [this]
        simp only [heq, ne_eq, not_true_eq_false, false_and, if_false, add_zero]

theorem stopNow_quietEnv (n : Nat) : stopNow quietEnv n = false := by
  have h : walltimeExceeded 0 (2 ^ 32 - 1) = false := by decide
  unfold stopNow
  show (if walltimeExceeded 0 (2 ^ 32 - 1) = true then true else _) = false
  rw [h]
  rfl

/-- C15, the claim as stated fails: with `thermalization = 0`, `sweeps = 1` and
`exchangeInterval = 1` the run is finished after its only sweep, and the replica
exchange block is skipped in stage `F`, so that no round is performed although
`(0 + 1) / 1 = 1`. -/
theorem C15_no_round_after_last_sweep :
    (run ⟨1, 0, 1, 0, 1⟩ ⟨1⟩ quietEnv 1 (freshState 2)).stage = Stage.F ∧
    (run ⟨1, 0, 1, 0, 1⟩ ⟨1⟩ quietEnv 1 (freshState 2)).sweepsDone = 1 ∧
    exchangeRounds (run ⟨1, 0, 1, 0, 1⟩ ⟨1⟩ quietEnv 1 (freshState 2)) = 0 ∧
    ¬ ((run ⟨1, 0, 1, 0, 1⟩ ⟨1⟩ quietEnv 1 (freshState 2)).root.es.par_swapUpProposed.getD 0 0
      = (((0 + 1) / 1 : Nat) : Int)) := by
  decide

/-- C15 (amended): for a fresh simulation run to completion without shutdown, with
`exchangeInterval = E >= 1`, `thermalization = T` and `sweeps = S >= 1` (`T + S < 2^32`,
nonzero measure and configuration stream intervals), the loop ends after exactly `T + S`
sweeps, and the number of replica exchange rounds, hence the final value of
`par_swapUpProposed[c]` for every `c` in `0..P-2`, equals `(T + S - 1) / E`: a round is
run after a sweep exactly when the stage after that sweep is still `T` or `M` (so never
after the last sweep) and `(sweepsDone + sweepsDoneThermalization) mod E == 0`. -/
theorem C15_exchange_round_count (p : DetQMCParams) (pt : DetQMCPTParams) (env : RunEnv)
    (P : Nat) (hS : 1 ≤ p.sweeps) (h32 : p.thermalization + p.sweeps < 2 ^ 32)
    (hE : pt.exchangeInterval ≠ 0)
    (hm : p.measureInterval ≠ 0) (hc : p.saveConfigurationStreamInterval ≠ 0)
    (hq : ∀ n, stopNow env n = false) :
    (∀ n, n < p.thermalization + p.sweeps →
      (run p pt env n (freshState P)).stage ≠ Stage.F) ∧
    (run p pt env (p.thermalization + p.sweeps) (freshState P)).stage = Stage.F ∧
    (run p pt env (p.thermalization + p.sweeps) (freshState P)).left = false ∧
    (run p pt env (p.thermalization + p.sweeps) (freshState P)).sweepsDoneThermalization =
      p.thermalization ∧
    (run p pt env (p.thermalization + p.sweeps) (freshState P)).sweepsDone = p.sweeps ∧
    exchangeRounds (run p pt env (p.thermalization + p.sweeps) (freshState P)) =
      (p.thermalization + p.sweeps - 1) / pt.exchangeInterval ∧
    (∀ c, c + 1 < P →
      (run p pt env (p.thermalization + p.sweeps)
          (freshState P)).root.es.par_swapUpProposed.getD c 0 =
        (((p.thermalization + p.sweeps - 1) / pt.exchangeInterval : Nat) : Int)) ∧
    (∀ (n : Nat) (s : RunState), exchangeRounds (exchangeBlock pt env n s) =
      exchangeRounds s +
        (if (s.stage = Stage.T ∨ s.stage = Stage.M) ∧
            u32 (s.sweepsDone + s.sweepsDoneThermalization) % pt.exchangeInterval = 0
          then 1 else 0)) := by
  obtain ⟨h1, _, _, _, _, h6, _, _, hF⟩ := run_progress p pt env P hS h32 hE hm hc hq
    (p.thermalization + p.sweeps) (le_refl _)
  obtain ⟨f1, f2, f3, f4⟩ := hF rfl
  refine ⟨?_, f1, h1, f2, f3, f4, ?_, ?_⟩
  · intro n hn
    obtain ⟨_, _, _, _, _, _, hT, hM, _⟩ := run_progress p pt env P hS h32 hE hm hc hq n
      (le_of_lt hn)
    by_cases hk : n < p.thermalization
    · rw [(hT hk).1]
      decide
    · rw [(hM (by omega) hn).1]
      decide
  · intro c hcP
    rw [h6 c hcP, f4]
  · intro n s
    obtain ⟨_, _, _, _, _, _, _, h8⟩ := exchangeBlock_fields pt env n s
    rw [h8]
    simp only [hE, ne_eq, not_false_eq_true, true_and]

theorem C15_exchange_round_count_witness :
    exchangeRounds (run ⟨20, 10, 2, 100, 1⟩ ⟨5⟩ quietEnv 30 (freshState 4)) = 5 ∧
    (run ⟨20, 10, 2, 100, 1⟩ ⟨5⟩ quietEnv 30 (freshState 4)).stage = Stage.F :=
  ⟨(C15_exchange_round_count ⟨20, 10, 2, 100, 1⟩ ⟨5⟩ quietEnv 4 (by decide) (by decide)
      (by decide) (by decide) (by decide) stopNow_quietEnv).2.2.2.2.2.1,
    (C15_exchange_round_count ⟨20, 10, 2, 100, 1⟩ ⟨5⟩ quietEnv 4 (by decide) (by decide)
      (by decide) (by decide) (by decide) stopNow_quietEnv).2.1⟩

/-! ### The checkerboard multiplication on the 2x2 lattice -/

section CheckerboardTwo

variable {R : Type} [LinearOrderedField R]

theorem spaceNeigh_two_X : spaceNeigh 2 XPLUS 0 = 1 ∧ spaceNeigh 2 XPLUS 1 = 0 ∧
    spaceNeigh 2 XPLUS 2 = 3 ∧ spaceNeigh 2 XPLUS 3 = 2 := by
  decide

theorem spaceNeigh_two_Y : spaceNeigh 2 YPLUS 0 = 2 ∧ spaceNeigh 2 YPLUS 1 = 3 ∧
    spaceNeigh 2 YPLUS 2 = 0 ∧ spaceNeigh 2 YPLUS 3 = 1 := by
  decide

theorem range_four : List.range (2 * 2) = [0, 1, 2, 3] := by decide

/-- On the 2x2 lattice every horizontal bond is visited twice, from either end. -/
theorem applyBondFactorsLeft_two_X (ch sh : R) (M : Nat → Nat → Cpx R) (a b : Nat)
    (ha : a < 4) (hb : b < 4) :
    applyBondFactorsLeft 2 XPLUS ch sh M a b =
      (Cpx.ofReal ch * Cpx.ofReal ch + Cpx.ofReal sh * Cpx.ofReal sh) * M a b +
      (2 * Cpx.ofReal ch * Cpx.ofReal sh) * M (if a % 2 = 0 then a + 1 else a - 1) b := by
  obtain ⟨n0, n1, n2, n3⟩ := spaceNeigh_two_X
  simp only [applyBondFactorsLeft, range_four, List.foldl_cons, List.foldl_nil, n0, n1, n2, n3]
  interval_cases a <;> interval_cases b <;> simp [bondFactorLeft] <;> ring

/-- On the 2x2 lattice every vertical bond is visited twice, from either end. -/
theorem applyBondFactorsLeft_two_Y (ch sh : R) (M : Nat → Nat → Cpx R) (a b : Nat)
    (ha : a < 4) (hb : b < 4) :
    applyBondFactorsLeft 2 YPLUS ch sh M a b =
      (Cpx.ofReal ch * Cpx.ofReal ch + Cpx.ofReal sh * Cpx.ofReal sh) * M a b +
      (2 * Cpx.ofReal ch * Cpx.ofReal sh) * M (if a < 2 then a + 2 else a - 2) b := by
  obtain ⟨n0, n1, n2, n3⟩ := spaceNeigh_two_Y
  simp only [applyBondFactorsLeft, range_four, List.foldl_cons, List.foldl_nil, n0, n1, n2, n3]
  interval_cases a <;> interval_cases b <;> simp [bondFactorLeft] <;> ring

/-- The function `cbLMultHoppingExp` on the 2x2 lattice in closed form: entry `(a, b)` of
the result is a combination of the entries of column `b` of the argument. -/
theorem cbLMultHoppingExp_two (F : Libm R) (s : DetSDW R) (hL : s.L = 2)
    (M : Nat → Nat → Cpx R) (band : Band) (sign : Int) (a b : Nat) (ha : a < 4) (hb : b < 4) :
    cbLMultHoppingExp F s M band sign a b =
      (Cpx.ofReal (coshHopVer F s band) * Cpx.ofReal (coshHopVer F s band) +
        Cpx.ofReal ((sign : R) * sinhHopVer F s band) *
          Cpx.ofReal ((sign : R) * sinhHopVer F s band)) *
        ((Cpx.ofReal (coshHopHor F s band) * Cpx.ofReal (coshHopHor F s band) +
            Cpx.ofReal ((sign : R) * sinhHopHor F s band) *
              Cpx.ofReal ((sign : R) * sinhHopHor F s band)) * M a b +
          (2 * Cpx.ofReal (coshHopHor F s band) *
            Cpx.ofReal ((sign : R) * sinhHopHor F s band)) *
            M (if a % 2 = 0 then a + 1 else a - 1) b) +
      (2 * Cpx.ofReal (coshHopVer F s band) * Cpx.ofReal ((sign : R) * sinhHopVer F s band)) *
        ((Cpx.ofReal (coshHopHor F s band) * Cpx.ofReal (coshHopHor F s band) +
            Cpx.ofReal ((sign : R) * sinhHopHor F s band) *
              Cpx.ofReal ((sign : R) * sinhHopHor F s band)) *
            M (if a < 2 then a + 2 else a - 2) b +
          (2 * Cpx.ofReal (coshHopHor F s band) *
            Cpx.ofReal ((sign : R) * sinhHopHor F s band)) *
            M (if (if a < 2 then a + 2 else a - 2) % 2 = 0
              then (if a < 2 then a + 2 else a - 2) + 1
              else (if a < 2 then a + 2 else a - 2) - 1) b) := by
  unfold cbLMultHoppingExp
  rw [hL, applyBondFactorsLeft_two_Y _ _ _ a b ha hb,
    applyBondFactorsLeft_two_X _ _ _ a b ha hb,
    applyBondFactorsLeft_two_X _ _ _ (if a < 2 then a + 2 else a - 2) b
      (by split_ifs <;> omega) hb]

end CheckerboardTwo

/-! ### Evaluation at a state on the 2x2 lattice -/

theorem cpx_two_parts {R : Type} [CommRing R] : (2 : Cpx R).re = 2 ∧ (2 : Cpx R).im = 0 := by
  have h : (2 : Cpx R) = 1 + 1 := by norm_num
  rw [h]
  constructor
  · rw [Cpx.add_re, Cpx.one_re]
    norm_num
  · rw [Cpx.add_im, Cpx.one_im]
    norm_num

theorem binaryLibm_values :
    binaryLibm.exp 0 = 1 ∧
    binaryLibm.cosh 2 = 17 / 8 ∧ binaryLibm.sinh 2 = 15 / 8 ∧
    binaryLibm.cosh 1 = 5 / 4 ∧ binaryLibm.sinh 1 = 3 / 4 ∧
    binaryLibm.cosh (-1) = 5 / 4 ∧ binaryLibm.sinh (-1) = -(3 / 4) ∧
    binaryLibm.cosh (-2) = 17 / 8 ∧ binaryLibm.sinh (-2) = -(15 / 8) := by
  have f0 : ⌊(0 : ℚ)⌋ = 0 := Int.floor_zero
  have f1 : ⌊(1 : ℚ)⌋ = 1 := Int.floor_one
  have f2 : ⌊(2 : ℚ)⌋ = 2 := by exact_mod_cast Int.floor_intCast (2 : ℤ)
  have g1 : ⌊(-1 : ℚ)⌋ = -1 := by exact_mod_cast Int.floor_intCast (-1 : ℤ)
  have g2 : ⌊(-2 : ℚ)⌋ = -2 := by exact_mod_cast Int.floor_intCast (-2 : ℤ)
  simp only [binaryLibm, f0, f1, f2, g1, g2]
  norm_num

theorem checkerboardState_hop :
    coshHopHor binaryLibm checkerboardState Band.XBAND = 17 / 8 ∧
    sinhHopHor binaryLibm checkerboardState Band.XBAND = 15 / 8 ∧
    coshHopVer binaryLibm checkerboardState Band.XBAND = 5 / 4 ∧
    sinhHopVer binaryLibm checkerboardState Band.XBAND = 3 / 4 ∧
    coshHopHor binaryLibm checkerboardState Band.YBAND = 5 / 4 ∧
    sinhHopHor binaryLibm checkerboardState Band.YBAND = -(3 / 4) ∧
    coshHopVer binaryLibm checkerboardState Band.YBAND = 17 / 8 ∧
    sinhHopVer binaryLibm checkerboardState Band.YBAND = -(15 / 8) := by
  obtain ⟨_, c2, s2, c1, s1, d1, t1, d2, t2⟩ := binaryLibm_values
  have a1 : -checkerboardState.dtau * hopHor Band.XBAND = (2 : ℚ) := by
    simp only [checkerboardState, hopHor]; norm_num
  have a2 : -checkerboardState.dtau * hopVer Band.XBAND = (1 : ℚ) := by
    simp only [checkerboardState, hopVer]; norm_num
  have a3 : -checkerboardState.dtau * hopHor Band.YBAND = (-1 : ℚ) := by
    simp only [checkerboardState, hopHor]; norm_num
  have a4 : -checkerboardState.dtau * hopVer Band.YBAND = (-2 : ℚ) := by
    simp only [checkerboardState, hopVer]; norm_num
  simp only [coshHopHor, sinhHopHor, coshHopVer, sinhHopVer, a1, a2, a3, a4]
  exact ⟨c2, s2, c1, s1, d1, t1, d2, t2⟩

theorem checkerboardState_vectors (k a : Nat) :
    cVec checkerboardState k a = Cpx.ofReal (17 / 8) ∧
    axVec checkerboardState k a = 0 ∧ maxVec checkerboardState k a = 0 ∧
    bxVec checkerboardState k a = 1 ∧ bcxVec checkerboardState k a = 1 ∧
    mbxVec checkerboardState k a = -1 ∧ mbcxVec checkerboardState k a = 1 := by
  refine ⟨rfl, ?_, ?_, ?_, ?_, ?_, ?_⟩ <;>
    (ext <;> simp [axVec, maxVec, bxVec, bcxVec, mbxVec, mbcxVec, checkerboardState])

theorem checkerboardState_left_entry :
    checkerboardLeftMultiplyBmat binaryLibm checkerboardState eye 1 0 0 12 =
      ⟨4369 / 256, 0⟩ := by
  obtain ⟨h1, h2, h3, h4, h5, h6, h7, h8⟩ := checkerboardState_hop
  have hN : checkerboardState.N = 4 := rfl
  have hv := checkerboardState_vectors
  have hmu : checkerboardState.mu = 0 := rfl
  have hexp := binaryLibm_values.1
  simp [checkerboardLeftMultiplyBmat, scaleMat, leftMultiplyBk, assemble, add3,
    diagmatMulC, hN, cbLMultHoppingExp_two binaryLibm checkerboardState rfl, block, eye,
    h5, h6, h7, h8, hv, hmu, hexp]
  ext
  · simp
    norm_num
  · simp

theorem checkerboardState_product_entry :
    checkerboardProduct binaryLibm checkerboardState eye 1 0 0 12 =
      ⟨-(65535 / 2048), 0⟩ := by
  obtain ⟨h1, h2, h3, h4, h5, h6, h7, h8⟩ := checkerboardState_hop
  have hN : checkerboardState.N = 4 := rfl
  have hmu : checkerboardState.mu = 0 := rfl
  have hexp := binaryLibm_values.1
  have hphi : ∀ a k : Nat, checkerboardState.phi0 a k = 1 ∧ checkerboardState.phi1 a k = 0 ∧
      checkerboardState.phi2 a k = 0 ∧ checkerboardState.phiCosh a k = 17 / 8 ∧
      checkerboardState.phiSinh a k = 15 / 8 := fun _ _ => ⟨rfl, rfl, rfl, rfl, rfl⟩
  have hT : checkerboardProduct binaryLibm checkerboardState eye 1 0 0 12 =
      checkerboardSliceFactor binaryLibm checkerboardState 1 0 12 := by
    simp only [checkerboardProduct, scaleMat, hN, hmu, mul_zero, hexp]
    rw [matMul_eye _ _ _ _ (by norm_num)]
    show matMul (4 * 4) (checkerboardSliceFactor binaryLibm checkerboardState 1) eye 0 12 *
      Cpx.ofReal 1 = _
    rw [matMul_eye _ _ _ _ (by norm_num)]
    have : (Cpx.ofReal 1 : Cpx ℚ) = 1 := rfl
    rw [this, mul_one]
  rw [hT]
  simp [checkerboardSliceFactor, matMul, hN, Finset.sum_range_succ, vertexMatrix,
    bondBlockDiag, vertexExponential, bondProduct, identityN,
    cbLMultHoppingExp_two binaryLibm checkerboardState rfl, h5, h6, h7, h8, hphi]
  ext
  · simp
    norm_num
  · simp

theorem checkerboardState_roundtrip_entry :
    checkerboardLeftMultiplyBmatInv binaryLibm checkerboardState
      (checkerboardLeftMultiplyBmat binaryLibm checkerboardState eye 1 0) 1 0 0 0 =
      ⟨225 / 64, 0⟩ := by
  obtain ⟨h1, h2, h3, h4, h5, h6, h7, h8⟩ := checkerboardState_hop
  have hN : checkerboardState.N = 4 := rfl
  have hv := checkerboardState_vectors
  have hmu : checkerboardState.mu = 0 := rfl
  have hexp := binaryLibm_values.1
  simp [checkerboardLeftMultiplyBmatInv, checkerboardLeftMultiplyBmat, scaleMat,
    leftMultiplyBkInv, leftMultiplyBk, assemble, add3,
    diagmatMulC, hN, cbLMultHoppingExp_two binaryLibm checkerboardState rfl, block, eye,
    h1, h2, h3, h4, h5, h6, h7, h8, hv, hmu, hexp]
  obtain ⟨t1, t2⟩ := @cpx_two_parts ℚ _
  ext
  · simp [t1, t2]
    norm_num
  · simp [t1, t2]

/-- C11, evaluated at the failing input: on the 2x2 lattice with the field `(1, 0, 0)` at
every site, entry `(0, 12)` (block `(0, 3)`, site 0) of
`checkerboardLeftMultiplyBmat(I, 1, 0)` is `bx[0] * C_Y(0,0) = 4369/256`, where
`bx = phi0 - i*phi1` carries neither the sign nor the factor `sinh(dtau|phi|)/|phi|`,
whereas the product `exp(dtau*mu) * E(1) * blockdiag(C_X, C_X, C_Y, C_Y) * I` with the
vertex matrix of the dense B-matrix has `-(15/8) * 4369/256 = -65535/2048` there. -/
theorem C11_checkerboard_vertex_factor :
    checkerboardLeftMultiplyBmat binaryLibm checkerboardState eye 1 0 0 12 =
      ⟨4369 / 256, 0⟩ ∧
    checkerboardProduct binaryLibm checkerboardState eye 1 0 0 12 = ⟨-(65535 / 2048), 0⟩ ∧
    bondProduct binaryLibm checkerboardState Band.YBAND 0 0 = ⟨4369 / 256, 0⟩ ∧
    checkerboardLeftMultiplyBmat binaryLibm checkerboardState eye 1 0 0 12 ≠
      checkerboardProduct binaryLibm checkerboardState eye 1 0 0 12 := by
  refine ⟨checkerboardState_left_entry, checkerboardState_product_entry, ?_, ?_⟩
  · obtain ⟨h1, h2, h3, h4, h5, h6, h7, h8⟩ := checkerboardState_hop
    have hN : checkerboardState.N = 4 := rfl
    simp [bondProduct, identityN, hN, cbLMultHoppingExp_two binaryLibm checkerboardState rfl,
      h5, h6, h7, h8]
    ext
    · simp
      norm_num
    · simp
  · rw [checkerboardState_left_entry, checkerboardState_product_entry]
    intro h
    have h2 := congrArg Cpx.re h
    norm_num at h2

/-- C12, evaluated at the failing input: on the 2x2 lattice with the field `(1, 0, 0)` at
every site, caches with `phiCosh^2 - |phi|^2 phiSinh^2 = 1` and bond coefficients with
`cosh^2 - sinh^2 = 1`, entry `(0, 0)` of
`checkerboardLeftMultiplyBmatInv(checkerboardLeftMultiplyBmat(I, 1, 0), 1, 0)` is
`phiCosh^2 - (phi0^2 + phi1^2) = 225/64`, not the entry `1` of the identity. -/
theorem C12_left_round_trip_fails :
    (∀ site k : Nat, checkerboardState.phiCosh site k ^ 2 -
      dot (checkerboardState.phiAt site k) (checkerboardState.phiAt site k) *
        checkerboardState.phiSinh site k ^ 2 = 1) ∧
    (∀ band : Band,
      coshHopHor binaryLibm checkerboardState band ^ 2 -
        sinhHopHor binaryLibm checkerboardState band ^ 2 = 1 ∧
      coshHopVer binaryLibm checkerboardState band ^ 2 -
        sinhHopVer binaryLibm checkerboardState band ^ 2 = 1) ∧
    checkerboardLeftMultiplyBmatInv binaryLibm checkerboardState
      (checkerboardLeftMultiplyBmat binaryLibm checkerboardState eye 1 0) 1 0 0 0 =
      ⟨225 / 64, 0⟩ ∧
    checkerboardLeftMultiplyBmatInv binaryLibm checkerboardState
      (checkerboardLeftMultiplyBmat binaryLibm checkerboardState eye 1 0) 1 0 0 0 ≠
      (eye : Nat → Nat → Cpx ℚ) 0 0 := by
  obtain ⟨h1, h2, h3, h4, h5, h6, h7, h8⟩ := checkerboardState_hop
  refine ⟨?_, ?_, checkerboardState_roundtrip_entry, ?_⟩
  · intro site k
    simp only [checkerboardState, DetSDW.phiAt, dot]
    norm_num
  · intro band
    cases band
    · rw [h1, h2, h3, h4]
      norm_num
    · rw [h5, h6, h7, h8]
      norm_num
  · rw [checkerboardState_roundtrip_entry]
    intro h
    have h2 := congrArg Cpx.re h
    simp [eye] at h2
    norm_num at h2

/-! ### The histogram update, entry by entry -/

theorem getD_set_dir (l : List ParameterDirection) (i j : Nat) (v d : ParameterDirection) :
    (l.set i v).getD j d = if i = j ∧ i < l.length then v else l.getD j d := by
  simp only [List.getD_eq_getElem?_getD, List.getElem?_set]
  by_cases h : i = j
  · by_cases h2 : i < l.length
    · subst h
      simp [h2]
    · subst h
      simp [h2, List.getElem?_eq_none (not_lt.mp h2)]
  · simp [h]

theorem getD_incrAt2 (v : List Int) (i j : Nat) :
    (incrAt v i).getD j 0 = v.getD j 0 + (if i = j ∧ j < v.length then 1 else 0) := by
  rw [getD_incrAt]
  by_cases h : i = j
  · subst h
    by_cases h2 : i < v.length <;> simp [h2, -List.getD_eq_getElem?_getD]
  · simp [h, -List.getD_eq_getElem?_getD]

/-- What one iteration of the histogram loop does, entry by entry. -/
theorem histogramStep_entries (P : Nat) (pp : List Nat) (es : ExchangeStatistics) (pi q c : Nat)
    (hpi : pi < es.process_goingWhere.length) :
    (histogramStep P pp es pi).process_goingWhere.length = es.process_goingWhere.length ∧
    (histogramStep P pp es pi).process_goingWhere.getD q ParameterDirection.NONE_P =
      (if q = pi then
        (if pp.getD pi 0 + 1 = P then ParameterDirection.DOWN_P
          else if pp.getD pi 0 = 0 then ParameterDirection.UP_P
          else es.process_goingWhere.getD pi ParameterDirection.NONE_P)
       else es.process_goingWhere.getD q ParameterDirection.NONE_P) ∧
    (histogramStep P pp es pi).par_countGoingUp.getD c 0 =
      es.par_countGoingUp.getD c 0 +
        (if pp.getD pi 0 = c ∧ c < es.par_countGoingUp.length ∧
            (if pp.getD pi 0 + 1 = P then ParameterDirection.DOWN_P
              else if pp.getD pi 0 = 0 then ParameterDirection.UP_P
              else es.process_goingWhere.getD pi ParameterDirection.NONE_P)
              = ParameterDirection.UP_P then 1 else 0) ∧
    (histogramStep P pp es pi).par_countGoingDown.getD c 0 =
      es.par_countGoingDown.getD c 0 +
        (if pp.getD pi 0 = c ∧ c < es.par_countGoingDown.length ∧
            (if pp.getD pi 0 + 1 = P then ParameterDirection.DOWN_P
              else if pp.getD pi 0 = 0 then ParameterDirection.UP_P
              else es.process_goingWhere.getD pi ParameterDirection.NONE_P)
              = ParameterDirection.DOWN_P then 1 else 0) := by
  unfold histogramStep
  simp only []
  generalize pp.getD pi 0 = n
  by_cases h1 : n + 1 = P
  · simp only [h1, if_true, getD_set_dir, hpi, and_self, List.length_set, getD_incrAt2]
    refine ⟨trivial, ?_, ?_, ?_⟩
    · by_cases hq : q = pi
      · simp [hq]
      · simp [hq, Ne.symm hq, -List.getD_eq_getElem?_getD]
    · simp [-List.getD_eq_getElem?_getD]
    · simp [-List.getD_eq_getElem?_getD]
  · by_cases h2 : n = 0
    · subst h2
      have hne : (ParameterDirection.UP_P = ParameterDirection.DOWN_P) = False :=
        eq_false (by decide)
      simp only [h1, hne, if_true, if_false, getD_set_dir, hpi, and_self, List.length_set,
        getD_incrAt2]
      refine ⟨trivial, ?_, ?_, ?_⟩
      · by_cases hq : q = pi
        · simp [hq]
        · simp [hq, Ne.symm hq, -List.getD_eq_getElem?_getD]
      · simp [-List.getD_eq_getElem?_getD]
      · simp [-List.getD_eq_getElem?_getD]
    · simp only [h1, h2, if_false]
      generalize hf : es.process_goingWhere.getD pi ParameterDirection.NONE_P = f
      refine ⟨?_, ?_, ?_, ?_⟩
      · cases f <;> simp
      · by_cases hq : q = pi
        · subst hq
          cases f <;> simp [hf, -List.getD_eq_getElem?_getD]
        · cases f <;> simp [hq, -List.getD_eq_getElem?_getD]
      · cases f <;> simp [getD_incrAt2, -List.getD_eq_getElem?_getD]
      · cases f <;> simp [getD_incrAt2, -List.getD_eq_getElem?_getD]

/-- The histogram loop over the processes `0, ..., k - 1`, entry by entry: the flags of
the processes visited follow the rule of the loop body, and each counter has grown by the
number of visited processes that sit at its control parameter with the matching flag. -/
theorem foldl_histogramStep_entries (P : Nat) (pp : List Nat) (es : ExchangeStatistics)
    (k : Nat) (hk : k ≤ es.process_goingWhere.length) :
    ∀ q c : Nat,
    ((List.range k).foldl (histogramStep P pp) es).process_goingWhere.length =
      es.process_goingWhere.length ∧
    ((List.range k).foldl (histogramStep P pp) es).process_goingWhere.getD q
        ParameterDirection.NONE_P =
      (if q < k then
        (if pp.getD q 0 + 1 = P then ParameterDirection.DOWN_P
          else if pp.getD q 0 = 0 then ParameterDirection.UP_P
          else es.process_goingWhere.getD q ParameterDirection.NONE_P)
       else es.process_goingWhere.getD q ParameterDirection.NONE_P) ∧
    ((List.range k).foldl (histogramStep P pp) es).par_countGoingUp.getD c 0 =
      es.par_countGoingUp.getD c 0 +
        ∑ r in Finset.range k,
          (if pp.getD r 0 = c ∧ c < es.par_countGoingUp.length ∧
              (if pp.getD r 0 + 1 = P then ParameterDirection.DOWN_P
                else if pp.getD r 0 = 0 then ParameterDirection.UP_P
                else es.process_goingWhere.getD r ParameterDirection.NONE_P)
                = ParameterDirection.UP_P then (1 : Int) else 0) ∧
    ((List.range k).foldl (histogramStep P pp) es).par_countGoingDown.getD c 0 =
      es.par_countGoingDown.getD c 0 +
        ∑ r in Finset.range k,
          (if pp.getD r 0 = c ∧ c < es.par_countGoingDown.length ∧
              (if pp.getD r 0 + 1 = P then ParameterDirection.DOWN_P
                else if pp.getD r 0 = 0 then ParameterDirection.UP_P
                else es.process_goingWhere.getD r ParameterDirection.NONE_P)
                = ParameterDirection.DOWN_P then (1 : Int) else 0) := by
  induction k with
  | zero =>
    intro q c
    simp
  | succ k ih =>
    intro q c
    have ih := ih (by omega)
    have hlen := (ih 0 0).1
    have hk2 := (ih k c).2.1
    rw [if_neg (lt_irrefl k)] at hk2
    obtain ⟨-, -, hup, hdown, -, -, -⟩ := foldl_histogramStep_facts P pp c (List.range k) es
    have step := histogramStep_entries P pp ((List.range k).foldl (histogramStep P pp) es)
      k q c (by rw [hlen]; omega)
    rw [List.range_succ, List.foldl_append, List.foldl_cons, List.foldl_nil]
    obtain ⟨s1, s2, s3, s4⟩ := step
    rw [hk2] at s2 s3 s4
    rw [hup] at s3
    rw [hdown] at s4
    refine ⟨by rw [s1, hlen], ?_, ?_, ?_⟩
    · rw [s2]
      by_cases hq : q = k
      · subst hq
        simp
      · rw [if_neg hq, (ih q c).2.1]
        by_cases hlt : q < k
        · rw [if_pos hlt, if_pos (by omega : q < k + 1)]
        · rw [if_neg hlt, if_neg (by omega : ¬ q < k + 1)]
    · rw [s3, (ih q c).2.2.1, Finset.sum_range_succ, add_assoc]
    · rw [s4, (ih q c).2.2.2, Finset.sum_range_succ, add_assoc]

/-- The serial pass does not touch the direction flags. -/
theorem foldl_exchangePairStep_goingWhere (accept : Nat → Bool) (l : List Nat) (s : RootState) :
    (l.foldl (exchangePairStep accept) s).es.process_goingWhere = s.es.process_goingWhere := by
  induction l generalizing s with
  | nil => rfl
  | cons c l ih =>
    rw [List.foldl_cons, ih]
    unfold exchangePairStep
    simp only []
    split_ifs <;> rfl

/-- The vector of direction flags has one entry per process in every reachable state. -/
theorem afterRounds_goingWhere_length (P : Nat) (rounds : List (List String × (Nat → Bool))) :
    (afterRounds P rounds).es.process_goingWhere.length = P := by
  induction rounds using List.reverseRecOn with
  | nil => simp [afterRounds, initFromParameters, ExchangeStatistics.init]
  | append_singleton rs r ih =>
    rw [afterRounds_snoc]
    unfold replicaExchangeStep serialPass
    rw [foldl_exchangePairStep_goingWhere]
    unfold updateHistograms
    simp only []
    have h := (foldl_histogramStep_entries (afterRounds P rs).numProcesses
      (afterRounds P rs).current_process_par (afterRounds P rs).es
      (afterRounds P rs).numProcesses
      (by rw [ih, (afterRounds_inverse P rs).1]) 0 0).1
    rw [h, ih]

/-- The histogram update on a root state whose index vectors are mutually inverse: the
flag of process `p` and the two counters at its control parameter. -/
theorem updateHistograms_entries (s : RootState) (p : Nat)
    (hinv : MutualInverse s.numProcesses s.current_process_par s.current_par_process)
    (hflags : s.es.process_goingWhere.length = s.numProcesses)
    (hup : s.es.par_countGoingUp.length = s.numProcesses)
    (hdown : s.es.par_countGoingDown.length = s.numProcesses)
    (hp : p < s.numProcesses) :
    (updateHistograms s).es.process_goingWhere.getD p ParameterDirection.NONE_P =
      (if s.current_process_par.getD p 0 + 1 = s.numProcesses then ParameterDirection.DOWN_P
        else if s.current_process_par.getD p 0 = 0 then ParameterDirection.UP_P
        else s.es.process_goingWhere.getD p ParameterDirection.NONE_P) ∧
    (updateHistograms s).es.par_countGoingUp.getD (s.current_process_par.getD p 0) 0 =
      s.es.par_countGoingUp.getD (s.current_process_par.getD p 0) 0 +
        (if (updateHistograms s).es.process_goingWhere.getD p ParameterDirection.NONE_P
            = ParameterDirection.UP_P then 1 else 0) ∧
    (updateHistograms s).es.par_countGoingDown.getD (s.current_process_par.getD p 0) 0 =
      s.es.par_countGoingDown.getD (s.current_process_par.getD p 0) 0 +
        (if (updateHistograms s).es.process_goingWhere.getD p ParameterDirection.NONE_P
            = ParameterDirection.DOWN_P then 1 else 0) := by
  obtain ⟨-, -, hpp, -⟩ := hinv
  have hn := (hpp p hp).1
  obtain ⟨-, h2, h3, h4⟩ := foldl_histogramStep_entries s.numProcesses s.current_process_par
    s.es s.numProcesses (le_of_eq hflags.symm) p (s.current_process_par.getD p 0)
  have hinj : ∀ r, r ∈ Finset.range s.numProcesses → r ≠ p →
      s.current_process_par.getD r 0 ≠ s.current_process_par.getD p 0 := by
    intro r hr hne heq
    have e1 := (hpp r (Finset.mem_range.mp hr)).2
    have e2 := (hpp p hp).2
    rw [heq, e2] at e1
    exact hne e1.symm
  have hmem : p ∈ Finset.range s.numProcesses := Finset.mem_range.mpr hp
  unfold updateHistograms
  simp only []
  rw [h2, if_pos hp]
  refine ⟨rfl, ?_, ?_⟩
  · rw [h3, Finset.sum_eq_single_of_mem p hmem]
    · simp only [true_and, hup, hn]
    · intro r hr hne
      rw [if_neg]
      intro h
      exact hinj r hr hne h.1
  · rw [h4, Finset.sum_eq_single_of_mem p hmem]
    · simp only [true_and, hdown, hn]
    · intro r hr hne
      rw [if_neg]
      intro h
      exact hinj r hr hne h.1

/-- C21, counterexample: with a single replica the only process sits at control
parameter index `0`, yet the histogram update sets its flag to `DOWN_P`, not `UP_P`. -/
theorem C21_single_replica_flag_is_down :
    (initFromParameters 1).current_process_par.getD 0 0 = 0 ∧
    (updateHistograms (initFromParameters 1)).es.process_goingWhere.getD 0
      ParameterDirection.NONE_P = ParameterDirection.DOWN_P ∧
    (updateHistograms (initFromParameters 1)).es.process_goingWhere.getD 0
      ParameterDirection.NONE_P ≠ ParameterDirection.UP_P := by
  decide

/-- C21 (amended): in the histogram update at the start of a replica exchange round, in
every state reachable from `initFromParameters` with `P` replicas and for every process
`p < P` with `n = current_process_par[p]`, the flag `process_goingWhere[p]` becomes
`DOWN_P` if `n = P - 1`, otherwise `UP_P` if `n = 0`, and is unchanged otherwise; then
`par_countGoingUp[n]` grows by one iff the resulting flag is `UP_P` and
`par_countGoingDown[n]` grows by one iff it is `DOWN_P`. -/
theorem C21_histogram_update (P : Nat) (rounds : List (List String × (Nat → Bool)))
    (gathered : List String) (p : Nat) (hp : p < P) :
    (updateHistograms { afterRounds P rounds with
        process_control_data_buffer := gathered }).es.process_goingWhere.getD p
        ParameterDirection.NONE_P =
      (if (afterRounds P rounds).current_process_par.getD p 0 = P - 1
        then ParameterDirection.DOWN_P
        else if (afterRounds P rounds).current_process_par.getD p 0 = 0
        then ParameterDirection.UP_P
        else (afterRounds P rounds).es.process_goingWhere.getD p ParameterDirection.NONE_P) ∧
    (updateHistograms { afterRounds P rounds with
        process_control_data_buffer := gathered }).es.par_countGoingUp.getD
        ((afterRounds P rounds).current_process_par.getD p 0) 0 =
      (afterRounds P rounds).es.par_countGoingUp.getD
        ((afterRounds P rounds).current_process_par.getD p 0) 0 +
        (if (updateHistograms { afterRounds P rounds with
              process_control_data_buffer := gathered }).es.process_goingWhere.getD p
              ParameterDirection.NONE_P = ParameterDirection.UP_P then 1 else 0) ∧
    (updateHistograms { afterRounds P rounds with
        process_control_data_buffer := gathered }).es.par_countGoingDown.getD
        ((afterRounds P rounds).current_process_par.getD p 0) 0 =
      (afterRounds P rounds).es.par_countGoingDown.getD
        ((afterRounds P rounds).current_process_par.getD p 0) 0 +
        (if (updateHistograms { afterRounds P rounds with
              process_control_data_buffer := gathered }).es.process_goingWhere.getD p
              ParameterDirection.NONE_P = ParameterDirection.DOWN_P then 1 else 0) := by
  obtain ⟨hnum, hinv⟩ := afterRounds_inverse P rounds
  obtain ⟨-, -, hup, hdown⟩ := afterRounds_sized P rounds
  have hflags := afterRounds_goingWhere_length P rounds
  have h := updateHistograms_entries
    { afterRounds P rounds with process_control_data_buffer := gathered } p
    (by rw [show ({ afterRounds P rounds with process_control_data_buffer := gathered }
          : RootState).numProcesses = P from hnum]; exact hinv)
    (hflags.trans hnum.symm) (hup.trans hnum.symm) (hdown.trans hnum.symm)
    (by rw [show ({ afterRounds P rounds with process_control_data_buffer := gathered }
          : RootState).numProcesses = P from hnum]; exact hp)
  have hcond : ((afterRounds P rounds).current_process_par.getD p 0 + 1 = P) =
      ((afterRounds P rounds).current_process_par.getD p 0 = P - 1) := by
    apply propext
    constructor <;> intro e <;> omega
  obtain ⟨h1, h2, h3⟩ := h
  refine ⟨?_, h2, h3⟩
  rw [h1]
  show (if (afterRounds P rounds).current_process_par.getD p 0 + 1
      = (afterRounds P rounds).numProcesses then _ else _) = _
  rw [hnum]
  by_cases hc : (afterRounds P rounds).current_process_par.getD p 0 = P - 1
  · rw [if_pos hc, if_pos (by omega)]
  · rw [if_neg hc, if_neg (by omega)]

/-- C21, witness: two replicas, the first round, process `0`. -/
theorem C21_histogram_update_witness :
    (0 < 2) ∧
    (updateHistograms { afterRounds 2 [] with
        process_control_data_buffer := ["a", "b"] }).es.process_goingWhere.getD 0
        ParameterDirection.NONE_P =
      (if (afterRounds 2 []).current_process_par.getD 0 0 = 2 - 1
        then ParameterDirection.DOWN_P
        else if (afterRounds 2 []).current_process_par.getD 0 0 = 0
        then ParameterDirection.UP_P
        else (afterRounds 2 []).es.process_goingWhere.getD 0 ParameterDirection.NONE_P) :=
  ⟨by decide, (C21_histogram_update 2 [] ["a", "b"] 0 (by decide)).1⟩

/-! ### Replica exchange in all processes -/

section ProcessTheorems

variable {R : Type} [LinearOrderedField R]

theorem getD_set_str (l : List String) (i j : Nat) (v : String) :
    (l.set i v).getD j "" = if i = j ∧ i < l.length then v else l.getD j "" := by
  simp only [List.getD_eq_getElem?_getD, List.getElem?_set]
  by_cases h : i = j
  · by_cases h2 : i < l.length
    · subst h
      simp [h2]
    · subst h
      simp [h2, List.getElem?_eq_none (not_lt.mp h2)]
  · simp [h]

theorem getD_gather {α : Type} (P : Nat) (f : Nat → α) (d : α) (p : Nat) (hp : p < P) :
    (gather P f).getD p d = f p := by
  unfold gather
  simp [List.getD_eq_getElem?_getD, List.getElem?_range hp, hp]

/-- One pair of the serial pass keeps every control parameter together with its control
data: the entry of the buffer at the process that holds `k` is the same before and
after. -/
theorem exchangePairStep_data (accept : Nat → Bool) (s : RootState) (c k : Nat)
    (hc : c + 1 < s.numProcesses)
    (h : MutualInverse s.numProcesses s.current_process_par s.current_par_process)
    (hbuf : s.process_control_data_buffer.length = s.numProcesses)
    (hk : k < s.numProcesses) :
    (exchangePairStep accept s c).process_control_data_buffer.length = s.numProcesses ∧
    (exchangePairStep accept s c).process_control_data_buffer.getD
        ((exchangePairStep accept s c).current_par_process.getD k 0) "" =
      s.process_control_data_buffer.getD (s.current_par_process.getD k 0) "" := by
  unfold exchangePairStep
  cases ha : accept c
  · simp only [Bool.false_eq_true, if_false]
    exact ⟨hbuf, trivial⟩
  · obtain ⟨hl1, hl2, hp, hq⟩ := h
    have h1 := hq c (by omega)
    have h2 := hq (c + 1) hc
    have h3 := hq k hk
    have hne : s.current_par_process.getD (c + 1) 0 ≠ s.current_par_process.getD c 0 := by
      intro hh
      have := h2.2
      rw [hh, h1.2] at this
      omega
    simp only [if_true, swapAt, getD_set_str, getD_set_nat, List.length_set, hl2, hbuf,
      h1.1, h2.1, hc, Nat.lt_of_succ_lt hc, and_true]
    refine ⟨trivial, ?_⟩
    by_cases e2 : c + 1 = k
    · subst e2
      simp only [if_true, hne, if_false]
    · by_cases e1 : c = k
      · subst e1
        simp only [e2, if_false, if_true]
      · have n1 : ¬ (s.current_par_process.getD c 0 = s.current_par_process.getD k 0) := by
          intro hh
          have := h1.2
          rw [hh, h3.2] at this
          exact e1 this.symm
        have n2 : ¬ (s.current_par_process.getD (c + 1) 0 =
            s.current_par_process.getD k 0) := by
          intro hh
          have := h2.2
          rw [hh, h3.2] at this
          exact e2 this.symm
        simp only [e1, e2, n1, n2, if_false]

theorem foldl_exchange_data (accept : Nat → Bool) (n : Nat) (s : RootState) (k : Nat)
    (hn : n + 1 ≤ s.numProcesses ∨ n = 0)
    (h : MutualInverse s.numProcesses s.current_process_par s.current_par_process)
    (hbuf : s.process_control_data_buffer.length = s.numProcesses)
    (hk : k < s.numProcesses) :
    ((List.range n).foldl (exchangePairStep accept) s).process_control_data_buffer.length =
      s.numProcesses ∧
    ((List.range n).foldl (exchangePairStep accept) s).process_control_data_buffer.getD
        (((List.range n).foldl (exchangePairStep accept) s).current_par_process.getD k 0) "" =
      s.process_control_data_buffer.getD (s.current_par_process.getD k 0) "" := by
  induction n with
  | zero => exact ⟨hbuf, rfl⟩
  | succ m ih =>
    have hm : m + 1 ≤ s.numProcesses ∨ m = 0 := by omega
    obtain ⟨ihl, ihd⟩ := ih hm
    obtain ⟨ihn, ihm⟩ := foldl_exchange_inverse accept m s hm h
    rw [List.range_succ, List.foldl_append]
    simp only [List.foldl_cons, List.foldl_nil]
    have := exchangePairStep_data accept
      ((List.range m).foldl (exchangePairStep accept) s) m k (by rw [ihn]; omega)
      (by rw [ihn]; exact ihm) (by rw [ihn]; exact ihl) (by rw [ihn]; exact hk)
    rw [ihn] at this
    exact ⟨this.1, this.2.trans ihd⟩

/-- One round at rank 0: after the serial pass the buffer entry of the process that now
holds control parameter `k` is the data gathered from the process that held `k`
before. -/
theorem replicaExchangeStep_data (gathered : List String) (accept : Nat → Bool)
    (s : RootState) (k : Nat)
    (h : MutualInverse s.numProcesses s.current_process_par s.current_par_process)
    (hbuf : gathered.length = s.numProcesses)
    (hk : k < s.numProcesses) :
    (replicaExchangeStep gathered accept s).process_control_data_buffer.getD
        ((replicaExchangeStep gathered accept s).current_par_process.getD k 0) "" =
      gathered.getD (s.current_par_process.getD k 0) "" := by
  unfold replicaExchangeStep serialPass
  obtain ⟨hu1, hu2, hu3⟩ :=
    updateHistograms_perm { s with process_control_data_buffer := gathered }
  have hu4 : (updateHistograms
      { s with process_control_data_buffer := gathered }).process_control_data_buffer =
      gathered := by
    simp [updateHistograms]
  have := (foldl_exchange_data accept
    ((updateHistograms { s with process_control_data_buffer := gathered }).numProcesses - 1)
    (updateHistograms { s with process_control_data_buffer := gathered }) k
    (by omega) (by rw [hu1, hu2, hu3]; exact h) (by rw [hu1, hu4]; exact hbuf)
    (by rw [hu1]; exact hk)).2
  rw [hu4, hu3] at this
  exact this

theorem exchangeStepWorld_root (localData : Nat → String) (accept : Nat → Bool)
    (w : World R) :
    (exchangeStepWorld localData accept w).controlParameterValues =
      w.controlParameterValues ∧
    (exchangeStepWorld localData accept w).root =
      replicaExchangeStep (gather w.root.numProcesses localData) accept w.root :=
  ⟨rfl, rfl⟩

theorem worldAfter_snoc (values : List R) (rs : List ((Nat → String) × (Nat → Bool)))
    (r : (Nat → String) × (Nat → Bool)) :
    worldAfter values (rs ++ [r]) = exchangeStepWorld r.1 r.2 (worldAfter values rs) := by
  unfold worldAfter
  rw [List.foldl_append]
  rfl

/-- The members of rank 0 in every reachable state of the processes. -/
theorem worldAfter_root (values : List R) (rounds : List ((Nat → String) × (Nat → Bool))) :
    (worldAfter values rounds).controlParameterValues = values ∧
    (worldAfter values rounds).root.numProcesses = values.length ∧
    MutualInverse values.length (worldAfter values rounds).root.current_process_par
      (worldAfter values rounds).root.current_par_process := by
  induction rounds using List.reverseRecOn with
  | nil => exact ⟨rfl, rfl, mutualInverse_init values.length⟩
  | append_singleton rs r ih =>
    obtain ⟨ih0, ih1, ih2⟩ := ih
    rw [worldAfter_snoc]
    have := replicaExchangeStep_inverse
      (gather (worldAfter values rs).root.numProcesses r.1) r.2 (worldAfter values rs).root
      (by rw [ih1]; exact ih2)
    rw [ih1] at this
    rw [(exchangeStepWorld_root r.1 r.2 _).2, (exchangeStepWorld_root r.1 r.2 _).1, ih1]
    exact ⟨ih0, this.1, this.2⟩

/-- In every reachable state each process holds the index that rank 0 has recorded for
it, and its replica the control parameter value of that index. -/
theorem worldAfter_local (values : List R) (rounds : List ((Nat → String) × (Nat → Bool)))
    (p : Nat) (hp : p < values.length) :
    ((worldAfter values rounds).procs p).local_current_parameter_index =
      (worldAfter values rounds).root.current_process_par.getD p 0 ∧
    ((worldAfter values rounds).procs p).exchange_parameter_value =
      values.getD ((worldAfter values rounds).root.current_process_par.getD p 0) 0 := by
  induction rounds using List.reverseRecOn with
  | nil =>
    have : (List.range values.length).getD p 0 = p := by
      simp [List.getD_eq_getElem?_getD, List.getElem?_range hp, hp]
    simp only [worldAfter, List.foldl_nil, initWorld, initFromParameters, this]
    exact ⟨trivial, trivial⟩
  | append_singleton rs r _ =>
    rw [worldAfter_snoc]
    have h0 := (worldAfter_root values rs).1
    simp only [exchangeStepWorld, h0]
    exact ⟨trivial, trivial⟩

theorem findSome_none_of_forall {α β : Type} (l : List α) (f : α → Option β)
    (h : ∀ a ∈ l, f a = none) : l.findSome? f = none := by
  induction l with
  | nil => rfl
  | cons a l ih =>
    rw [List.findSome?_cons, h a (List.mem_cons_self a l)]
    exact ih (fun b hb => h b (List.mem_cons_of_mem a hb))

/-- C22: with the processes modelled explicitly, after `initFromParameters` and after any
number of `replicaExchangeStep` rounds with any control data and any accept/reject
outcomes, every process `p` has `local_current_parameter_index = current_process_par[p]`
and its replica the exchange parameter value
`controlParameterValues[current_process_par[p]]`, and
`replicaExchangeConsistencyCheck` returns without raising. -/
theorem C22_processes_consistent (values : List R)
    (rounds : List ((Nat → String) × (Nat → Bool))) (p : Nat) (hp : p < values.length) :
    ((worldAfter values rounds).procs p).local_current_parameter_index =
      (worldAfter values rounds).root.current_process_par.getD p 0 ∧
    ((worldAfter values rounds).procs p).exchange_parameter_value =
      (worldAfter values rounds).controlParameterValues.getD
        ((worldAfter values rounds).root.current_process_par.getD p 0) 0 ∧
    replicaExchangeConsistencyCheck (worldAfter values rounds) = Except.ok () := by
  obtain ⟨h0, h1, -⟩ := worldAfter_root values rounds
  have hloc := worldAfter_local values rounds
  have htol : ¬ (|(0 : R)| > 1 / 10 ^ 10) := by
    rw [abs_zero]
    exact not_lt.mpr (by positivity)
  refine ⟨(hloc p hp).1, by rw [h0]; exact (hloc p hp).2, ?_⟩
  unfold replicaExchangeConsistencyCheck
  have e1 : (List.range (worldAfter values rounds).root.numProcesses).findSome?
      (fun q => localConsistencyCheck (worldAfter values rounds).controlParameterValues
        ((worldAfter values rounds).procs q)) = none := by
    apply findSome_none_of_forall
    intro q hq
    rw [h1] at hq
    have hq2 := List.mem_range.mp hq
    unfold localConsistencyCheck
    rw [(hloc q hq2).2, (hloc q hq2).1, h0, sub_self, if_neg htol]
  have e2 : rootConsistencyCheck (worldAfter values rounds).controlParameterValues
      (worldAfter values rounds).root
      (gather (worldAfter values rounds).root.numProcesses
        (fun q => ((worldAfter values rounds).procs q).exchange_parameter_value)) = none := by
    unfold rootConsistencyCheck
    apply findSome_none_of_forall
    intro q hq
    have hq1 := List.mem_range.mp hq
    have hq2 : q < values.length := by rw [h1] at hq1; exact hq1
    rw [getD_gather _ _ _ _ hq1, (hloc q hq2).2, h0, sub_self, if_neg htol]
  rw [e1]
  simp only []
  rw [e2]

/-- C22, witness: two control parameter values, one round in which the pair is
exchanged, process `1`. -/
theorem C22_processes_consistent_witness :
    (1 < [(1 : ℚ), 2].length) ∧
    ((worldAfter [(1 : ℚ), 2] [(fun _ => "d", fun _ => true)]).procs 1
        ).local_current_parameter_index =
      (worldAfter [(1 : ℚ), 2] [(fun _ => "d", fun _ => true)]
        ).root.current_process_par.getD 1 0 ∧
    replicaExchangeConsistencyCheck
      (worldAfter [(1 : ℚ), 2] [(fun _ => "d", fun _ => true)]) = Except.ok () :=
  ⟨by decide,
   (C22_processes_consistent [(1 : ℚ), 2] [(fun _ => "d", fun _ => true)] 1
      (by decide)).1,
   (C22_processes_consistent [(1 : ℚ), 2] [(fun _ => "d", fun _ => true)] 1
      (by decide)).2.2⟩

/-- C29: in one `replicaExchangeStep` round from any reachable state, with `b[p]` the
control data gathered from process `p`, for every control parameter index `c` and all
accept/reject outcomes the buffer entry of the process holding `c` after the serial pass
is the data gathered from the process that held `c` before the pass, and that process
ingests it when the buffer has been scattered. -/
theorem C29_control_data_follows_parameter (values : List R)
    (rounds : List ((Nat → String) × (Nat → Bool)))
    (localData : Nat → String) (accept : Nat → Bool) (c : Nat) (hc : c < values.length) :
    (exchangeStepWorld localData accept
        (worldAfter values rounds)).root.process_control_data_buffer.getD
        ((exchangeStepWorld localData accept
          (worldAfter values rounds)).root.current_par_process.getD c 0) "" =
      (gather values.length localData).getD
        ((worldAfter values rounds).root.current_par_process.getD c 0) "" ∧
    ((exchangeStepWorld localData accept (worldAfter values rounds)).procs
        ((exchangeStepWorld localData accept
          (worldAfter values rounds)).root.current_par_process.getD c 0)).control_data =
      localData ((worldAfter values rounds).root.current_par_process.getD c 0) := by
  obtain ⟨-, h1, h2⟩ := worldAfter_root values rounds
  have hq := (h2.2.2.2 c hc).1
  have key := replicaExchangeStep_data
    (gather (worldAfter values rounds).root.numProcesses localData) accept
    (worldAfter values rounds).root c (by rw [h1]; exact h2)
    (by simp [gather]) (by rw [h1]; exact hc)
  rw [h1] at key
  have key2 := key
  rw [getD_gather _ _ _ _ hq] at key2
  have hroot := (exchangeStepWorld_root localData accept (worldAfter values rounds)).2
  rw [h1] at hroot
  refine ⟨by rw [hroot]; exact key, ?_⟩
  show (exchangeStepWorld localData accept
    (worldAfter values rounds)).root.process_control_data_buffer.getD _ "" = _
  rw [hroot]
  exact key2

/-- C29, witness: two processes whose pair of control parameters is exchanged. -/
theorem C29_control_data_follows_parameter_witness :
    (0 < [(1 : ℚ), 2].length) ∧
    ((exchangeStepWorld (fun p => if p = 0 then "a" else "b") (fun _ => true)
        (worldAfter [(1 : ℚ), 2] [])).procs
        ((exchangeStepWorld (fun p => if p = 0 then "a" else "b") (fun _ => true)
          (worldAfter [(1 : ℚ), 2] [])).root.current_par_process.getD 0 0)).control_data =
      (fun p => if p = 0 then "a" else "b")
        ((worldAfter [(1 : ℚ), 2] []).root.current_par_process.getD 0 0) :=
  ⟨by decide,
   (C29_control_data_follows_parameter [(1 : ℚ), 2] []
      (fun p => if p = 0 then "a" else "b") (fun _ => true) 0 (by decide)).2⟩

end ProcessTheorems

/-! ### Resuming and creating the replica -/

/-- The members of the Monte Carlo parameters other than `specified`. -/
theorem mcParams_same_of_insert (cond : Bool) (name : String) (p : MCParams) :
    (specifiedInsert cond name p).toDetQMCParams = p.toDetQMCParams ∧
    (specifiedInsert cond name p).jkBlocks = p.jkBlocks ∧
    (specifiedInsert cond name p).timeseries = p.timeseries ∧
    (specifiedInsert cond name p).rngSeed = p.rngSeed ∧
    (specifiedInsert cond name p).simindex = p.simindex ∧
    (specifiedInsert cond name p).greenUpdateType_string = p.greenUpdateType_string ∧
    (specifiedInsert cond name p).saveConfigurationStreamText =
      p.saveConfigurationStreamText ∧
    (specifiedInsert cond name p).saveConfigurationStreamBinary =
      p.saveConfigurationStreamBinary ∧
    (specifiedInsert cond name p).stateFileName = p.stateFileName ∧
    (specifiedInsert cond name p).sweepsHasChanged = p.sweepsHasChanged ∧
    (∀ x, x ∈ (specifiedInsert cond name p).specified ↔
      x ∈ p.specified ∨ (cond = true ∧ x = name)) := by
  unfold specifiedInsert
  cases cond
  · simp
  · simp only [if_true, List.mem_insert_iff, true_and]
    intro x
    exact or_comm

/-- What matters of a Monte Carlo parameter struct for the resume constructor: all
members but `specified`, as a tuple. -/
theorem insert_val_fields (f : MCParams → Nat) (name : String) (p : MCParams) :
    (SPECIFIED_INSERT_VAL f name p).sweeps = p.sweeps ∧
    (SPECIFIED_INSERT_VAL f name p).thermalization = p.thermalization ∧
    (SPECIFIED_INSERT_VAL f name p).measureInterval = p.measureInterval ∧
    (SPECIFIED_INSERT_VAL f name p).saveInterval = p.saveInterval ∧
    (SPECIFIED_INSERT_VAL f name p).saveConfigurationStreamInterval =
      p.saveConfigurationStreamInterval ∧
    (SPECIFIED_INSERT_VAL f name p).jkBlocks = p.jkBlocks ∧
    (SPECIFIED_INSERT_VAL f name p).timeseries = p.timeseries ∧
    (SPECIFIED_INSERT_VAL f name p).rngSeed = p.rngSeed ∧
    (SPECIFIED_INSERT_VAL f name p).simindex = p.simindex ∧
    (SPECIFIED_INSERT_VAL f name p).greenUpdateType_string = p.greenUpdateType_string ∧
    (SPECIFIED_INSERT_VAL f name p).saveConfigurationStreamText =
      p.saveConfigurationStreamText ∧
    (SPECIFIED_INSERT_VAL f name p).saveConfigurationStreamBinary =
      p.saveConfigurationStreamBinary ∧
    (SPECIFIED_INSERT_VAL f name p).stateFileName = p.stateFileName ∧
    (SPECIFIED_INSERT_VAL f name p).sweepsHasChanged = p.sweepsHasChanged ∧
    (∀ x, x ∈ p.specified → x ∈ (SPECIFIED_INSERT_VAL f name p).specified) ∧
    (∀ x, x ∈ (SPECIFIED_INSERT_VAL f name p).specified → x ∈ p.specified ∨ x = name) := by
  unfold SPECIFIED_INSERT_VAL
  obtain ⟨h0, h1, h2, h3, h4, h5, h6, h7, h8, h9, h10⟩ :=
    mcParams_same_of_insert (decide (f p ≠ 0)) name p
  refine ⟨?_, ?_, ?_, ?_, ?_, h1, h2, h3, h4, h5, h6, h7, h8, h9, ?_, ?_⟩
  · exact congrArg DetQMCParams.sweeps h0
  · exact congrArg DetQMCParams.thermalization h0
  · exact congrArg DetQMCParams.measureInterval h0
  · exact congrArg DetQMCParams.saveInterval h0
  · exact congrArg DetQMCParams.saveConfigurationStreamInterval h0
  · intro x hx
    exact (h10 x).mpr (Or.inl hx)
  · intro x hx
    rcases (h10 x).mp hx with h | h
    · exact Or.inl h
    · exact Or.inr h.2

theorem insert_str_fields (f : MCParams → String) (name : String) (p : MCParams) :
    (SPECIFIED_INSERT_STR f name p).sweeps = p.sweeps ∧
    (SPECIFIED_INSERT_STR f name p).thermalization = p.thermalization ∧
    (SPECIFIED_INSERT_STR f name p).measureInterval = p.measureInterval ∧
    (SPECIFIED_INSERT_STR f name p).saveInterval = p.saveInterval ∧
    (SPECIFIED_INSERT_STR f name p).saveConfigurationStreamInterval =
      p.saveConfigurationStreamInterval ∧
    (SPECIFIED_INSERT_STR f name p).jkBlocks = p.jkBlocks ∧
    (SPECIFIED_INSERT_STR f name p).timeseries = p.timeseries ∧
    (SPECIFIED_INSERT_STR f name p).rngSeed = p.rngSeed ∧
    (SPECIFIED_INSERT_STR f name p).simindex = p.simindex ∧
    (SPECIFIED_INSERT_STR f name p).greenUpdateType_string = p.greenUpdateType_string ∧
    (SPECIFIED_INSERT_STR f name p).saveConfigurationStreamText =
      p.saveConfigurationStreamText ∧
    (SPECIFIED_INSERT_STR f name p).saveConfigurationStreamBinary =
      p.saveConfigurationStreamBinary ∧
    (SPECIFIED_INSERT_STR f name p).stateFileName = p.stateFileName ∧
    (SPECIFIED_INSERT_STR f name p).sweepsHasChanged = p.sweepsHasChanged ∧
    (∀ x, x ∈ p.specified → x ∈ (SPECIFIED_INSERT_STR f name p).specified) ∧
    (∀ x, x ∈ (SPECIFIED_INSERT_STR f name p).specified → x ∈ p.specified ∨ x = name) := by
  unfold SPECIFIED_INSERT_STR
  obtain ⟨h0, h1, h2, h3, h4, h5, h6, h7, h8, h9, h10⟩ :=
    mcParams_same_of_insert (!(f p).isEmpty) name p
  refine ⟨?_, ?_, ?_, ?_, ?_, h1, h2, h3, h4, h5, h6, h7, h8, h9, ?_, ?_⟩
  · exact congrArg DetQMCParams.sweeps h0
  · exact congrArg DetQMCParams.thermalization h0
  · exact congrArg DetQMCParams.measureInterval h0
  · exact congrArg DetQMCParams.saveInterval h0
  · exact congrArg DetQMCParams.saveConfigurationStreamInterval h0
  · intro x hx
    exact (h10 x).mpr (Or.inl hx)
  · intro x hx
    rcases (h10 x).mp hx with h | h
    · exact Or.inl h
    · exact Or.inr h.2

theorem resumeSweeps_fields (newParsmc p : MCParams) :
    (resumeSweeps newParsmc p).sweeps = max p.sweeps newParsmc.sweeps ∧
    (resumeSweeps newParsmc p).sweepsHasChanged =
      (if newParsmc.sweeps > p.sweeps then true else p.sweepsHasChanged) ∧
    (resumeSweeps newParsmc p).thermalization = p.thermalization ∧
    (resumeSweeps newParsmc p).measureInterval = p.measureInterval ∧
    (resumeSweeps newParsmc p).saveInterval = p.saveInterval ∧
    (resumeSweeps newParsmc p).saveConfigurationStreamInterval =
      p.saveConfigurationStreamInterval ∧
    (resumeSweeps newParsmc p).jkBlocks = p.jkBlocks ∧
    (resumeSweeps newParsmc p).timeseries = p.timeseries ∧
    (resumeSweeps newParsmc p).rngSeed = p.rngSeed ∧
    (resumeSweeps newParsmc p).simindex = p.simindex ∧
    (resumeSweeps newParsmc p).greenUpdateType_string = p.greenUpdateType_string ∧
    (resumeSweeps newParsmc p).saveConfigurationStreamText =
      p.saveConfigurationStreamText ∧
    (resumeSweeps newParsmc p).saveConfigurationStreamBinary =
      p.saveConfigurationStreamBinary ∧
    (resumeSweeps newParsmc p).specified = p.specified := by
  unfold resumeSweeps
  by_cases h : newParsmc.sweeps > p.sweeps
  · rw [if_pos h, if_pos h]
    exact ⟨(max_eq_right (le_of_lt h)).symm, rfl, rfl, rfl, rfl, rfl, rfl, rfl, rfl, rfl,
      rfl, rfl, rfl, rfl⟩
  · rw [if_neg h, if_neg h]
    exact ⟨(max_eq_left (not_lt.mp h)).symm, rfl, rfl, rfl, rfl, rfl, rfl, rfl, rfl, rfl,
      rfl, rfl, rfl, rfl⟩

theorem resumeSaveInterval_fields (newParsmc p : MCParams) :
    (resumeSaveInterval newParsmc p).sweeps = p.sweeps ∧
    (resumeSaveInterval newParsmc p).sweepsHasChanged = p.sweepsHasChanged ∧
    (resumeSaveInterval newParsmc p).thermalization = p.thermalization ∧
    (resumeSaveInterval newParsmc p).measureInterval = p.measureInterval ∧
    (resumeSaveInterval newParsmc p).saveInterval =
      (if newParsmc.saveInterval > 0 then newParsmc.saveInterval else p.saveInterval) ∧
    (resumeSaveInterval newParsmc p).saveConfigurationStreamInterval =
      p.saveConfigurationStreamInterval ∧
    (resumeSaveInterval newParsmc p).jkBlocks = p.jkBlocks ∧
    (resumeSaveInterval newParsmc p).timeseries = p.timeseries ∧
    (resumeSaveInterval newParsmc p).rngSeed = p.rngSeed ∧
    (resumeSaveInterval newParsmc p).simindex = p.simindex ∧
    (resumeSaveInterval newParsmc p).greenUpdateType_string = p.greenUpdateType_string ∧
    (resumeSaveInterval newParsmc p).saveConfigurationStreamText =
      p.saveConfigurationStreamText ∧
    (resumeSaveInterval newParsmc p).saveConfigurationStreamBinary =
      p.saveConfigurationStreamBinary ∧
    (resumeSaveInterval newParsmc p).specified = p.specified := by
  unfold resumeSaveInterval
  by_cases h : newParsmc.saveInterval > 0 ∧ newParsmc.saveInterval ≠ p.saveInterval
  · rw [if_pos h, if_pos h.1]
    exact ⟨rfl, rfl, rfl, rfl, rfl, rfl, rfl, rfl, rfl, rfl, rfl, rfl, rfl, rfl⟩
  · rw [if_neg h]
    refine ⟨rfl, rfl, rfl, rfl, ?_, rfl, rfl, rfl, rfl, rfl, rfl, rfl, rfl, rfl⟩
    by_cases h0 : newParsmc.saveInterval > 0
    · rw [if_pos h0]
      by_contra hne
      exact h ⟨h0, fun e => hne e.symm⟩
    · rw [if_neg h0]

/-- C23: the Monte Carlo parameters that the resume constructor hands to
`initFromParameters` have `sweeps = max(stored, new)`, `sweepsHasChanged` set exactly
when the new value is larger (and kept otherwise), `saveInterval` the new value if that
is positive and the stored one otherwise, `stateFileName` the file resumed from, and
every other stored value (thermalization, measureInterval, jkBlocks, rngSeed, simindex,
the configuration stream settings, timeseries, greenUpdateType) as stored, whatever
`newParsmc` holds; the model, replica exchange and logging parameters are handed on as
read.  The set `specified` keeps its stored names and gains only names of these
parameters. -/
theorem C23_resume_parameters {Logging Model PT : Type} (parslogging_ : Logging)
    (parsmodel_ : Model) (parsmc_ : MCParams) (parspt_ : PT) (newParsmc : MCParams)
    (stateFileName : String) :
    (resumeArguments parslogging_ parsmodel_ parsmc_ parspt_ newParsmc stateFileName).1 =
      parsmodel_ ∧
    (resumeArguments parslogging_ parsmodel_ parsmc_ parspt_ newParsmc stateFileName).2.2.1 =
      parspt_ ∧
    (resumeArguments parslogging_ parsmodel_ parsmc_ parspt_ newParsmc stateFileName).2.2.2 =
      parslogging_ ∧
    (resumeArguments parslogging_ parsmodel_ parsmc_ parspt_ newParsmc stateFileName).2.1 =
      resumedParsmc parsmc_ newParsmc stateFileName ∧
    (resumedParsmc parsmc_ newParsmc stateFileName).sweeps =
      max parsmc_.sweeps newParsmc.sweeps ∧
    (resumedParsmc parsmc_ newParsmc stateFileName).sweepsHasChanged =
      (if newParsmc.sweeps > parsmc_.sweeps then true else parsmc_.sweepsHasChanged) ∧
    (resumedParsmc parsmc_ newParsmc stateFileName).saveInterval =
      (if newParsmc.saveInterval > 0 then newParsmc.saveInterval
        else parsmc_.saveInterval) ∧
    (resumedParsmc parsmc_ newParsmc stateFileName).stateFileName = stateFileName ∧
    (resumedParsmc parsmc_ newParsmc stateFileName).thermalization =
      parsmc_.thermalization ∧
    (resumedParsmc parsmc_ newParsmc stateFileName).measureInterval =
      parsmc_.measureInterval ∧
    (resumedParsmc parsmc_ newParsmc stateFileName).saveConfigurationStreamInterval =
      parsmc_.saveConfigurationStreamInterval ∧
    (resumedParsmc parsmc_ newParsmc stateFileName).jkBlocks = parsmc_.jkBlocks ∧
    (resumedParsmc parsmc_ newParsmc stateFileName).timeseries = parsmc_.timeseries ∧
    (resumedParsmc parsmc_ newParsmc stateFileName).rngSeed = parsmc_.rngSeed ∧
    (resumedParsmc parsmc_ newParsmc stateFileName).simindex = parsmc_.simindex ∧
    (resumedParsmc parsmc_ newParsmc stateFileName).greenUpdateType_string =
      parsmc_.greenUpdateType_string ∧
    (resumedParsmc parsmc_ newParsmc stateFileName).saveConfigurationStreamText =
      parsmc_.saveConfigurationStreamText ∧
    (resumedParsmc parsmc_ newParsmc stateFileName).saveConfigurationStreamBinary =
      parsmc_.saveConfigurationStreamBinary ∧
    (∀ x, x ∈ parsmc_.specified →
      x ∈ (resumedParsmc parsmc_ newParsmc stateFileName).specified) ∧
    (∀ x, x ∈ (resumedParsmc parsmc_ newParsmc stateFileName).specified →
      x ∈ parsmc_.specified ∨
      x ∈ ["sweeps", "thermalization", "jkBlocks", "measureInterval", "saveInterval",
        "stateFileName", "greenUpdateType"]) := by
  simp only [resumeArguments, true_and]
  unfold resumedParsmc
  obtain ⟨a1, a2, a3, a4, a5, a6, a7, a8, a9, a10, a11, a12, a13, a14⟩ :=
    resumeSweeps_fields newParsmc parsmc_
  obtain ⟨b1, b2, b3, b4, b5, b6, b7, b8, b9, b10, b11, b12, b13, b14⟩ :=
    resumeSaveInterval_fields newParsmc (resumeSweeps newParsmc parsmc_)
  rw [a5] at b5
  generalize resumeSaveInterval newParsmc (resumeSweeps newParsmc parsmc_) = p2 at *
  have c : (resumeStateFileName stateFileName p2).sweeps = p2.sweeps ∧
      (resumeStateFileName stateFileName p2).sweepsHasChanged = p2.sweepsHasChanged ∧
      (resumeStateFileName stateFileName p2).thermalization = p2.thermalization ∧
      (resumeStateFileName stateFileName p2).measureInterval = p2.measureInterval ∧
      (resumeStateFileName stateFileName p2).saveInterval = p2.saveInterval ∧
      (resumeStateFileName stateFileName p2).saveConfigurationStreamInterval =
        p2.saveConfigurationStreamInterval ∧
      (resumeStateFileName stateFileName p2).jkBlocks = p2.jkBlocks ∧
      (resumeStateFileName stateFileName p2).timeseries = p2.timeseries ∧
      (resumeStateFileName stateFileName p2).rngSeed = p2.rngSeed ∧
      (resumeStateFileName stateFileName p2).simindex = p2.simindex ∧
      (resumeStateFileName stateFileName p2).greenUpdateType_string =
        p2.greenUpdateType_string ∧
      (resumeStateFileName stateFileName p2).saveConfigurationStreamText =
        p2.saveConfigurationStreamText ∧
      (resumeStateFileName stateFileName p2).saveConfigurationStreamBinary =
        p2.saveConfigurationStreamBinary ∧
      (resumeStateFileName stateFileName p2).specified = p2.specified ∧
      (resumeStateFileName stateFileName p2).stateFileName = stateFileName :=
    ⟨rfl, rfl, rfl, rfl, rfl, rfl, rfl, rfl, rfl, rfl, rfl, rfl, rfl, rfl, rfl⟩
  obtain ⟨c1, c2, c3, c4, c5, c6, c7, c8, c9, c10, c11, c12, c13, c14, c15⟩ := c
  generalize resumeStateFileName stateFileName p2 = p3 at *
  simp only [insert_str_fields, insert_val_fields]
  refine ⟨by rw [c1, b1, a1], by rw [c2, b2, a2], by rw [c5, b5], c15, by rw [c3, b3, a3],
    by rw [c4, b4, a4], by rw [c6, b6, a6], by rw [c7, b7, a7], by rw [c8, b8, a8],
    by rw [c9, b9, a9], by rw [c10, b10, a10], by rw [c11, b11, a11], by rw [c12, b12, a12],
    by rw [c13, b13, a13], ?_, ?_⟩
  · intro x hx
    have h3 : x ∈ p3.specified := by rw [c14, b14, a14]; exact hx
    exact (insert_str_fields _ _ _).2.2.2.2.2.2.2.2.2.2.2.2.2.2.1 x
      ((insert_str_fields _ _ _).2.2.2.2.2.2.2.2.2.2.2.2.2.2.1 x
      ((insert_val_fields _ _ _).2.2.2.2.2.2.2.2.2.2.2.2.2.2.1 x
      ((insert_val_fields _ _ _).2.2.2.2.2.2.2.2.2.2.2.2.2.2.1 x
      ((insert_val_fields _ _ _).2.2.2.2.2.2.2.2.2.2.2.2.2.2.1 x
      ((insert_val_fields _ _ _).2.2.2.2.2.2.2.2.2.2.2.2.2.2.1 x
      ((insert_val_fields _ _ _).2.2.2.2.2.2.2.2.2.2.2.2.2.2.1 x h3))))))
  · intro x hx
    have h3 : x ∈ p3.specified → x ∈ parsmc_.specified := by
      intro h
      rw [c14, b14, a14] at h
      exact h
    rcases (insert_str_fields _ _ _).2.2.2.2.2.2.2.2.2.2.2.2.2.2.2 x hx with h | h
    · rcases (insert_str_fields _ _ _).2.2.2.2.2.2.2.2.2.2.2.2.2.2.2 x h with h | h
      · rcases (insert_val_fields _ _ _).2.2.2.2.2.2.2.2.2.2.2.2.2.2.2 x h with h | h
        · rcases (insert_val_fields _ _ _).2.2.2.2.2.2.2.2.2.2.2.2.2.2.2 x h with h | h
          · rcases (insert_val_fields _ _ _).2.2.2.2.2.2.2.2.2.2.2.2.2.2.2 x h with h | h
            · rcases (insert_val_fields _ _ _).2.2.2.2.2.2.2.2.2.2.2.2.2.2.2 x h with h | h
              · rcases (insert_val_fields _ _ _).2.2.2.2.2.2.2.2.2.2.2.2.2.2.2 x h with h | h
                · exact Or.inl (h3 h)
                · simp [h]
              · simp [h]
            · simp [h]
          · simp [h]
        · simp [h]
      · simp [h]
    · simp [h]

theorem count_eq_zero_iff_not_mem (l : List String) (x : String) :
    (l.count x == 0) = true ↔ x ∉ l := by
  rw [beq_iff_eq, List.count_eq_zero]

/-- C24: with `pars` the parameters after `updateTemperatureParameters`, `createDetSDW`
throws a configuration error if and only if one of `mu`, `L`, `r`, `accRatio` is not in
`pars.specified`, or `checkerboard` is set and `L` is odd, or `L = 0`; if one of the
needed parameters is missing, the error is `ParameterMissing` for the first missing one
in the order `mu`, `L`, `r`, `accRatio`; otherwise the replica is created from
`pars`. -/
theorem C24_createDetSDW_errors (updateTemperatureParameters : ModelParams → ModelParams)
    (pars0 : ModelParams) :
    ((∃ e, createDetSDW updateTemperatureParameters pars0 = Except.error e) ↔
      ("mu" ∉ (updateTemperatureParameters pars0).specified ∨
       "L" ∉ (updateTemperatureParameters pars0).specified ∨
       "r" ∉ (updateTemperatureParameters pars0).specified ∨
       "accRatio" ∉ (updateTemperatureParameters pars0).specified ∨
       ((updateTemperatureParameters pars0).checkerboard = true ∧
         (updateTemperatureParameters pars0).L % 2 = 1) ∨
       (updateTemperatureParameters pars0).L = 0)) ∧
    ("mu" ∉ (updateTemperatureParameters pars0).specified →
      createDetSDW updateTemperatureParameters pars0 =
        Except.error (ConfigurationError.ParameterMissing "mu")) ∧
    ("mu" ∈ (updateTemperatureParameters pars0).specified →
      "L" ∉ (updateTemperatureParameters pars0).specified →
      createDetSDW updateTemperatureParameters pars0 =
        Except.error (ConfigurationError.ParameterMissing "L")) ∧
    ("mu" ∈ (updateTemperatureParameters pars0).specified →
      "L" ∈ (updateTemperatureParameters pars0).specified →
      "r" ∉ (updateTemperatureParameters pars0).specified →
      createDetSDW updateTemperatureParameters pars0 =
        Except.error (ConfigurationError.ParameterMissing "r")) ∧
    ("mu" ∈ (updateTemperatureParameters pars0).specified →
      "L" ∈ (updateTemperatureParameters pars0).specified →
      "r" ∈ (updateTemperatureParameters pars0).specified →
      "accRatio" ∉ (updateTemperatureParameters pars0).specified →
      createDetSDW updateTemperatureParameters pars0 =
        Except.error (ConfigurationError.ParameterMissing "accRatio")) ∧
    (¬ ("mu" ∉ (updateTemperatureParameters pars0).specified ∨
        "L" ∉ (updateTemperatureParameters pars0).specified ∨
        "r" ∉ (updateTemperatureParameters pars0).specified ∨
        "accRatio" ∉ (updateTemperatureParameters pars0).specified ∨
        ((updateTemperatureParameters pars0).checkerboard = true ∧
          (updateTemperatureParameters pars0).L % 2 = 1) ∨
        (updateTemperatureParameters pars0).L = 0) →
      createDetSDW updateTemperatureParameters pars0 =
        Except.ok (updateTemperatureParameters pars0)) := by
  unfold createDetSDW neededModelPars
  simp only []
  generalize updateTemperatureParameters pars0 = pars
  have hodd : (pars.L % 2 ≠ 0) = (pars.L % 2 = 1) := by
    apply propext
    constructor <;> intro h <;> omega
  have hpos (h : "L" ∈ pars.specified) : (pars.specified.count "L" > 0) := by
    exact List.count_pos_iff.mpr h
  by_cases h1 : "mu" ∈ pars.specified
  · by_cases h2 : "L" ∈ pars.specified
    · by_cases h3 : "r" ∈ pars.specified
      · by_cases h4 : "accRatio" ∈ pars.specified
        · have e1 := (count_eq_zero_iff_not_mem pars.specified "mu").not.mpr (not_not.mpr h1)
          have e2 := (count_eq_zero_iff_not_mem pars.specified "L").not.mpr (not_not.mpr h2)
          have e3 := (count_eq_zero_iff_not_mem pars.specified "r").not.mpr (not_not.mpr h3)
          have e4 := (count_eq_zero_iff_not_mem pars.specified "accRatio").not.mpr
            (not_not.mpr h4)
          simp only [List.find?, e1, e2, e3, e4, h1, h2, h3, h4, not_true_eq_false,
            false_or, hodd, hpos h2, true_and, Nat.le_zero, false_implies, true_implies,
            not_or, and_true]
          by_cases hc : pars.checkerboard = true ∧ pars.L % 2 = 1
          · simp [hc]
          · by_cases hL : pars.L = 0
            · simp [hc, hL]
            · simp [hc, hL]
        · have e1 := (count_eq_zero_iff_not_mem pars.specified "mu").not.mpr (not_not.mpr h1)
          have e2 := (count_eq_zero_iff_not_mem pars.specified "L").not.mpr (not_not.mpr h2)
          have e3 := (count_eq_zero_iff_not_mem pars.specified "r").not.mpr (not_not.mpr h3)
          have e4 := (count_eq_zero_iff_not_mem pars.specified "accRatio").mpr h4
          simp [List.find?, e1, e2, e3, e4, h1, h2, h3, h4]
      · have e1 := (count_eq_zero_iff_not_mem pars.specified "mu").not.mpr (not_not.mpr h1)
        have e2 := (count_eq_zero_iff_not_mem pars.specified "L").not.mpr (not_not.mpr h2)
        have e3 := (count_eq_zero_iff_not_mem pars.specified "r").mpr h3
        simp [List.find?, e1, e2, e3, h1, h2, h3]
    · have e1 := (count_eq_zero_iff_not_mem pars.specified "mu").not.mpr (not_not.mpr h1)
      have e2 := (count_eq_zero_iff_not_mem pars.specified "L").mpr h2
      simp [List.find?, e1, e2, h1, h2]
  · have e1 := (count_eq_zero_iff_not_mem pars.specified "mu").mpr h1
    simp [List.find?, e1, h1]

/-! ### Saving and resuming -/

theorem sweepGaps_snoc (log : List RunEvent) (e : RunEvent) :
    sweepGaps (log ++ [e]) = sweepGap (sweepGaps log) e := by
  simp [sweepGaps, List.foldl_append]

theorem insertValueCalls_snoc (s : RunState) (e : RunEvent) (log : List RunEvent)
    (h : log = s.log ++ [e]) :
    insertValueCalls { s with log := log } = insertValueCalls s +
      (match e with
        | RunEvent.insertValue _ => 1
        | _ => 0) := by
  subst h
  unfold insertValueCalls
  simp only [List.countP_append, List.countP_cons, List.countP_nil]
  cases e <;> simp

/-- Saving leaves the counters alone and adds neither a sweep nor a measurement. -/
theorem save_counts (s : RunState) :
    (save s).swCounter = s.swCounter ∧ insertValueCalls (save s) = insertValueCalls s ∧
    sweepGaps (save s).log = sweepGaps s.log := by
  unfold save insertValueCalls
  split_ifs <;>
    simp [sweepGaps, List.foldl_append, sweepGap, List.countP_append, List.countP_cons]

/-- The replica exchange block leaves the counters alone and adds neither a sweep nor a
measurement. -/
theorem exchangeBlock_counts (pt : DetQMCPTParams) (env : RunEnv) (n : Nat) (s : RunState) :
    (exchangeBlock pt env n s).swCounter = s.swCounter ∧
    insertValueCalls (exchangeBlock pt env n s) = insertValueCalls s ∧
    sweepGaps (exchangeBlock pt env n s).log = sweepGaps s.log := by
  unfold exchangeBlock insertValueCalls
  split_ifs <;>
    simp [sweepGaps, List.foldl_append, sweepGap, List.countP_append, List.countP_cons]

theorem afterSweep_counts (pt : DetQMCPTParams) (env : RunEnv) (n : Nat) (s : RunState) :
    (afterSweep pt env n s).swCounter = s.swCounter ∧
    insertValueCalls (afterSweep pt env n s) = insertValueCalls s ∧
    sweepGaps (afterSweep pt env n s).log = sweepGaps s.log := by
  unfold afterSweep
  split_ifs
  · exact ⟨rfl, rfl, rfl⟩
  · exact exchangeBlock_counts pt env n s

/-- The branch `case T`: `swCounter` is the previous value plus one or `0`, one sweep
and no measurement is added. -/
theorem thermalizationSweep_counts (p : DetQMCParams) (s : RunState) :
    ((thermalizationSweep p s).swCounter = u32 (s.swCounter + 1) ∨
      (thermalizationSweep p s).swCounter = 0) ∧
    insertValueCalls (thermalizationSweep p s) = insertValueCalls s ∧
    sweepGaps (thermalizationSweep p s).log =
      ((sweepGaps s.log).1 + 1, max (sweepGaps s.log).2 ((sweepGaps s.log).1 + 1)) := by
  unfold thermalizationSweep save insertValueCalls sweepGaps
  simp only []
  split_ifs <;>
    simp_all [List.foldl_append, sweepGap, List.countP_append, List.countP_cons]

/-- The branch `case M` in general: `swCounter` is the previous value plus one or `0`,
and at most one sweep is added. -/
theorem measurementSweep_gap (p : DetQMCParams) (s : RunState) :
    ((measurementSweep p s).swCounter = u32 (s.swCounter + 1) ∨
      (measurementSweep p s).swCounter = 0) ∧
    (sweepGaps (measurementSweep p s).log = sweepGaps s.log ∨
     sweepGaps (measurementSweep p s).log =
      ((sweepGaps s.log).1 + 1, max (sweepGaps s.log).2 ((sweepGaps s.log).1 + 1))) := by
  unfold measurementSweep save sweepGaps
  simp only []
  split_ifs <;>
    simp_all [List.foldl_append, sweepGap]

/-- The branch `case M` with nonzero intervals: the counter and the measurements. -/
theorem measurementSweep_counts (p : DetQMCParams) (s : RunState)
    (hm : p.measureInterval ≠ 0) (hc : p.saveConfigurationStreamInterval ≠ 0) :
    (measurementSweep p s).swCounter =
      (if u32 (s.sweepsDone + 1) = p.sweeps then 0
        else if u32 (s.swCounter + 1) = p.saveInterval then 0 else u32 (s.swCounter + 1)) ∧
    insertValueCalls (measurementSweep p s) = insertValueCalls s +
      (if u32 (s.swCounter + 1) % p.measureInterval = 0 then 1 else 0) := by
  unfold measurementSweep save insertValueCalls
  simp only [hm, hc, if_false, and_false]
  split_ifs <;>
    simp_all [List.countP_append, List.countP_cons]

theorem u32_succ_parity (c : Nat) : u32 (c + 1) % 2 = (c + 1) % 2 := by
  unfold u32
  omega

/-- The sweep of an iteration in stage `T` or `M`: `swCounter` is the previous value plus
one or `0`, at most one sweep is added, and the bookkeeping of the loop is not touched. -/
theorem sweepStep_gap (p : DetQMCParams) (s : RunState) :
    ((sweepStep p s).swCounter = u32 (s.swCounter + 1) ∨ (sweepStep p s).swCounter = 0 ∨
      s.stage = Stage.F) ∧
    (sweepGaps (sweepStep p s).log = sweepGaps s.log ∨
     sweepGaps (sweepStep p s).log =
      ((sweepGaps s.log).1 + 1, max (sweepGaps s.log).2 ((sweepGaps s.log).1 + 1))) := by
  unfold sweepStep
  cases hs : s.stage
  · simp only []
    obtain ⟨h1, -, h3⟩ := thermalizationSweep_counts p s
    exact ⟨by tauto, Or.inr h3⟩
  · simp only []
    obtain ⟨h1, h3⟩ := measurementSweep_gap p s
    exact ⟨by tauto, h3⟩
  · simp

theorem sweepStep_iteration (p : DetQMCParams) (s : RunState) :
    (sweepStep p s).iteration = s.iteration ∧ (sweepStep p s).left = s.left := by
  unfold sweepStep
  cases hs : s.stage
  · simp only []
    unfold thermalizationSweep save
    simp only []
    split_ifs <;> simp
  · simp only []
    unfold measurementSweep save
    simp only []
    split_ifs <;> simp
  · simp

theorem afterSweep_iteration (pt : DetQMCPTParams) (env : RunEnv) (n : Nat) (s : RunState) :
    (afterSweep pt env n s).iteration = s.iteration ∧ (afterSweep pt env n s).left = s.left := by
  unfold afterSweep exchangeBlock
  simp only []
  split_ifs <;> simp

/-- The invariant behind the granularity of the shutdown checks: never more than two
sweeps without a check, and not more than one when `swCounter` is odd. -/
theorem loopStep_gap (p : DetQMCParams) (pt : DetQMCPTParams) (env : RunEnv) (s : RunState)
    (h2 : (sweepGaps s.log).2 ≤ 2)
    (h1 : (sweepGaps s.log).1 ≤ (if s.swCounter % 2 = 0 then 2 else 1)) :
    (sweepGaps (loopStep p pt env s).log).2 ≤ 2 ∧
    (sweepGaps (loopStep p pt env s).log).1 ≤
      (if (loopStep p pt env s).swCounter % 2 = 0 then 2 else 1) := by
  unfold loopStep
  by_cases hend : s.stage = Stage.F ∨ s.left = true ∨ s.fault = true
  · rw [if_pos hend]
    exact ⟨h2, h1⟩
  · rw [if_neg hend]
    have hF : s.stage ≠ Stage.F := fun h => hend (Or.inl h)
    unfold loopBody
    by_cases h0 : s.swCounter % 2 = 0
    · rw [if_pos h0]
      have hcheck : sweepGaps (noteCheck (beginIteration s)).log = (0, (sweepGaps s.log).2) := by
        show sweepGaps (s.log ++ [RunEvent.shutdownCheck]) = _
        rw [sweepGaps_snoc]
        rfl
      by_cases hstop : stopNow env s.iteration = true
      · rw [if_pos hstop]
        have hs := save_counts (noteCheck (beginIteration s))
        show (sweepGaps (save (noteCheck (beginIteration s))).log).2 ≤ 2 ∧
          (sweepGaps (save (noteCheck (beginIteration s))).log).1 ≤
            (if (save (noteCheck (beginIteration s))).swCounter % 2 = 0 then 2 else 1)
        rw [hs.2.2, hcheck]
        refine ⟨h2, ?_⟩
        split_ifs <;> simp
      · rw [if_neg hstop]
        obtain ⟨a1, -, a3⟩ := afterSweep_counts pt env s.iteration
          (sweepStep p (noteCheck (beginIteration s)))
        obtain ⟨b1, b3⟩ := sweepStep_gap p (noteCheck (beginIteration s))
        rw [a1, a3]
        have hsw : (noteCheck (beginIteration s)).swCounter = s.swCounter := rfl
        rw [hcheck] at b3
        rcases b3 with b3 | b3
        · rw [b3]
          refine ⟨h2, ?_⟩
          split_ifs <;> simp
        · rw [b3]
          refine ⟨by simp; omega, ?_⟩
          rcases b1 with b1 | b1 | b1
          · rw [b1, hsw, u32_succ_parity]
            split_ifs <;> simp
          · rw [b1]
            simp
          · exact absurd b1 hF
    · rw [if_neg h0]
      rw [if_neg h0] at h1
      obtain ⟨a1, -, a3⟩ := afterSweep_counts pt env s.iteration
        (sweepStep p (beginIteration s))
      obtain ⟨b1, b3⟩ := sweepStep_gap p (beginIteration s)
      rw [a1, a3]
      have hsw : (beginIteration s).swCounter = s.swCounter := rfl
      have hlog : (beginIteration s).log = s.log := rfl
      rw [hlog] at b3
      have heven : ((sweepStep p (beginIteration s)).swCounter % 2 = 0) := by
        rcases b1 with b1 | b1 | b1
        · rw [b1, hsw, u32_succ_parity]
          omega
        · rw [b1]
        · exact absurd b1 hF
      rw [if_pos heven]
      rcases b3 with b3 | b3
      · rw [b3]
        exact ⟨h2, by omega⟩
      · rw [b3]
        simp only [max_le_iff]
        omega

theorem iterate_loopStep_gap (p : DetQMCParams) (pt : DetQMCPTParams) (env : RunEnv)
    (n : Nat) (s : RunState)
    (h2 : (sweepGaps s.log).2 ≤ 2)
    (h1 : (sweepGaps s.log).1 ≤ (if s.swCounter % 2 = 0 then 2 else 1)) :
    (sweepGaps ((loopStep p pt env)^[n] s).log).2 ≤ 2 ∧
    (sweepGaps ((loopStep p pt env)^[n] s).log).1 ≤
      (if ((loopStep p pt env)^[n] s).swCounter % 2 = 0 then 2 else 1) := by
  induction n with
  | zero => exact ⟨h2, h1⟩
  | succ k ih =>
    rw [Function.iterate_succ_apply']
    exact loopStep_gap p pt env _ ih.1 ih.2

/-- An iteration that begins with an even `swCounter` while a stop is requested leaves
the loop without a sweep. -/
theorem loopStep_stop (p : DetQMCParams) (pt : DetQMCPTParams) (env : RunEnv) (s : RunState)
    (hend : ¬ (s.stage = Stage.F ∨ s.left = true ∨ s.fault = true))
    (h0 : s.swCounter % 2 = 0) (hstop : stopNow env s.iteration = true) :
    (loopStep p pt env s).left = true ∧
    sweepGaps (loopStep p pt env s).log = (0, (sweepGaps s.log).2) := by
  unfold loopStep loopBody
  rw [if_neg hend, if_pos h0, if_pos hstop]
  have hs := save_counts (noteCheck (beginIteration s))
  refine ⟨rfl, ?_⟩
  show sweepGaps (save (noteCheck (beginIteration s))).log = _
  rw [hs.2.2]
  show sweepGaps (s.log ++ [RunEvent.shutdownCheck]) = _
  rw [sweepGaps_snoc]
  rfl

/-- An iteration that begins with an odd `swCounter` ends with an even one (or the loop
has ended), one iteration later. -/
theorem loopStep_odd (p : DetQMCParams) (pt : DetQMCPTParams) (env : RunEnv) (s : RunState)
    (hend : ¬ (s.stage = Stage.F ∨ s.left = true ∨ s.fault = true))
    (h0 : ¬ s.swCounter % 2 = 0) :
    (loopStep p pt env s).swCounter % 2 = 0 ∧
    (loopStep p pt env s).iteration = s.iteration + 1 := by
  unfold loopStep loopBody
  rw [if_neg hend, if_neg h0]
  have hF : s.stage ≠ Stage.F := fun h => hend (Or.inl h)
  obtain ⟨a1, -, -⟩ := afterSweep_counts pt env s.iteration (sweepStep p (beginIteration s))
  obtain ⟨a4, -⟩ := afterSweep_iteration pt env s.iteration (sweepStep p (beginIteration s))
  obtain ⟨b1, -⟩ := sweepStep_gap p (beginIteration s)
  obtain ⟨b4, -⟩ := sweepStep_iteration p (beginIteration s)
  have hsw : (beginIteration s).swCounter = s.swCounter := rfl
  refine ⟨?_, by rw [a4, b4]; rfl⟩
  rw [a1]
  rcases b1 with b1 | b1 | b1
  · rw [b1, hsw, u32_succ_parity]
    omega
  · rw [b1]
  · exact absurd b1 hF

/-- C28: for all parameters and surroundings and every run that starts with an even
`swCounter`, at no time more than 2 sweeps have been performed without a shutdown check
in between; a check that finds a stop request leaves the loop without a further sweep;
and once a stop is requested for good, the loop has ended after two more iterations, that
is after at most 2 further sweeps. -/
theorem C28_shutdown_granularity (p : DetQMCParams) (pt : DetQMCPTParams) (env : RunEnv)
    (s : RunState) (heven : s.swCounter % 2 = 0) (hlog : s.log = []) (n : Nat) :
    (sweepGaps (run p pt env n s).log).2 ≤ 2 ∧
    ((∀ k, (run p pt env n s).iteration ≤ k → stopNow env k = true) →
      ((run p pt env (n + 2) s).stage = Stage.F ∨ (run p pt env (n + 2) s).left = true ∨
        (run p pt env (n + 2) s).fault = true) ∧
      (sweepGaps (run p pt env (n + 2) s).log).2 ≤ 2) := by
  have hstart2 : (sweepGaps (enterRun p s).log).2 ≤ 2 := by
    unfold enterRun
    split_ifs <;> simp [hlog, sweepGaps]
  have hstart1 : (sweepGaps (enterRun p s).log).1 ≤
      (if (enterRun p s).swCounter % 2 = 0 then 2 else 1) := by
    unfold enterRun
    split_ifs <;> simp_all [sweepGaps]
  have hall := fun m => iterate_loopStep_gap p pt env m (enterRun p s) hstart2 hstart1
  refine ⟨(hall n).1, ?_⟩
  intro hreq
  refine ⟨?_, (hall (n + 2)).1⟩
  unfold run
  rw [Function.iterate_succ_apply', Function.iterate_succ_apply']
  unfold run at hreq
  generalize (loopStep p pt env)^[n] (enterRun p s) = sn at hreq
  by_cases hend : sn.stage = Stage.F ∨ sn.left = true ∨ sn.fault = true
  · have e1 : loopStep p pt env sn = sn := by
      unfold loopStep
      rw [if_pos hend]
    rw [e1, e1]
    exact hend
  · by_cases h0 : sn.swCounter % 2 = 0
    · have hl := (loopStep_stop p pt env sn hend h0 (hreq _ (le_refl _))).1
      have e1 : loopStep p pt env (loopStep p pt env sn) = loopStep p pt env sn := by
        generalize loopStep p pt env sn = s1 at hl
        unfold loopStep
        rw [if_pos (Or.inr (Or.inl hl))]
      rw [e1]
      exact Or.inr (Or.inl hl)
    · obtain ⟨c1, c2⟩ := loopStep_odd p pt env sn hend h0
      generalize loopStep p pt env sn = s1 at c1 c2
      by_cases hend1 : s1.stage = Stage.F ∨ s1.left = true ∨ s1.fault = true
      · have e1 : loopStep p pt env s1 = s1 := by
          unfold loopStep
          rw [if_pos hend1]
        rw [e1]
        exact hend1
      · exact Or.inr (Or.inl
          (loopStep_stop p pt env s1 hend1 c1 (hreq _ (by omega))).1)

/-- C28, witness: a fresh run with two replicas in which an abort file is present from
the start. -/
theorem C28_shutdown_granularity_witness :
    (freshState 2).swCounter % 2 = 0 ∧ (freshState 2).log = [] ∧
    (sweepGaps (run ⟨20, 10, 2, 100, 1⟩ ⟨5⟩
      { quietEnv with abortFileExists := fun _ _ => true } 3 (freshState 2)).log).2 ≤ 2 :=
  ⟨by decide, rfl,
   (C28_shutdown_granularity ⟨20, 10, 2, 100, 1⟩ ⟨5⟩
      { quietEnv with abortFileExists := fun _ _ => true } (freshState 2)
      (by decide) rfl 3).1⟩

/-- An iteration in which no stop is requested, with the counters that the measurements
depend on. -/
theorem loopBody_quiet_counts (p : DetQMCParams) (pt : DetQMCPTParams) (env : RunEnv)
    (s : RunState) (hq : stopNow env s.iteration = false) :
    ∃ s1 : RunState, s1.stage = s.stage ∧ s1.sweepsDone = s.sweepsDone ∧
      s1.sweepsDoneThermalization = s.sweepsDoneThermalization ∧
      s1.swCounter = s.swCounter ∧ insertValueCalls s1 = insertValueCalls s ∧
      loopBody p pt env s = afterSweep pt env s.iteration (sweepStep p s1) := by
  unfold loopBody
  by_cases h0 : s.swCounter % 2 = 0
  · refine ⟨noteCheck (beginIteration s), rfl, rfl, rfl, rfl, ?_, ?_⟩
    · unfold insertValueCalls noteCheck beginIteration
      simp [List.countP_append, List.countP_cons]
    · rw [if_pos h0, if_neg (by simp [hq])]
  · refine ⟨beginIteration s, rfl, rfl, rfl, rfl, rfl, ?_⟩
    rw [if_neg h0]

theorem thermalizationSweep_reset (p : DetQMCParams) (s : RunState)
    (h : u32 (s.sweepsDoneThermalization + 1) = p.thermalization) :
    (thermalizationSweep p s).swCounter = 0 := by
  unfold thermalizationSweep save
  simp only []
  split_ifs <;> simp_all

/-- One iteration in stage `T` without a stop request takes no measurement, and the
iteration that completes the thermalization resets `swCounter`. -/
theorem loopStep_T_counts (p : DetQMCParams) (pt : DetQMCPTParams) (env : RunEnv)
    (s : RunState) (hT : s.stage = Stage.T) (hl : s.left = false) (hf : s.fault = false)
    (hq : stopNow env s.iteration = false) :
    insertValueCalls (loopStep p pt env s) = insertValueCalls s ∧
    (u32 (s.sweepsDoneThermalization + 1) = p.thermalization →
      (loopStep p pt env s).swCounter = 0) := by
  obtain ⟨s1, a1, a2, a3, a4, a5, hb⟩ := loopBody_quiet_counts p pt env s hq
  have hstep : loopStep p pt env s = loopBody p pt env s := by
    unfold loopStep
    rw [if_neg (by simp [hT, hl, hf])]
  have hsw : sweepStep p s1 = thermalizationSweep p s1 := by
    unfold sweepStep
    rw [a1, hT]
  obtain ⟨c1, c2, -⟩ := afterSweep_counts pt env s.iteration (thermalizationSweep p s1)
  obtain ⟨-, t2, -⟩ := thermalizationSweep_counts p s1
  rw [hstep, hb, hsw, c1, c2, t2, a5]
  refine ⟨rfl, ?_⟩
  intro h
  exact thermalizationSweep_reset p s1 (by rw [a3]; exact h)

/-- One iteration in stage `M` without a stop request and with nonzero intervals: the
counter of sweeps since the last save and the number of measurements. -/
theorem loopStep_M_counts (p : DetQMCParams) (pt : DetQMCPTParams) (env : RunEnv)
    (s : RunState) (hM : s.stage = Stage.M) (hl : s.left = false) (hf : s.fault = false)
    (hq : stopNow env s.iteration = false)
    (hm : p.measureInterval ≠ 0) (hc : p.saveConfigurationStreamInterval ≠ 0) :
    (loopStep p pt env s).swCounter =
      (if u32 (s.sweepsDone + 1) = p.sweeps then 0
        else if u32 (s.swCounter + 1) = p.saveInterval then 0 else u32 (s.swCounter + 1)) ∧
    insertValueCalls (loopStep p pt env s) = insertValueCalls s +
      (if u32 (s.swCounter + 1) % p.measureInterval = 0 then 1 else 0) := by
  obtain ⟨s1, a1, a2, a3, a4, a5, hb⟩ := loopBody_quiet_counts p pt env s hq
  have hstep : loopStep p pt env s = loopBody p pt env s := by
    unfold loopStep
    rw [if_neg (by simp [hM, hl, hf])]
  have hsw : sweepStep p s1 = measurementSweep p s1 := by
    unfold sweepStep
    rw [a1, hM]
  obtain ⟨c1, c2, -⟩ := afterSweep_counts pt env s.iteration (measurementSweep p s1)
  obtain ⟨m1, m2⟩ := measurementSweep_counts p s1 hm hc
  rw [hstep, hb, hsw, c1, c2, m1, m2, a2, a4, a5]
  exact ⟨rfl, rfl⟩

/-- Progress of a fresh run without shutdown whose periodic saves do not fall into the
measurement stage: stage, counters and number of measurements after `n` iterations. -/
theorem run_measurements (p : DetQMCParams) (pt : DetQMCPTParams) (env : RunEnv) (P : Nat)
    (hS : 1 ≤ p.sweeps) (hT32 : p.thermalization < 2 ^ 32) (hS32 : p.sweeps < 2 ^ 32)
    (hm : p.measureInterval ≠ 0) (hc : p.saveConfigurationStreamInterval ≠ 0)
    (hsave : p.saveInterval = 0 ∨ p.sweeps < p.saveInterval)
    (hq : ∀ n, stopNow env n = false) (n : Nat) (hn : n ≤ p.thermalization + p.sweeps) :
    (run p pt env n (freshState P)).left = false ∧
    (run p pt env n (freshState P)).fault = false ∧
    (n < p.thermalization →
      (run p pt env n (freshState P)).stage = Stage.T ∧
      (run p pt env n (freshState P)).sweepsDoneThermalization = n ∧
      (run p pt env n (freshState P)).sweepsDone = 0 ∧
      insertValueCalls (run p pt env n (freshState P)) = 0) ∧
    (p.thermalization ≤ n → n < p.thermalization + p.sweeps →
      (run p pt env n (freshState P)).stage = Stage.M ∧
      (run p pt env n (freshState P)).sweepsDone = n - p.thermalization ∧
      (run p pt env n (freshState P)).swCounter = n - p.thermalization ∧
      insertValueCalls (run p pt env n (freshState P)) =
        (n - p.thermalization) / p.measureInterval) ∧
    (n = p.thermalization + p.sweeps →
      (run p pt env n (freshState P)).stage = Stage.F ∧
      (run p pt env n (freshState P)).sweepsDone = p.sweeps ∧
      insertValueCalls (run p pt env n (freshState P)) = p.sweeps / p.measureInterval) := by
  induction n with
  | zero =>
    have hfresh : run p pt env 0 (freshState P) = enterRun p (freshState P) := rfl
    rw [hfresh]
    unfold enterRun
    by_cases h1 : (freshState P).sweepsDoneThermalization < p.thermalization
    · rw [if_pos h1]
      have h1b : 0 < p.thermalization := h1
      refine ⟨rfl, rfl, fun _ => ⟨rfl, rfl, rfl, rfl⟩, ?_, ?_⟩
      · intro h2
        omega
      · intro h2
        omega
    · have h2 : (freshState P).sweepsDone < p.sweeps := hS
      rw [if_neg h1, if_pos h2]
      have h1b : ¬ 0 < p.thermalization := h1
      have h1c : p.thermalization = 0 := by omega
      refine ⟨rfl, rfl, ?_, ?_, ?_⟩
      · intro h3
        omega
      · intro _ _
        refine ⟨rfl, ?_, ?_, ?_⟩
        · show 0 = 0 - p.thermalization
          omega
        · show 0 = 0 - p.thermalization
          omega
        · show 0 = (0 - p.thermalization) / p.measureInterval
          simp
      · intro h3
        omega
  | succ n ih =>
    obtain ⟨il, ifl, iT, iM, -⟩ := ih (by omega)
    have hrun : run p pt env (n + 1) (freshState P) =
        loopStep p pt env (run p pt env n (freshState P)) := by
      unfold run
      rw [Function.iterate_succ_apply']
    rw [hrun]
    generalize run p pt env n (freshState P) = s at il ifl iT iM
    by_cases hT : n < p.thermalization
    · obtain ⟨i1, i2, i3, i4⟩ := iT hT
      obtain ⟨t1, t2, t3, -, t5, t6, -, -⟩ := loopStep_T p pt env s i1 il ifl (hq _)
      obtain ⟨u1, u2⟩ := loopStep_T_counts p pt env s i1 il ifl (hq _)
      have hu : u32 (n + 1) = n + 1 := u32_of_lt (by omega)
      rw [i2, hu] at t1 t3 u2
      rw [i3] at t2
      rw [i4] at u1
      refine ⟨t5, t6, ?_, ?_, ?_⟩
      · intro h
        rw [t1, if_neg (by omega)]
        exact ⟨rfl, t3, t2, u1⟩
      · intro h1 h2
        have e : n + 1 = p.thermalization := by omega
        rw [t1, if_pos e]
        refine ⟨rfl, by rw [t2]; omega, by rw [u2 e]; omega, ?_⟩
        rw [u1, ← e, Nat.sub_self, Nat.zero_div]
      · intro h
        omega
    · obtain ⟨i1, i2, i3, i4⟩ := iM (by omega) (by omega)
      obtain ⟨t1, t2, -, -, t5, t6, -, -⟩ := loopStep_M p pt env s i1 il ifl (hq _) hm hc
      obtain ⟨u1, u2⟩ := loopStep_M_counts p pt env s i1 il ifl (hq _) hm hc
      have hu : u32 (n - p.thermalization + 1) = n - p.thermalization + 1 :=
        u32_of_lt (by omega)
      rw [i2, hu] at t1 t2 u1
      rw [i3, hu] at u1 u2
      rw [i4, ← succ_div_ite] at u2
      have hns : ¬ (n - p.thermalization + 1 = p.saveInterval) := by omega
      rw [if_neg hns] at u1
      refine ⟨t5, t6, ?_, ?_, ?_⟩
      · intro h
        omega
      · intro h1 h2
        have e : ¬ (n - p.thermalization + 1 = p.sweeps) := by omega
        rw [t1, if_neg e]
        rw [if_neg e] at u1
        refine ⟨rfl, by rw [t2]; omega, by rw [u1]; omega, ?_⟩
        rw [u2]
        congr 1
        omega
      · intro h
        have e : n - p.thermalization + 1 = p.sweeps := by omega
        rw [t1, if_pos e]
        refine ⟨rfl, by rw [t2]; exact e, ?_⟩
        rw [u2, e]

/-- C25: a fresh simulation that runs to completion without a shutdown request, with
`measureInterval = M ≥ 1`, `sweeps = S ≥ 1`, any `thermalization` (all `unsigned`),
`saveInterval` either `0` or greater than `S` and a nonzero
`saveConfigurationStreamInterval`, has ended in stage `F` after `thermalization + S`
iterations, and every observable handler has then received exactly `S / M` values; none
of them arrived before the thermalization was complete, and after `k` sweeps of stage `M`
there were `k / M`. -/
theorem C25_measurement_count (p : DetQMCParams) (pt : DetQMCPTParams) (env : RunEnv)
    (P : Nat) (hM : 1 ≤ p.measureInterval) (hS : 1 ≤ p.sweeps)
    (hT32 : p.thermalization < 2 ^ 32) (hS32 : p.sweeps < 2 ^ 32)
    (hc : p.saveConfigurationStreamInterval ≠ 0)
    (hsave : p.saveInterval = 0 ∨ p.sweeps < p.saveInterval)
    (hq : ∀ n, stopNow env n = false) :
    (run p pt env (p.thermalization + p.sweeps) (freshState P)).stage = Stage.F ∧
    (run p pt env (p.thermalization + p.sweeps) (freshState P)).left = false ∧
    (run p pt env (p.thermalization + p.sweeps) (freshState P)).fault = false ∧
    (∀ fuel, p.thermalization + p.sweeps ≤ fuel →
      insertValueCalls (run p pt env fuel (freshState P)) = p.sweeps / p.measureInterval) ∧
    (∀ n, n ≤ p.thermalization →
      insertValueCalls (run p pt env n (freshState P)) = 0) ∧
    (∀ k, k ≤ p.sweeps →
      insertValueCalls (run p pt env (p.thermalization + k) (freshState P)) =
        k / p.measureInterval) := by
  have hm : p.measureInterval ≠ 0 := by omega
  have key := run_measurements p pt env P hS hT32 hS32 hm hc hsave hq
  obtain ⟨e1, e2, -, -, e5⟩ := key (p.thermalization + p.sweeps) (le_refl _)
  obtain ⟨f1, -, f3⟩ := e5 rfl
  refine ⟨f1, e1, e2, ?_, ?_, ?_⟩
  · intro fuel hfuel
    obtain ⟨d, rfl⟩ := Nat.exists_eq_add_of_le hfuel
    have : run p pt env (p.thermalization + p.sweeps + d) (freshState P) =
        run p pt env (p.thermalization + p.sweeps) (freshState P) := by
      unfold run
      rw [Nat.add_comm _ d, Function.iterate_add_apply]
      exact iterate_loopStep_done p pt env _ (Or.inl f1) d
    rw [this, f3]
  · intro n hn
    obtain ⟨-, -, g3, g4, -⟩ := key n (by omega)
    by_cases h : n < p.thermalization
    · exact (g3 h).2.2.2
    · have e : n = p.thermalization := by omega
      have := (g4 (by omega) (by omega)).2.2.2
      rw [this, e, Nat.sub_self, Nat.zero_div]
  · intro k hk
    obtain ⟨-, -, -, g4, g5⟩ := key (p.thermalization + k) (by omega)
    by_cases h : k < p.sweeps
    · have := (g4 (by omega) (by omega)).2.2.2
      rw [this, Nat.add_sub_cancel_left]
    · have e : k = p.sweeps := by omega
      rw [(g5 (by rw [e])).2.2, e]

/-- C25, witness: `sweeps = 20`, `thermalization = 10`, `measureInterval = 2`,
`saveInterval = 100` give 10 values per handler. -/
theorem C25_measurement_count_witness :
    insertValueCalls (run ⟨20, 10, 2, 100, 1⟩ ⟨5⟩ quietEnv 30 (freshState 1)) = 10 :=
  (C25_measurement_count ⟨20, 10, 2, 100, 1⟩ ⟨5⟩ quietEnv 1 (by decide) (by decide)
    (by decide) (by decide) (by decide) (Or.inr (by decide)) stopNow_quietEnv).2.2.2.1 30
    (by decide)

/-! ### The right multiplication on the 2x2 lattice -/

section CheckerboardRight

variable {R : Type} [LinearOrderedField R]

/-- The right multiplication by the horizontal bond factors on the 2x2 lattice, as the
code computes it: the column of the first site of a bond is multiplied by `ch + sh`
instead of being combined with the column of the second site. -/
theorem applyBondFactorsRight_two_X (ch sh : R) (M : Nat → Nat → Cpx R) (a b : Nat)
    (ha : a < 4) (hb : b < 4) :
    applyBondFactorsRight 2 XPLUS ch sh M a b =
      (if b % 2 = 0 then
        (Cpx.ofReal ch * Cpx.ofReal ch + Cpx.ofReal sh * Cpx.ofReal sh +
          Cpx.ofReal ch * Cpx.ofReal sh) * M a b +
        (Cpx.ofReal ch * Cpx.ofReal sh) * M a (b + 1)
      else
        (Cpx.ofReal ch + Cpx.ofReal sh) *
          (Cpx.ofReal sh * M a (b - 1) + Cpx.ofReal ch * M a b)) := by
  obtain ⟨n0, n1, n2, n3⟩ := spaceNeigh_two_X
  simp only [applyBondFactorsRight, range_four, List.foldl_cons, List.foldl_nil, n0, n1, n2, n3]
  interval_cases a <;> interval_cases b <;> simp [bondFactorRight] <;> ring

/-- The right multiplication by the vertical bond factors on the 2x2 lattice, as the code
computes it. -/
theorem applyBondFactorsRight_two_Y (ch sh : R) (M : Nat → Nat → Cpx R) (a b : Nat)
    (ha : a < 4) (hb : b < 4) :
    applyBondFactorsRight 2 YPLUS ch sh M a b =
      (if b < 2 then
        (Cpx.ofReal ch * Cpx.ofReal ch + Cpx.ofReal sh * Cpx.ofReal sh +
          Cpx.ofReal ch * Cpx.ofReal sh) * M a b +
        (Cpx.ofReal ch * Cpx.ofReal sh) * M a (b + 2)
      else
        (Cpx.ofReal ch + Cpx.ofReal sh) *
          (Cpx.ofReal sh * M a (b - 2) + Cpx.ofReal ch * M a b)) := by
  obtain ⟨n0, n1, n2, n3⟩ := spaceNeigh_two_Y
  simp only [applyBondFactorsRight, range_four, List.foldl_cons, List.foldl_nil, n0, n1, n2, n3]
  interval_cases a <;> interval_cases b <;> simp [bondFactorRight] <;> ring

end CheckerboardRight

theorem checkerboardState_right_entry :
    cbRMultHoppingExp binaryLibm checkerboardState eye Band.XBAND 1 0 0 =
      ⟨37681 / 1024, 0⟩ ∧
    cbLMultHoppingExp binaryLibm checkerboardState
      (fun a b => (eye : Nat → Nat → Cpx ℚ) b a) Band.XBAND 1 0 0 = ⟨4369 / 256, 0⟩ := by
  obtain ⟨h1, h2, h3, h4, -, -, -, -⟩ := checkerboardState_hop
  have hL : checkerboardState.L = 2 := rfl
  constructor
  · unfold cbRMultHoppingExp
    rw [hL, applyBondFactorsRight_two_Y _ _ _ 0 0 (by norm_num) (by norm_num)]
    simp only [applyBondFactorsRight_two_X _ _ _ 0 0 (by norm_num) (by norm_num),
      applyBondFactorsRight_two_X _ _ _ 0 2 (by norm_num) (by norm_num), h1, h2, h3, h4, eye]
    ext
    · simp
      norm_num
    · simp
  · rw [cbLMultHoppingExp_two binaryLibm checkerboardState rfl _ _ _ 0 0 (by norm_num)
      (by norm_num), h1, h2, h3, h4]
    ext
    · simp [eye]
      norm_num
    · simp [eye]

/-- C27, refuted at the identity matrix on the 2x2 lattice: in the loop of
`cbRMultHoppingExp` the new column `i` is `ch * col_i + sh * col_i`, not
`ch * col_i + sh * col_j`; with bond coefficients `cosh = 17/8, sinh = 15/8`
(horizontal) and `cosh = 5/4, sinh = 3/4` (vertical), entry `(0, 0)` of
`cbRMultHoppingExp(I, XBAND, +1)` is `37681/1024`, whereas that of
`transpose(cbLMultHoppingExp(transpose(I), XBAND, +1))` is `4369/256`. -/
theorem C27_right_multiplication_differs :
    (∀ (ch sh : ℚ) (i j row : Nat) (M : Nat → Nat → Cpx ℚ), i ≠ j →
      bondFactorRight ch sh i j M row row i =
        Cpx.ofReal ch * M row i + Cpx.ofReal sh * M row i) ∧
    cbRMultHoppingExp binaryLibm checkerboardState eye Band.XBAND 1 0 0 =
      ⟨37681 / 1024, 0⟩ ∧
    cbLMultHoppingExp binaryLibm checkerboardState
      (fun a b => (eye : Nat → Nat → Cpx ℚ) b a) Band.XBAND 1 0 0 = ⟨4369 / 256, 0⟩ ∧
    cbRMultHoppingExp binaryLibm checkerboardState eye Band.XBAND 1 0 0 ≠
      cbLMultHoppingExp binaryLibm checkerboardState
        (fun a b => (eye : Nat → Nat → Cpx ℚ) b a) Band.XBAND 1 0 0 := by
  obtain ⟨e1, e2⟩ := checkerboardState_right_entry
  refine ⟨?_, e1, e2, ?_⟩
  · intro ch sh i j row M hij
    unfold bondFactorRight
    rw [if_neg (by simp [hij]), if_pos ⟨rfl, rfl⟩]
  · rw [e1, e2]
    intro h
    have h2 := congrArg Cpx.re h
    norm_num at h2

/-! ### The bosonic action and its change in a local move -/

section ActionDifference

variable {R : Type} [LinearOrderedField R] {ι : Type} [DecidableEq ι]

/-- A sum of squared differences along bonds `i -- nb i`, when the field is changed at one
place `a` whose bonds are `a -- nb a` and `p -- a`. -/
theorem bond_sum_update (S : Finset ι) (nb : ι → ι) (φ : ι → Phi R) (a p : ι) (v : Phi R)
    (ha : a ∈ S) (hp : p ∈ S) (hne : nb a ≠ a) (hnb : ∀ i ∈ S, nb i = a ↔ i = p) :
    ∑ i in S, dot (Function.update φ a v i - Function.update φ a v (nb i))
        (Function.update φ a v i - Function.update φ a v (nb i)) -
      ∑ i in S, dot (φ i - φ (nb i)) (φ i - φ (nb i)) =
    2 * (dot v v - dot (φ a) (φ a)) - 2 * dot (φ (nb a) + φ p) (v - φ a) := by
  have hpa : p ≠ a := by
    intro h
    subst h
    exact hne ((hnb p hp).mpr rfl)
  have key : ∀ i ∈ S,
      dot (Function.update φ a v i - Function.update φ a v (nb i))
        (Function.update φ a v i - Function.update φ a v (nb i)) -
      dot (φ i - φ (nb i)) (φ i - φ (nb i)) =
      (if i = a then dot (v - φ (nb a)) (v - φ (nb a)) -
          dot (φ a - φ (nb a)) (φ a - φ (nb a)) else 0) +
      (if i = p then dot (φ p - v) (φ p - v) - dot (φ p - φ a) (φ p - φ a) else 0) := by
    intro i hi
    by_cases h1 : i = a
    · subst h1
      rw [if_pos rfl, if_neg (fun h => hpa h.symm), Function.update_same,
        Function.update_noteq hne, add_zero]
    · by_cases h2 : i = p
      · subst h2
        have h3 : nb i = a := (hnb i hi).mpr rfl
        rw [if_neg h1, if_pos rfl, Function.update_noteq h1, h3, Function.update_same,
          zero_add]
      · have h3 : nb i ≠ a := fun h => h2 ((hnb i hi).mp h)
        rw [if_neg h1, if_neg h2, Function.update_noteq h1, Function.update_noteq h3,
          sub_self, add_zero]
  rw [← Finset.sum_sub_distrib, Finset.sum_congr rfl key, Finset.sum_add_distrib,
    Finset.sum_ite_eq' S a, Finset.sum_ite_eq' S p, if_pos ha, if_pos hp]
  simp only [dot, Pi.sub_apply, Pi.add_apply]
  ring

/-- A sum of a function of the field at each place, when the field is changed at one
place. -/
theorem site_sum_update (S : Finset ι) (φ : ι → Phi R) (a : ι) (v : Phi R) (f : Phi R → R)
    (ha : a ∈ S) :
    ∑ i in S, f (Function.update φ a v i) - ∑ i in S, f (φ i) = f v - f (φ a) := by
  have key : ∀ i ∈ S, f (Function.update φ a v i) - f (φ i) =
      (if i = a then f v - f (φ a) else 0) := by
    intro i _
    by_cases h1 : i = a
    · subst h1
      rw [if_pos rfl, Function.update_same]
    · rw [if_neg h1, Function.update_noteq h1, sub_self]
  rw [← Finset.sum_sub_distrib, Finset.sum_congr rfl key, Finset.sum_ite_eq' S a, if_pos ha]

/-- A loop `for x in l: action += f x` adds the sum of the `f x`. -/
theorem foldl_add_eq_sum {α : Type} (f : α → R) (l : List α) (init : R) :
    l.foldl (fun action x => action + f x) init = init + (l.map f).sum := by
  induction l generalizing init with
  | nil => simp
  | cons x xs ih =>
    rw [List.foldl_cons, ih, List.map_cons, List.sum_cons, add_assoc]

end ActionDifference

section ActionTheorems

variable {R : Type} [LinearOrderedField R]

theorem succ_mod_of_lt (x L : Nat) (hx : x < L) :
    (x + 1) % L = if x + 1 = L then 0 else x + 1 := by
  split_ifs with h
  · rw [h, Nat.mod_self]
  · exact Nat.mod_eq_of_lt (by omega)

theorem pred_mod_of_lt (x L : Nat) (hx : x < L) :
    (x + L - 1) % L = if x = 0 then L - 1 else x - 1 := by
  split_ifs with h
  · subst h
    rw [Nat.zero_add]
    exact Nat.mod_eq_of_lt (by omega)
  · have e : x + L - 1 = (x - 1) + L := by omega
    rw [e, Nat.add_mod_right]
    exact Nat.mod_eq_of_lt (by omega)

/-- The representation of a site by its two coordinates is unique. -/
theorem coords_unique (L a b c d : Nat) (ha : a < L) (hb : b < L)
    (h : a + L * c = b + L * d) : a = b ∧ c = d := by
  have h1 : (a + L * c) % L = a := by
    rw [Nat.add_mul_mod_self_left]
    exact Nat.mod_eq_of_lt ha
  have h2 : (b + L * d) % L = b := by
    rw [Nat.add_mul_mod_self_left]
    exact Nat.mod_eq_of_lt hb
  have hab : a = b := by rw [← h1, ← h2, h]
  subst hab
  have hL : 0 < L := by omega
  exact ⟨rfl, Nat.eq_of_mul_eq_mul_left hL (Nat.add_left_cancel h)⟩

/-- Every site of the square lattice has coordinates. -/
theorem site_coords (L i : Nat) (hi : i < L * L) :
    i % L < L ∧ i / L < L ∧ i = i % L + L * (i / L) := by
  have hL : 0 < L := by
    rcases Nat.eq_zero_or_pos L with h | h
    · subst h
      simp at hi
    · exact h
  exact ⟨Nat.mod_lt _ hL, Nat.div_lt_of_lt_mul hi, (Nat.mod_add_div i L).symm⟩

theorem extent_small (L : Nat) (hLL : L * L < 2 ^ 32) : L < 65536 := by
  by_contra h
  push_neg at h
  have : 65536 * 65536 ≤ L * L := Nat.mul_le_mul h h
  omega

/-- The lookups `spaceNeigh(XPLUS, site)` and `spaceNeigh(YPLUS, site)` on a lattice whose
table is right. -/
theorem spaceNeigh_plus (L x y : Nat) (hL : 1 ≤ L) (hLL : L * L < 2 ^ 32)
    (hx : x < L) (hy : y < L) :
    spaceNeigh L XPLUS (x + L * y) = (x + 1) % L + L * y ∧
    spaceNeigh L YPLUS (x + L * y) = x + L * ((y + 1) % L) := by
  have h32 : L ^ 2 < 2 ^ 32 := by rw [pow_two]; exact hLL
  have hxs : ∀ v ∈ [x, y], v < L := by
    intro v hv
    simp at hv
    rcases hv with rfl | rfl <;> assumption
  have hs : siteOfCoords L [x, y] = x + L * y := by simp [siteOfCoords]
  have hsmall := extent_small L hLL
  have h0 := (neighbor_periodic 2 L hL h32 [x, y] rfl hxs 0 (by decide)
    (by simp; omega)).1
  have h1 := (neighbor_periodic 2 L hL h32 [x, y] rfl hxs 1 (by decide)
    (by simp; omega)).1
  rw [hs] at h0 h1
  unfold spaceNeigh XPLUS YPLUS
  constructor
  · have e : (0 : Nat) = 2 * 0 := rfl
    rw [e, h0]
    simp [siteOfCoords]
  · have e : (2 : Nat) = 2 * 1 := rfl
    rw [e, h1]
    simp [siteOfCoords]

theorem coords_lt (L a y : Nat) (ha : a < L) (hy : y < L) : a + L * y < L * L := by
  have h : L * (y + 1) ≤ L * L := Nat.mul_le_mul_left L hy
  rw [Nat.mul_add, Nat.mul_one] at h
  omega

/-- The neighbours looked up by `phiAction` for a site of the lattice are sites of the
lattice. -/
theorem spaceNeigh_plus_lt (L i : Nat) (hL : 1 ≤ L) (hLL : L * L < 2 ^ 32) (hi : i < L * L) :
    spaceNeigh L XPLUS i < L * L ∧ spaceNeigh L YPLUS i < L * L := by
  obtain ⟨hx, hy, he⟩ := site_coords L i hi
  obtain ⟨h1, h2⟩ := spaceNeigh_plus L (i % L) (i / L) hL hLL hx hy
  rw [← he] at h1 h2
  rw [h1, h2]
  have hLpos : 0 < L := hL
  exact ⟨coords_lt L _ _ (Nat.mod_lt _ hLpos) hy, coords_lt L _ _ hx (Nat.mod_lt _ hLpos)⟩

/-- One execution of the body of the inner loop of `phiAction`, for a site of the lattice
and a time slice in `1..m`: the copy of the field is read where it has been assigned,
and the five increments are the kinetic term, the two gradient terms and the potential
terms. -/
theorem phiActionSite_eq (s : DetSDW R) (k i : Nat) (action : R)
    (hL : 1 ≤ s.L) (hLL : s.L * s.L < 2 ^ 32) (hi : i < s.N)
    (hk1 : 1 ≤ k) (hkm : k ≤ s.m) (hm : s.m + s.m ≤ 2 ^ 32 + 1) (hdtau : s.dtau ≠ 0) :
    phiActionSite s k action i = action +
      (1 / (2 * s.dtau) *
          dot (s.phiAt i k - s.phiAt i (timeNeigh s.m 1 k))
            (s.phiAt i k - s.phiAt i (timeNeigh s.m 1 k)) +
        1 / 2 * s.dtau *
          dot (s.phiAt i k - s.phiAt (spaceNeigh s.L XPLUS i) k)
            (s.phiAt i k - s.phiAt (spaceNeigh s.L XPLUS i) k) +
        1 / 2 * s.dtau *
          dot (s.phiAt i k - s.phiAt (spaceNeigh s.L YPLUS i) k)
            (s.phiAt i k - s.phiAt (spaceNeigh s.L YPLUS i) k) +
        (1 / 2 * s.dtau * s.r * dot (s.phiAt i k) (s.phiAt i k) +
          1 / 4 * s.dtau * dot (s.phiAt i k) (s.phiAt i k) ^ 2)) := by
  have hmlt : s.m < 2 ^ 32 := by omega
  obtain ⟨hE, -⟩ := timeNeigh_periodic s.m k hk1 hkm hmlt (by omega)
  have hEr : 1 ≤ timeNeigh s.m 1 k ∧ timeNeigh s.m 1 k ≤ s.m := by
    rw [hE]
    split_ifs <;> omega
  obtain ⟨hX, hY⟩ := spaceNeigh_plus_lt s.L i hL hLL hi
  have c0 : phiCopy s i k = s.phiAt i k := by
    unfold phiCopy
    rw [if_pos ⟨hi, hk1, hkm⟩]
  have c1 : phiCopy s i (timeNeigh s.m 1 k) = s.phiAt i (timeNeigh s.m 1 k) := by
    unfold phiCopy
    rw [if_pos ⟨hi, hEr.1, hEr.2⟩]
  have c2 : phiCopy s (spaceNeigh s.L XPLUS i) k = s.phiAt (spaceNeigh s.L XPLUS i) k := by
    unfold phiCopy
    rw [if_pos ⟨hX, hk1, hkm⟩]
  have c3 : phiCopy s (spaceNeigh s.L YPLUS i) k = s.phiAt (spaceNeigh s.L YPLUS i) k := by
    unfold phiCopy
    rw [if_pos ⟨hY, hk1, hkm⟩]
  unfold phiActionSite
  simp only [c0, c1, c2, c3, dot, DetSDW.c, DetSDW.u, Pi.sub_apply]
  field_simp
  ring

theorem sum_map_range (g : Nat → R) (n : Nat) :
    ((List.range n).map g).sum = ∑ j in Finset.range n, g j := by
  induction n with
  | zero => simp
  | succ k ih =>
    rw [List.range_succ, List.map_append, List.sum_append, ih, Finset.sum_range_succ]
    simp

/-- The function `phiAction` as a sum over the pairs `(timeslice - 1, site)`: the kinetic
terms along the time bonds, the gradient terms along the bonds in `+x` and `+y`
direction, and the potential terms.  `φ` is the field as a function of such pairs. -/
theorem phiAction_eq_sum (s : DetSDW R) (φ : Nat × Nat → Phi R)
    (hφ : ∀ j i, φ (j, i) = s.phiAt i (j + 1))
    (hL : 1 ≤ s.L) (hLL : s.L * s.L < 2 ^ 32) (hm : s.m + s.m ≤ 2 ^ 32 + 1)
    (hdtau : s.dtau ≠ 0) :
    phiAction s =
      1 / (2 * s.dtau) * ∑ p in Finset.range s.m ×ˢ Finset.range s.N,
        dot (φ p - φ (timeNeigh s.m 1 (p.1 + 1) - 1, p.2))
          (φ p - φ (timeNeigh s.m 1 (p.1 + 1) - 1, p.2)) +
      1 / 2 * s.dtau * ∑ p in Finset.range s.m ×ˢ Finset.range s.N,
        dot (φ p - φ (p.1, spaceNeigh s.L XPLUS p.2))
          (φ p - φ (p.1, spaceNeigh s.L XPLUS p.2)) +
      1 / 2 * s.dtau * ∑ p in Finset.range s.m ×ˢ Finset.range s.N,
        dot (φ p - φ (p.1, spaceNeigh s.L YPLUS p.2))
          (φ p - φ (p.1, spaceNeigh s.L YPLUS p.2)) +
      ∑ p in Finset.range s.m ×ˢ Finset.range s.N,
        (1 / 2 * s.dtau * s.r * dot (φ p) (φ p) + 1 / 4 * s.dtau * dot (φ p) (φ p) ^ 2) := by
  have hmlt : s.m < 2 ^ 32 := by omega
  have inner : ∀ j, j < s.m → ∀ action : R,
      (List.range s.N).foldl (phiActionSite s (j + 1)) action =
        action + ∑ i in Finset.range s.N,
          (1 / (2 * s.dtau) *
              dot (φ (j, i) - φ (timeNeigh s.m 1 (j + 1) - 1, i))
                (φ (j, i) - φ (timeNeigh s.m 1 (j + 1) - 1, i)) +
            1 / 2 * s.dtau *
              dot (φ (j, i) - φ (j, spaceNeigh s.L XPLUS i))
                (φ (j, i) - φ (j, spaceNeigh s.L XPLUS i)) +
            1 / 2 * s.dtau *
              dot (φ (j, i) - φ (j, spaceNeigh s.L YPLUS i))
                (φ (j, i) - φ (j, spaceNeigh s.L YPLUS i)) +
            (1 / 2 * s.dtau * s.r * dot (φ (j, i)) (φ (j, i)) +
              1 / 4 * s.dtau * dot (φ (j, i)) (φ (j, i)) ^ 2)) := by
    intro j hj action
    obtain ⟨hE, -⟩ := timeNeigh_periodic s.m (j + 1) (by omega) (by omega) hmlt (by omega)
    have hE1 : timeNeigh s.m 1 (j + 1) - 1 + 1 = timeNeigh s.m 1 (j + 1) := by
      rw [hE]
      split_ifs <;> omega
    rw [← sum_map_range, ← foldl_add_eq_sum]
    apply List.foldl_ext
    intro acc i hi
    rw [phiActionSite_eq s (j + 1) i acc hL hLL (List.mem_range.mp hi) (by omega) (by omega)
      hm hdtau, hφ, hφ, hφ, hφ, hE1]
  unfold phiAction
  rw [List.foldl_map]
  have outer : ∀ (n : Nat), n ≤ s.m → ∀ init : R,
      (List.range n).foldl (fun action t =>
        (List.range s.N).foldl (phiActionSite s (t + 1)) action) init =
      init + ∑ j in Finset.range n, ∑ i in Finset.range s.N,
          (1 / (2 * s.dtau) *
              dot (φ (j, i) - φ (timeNeigh s.m 1 (j + 1) - 1, i))
                (φ (j, i) - φ (timeNeigh s.m 1 (j + 1) - 1, i)) +
            1 / 2 * s.dtau *
              dot (φ (j, i) - φ (j, spaceNeigh s.L XPLUS i))
                (φ (j, i) - φ (j, spaceNeigh s.L XPLUS i)) +
            1 / 2 * s.dtau *
              dot (φ (j, i) - φ (j, spaceNeigh s.L YPLUS i))
                (φ (j, i) - φ (j, spaceNeigh s.L YPLUS i)) +
            (1 / 2 * s.dtau * s.r * dot (φ (j, i)) (φ (j, i)) +
              1 / 4 * s.dtau * dot (φ (j, i)) (φ (j, i)) ^ 2)) := by
    intro n
    induction n with
    | zero =>
      intro _ init
      simp
    | succ k ih =>
      intro hk init
      rw [List.range_succ, List.foldl_append, List.foldl_cons, List.foldl_nil,
        ih (by omega) init, inner k (by omega), Finset.sum_range_succ, add_assoc]
  rw [outer s.m (le_refl _) 0, zero_add, ← Finset.sum_product']
  simp only [Finset.sum_add_distrib, Finset.mul_sum]

end ActionTheorems

section ActionMove

variable {R : Type} [LinearOrderedField R]

/-- The bonds in `+x` direction that end at the site `(x, y)`: the only one comes from
the site `(x - 1, y)`, and it is not a loop when `L ≥ 2`. -/
theorem x_bond (L x y i : Nat) (hL : 2 ≤ L) (hLL : L * L < 2 ^ 32) (hx : x < L) (hy : y < L)
    (hi : i < L * L) :
    (spaceNeigh L XPLUS i = x + L * y ↔ i = (x + L - 1) % L + L * y) ∧
    spaceNeigh L XPLUS (x + L * y) ≠ x + L * y ∧
    (x + L - 1) % L + L * y < L * L := by
  have hLpos : 0 < L := by omega
  obtain ⟨hx', hy', he⟩ := site_coords L i hi
  obtain ⟨h1, -⟩ := spaceNeigh_plus L (i % L) (i / L) (by omega) hLL hx' hy'
  obtain ⟨h2, -⟩ := spaceNeigh_plus L x y (by omega) hLL hx hy
  rw [← he] at h1
  have hp := pred_mod_of_lt x L hx
  have hs := succ_mod_of_lt (i % L) L hx'
  have hs2 := succ_mod_of_lt x L hx
  refine ⟨⟨?_, ?_⟩, ?_, coords_lt L _ _ (Nat.mod_lt _ hLpos) hy⟩
  · intro h
    rw [h1] at h
    obtain ⟨e1, e2⟩ := coords_unique L _ _ _ _ (Nat.mod_lt _ hLpos) hx h
    rw [he, e2]
    congr 1
    rw [hp]
    rw [hs] at e1
    split_ifs at e1 ⊢ <;> omega
  · intro h
    rw [he] at h
    obtain ⟨e1, e2⟩ := coords_unique L _ _ _ _ hx' (Nat.mod_lt _ hLpos) h
    rw [h1, e2]
    congr 1
    rw [hs]
    rw [hp] at e1
    split_ifs at e1 ⊢ <;> omega
  · rw [h2]
    intro h
    obtain ⟨e1, -⟩ := coords_unique L _ _ _ _ (Nat.mod_lt _ hLpos) hx h
    rw [hs2] at e1
    split_ifs at e1 <;> omega

/-- The bonds in `+y` direction that end at the site `(x, y)`. -/
theorem y_bond (L x y i : Nat) (hL : 2 ≤ L) (hLL : L * L < 2 ^ 32) (hx : x < L) (hy : y < L)
    (hi : i < L * L) :
    (spaceNeigh L YPLUS i = x + L * y ↔ i = x + L * ((y + L - 1) % L)) ∧
    spaceNeigh L YPLUS (x + L * y) ≠ x + L * y ∧
    x + L * ((y + L - 1) % L) < L * L := by
  have hLpos : 0 < L := by omega
  obtain ⟨hx', hy', he⟩ := site_coords L i hi
  obtain ⟨-, h1⟩ := spaceNeigh_plus L (i % L) (i / L) (by omega) hLL hx' hy'
  obtain ⟨-, h2⟩ := spaceNeigh_plus L x y (by omega) hLL hx hy
  rw [← he] at h1
  have hp := pred_mod_of_lt y L hy
  have hs := succ_mod_of_lt (i / L) L hy'
  have hs2 := succ_mod_of_lt y L hy
  refine ⟨⟨?_, ?_⟩, ?_, coords_lt L _ _ hx (Nat.mod_lt _ hLpos)⟩
  · intro h
    rw [h1] at h
    obtain ⟨e1, e2⟩ := coords_unique L _ _ _ _ hx' hx h
    have e3 : i / L = (y + L - 1) % L := by
      rw [hp]
      rw [hs] at e2
      clear hs h h1 he
      generalize i / L = q at e2 hy' ⊢
      split_ifs at e2 ⊢ <;> omega
    rw [← e3, ← e1]
    exact he
  · intro h
    rw [he] at h
    obtain ⟨e1, e2⟩ := coords_unique L _ _ _ _ hx' hx h
    have e3 : (i / L + 1) % L = y := by
      rw [hs]
      rw [hp] at e2
      clear hs h h1 he
      generalize i / L = q at e2 hy' ⊢
      split_ifs at e2 ⊢ <;> omega
    rw [h1, e1, e3]
  · rw [h2]
    intro h
    obtain ⟨-, e2⟩ := coords_unique L _ _ _ _ hx hx h
    rw [hs2] at e2
    split_ifs at e2 <;> omega

end ActionMove

/-- The field of the configuration in which one entry has been replaced. -/
theorem setPhi_phiAt {R : Type} (s : DetSDW R) (site timeslice : Nat) (newphi : Phi R) (i k : Nat) :
    (setPhi s site timeslice newphi).phiAt i k =
      if i = site ∧ k = timeslice then newphi else s.phiAt i k := by
  unfold setPhi DetSDW.phiAt
  by_cases h1 : i = site
  · subst h1
    by_cases h2 : k = timeslice
    · subst h2
      simp only [Function.update_same, and_self, if_true]
      ext n
      fin_cases n <;> rfl
    · simp [h2]
  · simp [h1]


theorem setPhi_params {R : Type} (s : DetSDW R) (site timeslice : Nat) (newphi : Phi R) :
    (setPhi s site timeslice newphi).L = s.L ∧ (setPhi s site timeslice newphi).m = s.m ∧
    (setPhi s site timeslice newphi).dtau = s.dtau ∧
    (setPhi s site timeslice newphi).r = s.r :=
  ⟨rfl, rfl, rfl, rfl⟩

theorem setPhi_N {R : Type} [LinearOrderedField R] (s : DetSDW R) (site timeslice : Nat) (newphi : Phi R) :
    (setPhi s site timeslice newphi).N = s.N := rfl

section ActionMoveMain

variable {R : Type} [LinearOrderedField R]

/-- The change of `phiAction` when the field at the site `(x, y)` and time slice `t` is
replaced is what `deltaSPhi` returns. -/
theorem deltaSPhi_eq_difference (s : DetSDW R) (x y t : Nat) (v : Phi R)
    (hL : 2 ≤ s.L) (hLL : s.L * s.L < 2 ^ 32) (hx : x < s.L) (hy : y < s.L)
    (hm2 : 2 ≤ s.m) (hm : s.m + s.m ≤ 2 ^ 32 + 1) (ht1 : 1 ≤ t) (htm : t ≤ s.m)
    (hdtau : s.dtau ≠ 0) :
    deltaSPhi s (x + s.L * y) t v =
      phiAction (setPhi s (x + s.L * y) t v) - phiAction s := by
  have hmlt : s.m < 2 ^ 32 := by omega
  have hL1 : 1 ≤ s.L := by omega
  obtain ⟨hE, hLa⟩ := timeNeigh_periodic s.m t ht1 htm hmlt (by omega)
  have hcol := spaceNeigh_column s.L x y hL1 hLL hx hy
  have hsite : x + s.L * y < s.N := coords_lt s.L x y hx hy
  obtain ⟨hXp, hYp⟩ := spaceNeigh_plus s.L x y hL1 hLL hx hy
  obtain ⟨φ, hφ⟩ : ∃ φ : Nat × Nat → Phi R, ∀ j i, φ (j, i) = s.phiAt i (j + 1) :=
    ⟨fun q => s.phiAt q.2 (q.1 + 1), fun _ _ => rfl⟩
  have ht : t - 1 + 1 = t := Nat.sub_add_cancel ht1
  have hA := phiAction_eq_sum s φ hφ hL1 hLL hm hdtau
  have hφ' : ∀ j i, Function.update φ (t - 1, x + s.L * y) v (j, i) =
      (setPhi s (x + s.L * y) t v).phiAt i (j + 1) := by
    intro j i
    rw [setPhi_phiAt]
    by_cases h : (j, i) = (t - 1, x + s.L * y)
    · obtain ⟨h1, h2⟩ := Prod.mk.inj h
      rw [h, Function.update_same, if_pos ⟨h2, by omega⟩]
    · rw [Function.update_noteq h, hφ, if_neg]
      rintro ⟨h1, h2⟩
      apply h
      rw [h1]
      congr 1
      omega
  have hB := phiAction_eq_sum (setPhi s (x + s.L * y) t v)
    (Function.update φ (t - 1, x + s.L * y) v) hφ' hL1 hLL hm hdtau
  obtain ⟨p1, p2, p3, p4⟩ := setPhi_params s (x + s.L * y) t v
  rw [p1, p2, p3, p4, setPhi_N] at hB
  -- the place of the change and the ends of its bonds
  have haS : (t - 1, x + s.L * y) ∈ Finset.range s.m ×ˢ Finset.range s.N := by
    rw [Finset.mem_product, Finset.mem_range, Finset.mem_range]
    exact ⟨by omega, hsite⟩
  have hpT : (timeNeigh s.m 0 t - 1, x + s.L * y) ∈
      Finset.range s.m ×ˢ Finset.range s.N := by
    rw [Finset.mem_product, Finset.mem_range, Finset.mem_range, hLa]
    exact ⟨by split_ifs <;> omega, hsite⟩
  have hneT : (timeNeigh s.m 1 (t - 1 + 1) - 1, x + s.L * y) ≠ (t - 1, x + s.L * y) := by
    rw [ht, hE]
    intro h
    have h1 := (Prod.mk.inj h).1
    split_ifs at h1 <;> omega
  have hnbT : ∀ p ∈ Finset.range s.m ×ˢ Finset.range s.N,
      (timeNeigh s.m 1 (p.1 + 1) - 1, p.2) = (t - 1, x + s.L * y) ↔
        p = (timeNeigh s.m 0 t - 1, x + s.L * y) := by
    rintro ⟨j, i⟩ hp
    rw [Finset.mem_product, Finset.mem_range, Finset.mem_range] at hp
    obtain ⟨hj, -⟩ := hp
    obtain ⟨hEj, -⟩ := timeNeigh_periodic s.m (j + 1) (by omega) (by omega) hmlt (by omega)
    simp only [hEj, hLa, Prod.mk.injEq]
    constructor
    · rintro ⟨h1, h2⟩
      refine ⟨?_, h2⟩
      split_ifs at h1 ⊢ <;> omega
    · rintro ⟨h1, h2⟩
      refine ⟨?_, h2⟩
      split_ifs at h1 ⊢ <;> omega
  obtain ⟨bx1, bx2, bx3⟩ : (∀ i, i < s.L * s.L →
      (spaceNeigh s.L XPLUS i = x + s.L * y ↔ i = (x + s.L - 1) % s.L + s.L * y)) ∧
      spaceNeigh s.L XPLUS (x + s.L * y) ≠ x + s.L * y ∧
      (x + s.L - 1) % s.L + s.L * y < s.L * s.L :=
    ⟨fun i hi => (x_bond s.L x y i hL hLL hx hy hi).1,
      (x_bond s.L x y 0 hL hLL hx hy (Nat.mul_pos (by omega) (by omega))).2.1,
      (x_bond s.L x y 0 hL hLL hx hy (Nat.mul_pos (by omega) (by omega))).2.2⟩
  obtain ⟨by1, by2, by3⟩ : (∀ i, i < s.L * s.L →
      (spaceNeigh s.L YPLUS i = x + s.L * y ↔ i = x + s.L * ((y + s.L - 1) % s.L))) ∧
      spaceNeigh s.L YPLUS (x + s.L * y) ≠ x + s.L * y ∧
      x + s.L * ((y + s.L - 1) % s.L) < s.L * s.L :=
    ⟨fun i hi => (y_bond s.L x y i hL hLL hx hy hi).1,
      (y_bond s.L x y 0 hL hLL hx hy (Nat.mul_pos (by omega) (by omega))).2.1,
      (y_bond s.L x y 0 hL hLL hx hy (Nat.mul_pos (by omega) (by omega))).2.2⟩
  have hpX : (t - 1, (x + s.L - 1) % s.L + s.L * y) ∈
      Finset.range s.m ×ˢ Finset.range s.N := by
    rw [Finset.mem_product, Finset.mem_range, Finset.mem_range]
    exact ⟨by omega, bx3⟩
  have hpY : (t - 1, x + s.L * ((y + s.L - 1) % s.L)) ∈
      Finset.range s.m ×ˢ Finset.range s.N := by
    rw [Finset.mem_product, Finset.mem_range, Finset.mem_range]
    exact ⟨by omega, by3⟩
  have hneX : (t - 1, spaceNeigh s.L XPLUS (x + s.L * y)) ≠ (t - 1, x + s.L * y) :=
    fun h => bx2 (Prod.mk.inj h).2
  have hneY : (t - 1, spaceNeigh s.L YPLUS (x + s.L * y)) ≠ (t - 1, x + s.L * y) :=
    fun h => by2 (Prod.mk.inj h).2
  have hnbX : ∀ p ∈ Finset.range s.m ×ˢ Finset.range s.N,
      (p.1, spaceNeigh s.L XPLUS p.2) = (t - 1, x + s.L * y) ↔
        p = (t - 1, (x + s.L - 1) % s.L + s.L * y) := by
    rintro ⟨j, i⟩ hp
    rw [Finset.mem_product, Finset.mem_range, Finset.mem_range] at hp
    simp only [Prod.mk.injEq, bx1 i hp.2]
  have hnbY : ∀ p ∈ Finset.range s.m ×ˢ Finset.range s.N,
      (p.1, spaceNeigh s.L YPLUS p.2) = (t - 1, x + s.L * y) ↔
        p = (t - 1, x + s.L * ((y + s.L - 1) % s.L)) := by
    rintro ⟨j, i⟩ hp
    rw [Finset.mem_product, Finset.mem_range, Finset.mem_range] at hp
    simp only [Prod.mk.injEq, by1 i hp.2]
  have eT := bond_sum_update (Finset.range s.m ×ˢ Finset.range s.N)
    (fun p => (timeNeigh s.m 1 (p.1 + 1) - 1, p.2)) φ (t - 1, x + s.L * y)
    (timeNeigh s.m 0 t - 1, x + s.L * y) v haS hpT hneT hnbT
  have eX := bond_sum_update (Finset.range s.m ×ˢ Finset.range s.N)
    (fun p => (p.1, spaceNeigh s.L XPLUS p.2)) φ (t - 1, x + s.L * y)
    (t - 1, (x + s.L - 1) % s.L + s.L * y) v haS hpX hneX hnbX
  have eY := bond_sum_update (Finset.range s.m ×ˢ Finset.range s.N)
    (fun p => (p.1, spaceNeigh s.L YPLUS p.2)) φ (t - 1, x + s.L * y)
    (t - 1, x + s.L * ((y + s.L - 1) % s.L)) v haS hpY hneY hnbY
  have eP := site_sum_update (Finset.range s.m ×ˢ Finset.range s.N) φ (t - 1, x + s.L * y) v
    (fun w => 1 / 2 * s.dtau * s.r * dot w w + 1 / 4 * s.dtau * dot w w ^ 2) haS
  -- the fields at these places
  have v0 : φ (t - 1, x + s.L * y) = s.phiAt (x + s.L * y) t := by rw [hφ, ht]
  have v1 : φ (timeNeigh s.m 1 (t - 1 + 1) - 1, x + s.L * y) =
      s.phiAt (x + s.L * y) (if t = 1 then s.m else t - 1) := by
    have e : (if t = 1 then s.m else t - 1) - 1 + 1 = (if t = 1 then s.m else t - 1) := by
      split_ifs <;> omega
    rw [hφ, ht, hE, e]
  have v2 : φ (timeNeigh s.m 0 t - 1, x + s.L * y) =
      s.phiAt (x + s.L * y) (if t = s.m then 1 else t + 1) := by
    have e : (if t = s.m then 1 else t + 1) - 1 + 1 = (if t = s.m then 1 else t + 1) := by
      split_ifs <;> omega
    rw [hφ, hLa, e]
  have v3 : φ (t - 1, spaceNeigh s.L XPLUS (x + s.L * y)) =
      s.phiAt ((x + 1) % s.L + s.L * y) t := by rw [hφ, ht, hXp]
  have v4 : φ (t - 1, (x + s.L - 1) % s.L + s.L * y) =
      s.phiAt ((x + s.L - 1) % s.L + s.L * y) t := by rw [hφ, ht]
  have v5 : φ (t - 1, spaceNeigh s.L YPLUS (x + s.L * y)) =
      s.phiAt (x + s.L * ((y + 1) % s.L)) t := by rw [hφ, ht, hYp]
  have v6 : φ (t - 1, x + s.L * ((y + s.L - 1) % s.L)) =
      s.phiAt (x + s.L * ((y + s.L - 1) % s.L)) t := by rw [hφ, ht]
  simp only [v0, v1, v2, v3, v4, v5, v6] at eT eX eY eP
  rw [sub_eq_iff_eq_add] at eT eX eY eP
  rw [hB, hA, eT, eX, eY, eP]
  unfold deltaSPhi
  simp only [hE, hLa, hcol, List.foldl_cons, List.foldl_nil, DetSDW.c, DetSDW.u, z, zero_add,
    dot, Pi.add_apply, Pi.sub_apply]
  push_cast
  field_simp
  ring

end ActionMoveMain

/-- C30: in exact arithmetic (any ordered field, `dtau ≠ 0`), for every lattice size
`L ≥ 2` and number of time slices `m ≥ 2` for which the neighbour tables hold the periodic
neighbours (`L * L < 2 ^ 32`, `2 m ≤ 2 ^ 32 + 1`), every field configuration, every site,
every time slice in `1..m` and every `newphi`, `deltaSPhi(site, timeslice, newphi)` is
`phiAction` of the configuration with `phi(site, timeslice)` replaced by `newphi` minus
`phiAction` of the current configuration. -/
theorem C30_deltaSPhi_is_action_difference {R : Type} [LinearOrderedField R] (s : DetSDW R)
    (site timeslice : Nat) (newphi : Phi R)
    (hL : 2 ≤ s.L) (hLL : s.L * s.L < 2 ^ 32)
    (hm2 : 2 ≤ s.m) (hm : s.m + s.m ≤ 2 ^ 32 + 1)
    (hsite : site < s.N) (ht1 : 1 ≤ timeslice) (htm : timeslice ≤ s.m)
    (hdtau : s.dtau ≠ 0) :
    deltaSPhi s site timeslice newphi =
      phiAction (setPhi s site timeslice newphi) - phiAction s := by
  obtain ⟨hx, hy, he⟩ := site_coords s.L site hsite
  have key := deltaSPhi_eq_difference s (site % s.L) (site / s.L) timeslice newphi hL hLL hx hy
    hm2 hm ht1 htm hdtau
  rw [← he] at key
  exact key

/-- C30, witness: the 2x2 lattice with two time slices, site `3`, time slice `2`. -/
theorem C30_deltaSPhi_is_action_difference_witness :
    (2 ≤ actionState.L ∧ actionState.L * actionState.L < 2 ^ 32 ∧ 2 ≤ actionState.m ∧
      actionState.m + actionState.m ≤ 2 ^ 32 + 1 ∧ 3 < actionState.N ∧
      actionState.dtau ≠ 0) ∧
    deltaSPhi actionState 3 2 ![1, 0, 2] =
      phiAction (setPhi actionState 3 2 ![1, 0, 2]) - phiAction actionState :=
  ⟨⟨by decide, by decide, by decide, by decide, by decide, by simp [actionState]⟩,
   C30_deltaSPhi_is_action_difference actionState 3 2 ![1, 0, 2] (by decide) (by decide)
     (by decide) (by decide) (by decide) (by decide) (by decide) (by simp [actionState])⟩

end DetQMC
